import Mathlib

/-!
# Verification of the self-balancing binary search tree
# (`src/data_structures/binary_search_tree.rs`) and the basic tree
# (`src/data_structures/tree.rs`)

The Rust structures are pointer-based (`Rc`/`Weak`/`RefCell`).  We embed them
shallowly as an arena: nodes live in a list, and every `Rc`/`Weak` reference is
the index ("ref") of its target in that list.  `Weak::new()` (and a dangling
weak pointer) is `none`.  The `HashMap<K, Rc<Node>>` index is an association
list with insert-or-replace semantics, matching `HashMap::insert` / `get` /
`len` observably.  The two source loops (the placement walk in `insert`, and
the climb in `update_depth`) are embedded with an explicit fuel argument of
`nodes.length + 1`, which is enough for every terminating run of the source;
fuel exhaustion, as well as every `unwrap()` panic, is modelled by `none`.
Key type `K` is instantiated to `Nat`, value type `V` to `Int` (a faithful
instance of `K: Eq + Hash + Copy`, `V: Ord`).
-/

/-- `enum Directions { Left, Right }` from the source. -/
inductive Directions where
  | Left : Directions
  | Right : Directions
deriving DecidableEq, Repr

/-- `Directions::get_opposite`. -/
def Directions.get_opposite : Directions → Directions
  | Directions.Left => Directions.Right
  | Directions.Right => Directions.Left

/-- `Directions::get_depth`. -/
def Directions.get_depth : Directions → Int
  | Directions.Left => -1
  | Directions.Right => 1

/-- `BinarySearchTreeNode<V, K>`: the two-slot `nodes` array is split into the
`left` (index 0) and `right` (index 1) fields; `parent: RefCell<Weak<Self>>`
becomes an optional arena ref. -/
structure BinarySearchTreeNode where
  id : Nat
  value : Int
  one_side_depth : Int
  parent : Option Nat
  left : Option Nat
  right : Option Nat
deriving DecidableEq, Repr

/-- Read the child slot `nodes[d as usize]`. -/
def BinarySearchTreeNode.child (n : BinarySearchTreeNode) : Directions → Option Nat
  | Directions.Left => n.left
  | Directions.Right => n.right

/-- Write the child slot `nodes[d as usize]`. -/
def BinarySearchTreeNode.setChild (n : BinarySearchTreeNode) :
    Directions → Option Nat → BinarySearchTreeNode
  | Directions.Left, c => { n with left := c }
  | Directions.Right, c => { n with right := c }

/-- `BinarySearchTree<V, K>`; the `tree` field is the `HashMap<K, Rc<Node>>`
index, kept under its source name. -/
structure BinarySearchTree where
  nodes : List BinarySearchTreeNode
  head : Nat
  tree : List (Nat × Nat)
deriving DecidableEq, Repr

/-- `HashMap::get` on the association-list model. -/
def lookupId (l : List (Nat × Nat)) (k : Nat) : Option Nat :=
  match l with
  | [] => none
  | (k', v) :: rest => if k' = k then some v else lookupId rest k

/-- `HashMap::insert` on the association-list model: replace the value if the
key is present, append otherwise. -/
def indexInsert (l : List (Nat × Nat)) (k : Nat) (v : Nat) : List (Nat × Nat) :=
  match l with
  | [] => [(k, v)]
  | (k', v') :: rest => if k' = k then (k, v) :: rest else (k', v') :: indexInsert rest k v

/-- Mutate the node stored at ref `r` (a `RefCell` write through a valid `Rc`;
a no-op on an invalid ref, which the source cannot produce). -/
def updNode (s : BinarySearchTree) (r : Nat) (f : BinarySearchTreeNode → BinarySearchTreeNode) :
    BinarySearchTree :=
  match s.nodes.get? r with
  | none => s
  | some n => { s with nodes := s.nodes.set r (f n) }

/-- `BinarySearchTree::from_head`. -/
def BinarySearchTree.from_head (head_id : Nat) (head_value : Int) : BinarySearchTree :=
  { nodes := [{ id := head_id, value := head_value, one_side_depth := 0,
                parent := none, left := none, right := none }]
  , head := 0
  , tree := [(head_id, 0)] }

/-- `BinarySearchTree::get` (returns the arena ref held by the index). -/
def BinarySearchTree.get (s : BinarySearchTree) (node_id : Nat) : Option Nat :=
  lookupId s.tree node_id

/-- `BinarySearchTree::len`. -/
def BinarySearchTree.len (s : BinarySearchTree) : Nat :=
  s.tree.length

/-- `BinarySearchTree::get_directions`: `Left` iff the parent's left slot holds
a node whose id equals the child's id, `Right` otherwise. -/
def get_directions (s : BinarySearchTree) (pref cref : Nat) : Directions :=
  match s.nodes.get? pref with
  | none => Directions.Right
  | some p =>
    match p.left with
    | none => Directions.Right
    | some l =>
      match s.nodes.get? l, s.nodes.get? cref with
      | some ln, some c => if ln.id = c.id then Directions.Left else Directions.Right
      | _, _ => Directions.Right

/-- Source lines 243-261 of `simple_rotation`: detach the promoted child's
opposite-side subtree and re-hang it under the pivot, hang the pivot under
the promoted child, zero both balance counters.  Updates in source program
order. -/
def sr_restructure (s : BinarySearchTree) (firstRef secondRef : Nat)
    (balance_direction : Directions) (second : BinarySearchTreeNode) : BinarySearchTree :=
  let opposite_direction := Directions.get_opposite balance_direction
  let second_opp_child := second.child opposite_direction
  let s1 := updNode s secondRef (fun n => n.setChild opposite_direction none)
  let s2 := match second_opp_child with
    | some oc =>
      let sa := updNode s1 oc (fun n => { n with parent := some firstRef })
      updNode sa firstRef (fun n => n.setChild balance_direction (some oc))
    | none => updNode s1 firstRef (fun n => n.setChild balance_direction none)
  let s3 := updNode s2 secondRef (fun n => n.setChild opposite_direction (some firstRef))
  let s4 := updNode s3 secondRef (fun n => { n with one_side_depth := 0 })
  updNode s4 firstRef (fun n => { n with one_side_depth := 0 })

/-- Source lines 266-269 and 281 of `simple_rotation`: the pivot had no
parent, so the promoted child becomes the tree head. -/
def sr_root (s5 : BinarySearchTree) (firstRef secondRef : Nat) : BinarySearchTree :=
  let s6 := updNode s5 secondRef (fun n => { n with parent := none })
  let s7 : BinarySearchTree := { s6 with head := secondRef }
  updNode s7 firstRef (fun n => { n with parent := some secondRef })

/-- Source lines 271-278 and 281 of `simple_rotation`: reconnect the promoted
child into the grandparent slot the pivot used to occupy. -/
def sr_reparent (s5 : BinarySearchTree) (firstRef secondRef g : Nat) : BinarySearchTree :=
  let d2 := get_directions s5 g firstRef
  let s6 := updNode s5 secondRef (fun n => { n with parent := some g })
  let s7 := updNode s6 g (fun n => n.setChild d2 (some secondRef))
  updNode s7 firstRef (fun n => { n with parent := some secondRef })

/-- `BinarySearchTree::simple_rotation`, assembled from the pieces above in
source program order.  `none` models the `unwrap()` panic on a missing heavy
child. -/
def simple_rotation (s : BinarySearchTree) (firstRef : Nat)
    (balance_direction : Directions) : Option BinarySearchTree := do
  let first ← s.nodes.get? firstRef
  let secondRef ← first.child balance_direction
  let second ← s.nodes.get? secondRef
  let s5 := sr_restructure s firstRef secondRef balance_direction second
  let firstNow ← s5.nodes.get? firstRef
  match firstNow.parent with
  | none => return sr_root s5 firstRef secondRef
  | some g => return sr_reparent s5 firstRef secondRef g

/-- Source lines 305-308 of `double_rotation`: the three balance-counter
writes. -/
def dr_depths (s : BinarySearchTree) (firstRef secondRef thirdRef : Nat)
    (balance_direction : Directions) : BinarySearchTree :=
  let s1 := updNode s firstRef
    (fun n => { n with one_side_depth := Directions.get_depth balance_direction * 2 })
  let s2 := updNode s1 secondRef
    (fun n => { n with one_side_depth := Directions.get_depth balance_direction })
  updNode s2 thirdRef (fun n => { n with one_side_depth := 0 })

/-- Source lines 310-327 of `double_rotation`: move the grandchild's
same-side subtree under the middle node, then rotate the three nodes into a
straight line.  Updates in source program order. -/
def dr_restructure (s3 : BinarySearchTree) (firstRef secondRef thirdRef : Nat)
    (balance_direction : Directions) (third : BinarySearchTreeNode) : BinarySearchTree :=
  let opposite_direction := Directions.get_opposite balance_direction
  let third_same_child := third.child balance_direction
  let s4 := updNode s3 thirdRef (fun n => n.setChild balance_direction none)
  let s5 := match third_same_child with
    | some sc =>
      let sa := updNode s4 sc (fun n => { n with parent := some secondRef })
      updNode sa secondRef (fun n => n.setChild opposite_direction (some sc))
    | none => updNode s4 secondRef (fun n => n.setChild opposite_direction none)
  let s6 := updNode s5 thirdRef (fun n => n.setChild balance_direction (some secondRef))
  let s7 := updNode s6 secondRef (fun n => { n with parent := some thirdRef })
  let s8 := updNode s7 firstRef (fun n => n.setChild balance_direction (some thirdRef))
  updNode s8 thirdRef (fun n => { n with parent := some firstRef })

/-- `BinarySearchTree::double_rotation`, assembled from the pieces above in
source program order. -/
def double_rotation (s : BinarySearchTree) (firstRef : Nat)
    (balance_direction : Directions) : Option BinarySearchTree := do
  let first ← s.nodes.get? firstRef
  let secondRef ← first.child balance_direction
  let second ← s.nodes.get? secondRef
  let thirdRef ← second.child balance_direction.get_opposite
  let s3 := dr_depths s firstRef secondRef thirdRef balance_direction
  let third ← s3.nodes.get? thirdRef
  return dr_restructure s3 firstRef secondRef thirdRef balance_direction third

/-- The `while let Some(parent_node) = parent` climb of
`BinarySearchTree::update_depth`, with fuel.  `pcRef` is `parent_child`. -/
def update_depth (s : BinarySearchTree) (pcRef : Nat) : Nat → Option BinarySearchTree
  | 0 => none
  | fuel+1 => do
    let pc ← s.nodes.get? pcRef
    match pc.parent with
    | none => return s
    | some pRef => do
      let p ← s.nodes.get? pRef
      let direction := get_directions s pRef pcRef
      let additional_depth : Int := match direction with
        | Directions.Left => -1
        | Directions.Right => 1
      let new_depth := p.one_side_depth + additional_depth
      let s1 := updNode s pRef (fun n => { n with one_side_depth := new_depth })
      let pc1 ← s1.nodes.get? pcRef
      let pcd := pc1.one_side_depth
      if (new_depth ≥ 2 ∧ pcd > 0) ∨ (new_depth ≤ -2 ∧ pcd < 0) then
        simple_rotation s1 pRef direction
      else if (new_depth ≥ 2 ∧ pcd < 0) ∨ (new_depth ≤ -2 ∧ pcd > 0) then do
        let s2 ← double_rotation s1 pRef direction
        simple_rotation s2 pRef direction
      else
        update_depth s1 pRef fuel

/-- The placement-walk loop inside `BinarySearchTree::insert`: state is
`parent_id`, looked up in the index each iteration exactly as the source
does. -/
def insert_walk (s : BinarySearchTree) (value : Int) :
    Nat → Nat → Option (Nat × Directions)
  | 0, _ => none
  | fuel+1, parent_id => do
    let pref ← lookupId s.tree parent_id
    let p ← s.nodes.get? pref
    let direction := if value > p.value then Directions.Right else Directions.Left
    match p.child direction with
    | none => return (pref, direction)
    | some cref => do
      let c ← s.nodes.get? cref
      insert_walk s value fuel c.id

/-- `BinarySearchTree::insert`: walk, allocate, link, register, then
`update_depth`. -/
def BinarySearchTree.insert (s : BinarySearchTree) (id : Nat) (value : Int) :
    Option BinarySearchTree := do
  let hd ← s.nodes.get? s.head
  let (pref, direction) ← insert_walk s value (s.nodes.length + 1) hd.id
  let nref := s.nodes.length
  let node : BinarySearchTreeNode :=
    { id := id, value := value, one_side_depth := 0,
      parent := some pref, left := none, right := none }
  let s1 : BinarySearchTree := { s with nodes := s.nodes ++ [node] }
  let s2 := updNode s1 pref (fun n => n.setChild direction (some nref))
  let s3 : BinarySearchTree := { s2 with tree := indexInsert s2.tree id nref }
  update_depth s3 nref (s3.nodes.length + 1)

/-- Fold a list of `(id, value)` inserts over `from_head`. -/
def build (h : Nat × Int) (ops : List (Nat × Int)) : Option BinarySearchTree :=
  ops.foldl (fun acc p => acc.bind (fun s => BinarySearchTree.insert s p.1 p.2))
    (some (BinarySearchTree.from_head h.1 h.2))

/-! ## The plain (non-AVL) `BasicTree` from `tree.rs` -/

/-- `BasicTreeNode<V, K>`: children are an ordered list of arena refs. -/
structure BasicTreeNode where
  id : Nat
  value : Int
  parent : Option Nat
  nodes : List Nat
deriving DecidableEq, Repr

/-- `BasicTree<V, K>`; `tree` is the `HashMap` index. -/
structure BasicTree where
  nodes : List BasicTreeNode
  head : Nat
  tree : List (Nat × Nat)
deriving DecidableEq, Repr

/-- `BasicTree::from_head`. -/
def BasicTree.from_head (head_id : Nat) (head_value : Int) : BasicTree :=
  { nodes := [{ id := head_id, value := head_value, parent := none, nodes := [] }]
  , head := 0
  , tree := [(head_id, 0)] }

/-- `BasicTree::get`. -/
def BasicTree.get (t : BasicTree) (node_id : Nat) : Option Nat :=
  lookupId t.tree node_id

/-- `BasicTree::len`. -/
def BasicTree.len (t : BasicTree) : Nat :=
  t.tree.length

/-- `BasicTree::insert`: panics (`none`) when `parent_id` is absent from the
index; otherwise pushes the new node onto the parent's children and registers
it. -/
def BasicTree.insert (t : BasicTree) (id parent_id : Nat) (value : Int) :
    Option BasicTree :=
  match t.get parent_id with
  | none => none
  | some pref =>
    let nref := t.nodes.length
    let node : BasicTreeNode := { id := id, value := value, parent := some pref, nodes := [] }
    let t1 : BasicTree := { t with nodes := t.nodes ++ [node] }
    let t2 : BasicTree :=
      match t1.nodes.get? pref with
      | none => t1
      | some p => { t1 with nodes := t1.nodes.set pref { p with nodes := p.nodes ++ [nref] } }
    some { t2 with tree := indexInsert t2.tree id nref }

/-! ## Abstraction: the linked structure reachable from a ref, as an
inductive tree of arena refs -/

/-- The shape of the node graph reachable from one ref: each node records its
arena ref. -/
inductive RTree where
  | leaf : RTree
  | nd (ref : Nat) (l : RTree) (r : RTree) : RTree
deriving DecidableEq, Repr

/-- In-order list of the arena refs of a shape tree. -/
def RTree.inorder : RTree → List Nat
  | RTree.leaf => []
  | RTree.nd r l rr => l.inorder ++ r :: rr.inorder

/-- Read the linked structure rooted at an optional ref out of the arena
(`none` on a dangling ref or fuel exhaustion, which a consistent state never
produces). -/
def readT (s : BinarySearchTree) : Nat → Option Nat → Option RTree
  | _, none => some RTree.leaf
  | 0, some _ => none
  | fuel+1, some r =>
    match s.nodes.get? r with
    | none => none
    | some n => do
      let lt ← readT s fuel n.left
      let rt ← readT s fuel n.right
      return RTree.nd r lt rt

/-- The value stored at a ref (total; consistent states only use valid refs). -/
def valOf (s : BinarySearchTree) (r : Nat) : Int :=
  ((s.nodes.get? r).map BinarySearchTreeNode.value).getD 0

/-- The id stored at a ref. -/
def idOf (s : BinarySearchTree) (r : Nat) : Nat :=
  ((s.nodes.get? r).map BinarySearchTreeNode.id).getD 0

/-- The balance counter stored at a ref. -/
def depthOf (s : BinarySearchTree) (r : Nat) : Int :=
  ((s.nodes.get? r).map BinarySearchTreeNode.one_side_depth).getD 0

/-- The value held by a ref, observed through `Option`. -/
def refValue (s : BinarySearchTree) (r : Nat) : Option Int :=
  (s.nodes.get? r).map BinarySearchTreeNode.value

/-- The child ref on a given side, observed through `Option`. -/
def refChild (s : BinarySearchTree) (r : Nat) (d : Directions) : Option Nat :=
  (s.nodes.get? r).bind (fun n => n.child d)

/-- In-order list of the reachable refs of a tree state. -/
def reachRefs (s : BinarySearchTree) : Option (List Nat) :=
  (readT s (s.nodes.length + 1) (some s.head)).map RTree.inorder

/-- In-order list of the reachable values of a tree state. -/
def inorderVals (s : BinarySearchTree) : Option (List Int) :=
  (reachRefs s).map (fun l => l.map (valOf s))

/-- Follow a list of directions down from the head. -/
def navNode (s : BinarySearchTree) (ds : List Directions) : Option Nat :=
  ds.foldl (fun acc d => acc.bind (fun r => refChild s r d)) (some s.head)

/-- The value at the end of a path of directions from the head. -/
def navVal (s : BinarySearchTree) (ds : List Directions) : Option Int :=
  (navNode s ds).bind (refValue s)

/-- Number of nodes of a shape tree. -/
def RTree.size : RTree → Nat
  | RTree.leaf => 0
  | RTree.nd _ l r => l.size + r.size + 1

/-- Height of a shape tree. -/
def RTree.height : RTree → Nat
  | RTree.leaf => 0
  | RTree.nd _ l r => max l.height r.height + 1

/-- The per-node binary-search-order property the implementation actually
maintains: everything in the left subtree is `≤` the node's value, everything
in the right subtree is `≥` it.  (The strict `>` form for right subtrees
fails: a double rotation can move an equal-valued node, inserted to the left
of its tie, into a right subtree.) -/
def SortedT (s : BinarySearchTree) : RTree → Prop
  | RTree.leaf => True
  | RTree.nd r l rr =>
      (∀ x ∈ l.inorder, valOf s x ≤ valOf s r) ∧
      (∀ x ∈ rr.inorder, valOf s r ≤ valOf s x) ∧
      SortedT s l ∧ SortedT s rr

/-- The subtree of a shape tree rooted at a given ref, if present. -/
def subtreeAt : RTree → Nat → Option RTree
  | RTree.leaf, _ => none
  | RTree.nd r l rr, x =>
    if r = x then some (RTree.nd r l rr)
    else match subtreeAt l x with
      | some u => some u
      | none => subtreeAt rr x

/-- Replace the subtree rooted at a given ref. -/
def replaceAt : RTree → Nat → RTree → RTree
  | RTree.leaf, _, _ => RTree.leaf
  | RTree.nd r l rr, x, u =>
    if r = x then u else RTree.nd r (replaceAt l x u) (replaceAt rr x u)

/-- The refs on the root path down to (and including) a given ref. -/
def pathTo : RTree → Nat → Option (List Nat)
  | RTree.leaf, _ => none
  | RTree.nd r l rr, x =>
    if r = x then some [r]
    else match pathTo l x with
      | some p => some (r :: p)
      | none => (pathTo rr x).map (fun p => r :: p)

/-- Both child slots of a ref, observed together (for frame conditions). -/
def childrenOf (s : BinarySearchTree) (r : Nat) : Option (Option Nat × Option Nat) :=
  (s.nodes.get? r).map (fun n => (n.left, n.right))

/-- `x` sits in one of `p`'s child slots. -/
def IsChild (s : BinarySearchTree) (p x : Nat) : Prop :=
  ∃ n, s.nodes.get? p = some n ∧ (n.left = some x ∨ n.right = some x)

/-- `get_directions s p x` answers `Left` exactly when `x` is `p`'s left
child; together with `IsChild` this pins the direction down. -/
def DirOk (s : BinarySearchTree) (p x : Nat) : Prop :=
  (get_directions s p x = Directions.Left ↔ ∃ n, s.nodes.get? p = some n ∧ n.left = some x)

/-- The balance-counter invariant the implementation actually maintains: the
counter stays in `[-2, 2]`, and a counter of `±2` implies the heavy-side
child exists and carries counter `0`. -/
def DepthInv (s : BinarySearchTree) (r : Nat) : Prop :=
  (-2 ≤ depthOf s r ∧ depthOf s r ≤ 2) ∧
  (depthOf s r = 2 → ∃ c, refChild s r Directions.Right = some c ∧ depthOf s c = 0) ∧
  (depthOf s r = -2 → ∃ c, refChild s r Directions.Left = some c ∧ depthOf s c = 0)

/-- `readT` succeeds with some fuel (fuel-independent phrasing). -/
def readsTo (s : BinarySearchTree) (o : Option Nat) (t : RTree) : Prop :=
  ∃ f, readT s f o = some t

/-- Structural well-formedness of a tree state, coupled with its abstract
shape `t`: the linked structure from the head reads back as the finite tree
`t`, every allocated node occurs in it exactly once, the search order holds,
and parent links agree with child links in both directions. -/
structure StructWF (s : BinarySearchTree) (t : RTree) : Prop where
  readOk : readsTo s (some s.head) t
  nodup : t.inorder.Nodup
  complete : ∀ r < s.nodes.length, r ∈ t.inorder
  sorted : SortedT s t
  parentDU : ∀ r n, s.nodes.get? r = some n → ∀ c, (n.left = some c ∨ n.right = some c) →
      ∃ cn, s.nodes.get? c = some cn ∧ cn.parent = some r
  parentUD : ∀ r n, s.nodes.get? r = some n → ∀ p, n.parent = some p →
      ∃ pn, s.nodes.get? p = some pn ∧ (pn.left = some r ∨ pn.right = some r)
  headPar : ∀ n, s.nodes.get? s.head = some n → n.parent = none

/-- Full well-formedness: structure, injective ids, a correct index, and the
balance-counter invariant. -/
structure WF (s : BinarySearchTree) (t : RTree) extends StructWF s t : Prop where
  idInj : ∀ x ∈ t.inorder, ∀ y ∈ t.inorder, idOf s x = idOf s y → x = y
  indexMem : ∀ r < s.nodes.length, (idOf s r, r) ∈ s.tree
  indexOk : ∀ kv ∈ s.tree, kv.2 < s.nodes.length ∧ idOf s kv.2 = kv.1
  indexKeys : (s.tree.map Prod.fst).Nodup
  depthOk : ∀ r < s.nodes.length, DepthInv s r

/-- Graft a fresh leaf node `nw` into the (empty) `d`-slot of the node with
ref `p`. -/
def graftAt : RTree → Nat → Directions → Nat → RTree
  | RTree.leaf, _, _, _ => RTree.leaf
  | RTree.nd r l rr, p, d, nw =>
    if r = p then
      match d with
      | Directions.Left => RTree.nd r (RTree.nd nw RTree.leaf RTree.leaf) rr
      | Directions.Right => RTree.nd r l (RTree.nd nw RTree.leaf RTree.leaf)
    else RTree.nd r (graftAt l p d nw) (graftAt rr p d nw)

/-- The state right after the allocation/linking phase of
`BinarySearchTree::insert`: the new node is allocated at the end of the
arena, stored into the chosen child slot, and registered in the index. -/
def linkState (s : BinarySearchTree) (pref : Nat) (direction : Directions)
    (id : Nat) (value : Int) : BinarySearchTree :=
  let nref := s.nodes.length
  let node : BinarySearchTreeNode :=
    { id := id, value := value, one_side_depth := 0,
      parent := some pref, left := none, right := none }
  let s1 : BinarySearchTree := { s with nodes := s.nodes ++ [node] }
  let s2 := updNode s1 pref (fun n => n.setChild direction (some nref))
  { s2 with tree := indexInsert s2.tree id nref }

/-- The placement walk exactly as the specification words it: start at a node,
descend left when `value ≤` the node's value and right when it is greater,
following child links, stopping at the first empty slot. -/
def spec_walk (s : BinarySearchTree) (v : Int) : Nat → Nat → Option (Nat × Directions)
  | 0, _ => none
  | fuel+1, r =>
    match s.nodes.get? r with
    | none => none
    | some n =>
      if v ≤ n.value then
        match n.left with
        | none => some (r, Directions.Left)
        | some c => spec_walk s v fuel c
      else
        match n.right with
        | none => some (r, Directions.Right)
        | some c => spec_walk s v fuel c

/-- The state after one balance-counter write of the climb: the parent's
counter is bumped by `get_depth` of the computed direction. -/
def bumpDepth (s : BinarySearchTree) (pRef pc : Nat) : BinarySearchTree :=
  updNode s pRef (fun n =>
    { n with one_side_depth :=
        n.one_side_depth + (get_directions s pRef pc).get_depth })

/-- Distinctness of the head id and all inserted ids of a build. -/
def idsDistinct (h : Nat × Int) (ops : List (Nat × Int)) : Prop :=
  (h.1 :: ops.map Prod.fst).Nodup

/-! ## Concrete runs (claims C4, C5) and counterexample runs -/

/-- C5: building from head value 60 and inserting 50, 40, 30, 20, 10, 9 with
fresh ids leaves the head at 30, its children 10 (left) and 50 (right), and
10's children 9 (left) and 20 (right). -/
theorem c5_single_rotation_cascade :
    (build (0, 60) [(1,50),(2,40),(3,30),(4,20),(5,10),(6,9)]).map (fun s =>
      (navVal s [], navVal s [Directions.Left], navVal s [Directions.Right],
       navVal s [Directions.Left, Directions.Left],
       navVal s [Directions.Left, Directions.Right])) =
    some (some 30, some 10, some 50, some 9, some 20) := by
  rfl

/-- C4: continuing the C5 sequence with 70, 80, 90, 100, 65, 66, 67 yields
head 50; left child 30 with children 10 and 40; right child 70 with children
65 and 90; 65's children 60 and 66; 66's right child 67; 90's children 80 and
100. -/
theorem c4_double_rotation_shape :
    (build (0, 60) [(1,50),(2,40),(3,30),(4,20),(5,10),(6,9),
                    (7,70),(8,80),(9,90),(10,100),(11,65),(12,66),(13,67)]).map (fun s =>
      (navVal s [], navVal s [Directions.Left], navVal s [Directions.Right],
       navVal s [Directions.Left, Directions.Left],
       navVal s [Directions.Left, Directions.Right],
       navVal s [Directions.Right, Directions.Left],
       navVal s [Directions.Right, Directions.Right],
       navVal s [Directions.Right, Directions.Left, Directions.Left],
       navVal s [Directions.Right, Directions.Left, Directions.Right],
       navVal s [Directions.Right, Directions.Left, Directions.Right, Directions.Right],
       navVal s [Directions.Right, Directions.Right, Directions.Left],
       navVal s [Directions.Right, Directions.Right, Directions.Right])) =
    some (some 50, some 30, some 70, some 10, some 40, some 65, some 90,
          some 60, some 66, some 67, some 80, some 100) := by
  rfl

/-- C1 counterexample: after `from_head` with value 18 and inserts of 6, 16,
4 (fresh ids), the reachable node allocated third (ref 1, holding value 6)
has balance counter -2, so it is false that every node's counter lies in
{-1, 0, 1} after every completed insert. -/
theorem c1_balance_invariant_fails :
    ¬ (∀ s, build (0, 18) [(1,6),(2,16),(3,4)] = some s →
        ∀ l, reachRefs s = some l →
          ∀ r ∈ l, -1 ≤ depthOf s r ∧ depthOf s r ≤ 1) := by
  intro h
  have h2 := h _ rfl _ rfl 1 (by decide)
  exact absurd h2 (by decide)

/-- C2 counterexample: the claim puts no distinctness condition on ids, but
with a duplicated id the placement walk's index jumps land in the wrong
subtree: head (id 99, value 15), inserts (id 4, value 2), (id 4, value 0),
(id 1, value 15) produce in-order values [0, 15, 2, 15], which is not
non-decreasing. -/
theorem c2_order_fails_with_duplicate_ids :
    (¬ (∀ s, build (99, 15) [(4,2),(4,0),(1,15)] = some s →
        ∀ l, inorderVals s = some l → l.Sorted (· ≤ ·))) ∧
    (¬ (∀ s, build (0, 3) [(1,2),(2,3)] = some s →
        ∀ r c, refChild s r Directions.Right = some c →
          ∀ vr vc, refValue s r = some vr → refValue s c = some vc → vr < vc)) := by
  constructor
  · intro h
    have h2 := h _ rfl _ rfl
    exact absurd h2 (by decide)
  · intro h
    have h2 := h _ rfl 2 0 (by rfl) 3 3 rfl rfl
    exact absurd h2 (by decide)

/-- C3 counterexample: in the run head 18, inserts 6, 16, 4, the insert of 4
(ref 3, counter 0, left child of ref 1) raises ref 1's counter from -1 to -2;
the heavy-side child is ref 3 with counter 0, so by the claim a single
rotation should run at ref 1 and the climb should end.  Instead no rotation
happens: ref 1 keeps counter -2, stays in place as the head's left child with
ref 3 still below it, and the climb continues, moving the head's counter from
0 to -1. -/
theorem c3_zero_child_dispatch_fails :
    ((build (0, 18) [(1,6),(2,16)]).map (fun s => (depthOf s 1, depthOf s 2, s.head)),
     (build (0, 18) [(1,6),(2,16),(3,4)]).map (fun s =>
       (depthOf s 1, depthOf s 2, s.head,
        refChild s 2 Directions.Left, refChild s 1 Directions.Left))) =
    (some (-1, 0, 2), some (-2, -1, 2, some 1, some 3)) := by
  rfl

/-! ## Index (association-list) lemmas -/

theorem lookupId_indexInsert_self (l : List (Nat × Nat)) (k v : Nat) :
    lookupId (indexInsert l k v) k = some v := by
  induction l with
  | nil => simp [indexInsert, lookupId]
  | cons kv rest ih =>
    obtain ⟨a, b⟩ := kv
    by_cases h : a = k
    · simp [indexInsert, lookupId, h]
    · simp [indexInsert, lookupId, h, ih]

theorem lookupId_indexInsert_ne (l : List (Nat × Nat)) (k k' v : Nat) (h : k ≠ k') :
    lookupId (indexInsert l k v) k' = lookupId l k' := by
  induction l with
  | nil => simp [indexInsert, lookupId, h]
  | cons kv rest ih =>
    obtain ⟨a, b⟩ := kv
    by_cases hk : a = k
    · subst hk
      simp [indexInsert, lookupId, h, Ne.symm h]
    · by_cases hk' : a = k'
      · subst hk'
        simp [indexInsert, lookupId, hk, Ne.symm hk, h]
      · simp [indexInsert, lookupId, hk, hk', ih]

/-! ## Claim C9: the plain `BasicTree` -/

/-- C9: `BasicTree::insert` with an absent parent id panics (modelled `none`)
without producing a tree; with a present (valid) parent it allocates the new
node, appends it to that parent's child list, and registers it in the index
so `get` finds it. -/
theorem basicTree_insert_parent_handling (t : BasicTree) (id parent_id : Nat) (v : Int) :
    (t.get parent_id = none → t.insert id parent_id v = none) ∧
    (∀ pref p, t.get parent_id = some pref → t.nodes.get? pref = some p →
      ∃ t', t.insert id parent_id v = some t' ∧
        t'.nodes.length = t.nodes.length + 1 ∧
        t'.nodes.get? t.nodes.length =
          some { id := id, value := v, parent := some pref, nodes := [] } ∧
        t'.nodes.get? pref = some { p with nodes := p.nodes ++ [t.nodes.length] } ∧
        t'.tree = indexInsert t.tree id t.nodes.length ∧
        t'.get id = some t.nodes.length) := by
  constructor
  · intro h
    simp [BasicTree.insert, h]
  · intro pref p hget hnode
    have hlt : pref < t.nodes.length := by
      rcases List.get?_eq_some.mp hnode with ⟨hl, _⟩
      exact hl
    have hne : pref ≠ t.nodes.length := Nat.ne_of_lt hlt
    have happ : (t.nodes ++ [({ id := id, value := v, parent := some pref, nodes := [] } :
        BasicTreeNode)]).get? pref = some p := by
      rw [List.get?_append hlt]
      exact hnode
    have hins : t.insert id parent_id v = some
        { nodes := (t.nodes ++ [({ id := id, value := v, parent := some pref, nodes := [] } :
            BasicTreeNode)]).set pref { p with nodes := p.nodes ++ [t.nodes.length] },
          head := t.head, tree := indexInsert t.tree id t.nodes.length } := by
      simp only [BasicTree.insert, hget, happ]
    refine ⟨_, hins, ?_, ?_, ?_, ?_, ?_⟩
    · simp
    · rw [List.get?_set_ne _ _ hne, List.get?_concat_length]
    · rw [List.get?_set_eq_of_lt]
      simpa using Nat.lt_succ_of_lt hlt
    · rfl
    · simp [BasicTree.get, lookupId_indexInsert_self]

/-- Witness for C9 at a concrete tree: inserting under the absent id 99
panics, inserting under the present id 0 succeeds and is retrievable. -/
theorem basicTree_insert_parent_handling_witness :
    (BasicTree.from_head 0 5).insert 1 99 7 = none ∧
    ∃ t', (BasicTree.from_head 0 5).insert 1 0 7 = some t' ∧ t'.get 1 = some 1 := by
  constructor
  · exact (basicTree_insert_parent_handling (BasicTree.from_head 0 5) 1 99 7).1 (by rfl)
  · obtain ⟨t', h1, -, -, -, -, h6⟩ :=
      (basicTree_insert_parent_handling (BasicTree.from_head 0 5) 1 0 7).2 0
        { id := 0, value := 5, parent := none, nodes := [] } rfl rfl
    exact ⟨t', h1, h6⟩

/-! ## Basic lemmas about `readT` and `readsTo` -/

theorem readT_mono {s : BinarySearchTree} :
    ∀ (f : Nat) {o : Option Nat} {t : RTree} {f' : Nat}, readT s f o = some t → f ≤ f' →
      readT s f' o = some t := by
  intro f
  induction f with
  | zero =>
    intro o t f' h _
    cases o with
    | none =>
      simp [readT] at h
      simp [readT, ← h]
    | some r => simp [readT] at h
  | succ f ih =>
    intro o t f' h hle
    cases o with
    | none =>
      simp [readT] at h
      simp [readT, ← h]
    | some r =>
      obtain ⟨f'', rfl⟩ : ∃ f'', f' = f'' + 1 := ⟨f' - 1, by omega⟩
      have hf : f ≤ f'' := by omega
      simp only [readT, List.get?_eq_getElem?] at h ⊢
      cases hn : s.nodes[r]? with
      | none => simp [hn] at h
      | some n =>
        simp only [hn, Option.bind_eq_bind] at h ⊢
        cases hl : readT s f n.left with
        | none => simp [hl] at h
        | some lt =>
          cases hr : readT s f n.right with
          | none => simp [hl, hr] at h
          | some rt =>
            simp [hl, hr] at h
            simp [ih hl hf, ih hr hf, h]

theorem readsTo_none_elim {s : BinarySearchTree} {t : RTree} (h : readsTo s none t) :
    t = RTree.leaf := by
  obtain ⟨f, hf⟩ := h
  cases f <;> simpa [readT] using hf.symm

theorem readsTo_leaf (s : BinarySearchTree) (o : Option Nat) :
    o = none → readsTo s o RTree.leaf := by
  rintro rfl
  exact ⟨0, by simp [readT]⟩

theorem readsTo_some_elim {s : BinarySearchTree} {r : Nat} {t : RTree}
    (h : readsTo s (some r) t) :
    ∃ n lt rt, s.nodes.get? r = some n ∧ t = RTree.nd r lt rt ∧
      readsTo s n.left lt ∧ readsTo s n.right rt := by
  obtain ⟨f, hf⟩ := h
  cases f with
  | zero => simp [readT] at hf
  | succ f =>
    simp only [readT, List.get?_eq_getElem?] at hf
    cases hn : s.nodes[r]? with
    | none => simp [hn] at hf
    | some n =>
      simp only [hn, Option.bind_eq_bind] at hf
      cases hl : readT s f n.left with
      | none => simp [hl] at hf
      | some lt =>
        cases hr : readT s f n.right with
        | none => simp [hl, hr] at hf
        | some rt =>
          simp [hl, hr] at hf
          exact ⟨n, lt, rt, by simp [List.get?_eq_getElem?, hn], hf.symm, ⟨f, hl⟩, ⟨f, hr⟩⟩

theorem readsTo_intro {s : BinarySearchTree} {r : Nat} {n : BinarySearchTreeNode}
    {lt rt : RTree} (hn : s.nodes.get? r = some n)
    (hl : readsTo s n.left lt) (hr : readsTo s n.right rt) :
    readsTo s (some r) (RTree.nd r lt rt) := by
  obtain ⟨f1, h1⟩ := hl
  obtain ⟨f2, h2⟩ := hr
  refine ⟨max f1 f2 + 1, ?_⟩
  rw [List.get?_eq_getElem?] at hn
  simp [readT, hn, readT_mono f1 h1 (Nat.le_max_left f1 f2),
        readT_mono f2 h2 (Nat.le_max_right f1 f2)]

theorem readsTo_valid {s : BinarySearchTree} :
    ∀ {t : RTree} {o : Option Nat}, readsTo s o t →
      ∀ x ∈ t.inorder, ∃ n, s.nodes.get? x = some n := by
  intro t
  induction t with
  | leaf => intro o _ x hx; simp [RTree.inorder] at hx
  | nd ρ l rr ihl ihr =>
    intro o h x hx
    cases o with
    | none => exact absurd (readsTo_none_elim h) (by simp)
    | some r =>
      obtain ⟨n, lt, rt, hn, heq, hl, hr⟩ := readsTo_some_elim h
      injection heq with h1 h2 h3
      subst h1
      subst h2
      subst h3
      simp only [RTree.inorder, List.mem_append, List.mem_cons] at hx
      rcases hx with hx | hx | hx
      · exact ihl hl x hx
      · exact hx ▸ ⟨n, hn⟩
      · exact ihr hr x hx

theorem readsTo_lt_length {s : BinarySearchTree} {t : RTree} {o : Option Nat}
    (h : readsTo s o t) : ∀ x ∈ t.inorder, x < s.nodes.length := by
  intro x hx
  obtain ⟨n, hn⟩ := readsTo_valid h x hx
  rcases List.get?_eq_some.mp hn with ⟨hl, _⟩
  exact hl

theorem readsTo_frame {s s' : BinarySearchTree} :
    ∀ {t : RTree} {o : Option Nat}, readsTo s o t →
      (∀ x ∈ t.inorder, childrenOf s' x = childrenOf s x) → readsTo s' o t := by
  intro t
  induction t with
  | leaf =>
    intro o h _
    cases o with
    | none => exact readsTo_leaf _ _ rfl
    | some r =>
      obtain ⟨n, lt, rt, hn, heq, _, _⟩ := readsTo_some_elim h
      simp at heq
  | nd ρ l rr ihl ihr =>
    intro o h hagree
    cases o with
    | none => exact absurd (readsTo_none_elim h) (by simp)
    | some r =>
      obtain ⟨n, lt, rt, hn, heq, hl, hr⟩ := readsTo_some_elim h
      injection heq with h1 h2 h3
      subst h1
      subst h2
      subst h3
      have hch : childrenOf s' ρ = childrenOf s ρ := hagree ρ (by simp [RTree.inorder])
      rw [childrenOf, childrenOf, hn] at hch
      simp only [Option.map_eq_some', Option.map_some', Option.some.injEq, Prod.mk.injEq] at hch
      obtain ⟨n', hn', hleft, hright⟩ := hch
      have hl' := ihl hl (fun x hx => hagree x (by simp [RTree.inorder, hx]))
      have hr' := ihr hr (fun x hx => hagree x (by simp [RTree.inorder, hx]))
      refine readsTo_intro (n := n') hn' ?_ ?_
      · rw [hleft]; exact hl'
      · rw [hright]; exact hr'

theorem height_le_inorder_length : ∀ t : RTree, t.height ≤ t.inorder.length := by
  intro t
  induction t with
  | leaf => simp [RTree.height, RTree.inorder]
  | nd r l rr ihl ihr =>
    simp only [RTree.height, RTree.inorder, List.length_append, List.length_cons]
    omega

theorem readT_height {s : BinarySearchTree} :
    ∀ (f : Nat) {o : Option Nat} {t : RTree}, readT s f o = some t →
      readT s (t.height + 1) o = some t := by
  intro f
  induction f with
  | zero =>
    intro o t h
    cases o with
    | none =>
      simp [readT] at h
      simp [readT, ← h]
    | some r => simp [readT] at h
  | succ f ih =>
    intro o t h
    cases o with
    | none =>
      simp [readT] at h
      simp [readT, ← h]
    | some r =>
      simp only [readT, List.get?_eq_getElem?] at h
      cases hn : s.nodes[r]? with
      | none => simp [hn] at h
      | some n =>
        simp only [hn, Option.bind_eq_bind] at h
        cases hl : readT s f n.left with
        | none => simp [hl] at h
        | some lt =>
          cases hr : readT s f n.right with
          | none => simp [hl, hr] at h
          | some rt =>
            simp only [hl, hr, Option.bind_some] at h
            have h' : RTree.nd r lt rt = t := by simpa using h
            subst h'
            have h1 := @readT_mono _ _ _ _ (max lt.height rt.height + 1) (ih hl) (by omega)
            have h2 := @readT_mono _ _ _ _ (max lt.height rt.height + 1) (ih hr) (by omega)
            simp [readT, RTree.height, hn, h1, h2]

theorem nodup_lt_length_le {l : List Nat} {n : Nat} (hnd : l.Nodup)
    (hb : ∀ x ∈ l, x < n) : l.length ≤ n := by
  have hsub : l.toFinset ⊆ Finset.range n := by
    intro x hx
    simp only [List.mem_toFinset] at hx
    simpa using hb x hx
  have := Finset.card_le_card hsub
  rwa [List.toFinset_card_of_nodup hnd, Finset.card_range] at this

theorem readsTo_concrete {s : BinarySearchTree} {t : RTree} {r : Nat}
    (h : readsTo s (some r) t) (hnd : t.inorder.Nodup) :
    readT s (s.nodes.length + 1) (some r) = some t := by
  obtain ⟨f, hf⟩ := h
  have hh := readT_height f hf
  have hlen : t.inorder.length ≤ s.nodes.length :=
    nodup_lt_length_le hnd (readsTo_lt_length ⟨f, hf⟩)
  exact readT_mono _ hh (by have := height_le_inorder_length t; omega)

/-! ## `updNode` and index toolkit -/

theorem updNode_get? (s : BinarySearchTree) (r : Nat)
    (f : BinarySearchTreeNode → BinarySearchTreeNode) (x : Nat) :
    (updNode s r f).nodes.get? x =
      if x = r then (s.nodes.get? r).map f else s.nodes.get? x := by
  unfold updNode
  cases hn : s.nodes.get? r with
  | none =>
    by_cases hx : x = r
    · subst hx
      simp only [hn, if_pos rfl, Option.map_none']
      simp [hn]
    · simp [hx]
  | some n =>
    have hr : r < s.nodes.length := by
      rcases List.get?_eq_some.mp hn with ⟨hl, _⟩
      exact hl
    by_cases hx : x = r
    · subst hx
      simp only [if_pos rfl, hn, Option.map_some', List.get?_eq_getElem?]
      exact List.getElem?_set_eq_of_lt _ hr
    · simp only [if_neg hx, List.get?_eq_getElem?]
      exact List.getElem?_set_ne (fun h => hx h.symm)

theorem updNode_head (s : BinarySearchTree) (r : Nat)
    (f : BinarySearchTreeNode → BinarySearchTreeNode) :
    (updNode s r f).head = s.head := by
  unfold updNode
  cases s.nodes.get? r <;> rfl

theorem updNode_tree (s : BinarySearchTree) (r : Nat)
    (f : BinarySearchTreeNode → BinarySearchTreeNode) :
    (updNode s r f).tree = s.tree := by
  unfold updNode
  cases s.nodes.get? r <;> rfl

theorem updNode_length (s : BinarySearchTree) (r : Nat)
    (f : BinarySearchTreeNode → BinarySearchTreeNode) :
    (updNode s r f).nodes.length = s.nodes.length := by
  unfold updNode
  cases s.nodes.get? r <;> simp

theorem lookupId_eq_of_mem {l : List (Nat × Nat)} {k v : Nat}
    (hnd : (l.map Prod.fst).Nodup) (hm : (k, v) ∈ l) : lookupId l k = some v := by
  induction l with
  | nil => simp at hm
  | cons kv rest ih =>
    obtain ⟨a, b⟩ := kv
    simp only [List.map_cons, List.nodup_cons, List.mem_map] at hnd
    rcases List.mem_cons.mp hm with heq | hm'
    · injection heq with h1 h2
      subst h1
      subst h2
      simp [lookupId]
    · have hne : a ≠ k := by
        intro hak
        exact hnd.1 ⟨(k, v), hm', by simp [hak]⟩
      simp only [lookupId, if_neg hne]
      exact ih hnd.2 hm'

theorem get_directions_left {s : BinarySearchTree} {p x : Nat}
    {n nx : BinarySearchTreeNode} (hp : s.nodes.get? p = some n)
    (hx : s.nodes.get? x = some nx) (hl : n.left = some x) :
    get_directions s p x = Directions.Left := by
  rw [List.get?_eq_getElem?] at hp hx
  simp [get_directions, List.get?_eq_getElem?, hp, hl, hx]

theorem get_directions_to_left {s : BinarySearchTree} {p x : Nat}
    (h : get_directions s p x = Directions.Left) :
    ∃ n l nl nx, s.nodes.get? p = some n ∧ n.left = some l ∧
      s.nodes.get? l = some nl ∧ s.nodes.get? x = some nx ∧ nl.id = nx.id := by
  unfold get_directions at h
  simp only [List.get?_eq_getElem?] at h
  cases hp : s.nodes[p]? with
  | none => simp [hp] at h
  | some n =>
    simp only [hp] at h
    cases hl : n.left with
    | none => simp [hl] at h
    | some l =>
      simp only [hl] at h
      cases hnl : s.nodes[l]? with
      | none => simp [hnl] at h
      | some nl =>
        cases hnx : s.nodes[x]? with
        | none => simp [hnl, hnx] at h
        | some nx =>
          simp only [hnl, hnx] at h
          by_cases hid : nl.id = nx.id
          · exact ⟨n, l, nl, nx, by rw [List.get?_eq_getElem?]; exact hp, hl,
              by rw [List.get?_eq_getElem?]; exact hnl,
              by rw [List.get?_eq_getElem?]; exact hnx, hid⟩
          · simp [hid] at h

/-! ## Pure shape-tree lemmas: subtrees, replacement, order -/

theorem subtreeAt_root : ∀ {t : RTree} {p : Nat} {u : RTree},
    subtreeAt t p = some u → ∃ l r, u = RTree.nd p l r := by
  intro t
  induction t with
  | leaf => intro p u h; simp [subtreeAt] at h
  | nd r l rr ihl ihr =>
    intro p u h
    by_cases hr : r = p
    · subst hr
      simp only [subtreeAt, if_pos rfl] at h
      exact ⟨l, rr, (Option.some.inj h).symm⟩
    · simp only [subtreeAt, if_neg hr] at h
      cases hl : subtreeAt l p with
      | some u' =>
        rw [hl] at h
        exact ihl (hl.trans (congrArg some (Option.some.inj h)))
      | none =>
        rw [hl] at h
        exact ihr h

theorem subtreeAt_of_mem : ∀ {t : RTree} {x : Nat}, x ∈ t.inorder →
    ∃ u, subtreeAt t x = some u := by
  intro t
  induction t with
  | leaf => intro x h; simp [RTree.inorder] at h
  | nd r l rr ihl ihr =>
    intro x h
    by_cases hr : r = x
    · exact ⟨RTree.nd r l rr, by simp [subtreeAt, hr]⟩
    · simp only [RTree.inorder, List.mem_append, List.mem_cons] at h
      rcases h with h | h | h
      · obtain ⟨u, hu⟩ := ihl h
        exact ⟨u, by simp [subtreeAt, hr, hu]⟩
      · exact absurd h.symm hr
      · obtain ⟨u, hu⟩ := ihr h
        simp only [subtreeAt, if_neg hr]
        cases hl : subtreeAt l x with
        | some u' => exact ⟨u', by simp⟩
        | none => exact ⟨u, by simp [hu]⟩

theorem replaceAt_of_subtreeAt_none : ∀ {t : RTree} {p : Nat} (u' : RTree),
    subtreeAt t p = none → replaceAt t p u' = t := by
  intro t
  induction t with
  | leaf => intro p u' _; rfl
  | nd r l rr ihl ihr =>
    intro p u' h
    simp only [subtreeAt] at h
    by_cases hr : r = p
    · simp [hr] at h
    · simp only [if_neg hr] at h
      cases hl : subtreeAt l p with
      | some u2 => simp [hl] at h
      | none =>
        rw [hl] at h
        simp [replaceAt, hr, ihl u' hl, ihr u' h]

theorem subtreeAt_inorder : ∀ {t : RTree} {p : Nat} {u : RTree},
    t.inorder.Nodup → subtreeAt t p = some u →
    ∃ pre post, t.inorder = pre ++ u.inorder ++ post ∧
      ∀ u', (replaceAt t p u').inorder = pre ++ u'.inorder ++ post := by
  intro t
  induction t with
  | leaf => intro p u _ h; simp [subtreeAt] at h
  | nd r l rr ihl ihr =>
    intro p u hnd h
    have hndl : l.inorder.Nodup := by
      simp only [RTree.inorder, List.nodup_append, List.nodup_cons] at hnd
      exact hnd.1
    have hndr : rr.inorder.Nodup := by
      simp only [RTree.inorder, List.nodup_append, List.nodup_cons] at hnd
      exact hnd.2.1.2
    by_cases hr : r = p
    · subst hr
      simp only [subtreeAt, if_pos rfl] at h
      obtain rfl : u = RTree.nd r l rr := (Option.some.inj h).symm
      exact ⟨[], [], by simp, fun u' => by simp [replaceAt]⟩
    · simp only [subtreeAt, if_neg hr] at h
      cases hl : subtreeAt l p with
      | some u1 =>
        rw [hl] at h
        obtain rfl : u1 = u := Option.some.inj h
        obtain ⟨pre, post, hdec, hrep⟩ := ihl hndl hl
        have hrrn : subtreeAt rr p = none := by
          cases hrr : subtreeAt rr p with
          | none => rfl
          | some u2 =>
            exfalso
            obtain ⟨pre2, post2, hdec2, _⟩ := ihr hndr hrr
            obtain ⟨l2, r2, rfl⟩ := subtreeAt_root hrr
            obtain ⟨l1, r1, rfl⟩ := subtreeAt_root hl
            have hp1 : p ∈ l.inorder := by rw [hdec]; simp [RTree.inorder]
            have hp2 : p ∈ rr.inorder := by rw [hdec2]; simp [RTree.inorder]
            have hdisj : l.inorder.Disjoint (r :: rr.inorder) := by
              simp only [RTree.inorder, List.nodup_append] at hnd
              exact hnd.2.2
            exact hdisj hp1 (List.mem_cons_of_mem r hp2)
        refine ⟨pre, post ++ r :: rr.inorder, by simp [RTree.inorder, hdec], ?_⟩
        intro u'
        rw [replaceAt, if_neg hr]
        simp [RTree.inorder, hrep u', replaceAt_of_subtreeAt_none u' hrrn]
      | none =>
        rw [hl] at h
        obtain ⟨pre, post, hdec, hrep⟩ := ihr hndr h
        refine ⟨l.inorder ++ r :: pre, post, by simp [RTree.inorder, hdec], ?_⟩
        intro u'
        rw [replaceAt, if_neg hr]
        simp [RTree.inorder, hrep u', replaceAt_of_subtreeAt_none u' hl]

theorem replaceAt_inorder_eq {t : RTree} {p : Nat} {u u' : RTree}
    (hnd : t.inorder.Nodup) (h : subtreeAt t p = some u)
    (hin : RTree.inorder u' = RTree.inorder u) :
    (replaceAt t p u').inorder = t.inorder := by
  obtain ⟨pre, post, hdec, hrep⟩ := subtreeAt_inorder hnd h
  rw [hrep u', hin, hdec]

theorem readsTo_subtreeAt {s : BinarySearchTree} :
    ∀ {t : RTree} {ρ p : Nat} {u : RTree}, readsTo s (some ρ) t →
      subtreeAt t p = some u → readsTo s (some p) u := by
  intro t
  induction t with
  | leaf => intro ρ p u _ h; simp [subtreeAt] at h
  | nd r l rr ihl ihr =>
    intro ρ p u h hsub
    obtain ⟨n, lt, rt, hn, heq, hl, hr⟩ := readsTo_some_elim h
    injection heq with h1 h2 h3
    subst h1
    subst h2
    subst h3
    by_cases hrp : r = p
    · subst hrp
      simp only [subtreeAt, if_pos rfl] at hsub
      obtain rfl : u = RTree.nd r l rr := (Option.some.inj hsub).symm
      exact h
    · simp only [subtreeAt, if_neg hrp] at hsub
      cases hsl : subtreeAt l p with
      | some u1 =>
        rw [hsl] at hsub
        obtain rfl : u1 = u := Option.some.inj hsub
        cases hnl : n.left with
        | none =>
          rw [hnl] at hl
          rw [readsTo_none_elim hl] at hsl
          simp [subtreeAt] at hsl
        | some cl => exact ihl (hnl ▸ hl) hsl
      | none =>
        rw [hsl] at hsub
        cases hnr : n.right with
        | none =>
          rw [hnr] at hr
          rw [readsTo_none_elim hr] at hsub
          simp [subtreeAt] at hsub
        | some cr => exact ihr (hnr ▸ hr) hsub

/-! ## Order lemmas -/

theorem SortedT_congr {s s' : BinarySearchTree} :
    ∀ {t : RTree}, (∀ x ∈ t.inorder, valOf s' x = valOf s x) → SortedT s t →
      SortedT s' t := by
  intro t
  induction t with
  | leaf => intro _ _; trivial
  | nd r l rr ihl ihr =>
    intro hv hs
    obtain ⟨hbl, hbr, hsl, hsr⟩ := hs
    have hvr : valOf s' r = valOf s r := hv r (by simp [RTree.inorder])
    refine ⟨?_, ?_, ?_, ?_⟩
    · intro x hx
      rw [hv x (by simp [RTree.inorder, hx]), hvr]
      exact hbl x hx
    · intro x hx
      rw [hv x (by simp [RTree.inorder, hx]), hvr]
      exact hbr x hx
    · exact ihl (fun x hx => hv x (by simp [RTree.inorder, hx])) hsl
    · exact ihr (fun x hx => hv x (by simp [RTree.inorder, hx])) hsr

theorem SortedT_subtreeAt {s : BinarySearchTree} :
    ∀ {t : RTree} {p : Nat} {u : RTree}, SortedT s t → subtreeAt t p = some u →
      SortedT s u := by
  intro t
  induction t with
  | leaf => intro p u _ h; simp [subtreeAt] at h
  | nd r l rr ihl ihr =>
    intro p u hs hsub
    obtain ⟨hbl, hbr, hsl, hsr⟩ := hs
    by_cases hrp : r = p
    · subst hrp
      simp only [subtreeAt, if_pos rfl] at hsub
      obtain rfl : u = RTree.nd r l rr := (Option.some.inj hsub).symm
      exact ⟨hbl, hbr, hsl, hsr⟩
    · simp only [subtreeAt, if_neg hrp] at hsub
      cases hsl' : subtreeAt l p with
      | some u1 =>
        rw [hsl'] at hsub
        exact ihl hsl (hsl'.trans (congrArg some (Option.some.inj hsub)))
      | none =>
        rw [hsl'] at hsub
        exact ihr hsr hsub

theorem SortedT_replaceAt {s : BinarySearchTree} :
    ∀ {t : RTree} {p : Nat} {u u' : RTree}, t.inorder.Nodup → SortedT s t →
      subtreeAt t p = some u → SortedT s u' → RTree.inorder u' = RTree.inorder u →
      SortedT s (replaceAt t p u') := by
  intro t
  induction t with
  | leaf => intro p u u' _ _ h _ _; simp [subtreeAt] at h
  | nd r l rr ihl ihr =>
    intro p u u' hnd hs hsub hs' hin
    have hndl : l.inorder.Nodup := by
      simp only [RTree.inorder, List.nodup_append, List.nodup_cons] at hnd
      exact hnd.1
    have hndr : rr.inorder.Nodup := by
      simp only [RTree.inorder, List.nodup_append, List.nodup_cons] at hnd
      exact hnd.2.1.2
    obtain ⟨hbl, hbr, hsl, hsr⟩ := hs
    by_cases hrp : r = p
    · subst hrp
      simp only [subtreeAt, if_pos rfl] at hsub
      obtain rfl : u = RTree.nd r l rr := (Option.some.inj hsub).symm
      simpa [replaceAt] using hs'
    · simp only [subtreeAt, if_neg hrp] at hsub
      rw [replaceAt, if_neg hrp]
      cases hsl' : subtreeAt l p with
      | some u1 =>
        rw [hsl'] at hsub
        obtain rfl : u1 = u := Option.some.inj hsub
        have hrrn : subtreeAt rr p = none := by
          cases hrr : subtreeAt rr p with
          | none => rfl
          | some u2 =>
            exfalso
            obtain ⟨pre2, post2, hdec2, _⟩ := subtreeAt_inorder hndr hrr
            obtain ⟨pre1, post1, hdec1, _⟩ := subtreeAt_inorder hndl hsl'
            obtain ⟨l2, r2, rfl⟩ := subtreeAt_root hrr
            obtain ⟨l1, r1, rfl⟩ := subtreeAt_root hsl'
            have hp1 : p ∈ l.inorder := by rw [hdec1]; simp [RTree.inorder]
            have hp2 : p ∈ rr.inorder := by rw [hdec2]; simp [RTree.inorder]
            have hdisj : l.inorder.Disjoint (r :: rr.inorder) := by
              simp only [RTree.inorder, List.nodup_append] at hnd
              exact hnd.2.2
            exact hdisj hp1 (List.mem_cons_of_mem r hp2)
        rw [replaceAt_of_subtreeAt_none u' hrrn]
        refine ⟨?_, hbr, ihl hndl hsl hsl' hs' hin, hsr⟩
        intro x hx
        rw [replaceAt_inorder_eq hndl hsl' hin] at hx
        exact hbl x hx
      | none =>
        rw [hsl'] at hsub
        rw [replaceAt_of_subtreeAt_none u' hsl']
        refine ⟨hbl, ?_, hsl, ihr hndr hsr hsub hs' hin⟩
        intro x hx
        rw [replaceAt_inorder_eq hndr hsub hin] at hx
        exact hbr x hx

theorem SortedT_sorted_vals {s : BinarySearchTree} :
    ∀ {t : RTree}, SortedT s t → (t.inorder.map (valOf s)).Sorted (· ≤ ·) := by
  intro t
  induction t with
  | leaf => intro _; simp [RTree.inorder]
  | nd r l rr ihl ihr =>
    intro hs
    obtain ⟨hbl, hbr, hsl, hsr⟩ := hs
    simp only [RTree.inorder, List.map_append, List.map_cons]
    rw [List.Sorted, List.pairwise_append]
    refine ⟨ihl hsl, ?_, ?_⟩
    · rw [List.pairwise_cons]
      refine ⟨?_, ihr hsr⟩
      intro b hb
      simp only [List.mem_map] at hb
      obtain ⟨x, hx, rfl⟩ := hb
      exact hbr x hx
    · intro a ha b hb
      simp only [List.mem_map] at ha
      obtain ⟨x, hx, rfl⟩ := ha
      simp only [List.mem_cons, List.mem_map] at hb
      rcases hb with rfl | ⟨y, hy, rfl⟩
      · exact hbl x hx
      · exact le_trans (hbl x hx) (hbr y hy)

/-! ## Rotation shapes: inorder preservation and order preservation -/

theorem inorder_rot_right (f sc : Nat) (A B C : RTree) :
    (RTree.nd sc (RTree.nd f A B) C).inorder =
      (RTree.nd f A (RTree.nd sc B C)).inorder := by
  simp [RTree.inorder]

theorem inorder_rot_left (f sc : Nat) (A B C : RTree) :
    (RTree.nd sc B (RTree.nd f C A)).inorder =
      (RTree.nd f (RTree.nd sc B C) A).inorder := by
  simp [RTree.inorder]

theorem inorder_drot_right (f sc th : Nat) (A U V D : RTree) :
    (RTree.nd f A (RTree.nd th U (RTree.nd sc V D))).inorder =
      (RTree.nd f A (RTree.nd sc (RTree.nd th U V) D)).inorder := by
  simp [RTree.inorder]

theorem inorder_drot_left (f sc th : Nat) (A U V D : RTree) :
    (RTree.nd f (RTree.nd th (RTree.nd sc D U) V) A).inorder =
      (RTree.nd f (RTree.nd sc D (RTree.nd th U V)) A).inorder := by
  simp [RTree.inorder]

theorem SortedT_rot_right {s : BinarySearchTree} {f sc : Nat} {A B C : RTree}
    (h : SortedT s (RTree.nd f A (RTree.nd sc B C))) :
    SortedT s (RTree.nd sc (RTree.nd f A B) C) := by
  obtain ⟨hA, hR, hSA, hB, hC, hSB, hSC⟩ := h
  have hfsc : valOf s f ≤ valOf s sc := hR sc (by simp [RTree.inorder])
  refine ⟨?_, ?_, ⟨?_, ?_, hSA, hSB⟩, hSC⟩
  · intro x hx
    simp only [RTree.inorder, List.mem_append, List.mem_cons] at hx
    rcases hx with hx | hx | hx
    · exact le_trans (hA x hx) hfsc
    · exact hx ▸ hfsc
    · exact hB x hx
  · intro x hx
    exact hC x hx
  · exact hA
  · intro x hx
    exact hR x (by simp [RTree.inorder, hx])

theorem SortedT_rot_left {s : BinarySearchTree} {f sc : Nat} {A B C : RTree}
    (h : SortedT s (RTree.nd f (RTree.nd sc B C) A)) :
    SortedT s (RTree.nd sc B (RTree.nd f C A)) := by
  obtain ⟨hL, hA, ⟨hB, hC, hSB, hSC⟩, hSA⟩ := h
  have hscf : valOf s sc ≤ valOf s f := hL sc (by simp [RTree.inorder])
  refine ⟨hB, ?_, hSB, ?_, ?_, hSC, hSA⟩
  · intro x hx
    simp only [RTree.inorder, List.mem_append, List.mem_cons] at hx
    rcases hx with hx | hx | hx
    · exact hC x hx
    · exact hx ▸ hscf
    · exact le_trans hscf (hA x hx)
  · intro x hx
    exact hL x (by simp [RTree.inorder, hx])
  · intro x hx
    exact hA x hx

theorem SortedT_drot_right {s : BinarySearchTree} {f sc th : Nat} {A U V D : RTree}
    (h : SortedT s (RTree.nd f A (RTree.nd sc (RTree.nd th U V) D))) :
    SortedT s (RTree.nd f A (RTree.nd th U (RTree.nd sc V D))) := by
  obtain ⟨hA, hR, hSA, hL2, hD, ⟨hU, hV, hSU, hSV⟩, hSD⟩ := h
  have hthsc : valOf s th ≤ valOf s sc := hL2 th (by simp [RTree.inorder])
  refine ⟨hA, ?_, hSA, hU, ?_, hSU, ?_, ?_, hSV, hSD⟩
  · intro x hx
    apply hR
    simp only [RTree.inorder, List.mem_append, List.mem_cons] at hx ⊢
    tauto
  · intro x hx
    simp only [RTree.inorder, List.mem_append, List.mem_cons] at hx
    rcases hx with hx | hx | hx
    · exact hV x hx
    · exact hx ▸ hthsc
    · exact le_trans hthsc (hD x hx)
  · intro x hx
    exact hL2 x (by simp [RTree.inorder, hx])
  · intro x hx
    exact hD x hx

theorem SortedT_drot_left {s : BinarySearchTree} {f sc th : Nat} {A U V D : RTree}
    (h : SortedT s (RTree.nd f (RTree.nd sc D (RTree.nd th U V)) A)) :
    SortedT s (RTree.nd f (RTree.nd th (RTree.nd sc D U) V) A) := by
  obtain ⟨hL, hA, ⟨hD, hR2, hSD, ⟨hU, hV, hSU, hSV⟩⟩, hSA⟩ := h
  have hscth : valOf s sc ≤ valOf s th := hR2 th (by simp [RTree.inorder])
  refine ⟨?_, hA, ⟨?_, ?_, ⟨hD, ?_, hSD, hSU⟩, hSV⟩, hSA⟩
  · intro x hx
    apply hL
    simp only [RTree.inorder, List.mem_append, List.mem_cons] at hx ⊢
    tauto
  · intro x hx
    simp only [RTree.inorder, List.mem_append, List.mem_cons] at hx
    rcases hx with hx | hx | hx
    · exact le_trans (hD x hx) hscth
    · exact hx ▸ hscth
    · exact hU x hx
  · intro x hx
    exact hV x hx
  · intro x hx
    exact hR2 x (by simp [RTree.inorder, hx])

theorem readsTo_root {s : BinarySearchTree} {o : Option Nat} {a : Nat} {b c : RTree}
    (h : readsTo s o (RTree.nd a b c)) : o = some a := by
  cases o with
  | none => exact absurd (readsTo_none_elim h) (by simp)
  | some r =>
    obtain ⟨n, lt, rt, _, heq, _, _⟩ := readsTo_some_elim h
    injection heq with h1 _ _
    rw [h1]

theorem subtreeAt_right_none {r : Nat} {l rr : RTree} {p : Nat} {u : RTree}
    (hnd : (RTree.nd r l rr).inorder.Nodup) (h : subtreeAt l p = some u) :
    subtreeAt rr p = none := by
  have hndl : l.inorder.Nodup := by
    simp only [RTree.inorder, List.nodup_append, List.nodup_cons] at hnd
    exact hnd.1
  have hndr : rr.inorder.Nodup := by
    simp only [RTree.inorder, List.nodup_append, List.nodup_cons] at hnd
    exact hnd.2.1.2
  cases hrr : subtreeAt rr p with
  | none => rfl
  | some u2 =>
    exfalso
    obtain ⟨pre2, post2, hdec2, _⟩ := subtreeAt_inorder hndr hrr
    obtain ⟨pre1, post1, hdec1, _⟩ := subtreeAt_inorder hndl h
    obtain ⟨l2, r2, rfl⟩ := subtreeAt_root hrr
    obtain ⟨l1, r1, rfl⟩ := subtreeAt_root h
    have hp1 : p ∈ l.inorder := by rw [hdec1]; simp [RTree.inorder]
    have hp2 : p ∈ rr.inorder := by rw [hdec2]; simp [RTree.inorder]
    have hdisj : l.inorder.Disjoint (r :: rr.inorder) := by
      simp only [RTree.inorder, List.nodup_append] at hnd
      exact hnd.2.2
    exact hdisj hp1 (List.mem_cons_of_mem r hp2)

theorem subtreeAt_mem_sub {t : RTree} {p : Nat} {u : RTree}
    (hnd : t.inorder.Nodup) (h : subtreeAt t p = some u) :
    ∀ x ∈ u.inorder, x ∈ t.inorder := by
  obtain ⟨pre, post, hdec, _⟩ := subtreeAt_inorder hnd h
  intro x hx
  rw [hdec]
  simp [hx]

theorem readsTo_replaceAt {s s' : BinarySearchTree} :
    ∀ {t : RTree} {ρ p : Nat} {u u' : RTree},
      readsTo s (some ρ) t → t.inorder.Nodup → subtreeAt t p = some u →
      readsTo s' (some p) u' →
      (∀ x ∈ t.inorder, x ∉ u.inorder → childrenOf s' x = childrenOf s x) →
      readsTo s' (some ρ) (replaceAt t p u') := by
  intro t
  induction t with
  | leaf => intro ρ p u u' _ _ h _ _; simp [subtreeAt] at h
  | nd r l rr ihl ihr =>
    intro ρ p u u' hread hnd hsub hnew hagree
    obtain ⟨n, lt, rt, hn, heq, hl, hr⟩ := readsTo_some_elim hread
    injection heq with h1 h2 h3
    subst h1
    subst h2
    subst h3
    have hndl : l.inorder.Nodup := by
      simp only [RTree.inorder, List.nodup_append, List.nodup_cons] at hnd
      exact hnd.1
    have hndr : rr.inorder.Nodup := by
      simp only [RTree.inorder, List.nodup_append, List.nodup_cons] at hnd
      exact hnd.2.1.2
    have hdisj : l.inorder.Disjoint (r :: rr.inorder) := by
      simp only [RTree.inorder, List.nodup_append] at hnd
      exact hnd.2.2
    have hrnotin : r ∉ l.inorder ∧ r ∉ rr.inorder := by
      constructor
      · intro hc
        exact hdisj hc (List.mem_cons_self r rr.inorder)
      · intro hc
        simp only [RTree.inorder, List.nodup_append, List.nodup_cons] at hnd
        exact hnd.2.1.1 hc
    by_cases hrp : r = p
    · subst hrp
      simp only [subtreeAt, if_pos rfl] at hsub
      obtain rfl : u = RTree.nd r l rr := (Option.some.inj hsub).symm
      rw [replaceAt, if_pos rfl]
      exact hnew
    · rw [replaceAt, if_neg hrp]
      simp only [subtreeAt, if_neg hrp] at hsub
      cases hsl : subtreeAt l p with
      | some u1 =>
        rw [hsl] at hsub
        obtain rfl : u1 = u := Option.some.inj hsub
        have hagr : childrenOf s' r = childrenOf s r := by
          apply hagree r (by simp [RTree.inorder])
          intro hc
          exact hrnotin.1 (subtreeAt_mem_sub hndl hsl r hc)
        rw [childrenOf, childrenOf, hn] at hagr
        simp only [Option.map_eq_some', Option.map_some', Option.some.injEq,
          Prod.mk.injEq] at hagr
        obtain ⟨n', hn', hleft, hright⟩ := hagr
        have hrrn : subtreeAt rr p = none := subtreeAt_right_none hnd hsl
        rw [replaceAt_of_subtreeAt_none u' hrrn]
        have hlrep : readsTo s' n.left (replaceAt l p u') := by
          cases l with
          | leaf => simp [subtreeAt] at hsl
          | nd a b c =>
            have hroot : n.left = some a := readsTo_root hl
            rw [hroot]
            refine ihl (hroot ▸ hl) hndl hsl hnew ?_
            intro x hx hxu
            refine hagree x ?_ hxu
            simp only [RTree.inorder, List.mem_append, List.mem_cons] at hx ⊢
            tauto
        have hrfr : readsTo s' n.right rr := by
          apply readsTo_frame hr
          intro x hx
          apply hagree x (by simp [RTree.inorder, hx])
          intro hc
          exact hdisj (subtreeAt_mem_sub hndl hsl x hc) (List.mem_cons_of_mem r hx)
        exact readsTo_intro hn' (hleft ▸ hlrep) (hright ▸ hrfr)
      | none =>
        rw [hsl] at hsub
        have hagr : childrenOf s' r = childrenOf s r := by
          apply hagree r (by simp [RTree.inorder])
          intro hc
          exact hrnotin.2 (subtreeAt_mem_sub hndr hsub r hc)
        rw [childrenOf, childrenOf, hn] at hagr
        simp only [Option.map_eq_some', Option.map_some', Option.some.injEq,
          Prod.mk.injEq] at hagr
        obtain ⟨n', hn', hleft, hright⟩ := hagr
        rw [replaceAt_of_subtreeAt_none u' hsl]
        have hrrep : readsTo s' n.right (replaceAt rr p u') := by
          cases rr with
          | leaf => simp [subtreeAt] at hsub
          | nd a b c =>
            have hroot : n.right = some a := readsTo_root hr
            rw [hroot]
            refine ihr (hroot ▸ hr) hndr hsub hnew ?_
            intro x hx hxu
            refine hagree x ?_ hxu
            simp only [RTree.inorder, List.mem_append, List.mem_cons] at hx ⊢
            tauto
        have hlfr : readsTo s' n.left l := by
          apply readsTo_frame hl
          intro x hx
          apply hagree x (by simp [RTree.inorder, hx])
          intro hc
          exact hdisj hx (List.mem_cons_of_mem r (subtreeAt_mem_sub hndr hsub x hc))
        exact readsTo_intro hn' (hleft ▸ hlfr) (hright ▸ hrrep)

/-! ## Node field lemmas -/

@[simp] theorem setChild_id (n : BinarySearchTreeNode) (d : Directions) (c : Option Nat) :
    (n.setChild d c).id = n.id := by cases d <;> rfl

@[simp] theorem setChild_value (n : BinarySearchTreeNode) (d : Directions) (c : Option Nat) :
    (n.setChild d c).value = n.value := by cases d <;> rfl

@[simp] theorem setChild_parent (n : BinarySearchTreeNode) (d : Directions) (c : Option Nat) :
    (n.setChild d c).parent = n.parent := by cases d <;> rfl

@[simp] theorem setChild_depth (n : BinarySearchTreeNode) (d : Directions) (c : Option Nat) :
    (n.setChild d c).one_side_depth = n.one_side_depth := by cases d <;> rfl

@[simp] theorem child_setChild_same (n : BinarySearchTreeNode) (d : Directions)
    (c : Option Nat) : (n.setChild d c).child d = c := by cases d <;> rfl

@[simp] theorem setChild_setChild_same (n : BinarySearchTreeNode) (d : Directions)
    (c c' : Option Nat) : (n.setChild d c).setChild d c' = n.setChild d c' := by
  cases d <;> rfl

theorem setChild_depthset (n : BinarySearchTreeNode) (d : Directions) (c : Option Nat)
    (x : Int) : ({ n with one_side_depth := x } : BinarySearchTreeNode).setChild d c =
      { n.setChild d c with one_side_depth := x } := by
  cases d <;> rfl

theorem child_depthset (n : BinarySearchTreeNode) (d : Directions) (x : Int) :
    ({ n with one_side_depth := x } : BinarySearchTreeNode).child d = n.child d := by
  cases d <;> rfl

theorem child_setChild_ne (n : BinarySearchTreeNode) {d d' : Directions} (c : Option Nat)
    (h : d' ≠ d) : (n.setChild d c).child d' = n.child d' := by
  cases d <;> cases d' <;> first | rfl | exact absurd rfl h

@[simp] theorem get_opposite_get_opposite (d : Directions) :
    d.get_opposite.get_opposite = d := by cases d <;> rfl

theorem get_opposite_ne (d : Directions) : d.get_opposite ≠ d := by cases d <;> simp [Directions.get_opposite]

@[simp] theorem child_opp_setChild (n : BinarySearchTreeNode) (d : Directions)
    (c : Option Nat) : (n.setChild d c).child d.get_opposite = n.child d.get_opposite :=
  child_setChild_ne n c (get_opposite_ne d)

@[simp] theorem child_setChild_opp (n : BinarySearchTreeNode) (d : Directions)
    (c : Option Nat) : (n.setChild d.get_opposite c).child d = n.child d :=
  child_setChild_ne n c (fun h => get_opposite_ne d h.symm)

/-! ## Pointwise effect of the rotation pieces -/

theorem updNode_getElem? (s : BinarySearchTree) (r : Nat)
    (f : BinarySearchTreeNode → BinarySearchTreeNode) (x : Nat) :
    (updNode s r f).nodes[x]? = if x = r then s.nodes[r]?.map f else s.nodes[x]? := by
  have := updNode_get? s r f x
  simpa [List.get?_eq_getElem?] using this

theorem sr_restructure_get? {s : BinarySearchTree} {firstRef secondRef : Nat}
    {d : Directions} {fn sn : BinarySearchTreeNode}
    (hfn : s.nodes.get? firstRef = some fn)
    (hsn : s.nodes.get? secondRef = some sn)
    (h12 : firstRef ≠ secondRef)
    (hocne : ∀ z, sn.child d.get_opposite = some z → z ≠ firstRef ∧ z ≠ secondRef) :
    (sr_restructure s firstRef secondRef d sn).head = s.head ∧
    (sr_restructure s firstRef secondRef d sn).tree = s.tree ∧
    (sr_restructure s firstRef secondRef d sn).nodes.length = s.nodes.length ∧
    (sr_restructure s firstRef secondRef d sn).nodes.get? firstRef =
      some { fn.setChild d (sn.child d.get_opposite) with one_side_depth := 0 } ∧
    (sr_restructure s firstRef secondRef d sn).nodes.get? secondRef =
      some { sn.setChild d.get_opposite (some firstRef) with one_side_depth := 0 } ∧
    (∀ z zn, sn.child d.get_opposite = some z → s.nodes.get? z = some zn →
      (sr_restructure s firstRef secondRef d sn).nodes.get? z =
        some { zn with parent := some firstRef }) ∧
    (∀ x, x ≠ firstRef → x ≠ secondRef → (∀ z, sn.child d.get_opposite = some z → x ≠ z) →
      (sr_restructure s firstRef secondRef d sn).nodes.get? x = s.nodes.get? x) := by
  have h21 : secondRef ≠ firstRef := fun h => h12 h.symm
  have hfn' : s.nodes[firstRef]? = some fn := by
    rw [← List.get?_eq_getElem?]
    exact hfn
  have hsn' : s.nodes[secondRef]? = some sn := by
    rw [← List.get?_eq_getElem?]
    exact hsn
  cases hocv : sn.child d.get_opposite with
  | none =>
    refine ⟨?_, ?_, ?_, ?_, ?_, ?_, ?_⟩
    · simp [sr_restructure, hocv, updNode_head]
    · simp [sr_restructure, hocv, updNode_tree]
    · simp [sr_restructure, hocv, updNode_length]
    · simp [sr_restructure, hocv, updNode_getElem?, h12, h21, hfn', hsn']
    · simp [sr_restructure, hocv, updNode_getElem?, h12, h21, hfn', hsn']
    · intro z zn hz
      simp at hz
    · intro x hx1 hx2 _
      simp [sr_restructure, hocv, updNode_getElem?, hx1, hx2]
  | some z =>
    obtain ⟨hz1, hz2⟩ := hocne z hocv
    refine ⟨?_, ?_, ?_, ?_, ?_, ?_, ?_⟩
    · simp [sr_restructure, hocv, updNode_head]
    · simp [sr_restructure, hocv, updNode_tree]
    · simp [sr_restructure, hocv, updNode_length]
    · simp [sr_restructure, hocv, updNode_getElem?, h12, h21, hz1, hz2,
        Ne.symm hz1, Ne.symm hz2, hfn', hsn']
    · simp [sr_restructure, hocv, updNode_getElem?, h12, h21, hz1, hz2,
        Ne.symm hz1, Ne.symm hz2, hfn', hsn']
    · intro z' zn hz' hzn
      have hzz : z' = z := (Option.some.inj hz').symm
      subst hzz
      have hzn' : s.nodes[z']? = some zn := by
        rw [← List.get?_eq_getElem?]
        exact hzn
      simp [sr_restructure, hocv, updNode_getElem?, h12, h21, hz1, hz2,
        Ne.symm hz1, Ne.symm hz2, hzn']
    · intro x hx1 hx2 hx3
      have hxz : x ≠ z := hx3 z rfl
      simp [sr_restructure, hocv, updNode_getElem?, hx1, hx2, hxz]

theorem sr_root_get? {s5 : BinarySearchTree} {firstRef secondRef : Nat}
    {fn5 sn5 : BinarySearchTreeNode}
    (hfn : s5.nodes.get? firstRef = some fn5)
    (hsn : s5.nodes.get? secondRef = some sn5)
    (h12 : firstRef ≠ secondRef) :
    (sr_root s5 firstRef secondRef).head = secondRef ∧
    (sr_root s5 firstRef secondRef).tree = s5.tree ∧
    (sr_root s5 firstRef secondRef).nodes.length = s5.nodes.length ∧
    (sr_root s5 firstRef secondRef).nodes.get? firstRef =
      some { fn5 with parent := some secondRef } ∧
    (sr_root s5 firstRef secondRef).nodes.get? secondRef =
      some { sn5 with parent := none } ∧
    (∀ x, x ≠ firstRef → x ≠ secondRef →
      (sr_root s5 firstRef secondRef).nodes.get? x = s5.nodes.get? x) := by
  have h21 : secondRef ≠ firstRef := fun h => h12 h.symm
  have hfn' : s5.nodes[firstRef]? = some fn5 := by
    rw [← List.get?_eq_getElem?]
    exact hfn
  have hsn' : s5.nodes[secondRef]? = some sn5 := by
    rw [← List.get?_eq_getElem?]
    exact hsn
  refine ⟨?_, ?_, ?_, ?_, ?_, ?_⟩
  · simp [sr_root, updNode_head]
  · simp [sr_root, updNode_tree]
  · simp [sr_root, updNode_length]
  · simp [sr_root, updNode_getElem?, h12, h21, hfn', hsn']
  · simp [sr_root, updNode_getElem?, h12, h21, hfn', hsn']
  · intro x hx1 hx2
    simp [sr_root, updNode_getElem?, hx1, hx2]

theorem sr_reparent_get? {s5 : BinarySearchTree} {firstRef secondRef g : Nat}
    {fn5 sn5 gn5 : BinarySearchTreeNode} {d2 : Directions}
    (hfn : s5.nodes.get? firstRef = some fn5)
    (hsn : s5.nodes.get? secondRef = some sn5)
    (hgn : s5.nodes.get? g = some gn5)
    (h12 : firstRef ≠ secondRef)
    (hg1 : g ≠ firstRef) (hg2 : g ≠ secondRef)
    (hd2 : get_directions s5 g firstRef = d2) :
    (sr_reparent s5 firstRef secondRef g).head = s5.head ∧
    (sr_reparent s5 firstRef secondRef g).tree = s5.tree ∧
    (sr_reparent s5 firstRef secondRef g).nodes.length = s5.nodes.length ∧
    (sr_reparent s5 firstRef secondRef g).nodes.get? firstRef =
      some { fn5 with parent := some secondRef } ∧
    (sr_reparent s5 firstRef secondRef g).nodes.get? secondRef =
      some { sn5 with parent := some g } ∧
    (sr_reparent s5 firstRef secondRef g).nodes.get? g =
      some (gn5.setChild d2 (some secondRef)) ∧
    (∀ x, x ≠ firstRef → x ≠ secondRef → x ≠ g →
      (sr_reparent s5 firstRef secondRef g).nodes.get? x = s5.nodes.get? x) := by
  have h21 : secondRef ≠ firstRef := fun h => h12 h.symm
  have hfn' : s5.nodes[firstRef]? = some fn5 := by
    rw [← List.get?_eq_getElem?]
    exact hfn
  have hsn' : s5.nodes[secondRef]? = some sn5 := by
    rw [← List.get?_eq_getElem?]
    exact hsn
  have hgn' : s5.nodes[g]? = some gn5 := by
    rw [← List.get?_eq_getElem?]
    exact hgn
  refine ⟨?_, ?_, ?_, ?_, ?_, ?_, ?_⟩
  · simp [sr_reparent, updNode_head]
  · simp [sr_reparent, updNode_tree]
  · simp [sr_reparent, updNode_length]
  · simp [sr_reparent, hd2, updNode_getElem?, h12, h21, hg1, hg2, Ne.symm hg1,
      Ne.symm hg2, hfn', hsn', hgn']
  · simp [sr_reparent, hd2, updNode_getElem?, h12, h21, hg1, hg2, Ne.symm hg1,
      Ne.symm hg2, hfn', hsn', hgn']
  · simp [sr_reparent, hd2, updNode_getElem?, h12, h21, hg1, hg2, Ne.symm hg1,
      Ne.symm hg2, hfn', hsn', hgn']
  · intro x hx1 hx2 hx3
    simp [sr_reparent, hd2, updNode_getElem?, hx1, hx2, hx3]

theorem dr_depths_get? {s : BinarySearchTree} {firstRef secondRef thirdRef : Nat}
    {d : Directions} {fn sn thn : BinarySearchTreeNode}
    (hfn : s.nodes.get? firstRef = some fn)
    (hsn : s.nodes.get? secondRef = some sn)
    (hthn : s.nodes.get? thirdRef = some thn)
    (h12 : firstRef ≠ secondRef) (h13 : firstRef ≠ thirdRef) (h23 : secondRef ≠ thirdRef) :
    (dr_depths s firstRef secondRef thirdRef d).head = s.head ∧
    (dr_depths s firstRef secondRef thirdRef d).tree = s.tree ∧
    (dr_depths s firstRef secondRef thirdRef d).nodes.length = s.nodes.length ∧
    (dr_depths s firstRef secondRef thirdRef d).nodes.get? firstRef =
      some { fn with one_side_depth := Directions.get_depth d * 2 } ∧
    (dr_depths s firstRef secondRef thirdRef d).nodes.get? secondRef =
      some { sn with one_side_depth := Directions.get_depth d } ∧
    (dr_depths s firstRef secondRef thirdRef d).nodes.get? thirdRef =
      some { thn with one_side_depth := 0 } ∧
    (∀ x, x ≠ firstRef → x ≠ secondRef → x ≠ thirdRef →
      (dr_depths s firstRef secondRef thirdRef d).nodes.get? x = s.nodes.get? x) := by
  have hfn' : s.nodes[firstRef]? = some fn := by
    rw [← List.get?_eq_getElem?]
    exact hfn
  have hsn' : s.nodes[secondRef]? = some sn := by
    rw [← List.get?_eq_getElem?]
    exact hsn
  have hthn' : s.nodes[thirdRef]? = some thn := by
    rw [← List.get?_eq_getElem?]
    exact hthn
  refine ⟨?_, ?_, ?_, ?_, ?_, ?_, ?_⟩
  · simp [dr_depths, updNode_head]
  · simp [dr_depths, updNode_tree]
  · simp [dr_depths, updNode_length]
  · simp [dr_depths, updNode_getElem?, h12, h13, h23, Ne.symm h12, Ne.symm h13,
      Ne.symm h23, hfn', hsn', hthn']
  · simp [dr_depths, updNode_getElem?, h12, h13, h23, Ne.symm h12, Ne.symm h13,
      Ne.symm h23, hfn', hsn', hthn']
  · simp [dr_depths, updNode_getElem?, h12, h13, h23, Ne.symm h12, Ne.symm h13,
      Ne.symm h23, hfn', hsn', hthn']
  · intro x hx1 hx2 hx3
    simp [dr_depths, updNode_getElem?, hx1, hx2, hx3]

theorem dr_restructure_get? {s3 : BinarySearchTree} {firstRef secondRef thirdRef : Nat}
    {d : Directions} {fn3 sn3 thn : BinarySearchTreeNode}
    (hfn : s3.nodes.get? firstRef = some fn3)
    (hsn : s3.nodes.get? secondRef = some sn3)
    (hthn : s3.nodes.get? thirdRef = some thn)
    (h12 : firstRef ≠ secondRef) (h13 : firstRef ≠ thirdRef) (h23 : secondRef ≠ thirdRef)
    (hscne : ∀ z, thn.child d = some z → z ≠ firstRef ∧ z ≠ secondRef ∧ z ≠ thirdRef) :
    (dr_restructure s3 firstRef secondRef thirdRef d thn).head = s3.head ∧
    (dr_restructure s3 firstRef secondRef thirdRef d thn).tree = s3.tree ∧
    (dr_restructure s3 firstRef secondRef thirdRef d thn).nodes.length = s3.nodes.length ∧
    (dr_restructure s3 firstRef secondRef thirdRef d thn).nodes.get? firstRef =
      some (fn3.setChild d (some thirdRef)) ∧
    (dr_restructure s3 firstRef secondRef thirdRef d thn).nodes.get? secondRef =
      some { sn3.setChild d.get_opposite (thn.child d) with parent := some thirdRef } ∧
    (dr_restructure s3 firstRef secondRef thirdRef d thn).nodes.get? thirdRef =
      some { thn.setChild d (some secondRef) with parent := some firstRef } ∧
    (∀ z zn, thn.child d = some z → s3.nodes.get? z = some zn →
      (dr_restructure s3 firstRef secondRef thirdRef d thn).nodes.get? z =
        some { zn with parent := some secondRef }) ∧
    (∀ x, x ≠ firstRef → x ≠ secondRef → x ≠ thirdRef →
      (∀ z, thn.child d = some z → x ≠ z) →
      (dr_restructure s3 firstRef secondRef thirdRef d thn).nodes.get? x =
        s3.nodes.get? x) := by
  have hfn' : s3.nodes[firstRef]? = some fn3 := by
    rw [← List.get?_eq_getElem?]
    exact hfn
  have hsn' : s3.nodes[secondRef]? = some sn3 := by
    rw [← List.get?_eq_getElem?]
    exact hsn
  have hthn' : s3.nodes[thirdRef]? = some thn := by
    rw [← List.get?_eq_getElem?]
    exact hthn
  cases hscv : thn.child d with
  | none =>
    refine ⟨?_, ?_, ?_, ?_, ?_, ?_, ?_, ?_⟩
    · simp [dr_restructure, hscv, updNode_head]
    · simp [dr_restructure, hscv, updNode_tree]
    · simp [dr_restructure, hscv, updNode_length]
    · simp [dr_restructure, hscv, updNode_getElem?, h12, h13, h23, Ne.symm h12,
        Ne.symm h13, Ne.symm h23, hfn', hsn', hthn']
    · simp [dr_restructure, hscv, updNode_getElem?, h12, h13, h23, Ne.symm h12,
        Ne.symm h13, Ne.symm h23, hfn', hsn', hthn']
    · simp [dr_restructure, hscv, updNode_getElem?, h12, h13, h23, Ne.symm h12,
        Ne.symm h13, Ne.symm h23, hfn', hsn', hthn']
    · intro z zn hz
      simp at hz
    · intro x hx1 hx2 hx3 _
      simp [dr_restructure, hscv, updNode_getElem?, hx1, hx2, hx3]
  | some z =>
    obtain ⟨hz1, hz2, hz3⟩ := hscne z hscv
    refine ⟨?_, ?_, ?_, ?_, ?_, ?_, ?_, ?_⟩
    · simp [dr_restructure, hscv, updNode_head]
    · simp [dr_restructure, hscv, updNode_tree]
    · simp [dr_restructure, hscv, updNode_length]
    · simp [dr_restructure, hscv, updNode_getElem?, h12, h13, h23, Ne.symm h12,
        Ne.symm h13, Ne.symm h23, hz1, hz2, hz3, Ne.symm hz1, Ne.symm hz2,
        Ne.symm hz3, hfn', hsn', hthn']
    · simp [dr_restructure, hscv, updNode_getElem?, h12, h13, h23, Ne.symm h12,
        Ne.symm h13, Ne.symm h23, hz1, hz2, hz3, Ne.symm hz1, Ne.symm hz2,
        Ne.symm hz3, hfn', hsn', hthn']
    · simp [dr_restructure, hscv, updNode_getElem?, h12, h13, h23, Ne.symm h12,
        Ne.symm h13, Ne.symm h23, hz1, hz2, hz3, Ne.symm hz1, Ne.symm hz2,
        Ne.symm hz3, hfn', hsn', hthn']
    · intro z' zn hz' hzn
      have hzz : z' = z := (Option.some.inj hz').symm
      subst hzz
      have hzn' : s3.nodes[z']? = some zn := by
        rw [← List.get?_eq_getElem?]
        exact hzn
      simp [dr_restructure, hscv, updNode_getElem?, h12, h13, h23, Ne.symm h12,
        Ne.symm h13, Ne.symm h23, hz1, hz2, hz3, Ne.symm hz1, Ne.symm hz2,
        Ne.symm hz3, hzn']
    · intro x hx1 hx2 hx3 hx4
      have hxz : x ≠ z := hx4 z rfl
      simp [dr_restructure, hscv, updNode_getElem?, hx1, hx2, hx3, hxz]

theorem get_directions_congr {s s' : BinarySearchTree} {g x : Nat}
    (hg : s'.nodes.get? g = s.nodes.get? g)
    (hid : ∀ r, (s'.nodes.get? r).map BinarySearchTreeNode.id =
      (s.nodes.get? r).map BinarySearchTreeNode.id) :
    get_directions s' g x = get_directions s g x := by
  unfold get_directions
  rw [hg]
  cases hgn : s.nodes.get? g with
  | none => rfl
  | some gn =>
    simp only [Option.some.injEq]
    cases hgl : gn.left with
    | none => rfl
    | some l =>
      show (match s'.nodes.get? l, s'.nodes.get? x with
            | some ln, some c => if ln.id = c.id then Directions.Left else Directions.Right
            | _, _ => Directions.Right) =
           (match s.nodes.get? l, s.nodes.get? x with
            | some ln, some c => if ln.id = c.id then Directions.Left else Directions.Right
            | _, _ => Directions.Right)
      have hl := hid l
      have hx := hid x
      cases h1 : s'.nodes.get? l with
      | none =>
        rw [h1] at hl
        cases h2 : s.nodes.get? l with
        | none => rfl
        | some nl => rw [h2] at hl; simp at hl
      | some nl' =>
        rw [h1] at hl
        cases h2 : s.nodes.get? l with
        | none => rw [h2] at hl; simp at hl
        | some nl =>
          rw [h2] at hl
          simp only [Option.map_some', Option.some.injEq] at hl
          cases h3 : s'.nodes.get? x with
          | none =>
            rw [h3] at hx
            cases h4 : s.nodes.get? x with
            | none => rfl
            | some nx => rw [h4] at hx; simp at hx
          | some nx' =>
            rw [h3] at hx
            cases h4 : s.nodes.get? x with
            | none => rw [h4] at hx; simp at hx
            | some nx =>
              rw [h4] at hx
              simp only [Option.map_some', Option.some.injEq] at hx
              simp [hl, hx]

theorem simple_rotation_spec_root {s : BinarySearchTree} {firstRef secondRef : Nat}
    {d : Directions} {fn sn : BinarySearchTreeNode}
    (hfn : s.nodes.get? firstRef = some fn)
    (hsc : fn.child d = some secondRef)
    (hsn : s.nodes.get? secondRef = some sn)
    (h12 : firstRef ≠ secondRef)
    (hocne : ∀ z, sn.child d.get_opposite = some z → z ≠ firstRef ∧ z ≠ secondRef)
    (hpar : fn.parent = none) :
    ∃ s', simple_rotation s firstRef d = some s' ∧
      s'.head = secondRef ∧ s'.tree = s.tree ∧ s'.nodes.length = s.nodes.length ∧
      s'.nodes.get? firstRef = some
        { fn.setChild d (sn.child d.get_opposite) with
          one_side_depth := 0, parent := some secondRef } ∧
      s'.nodes.get? secondRef = some
        { sn.setChild d.get_opposite (some firstRef) with
          one_side_depth := 0, parent := none } ∧
      (∀ z zn, sn.child d.get_opposite = some z → s.nodes.get? z = some zn →
        s'.nodes.get? z = some { zn with parent := some firstRef }) ∧
      (∀ x, x ≠ firstRef → x ≠ secondRef →
        (∀ z, sn.child d.get_opposite = some z → x ≠ z) →
        s'.nodes.get? x = s.nodes.get? x) := by
  obtain ⟨hH, hT, hL, hF, hS, hOC, hE⟩ := sr_restructure_get? hfn hsn h12 hocne
  have heval : simple_rotation s firstRef d =
      some (sr_root (sr_restructure s firstRef secondRef d sn) firstRef secondRef) := by
    unfold simple_rotation
    rw [hfn]
    simp only [Option.bind_eq_bind, Option.some_bind]
    rw [hsc]
    simp only [Option.bind_eq_bind, Option.some_bind]
    rw [hsn]
    simp only [Option.bind_eq_bind, Option.some_bind]
    rw [hF]
    simp only [Option.bind_eq_bind, Option.some_bind]
    simp [hpar]
  obtain ⟨hH2, hT2, hL2, hF2, hS2, hE2⟩ := sr_root_get? hF hS h12
  refine ⟨_, heval, hH2, hT2.trans hT, hL2.trans hL, ?_, ?_, ?_, ?_⟩
  · rw [hF2]
  · rw [hS2]
  · intro z zn hz hzn
    obtain ⟨hz1, hz2⟩ := hocne z hz
    rw [hE2 z hz1 hz2]
    exact hOC z zn hz hzn
  · intro x hx1 hx2 hx3
    rw [hE2 x hx1 hx2]
    exact hE x hx1 hx2 hx3

theorem simple_rotation_spec_gp {s : BinarySearchTree} {firstRef secondRef g : Nat}
    {d d2 : Directions} {fn sn gn : BinarySearchTreeNode}
    (hfn : s.nodes.get? firstRef = some fn)
    (hsc : fn.child d = some secondRef)
    (hsn : s.nodes.get? secondRef = some sn)
    (h12 : firstRef ≠ secondRef)
    (hocne : ∀ z, sn.child d.get_opposite = some z → z ≠ firstRef ∧ z ≠ secondRef)
    (hocex : ∀ z, sn.child d.get_opposite = some z → ∃ zn, s.nodes.get? z = some zn)
    (hpar : fn.parent = some g)
    (hgn : s.nodes.get? g = some gn)
    (hg1 : g ≠ firstRef) (hg2 : g ≠ secondRef)
    (hgoc : ∀ z, sn.child d.get_opposite = some z → g ≠ z)
    (hd2 : get_directions s g firstRef = d2) :
    ∃ s', simple_rotation s firstRef d = some s' ∧
      s'.head = s.head ∧ s'.tree = s.tree ∧ s'.nodes.length = s.nodes.length ∧
      s'.nodes.get? firstRef = some
        { fn.setChild d (sn.child d.get_opposite) with
          one_side_depth := 0, parent := some secondRef } ∧
      s'.nodes.get? secondRef = some
        { sn.setChild d.get_opposite (some firstRef) with
          one_side_depth := 0, parent := some g } ∧
      s'.nodes.get? g = some (gn.setChild d2 (some secondRef)) ∧
      (∀ z zn, sn.child d.get_opposite = some z → s.nodes.get? z = some zn →
        s'.nodes.get? z = some { zn with parent := some firstRef }) ∧
      (∀ x, x ≠ firstRef → x ≠ secondRef → x ≠ g →
        (∀ z, sn.child d.get_opposite = some z → x ≠ z) →
        s'.nodes.get? x = s.nodes.get? x) := by
  obtain ⟨hH, hT, hL, hF, hS, hOC, hE⟩ := sr_restructure_get? hfn hsn h12 hocne
  have hgpres : (sr_restructure s firstRef secondRef d sn).nodes.get? g = s.nodes.get? g :=
    hE g hg1 hg2 hgoc
  have hidmap : ∀ r, ((sr_restructure s firstRef secondRef d sn).nodes.get? r).map
      BinarySearchTreeNode.id = (s.nodes.get? r).map BinarySearchTreeNode.id := by
    intro r
    by_cases hr1 : r = firstRef
    · subst hr1
      rw [hF, hfn]
      simp
    · by_cases hr2 : r = secondRef
      · subst hr2
        rw [hS, hsn]
        simp
      · by_cases hr3 : ∃ z, sn.child d.get_opposite = some z ∧ r = z
        · obtain ⟨z, hz, hrz⟩ := hr3
          obtain ⟨zn, hzn⟩ := hocex z hz
          rw [hrz, hOC z zn hz hzn, hzn]
          simp
        · rw [hE r hr1 hr2]
          intro z hz hrz
          exact hr3 ⟨z, hz, hrz⟩
  have hd2' : get_directions (sr_restructure s firstRef secondRef d sn) g firstRef = d2 :=
    (get_directions_congr hgpres hidmap).trans hd2
  have heval : simple_rotation s firstRef d =
      some (sr_reparent (sr_restructure s firstRef secondRef d sn) firstRef secondRef g) := by
    unfold simple_rotation
    rw [hfn]
    simp only [Option.bind_eq_bind, Option.some_bind]
    rw [hsc]
    simp only [Option.bind_eq_bind, Option.some_bind]
    rw [hsn]
    simp only [Option.bind_eq_bind, Option.some_bind]
    rw [hF]
    simp only [Option.bind_eq_bind, Option.some_bind]
    simp [hpar]
  have hgn5 : (sr_restructure s firstRef secondRef d sn).nodes.get? g = some gn :=
    hgpres.trans hgn
  obtain ⟨hH2, hT2, hL2, hF2, hS2, hG2, hE2⟩ :=
    sr_reparent_get? hF hS hgn5 h12 hg1 hg2 hd2'
  refine ⟨_, heval, hH2.trans hH, hT2.trans hT, hL2.trans hL, ?_, ?_, ?_, ?_, ?_⟩
  · rw [hF2]
  · rw [hS2]
  · rw [hG2]
  · intro z zn hz hzn
    obtain ⟨hz1, hz2⟩ := hocne z hz
    have hzg : z ≠ g := fun h => (hgoc z hz) h.symm
    rw [hE2 z hz1 hz2 hzg]
    exact hOC z zn hz hzn
  · intro x hx1 hx2 hxg hx3
    rw [hE2 x hx1 hx2 hxg]
    exact hE x hx1 hx2 hx3

theorem double_rotation_spec {s : BinarySearchTree} {firstRef secondRef thirdRef : Nat}
    {d : Directions} {fn sn thn : BinarySearchTreeNode}
    (hfn : s.nodes.get? firstRef = some fn)
    (hsc : fn.child d = some secondRef)
    (hsn : s.nodes.get? secondRef = some sn)
    (hth : sn.child d.get_opposite = some thirdRef)
    (hthn : s.nodes.get? thirdRef = some thn)
    (h12 : firstRef ≠ secondRef) (h13 : firstRef ≠ thirdRef) (h23 : secondRef ≠ thirdRef)
    (hscne : ∀ z, thn.child d = some z → z ≠ firstRef ∧ z ≠ secondRef ∧ z ≠ thirdRef) :
    ∃ s', double_rotation s firstRef d = some s' ∧
      s'.head = s.head ∧ s'.tree = s.tree ∧ s'.nodes.length = s.nodes.length ∧
      s'.nodes.get? firstRef = some
        { fn.setChild d (some thirdRef) with
          one_side_depth := Directions.get_depth d * 2 } ∧
      s'.nodes.get? secondRef = some
        { sn.setChild d.get_opposite (thn.child d) with
          one_side_depth := Directions.get_depth d, parent := some thirdRef } ∧
      s'.nodes.get? thirdRef = some
        { thn.setChild d (some secondRef) with
          one_side_depth := 0, parent := some firstRef } ∧
      (∀ z zn, thn.child d = some z → s.nodes.get? z = some zn →
        s'.nodes.get? z = some { zn with parent := some secondRef }) ∧
      (∀ x, x ≠ firstRef → x ≠ secondRef → x ≠ thirdRef →
        (∀ z, thn.child d = some z → x ≠ z) →
        s'.nodes.get? x = s.nodes.get? x) := by
  obtain ⟨hH1, hT1, hL1, hF1, hS1, hTh1, hE1⟩ := dr_depths_get? hfn hsn hthn h12 h13 h23
    (d := d)
  have hchild3 : ({ thn with one_side_depth := 0 } : BinarySearchTreeNode).child d =
      thn.child d := by
    cases d <;> rfl
  have hscne' : ∀ z, ({ thn with one_side_depth := 0 } : BinarySearchTreeNode).child d =
      some z → z ≠ firstRef ∧ z ≠ secondRef ∧ z ≠ thirdRef := by
    intro z hz
    rw [hchild3] at hz
    exact hscne z hz
  obtain ⟨hH2, hT2, hL2, hF2, hS2, hTh2, hSC2, hE2⟩ :=
    dr_restructure_get? hF1 hS1 hTh1 h12 h13 h23 hscne'
  have heval : double_rotation s firstRef d =
      some (dr_restructure (dr_depths s firstRef secondRef thirdRef d) firstRef secondRef
        thirdRef d { thn with one_side_depth := 0 }) := by
    unfold double_rotation
    rw [hfn]
    simp only [Option.bind_eq_bind, Option.some_bind]
    rw [hsc]
    simp only [Option.bind_eq_bind, Option.some_bind]
    rw [hsn]
    simp only [Option.bind_eq_bind, Option.some_bind]
    rw [hth]
    simp only [Option.bind_eq_bind, Option.some_bind]
    rw [hTh1]
    simp only [Option.bind_eq_bind, Option.some_bind]
    rfl
  refine ⟨_, heval, hH2.trans hH1, hT2.trans hT1, hL2.trans hL1, ?_, ?_, ?_, ?_, ?_⟩
  · rw [hF2, setChild_depthset]
  · rw [hS2, hchild3, setChild_depthset]
  · rw [hTh2, setChild_depthset]
  · intro z zn hz hzn
    obtain ⟨hz1, hz2, hz3⟩ := hscne z hz
    have hzn3 : (dr_depths s firstRef secondRef thirdRef d).nodes.get? z = some zn := by
      rw [hE1 z hz1 hz2 hz3]
      exact hzn
    rw [hSC2 z zn (by rw [hchild3]; exact hz) hzn3]
  · intro x hx1 hx2 hx3 hx4
    have hx4' : ∀ z, ({ thn with one_side_depth := 0 } : BinarySearchTreeNode).child d =
        some z → x ≠ z := by
      intro z hz
      rw [hchild3] at hz
      exact hx4 z hz
    rw [hE2 x hx1 hx2 hx3 hx4']
    exact hE1 x hx1 hx2 hx3

/-! ## Grafting a fresh leaf -/

theorem graftAt_nd (r : Nat) (l rr : RTree) (p : Nat) (d : Directions) (nw : Nat) :
    graftAt (RTree.nd r l rr) p d nw =
      if r = p then
        match d with
        | Directions.Left => RTree.nd r (RTree.nd nw RTree.leaf RTree.leaf) rr
        | Directions.Right => RTree.nd r l (RTree.nd nw RTree.leaf RTree.leaf)
      else RTree.nd r (graftAt l p d nw) (graftAt rr p d nw) := by
  cases d <;> rfl

theorem graftAt_not_mem : ∀ {w : RTree} {p : Nat} (d : Directions) (nw : Nat),
    p ∉ w.inorder → graftAt w p d nw = w := by
  intro w
  induction w with
  | leaf => intro p d nw _; rfl
  | nd r l rr ihl ihr =>
    intro p d nw h
    simp only [RTree.inorder, List.mem_append, List.mem_cons, not_or] at h
    rw [graftAt_nd, if_neg (fun hc => h.2.1 hc.symm)]
    rw [ihl d nw h.1, ihr d nw h.2.2]

theorem readsTo_graftAt {s s' : BinarySearchTree} {d : Directions} {nw : Nat}
    {nwn : BinarySearchTreeNode}
    (hnw : s'.nodes.get? nw = some nwn) (hnwl : nwn.left = none) (hnwr : nwn.right = none) :
    ∀ {u : RTree} {ρ p : Nat}, readsTo s (some ρ) u → u.inorder.Nodup →
      p ∈ u.inorder → nw ∉ u.inorder →
      (∀ x ∈ u.inorder, x ≠ p → childrenOf s' x = childrenOf s x) →
      (∀ pn, s.nodes.get? p = some pn → s'.nodes.get? p =
        some (pn.setChild d (some nw))) →
      readsTo s' (some ρ) (graftAt u p d nw) := by
  intro u
  induction u with
  | leaf => intro ρ p _ _ h _ _ _; simp [RTree.inorder] at h
  | nd r l rr ihl ihr =>
    intro ρ p hread hnd hp hnwm hagree hpn
    obtain ⟨n, lt, rt, hn, heq, hl, hr⟩ := readsTo_some_elim hread
    injection heq with h1 h2 h3
    subst h1
    subst h2
    subst h3
    have hndl : l.inorder.Nodup := by
      simp only [RTree.inorder, List.nodup_append, List.nodup_cons] at hnd
      exact hnd.1
    have hndr : rr.inorder.Nodup := by
      simp only [RTree.inorder, List.nodup_append, List.nodup_cons] at hnd
      exact hnd.2.1.2
    have hdisj : l.inorder.Disjoint (r :: rr.inorder) := by
      simp only [RTree.inorder, List.nodup_append] at hnd
      exact hnd.2.2
    have hnwleaf : readsTo s' (some nw) (RTree.nd nw RTree.leaf RTree.leaf) := by
      refine readsTo_intro hnw ?_ ?_
      · rw [hnwl]; exact readsTo_leaf _ _ rfl
      · rw [hnwr]; exact readsTo_leaf _ _ rfl
    by_cases hrp : r = p
    · subst hrp
      rw [graftAt_nd, if_pos rfl]
      have hpn' := hpn n hn
      cases d with
      | Left =>
        refine readsTo_intro (n := n.setChild Directions.Left (some nw)) hpn' ?_ ?_
        · show readsTo s' (some nw) (RTree.nd nw RTree.leaf RTree.leaf)
          exact hnwleaf
        · show readsTo s' n.right rr
          apply readsTo_frame hr
          intro x hx
          apply hagree x (by simp [RTree.inorder, hx])
          intro hc
          subst hc
          simp only [RTree.inorder, List.nodup_append, List.nodup_cons] at hnd
          exact hnd.2.1.1 hx
      | Right =>
        refine readsTo_intro (n := n.setChild Directions.Right (some nw)) hpn' ?_ ?_
        · show readsTo s' n.left l
          apply readsTo_frame hl
          intro x hx
          apply hagree x (by simp [RTree.inorder, hx])
          intro hc
          subst hc
          exact hdisj hx (List.mem_cons_self _ _)
        · show readsTo s' (some nw) (RTree.nd nw RTree.leaf RTree.leaf)
          exact hnwleaf
    · rw [graftAt_nd, if_neg hrp]
      have hagr : childrenOf s' r = childrenOf s r := hagree r (by simp [RTree.inorder]) hrp
      rw [childrenOf, childrenOf, hn] at hagr
      simp only [Option.map_eq_some', Option.map_some', Option.some.injEq,
        Prod.mk.injEq] at hagr
      obtain ⟨n', hn', hleft, hright⟩ := hagr
      have hpm : p ∈ l.inorder ∨ p ∈ rr.inorder := by
        simp only [RTree.inorder, List.mem_append, List.mem_cons] at hp
        rcases hp with hp | hp | hp
        · exact Or.inl hp
        · exact absurd hp.symm hrp
        · exact Or.inr hp
      rcases hpm with hpl | hpr
      · have hprr : p ∉ rr.inorder := fun hc => hdisj hpl (List.mem_cons_of_mem r hc)
        rw [graftAt_not_mem d nw hprr]
        have hlg : readsTo s' n.left (graftAt l p d nw) := by
          cases l with
          | leaf => simp [RTree.inorder] at hpl
          | nd a b c =>
            have hroot : n.left = some a := readsTo_root hl
            rw [hroot]
            refine ihl (hroot ▸ hl) hndl hpl
              (fun hc => hnwm (by
                simp only [RTree.inorder, List.mem_append, List.mem_cons] at hc ⊢
                tauto)) ?_ hpn
            intro x hx hxp
            refine hagree x ?_ hxp
            simp only [RTree.inorder, List.mem_append, List.mem_cons] at hx ⊢
            tauto
        have hrfr : readsTo s' n.right rr := by
          apply readsTo_frame hr
          intro x hx
          apply hagree x (by simp [RTree.inorder, hx])
          intro hc
          subst hc
          exact hdisj hpl (List.mem_cons_of_mem r hx)
        exact readsTo_intro hn' (hleft ▸ hlg) (hright ▸ hrfr)
      · have hpll : p ∉ l.inorder := fun hc => hdisj hc (List.mem_cons_of_mem r hpr)
        rw [graftAt_not_mem d nw hpll]
        have hrg : readsTo s' n.right (graftAt rr p d nw) := by
          cases rr with
          | leaf => simp [RTree.inorder] at hpr
          | nd a b c =>
            have hroot : n.right = some a := readsTo_root hr
            rw [hroot]
            refine ihr (hroot ▸ hr) hndr hpr
              (fun hc => hnwm (by
                simp only [RTree.inorder, List.mem_append, List.mem_cons] at hc ⊢
                tauto)) ?_ hpn
            intro x hx hxp
            refine hagree x ?_ hxp
            simp only [RTree.inorder, List.mem_append, List.mem_cons] at hx ⊢
            tauto
        have hlfr : readsTo s' n.left l := by
          apply readsTo_frame hl
          intro x hx
          apply hagree x (by simp [RTree.inorder, hx])
          intro hc
          subst hc
          exact hdisj hx (List.mem_cons_of_mem r hpr)
        exact readsTo_intro hn' (hleft ▸ hlfr) (hright ▸ hrg)

/-! ## Unconditional observations: rotations and the climb never touch the
index, the arena length, or any node's `id`/`value` -/

theorem updNode_map_id {s : BinarySearchTree} {r : Nat}
    {f : BinarySearchTreeNode → BinarySearchTreeNode} (hf : ∀ n, (f n).id = n.id)
    (x : Nat) : ((updNode s r f).nodes.get? x).map BinarySearchTreeNode.id =
      (s.nodes.get? x).map BinarySearchTreeNode.id := by
  rw [updNode_get?]
  by_cases hx : x = r
  · subst hx
    rw [if_pos rfl]
    cases s.nodes.get? x <;> simp [hf]
  · rw [if_neg hx]

theorem updNode_map_value {s : BinarySearchTree} {r : Nat}
    {f : BinarySearchTreeNode → BinarySearchTreeNode} (hf : ∀ n, (f n).value = n.value)
    (x : Nat) : ((updNode s r f).nodes.get? x).map BinarySearchTreeNode.value =
      (s.nodes.get? x).map BinarySearchTreeNode.value := by
  rw [updNode_get?]
  by_cases hx : x = r
  · subst hx
    rw [if_pos rfl]
    cases s.nodes.get? x <;> simp [hf]
  · rw [if_neg hx]

theorem sr_restructure_obs (s : BinarySearchTree) (fr sc : Nat) (d : Directions)
    (n : BinarySearchTreeNode) :
    (sr_restructure s fr sc d n).tree = s.tree ∧
    (sr_restructure s fr sc d n).nodes.length = s.nodes.length ∧
    (∀ x, ((sr_restructure s fr sc d n).nodes.get? x).map BinarySearchTreeNode.id =
      (s.nodes.get? x).map BinarySearchTreeNode.id) ∧
    (∀ x, ((sr_restructure s fr sc d n).nodes.get? x).map BinarySearchTreeNode.value =
      (s.nodes.get? x).map BinarySearchTreeNode.value) := by
  simp only [sr_restructure]
  cases hoc : n.child d.get_opposite with
  | none =>
    simp only [hoc]
    refine ⟨by simp [updNode_tree], by simp [updNode_length], ?_, ?_⟩
    · intro x
      rw [updNode_map_id (by intro m; rfl), updNode_map_id (by intro m; rfl),
        updNode_map_id (by intro m; simp), updNode_map_id (by intro m; simp),
        updNode_map_id (by intro m; simp)]
    · intro x
      rw [updNode_map_value (by intro m; rfl), updNode_map_value (by intro m; rfl),
        updNode_map_value (by intro m; simp), updNode_map_value (by intro m; simp),
        updNode_map_value (by intro m; simp)]
  | some oc =>
    simp only [hoc]
    refine ⟨by simp [updNode_tree], by simp [updNode_length], ?_, ?_⟩
    · intro x
      rw [updNode_map_id (by intro m; rfl), updNode_map_id (by intro m; rfl),
        updNode_map_id (by intro m; simp), updNode_map_id (by intro m; simp),
        updNode_map_id (by intro m; rfl), updNode_map_id (by intro m; simp)]
    · intro x
      rw [updNode_map_value (by intro m; rfl), updNode_map_value (by intro m; rfl),
        updNode_map_value (by intro m; simp), updNode_map_value (by intro m; simp),
        updNode_map_value (by intro m; rfl), updNode_map_value (by intro m; simp)]

theorem mk_nodes (ns : List BinarySearchTreeNode) (h : Nat) (tr : List (Nat × Nat)) :
    (BinarySearchTree.mk ns h tr).nodes = ns := rfl

theorem mk_tree (ns : List BinarySearchTreeNode) (h : Nat) (tr : List (Nat × Nat)) :
    (BinarySearchTree.mk ns h tr).tree = tr := rfl

theorem mk_head (ns : List BinarySearchTreeNode) (h : Nat) (tr : List (Nat × Nat)) :
    (BinarySearchTree.mk ns h tr).head = h := rfl

theorem sr_root_obs (s : BinarySearchTree) (fr sc : Nat) :
    (sr_root s fr sc).tree = s.tree ∧
    (sr_root s fr sc).nodes.length = s.nodes.length ∧
    (∀ x, ((sr_root s fr sc).nodes.get? x).map BinarySearchTreeNode.id =
      (s.nodes.get? x).map BinarySearchTreeNode.id) ∧
    (∀ x, ((sr_root s fr sc).nodes.get? x).map BinarySearchTreeNode.value =
      (s.nodes.get? x).map BinarySearchTreeNode.value) := by
  simp only [sr_root]
  refine ⟨?_, ?_, ?_, ?_⟩
  · rw [updNode_tree, mk_tree, updNode_tree]
  · rw [updNode_length, mk_nodes, updNode_length]
  · intro x
    rw [updNode_map_id (by intro m; rfl), mk_nodes,
      updNode_map_id (by intro m; rfl)]
  · intro x
    rw [updNode_map_value (by intro m; rfl), mk_nodes,
      updNode_map_value (by intro m; rfl)]

theorem sr_reparent_obs (s : BinarySearchTree) (fr sc g : Nat) :
    (sr_reparent s fr sc g).tree = s.tree ∧
    (sr_reparent s fr sc g).nodes.length = s.nodes.length ∧
    (∀ x, ((sr_reparent s fr sc g).nodes.get? x).map BinarySearchTreeNode.id =
      (s.nodes.get? x).map BinarySearchTreeNode.id) ∧
    (∀ x, ((sr_reparent s fr sc g).nodes.get? x).map BinarySearchTreeNode.value =
      (s.nodes.get? x).map BinarySearchTreeNode.value) := by
  simp only [sr_reparent]
  refine ⟨by simp [updNode_tree], by simp [updNode_length], ?_, ?_⟩
  · intro x
    rw [updNode_map_id (by intro m; rfl), updNode_map_id (by intro m; simp),
      updNode_map_id (by intro m; rfl)]
  · intro x
    rw [updNode_map_value (by intro m; rfl), updNode_map_value (by intro m; simp),
      updNode_map_value (by intro m; rfl)]

theorem dr_depths_obs (s : BinarySearchTree) (fr sc th : Nat) (d : Directions) :
    (dr_depths s fr sc th d).tree = s.tree ∧
    (dr_depths s fr sc th d).nodes.length = s.nodes.length ∧
    (∀ x, ((dr_depths s fr sc th d).nodes.get? x).map BinarySearchTreeNode.id =
      (s.nodes.get? x).map BinarySearchTreeNode.id) ∧
    (∀ x, ((dr_depths s fr sc th d).nodes.get? x).map BinarySearchTreeNode.value =
      (s.nodes.get? x).map BinarySearchTreeNode.value) := by
  simp only [dr_depths]
  refine ⟨by simp [updNode_tree], by simp [updNode_length], ?_, ?_⟩
  · intro x
    rw [updNode_map_id (by intro m; rfl), updNode_map_id (by intro m; rfl),
      updNode_map_id (by intro m; rfl)]
  · intro x
    rw [updNode_map_value (by intro m; rfl), updNode_map_value (by intro m; rfl),
      updNode_map_value (by intro m; rfl)]

theorem dr_restructure_obs (s : BinarySearchTree) (fr sc th : Nat) (d : Directions)
    (n : BinarySearchTreeNode) :
    (dr_restructure s fr sc th d n).tree = s.tree ∧
    (dr_restructure s fr sc th d n).nodes.length = s.nodes.length ∧
    (∀ x, ((dr_restructure s fr sc th d n).nodes.get? x).map BinarySearchTreeNode.id =
      (s.nodes.get? x).map BinarySearchTreeNode.id) ∧
    (∀ x, ((dr_restructure s fr sc th d n).nodes.get? x).map BinarySearchTreeNode.value =
      (s.nodes.get? x).map BinarySearchTreeNode.value) := by
  simp only [dr_restructure]
  cases hoc : n.child d with
  | none =>
    simp only [hoc]
    refine ⟨by simp [updNode_tree], by simp [updNode_length], ?_, ?_⟩
    · intro x
      rw [updNode_map_id (by intro m; rfl), updNode_map_id (by intro m; simp),
        updNode_map_id (by intro m; rfl), updNode_map_id (by intro m; simp),
        updNode_map_id (by intro m; simp), updNode_map_id (by intro m; simp)]
    · intro x
      rw [updNode_map_value (by intro m; rfl), updNode_map_value (by intro m; simp),
        updNode_map_value (by intro m; rfl), updNode_map_value (by intro m; simp),
        updNode_map_value (by intro m; simp), updNode_map_value (by intro m; simp)]
  | some sc2 =>
    simp only [hoc]
    refine ⟨by simp [updNode_tree], by simp [updNode_length], ?_, ?_⟩
    · intro x
      rw [updNode_map_id (by intro m; rfl), updNode_map_id (by intro m; simp),
        updNode_map_id (by intro m; rfl), updNode_map_id (by intro m; simp),
        updNode_map_id (by intro m; simp), updNode_map_id (by intro m; rfl),
        updNode_map_id (by intro m; simp)]
    · intro x
      rw [updNode_map_value (by intro m; rfl), updNode_map_value (by intro m; simp),
        updNode_map_value (by intro m; rfl), updNode_map_value (by intro m; simp),
        updNode_map_value (by intro m; simp), updNode_map_value (by intro m; rfl),
        updNode_map_value (by intro m; simp)]

theorem simple_rotation_elim {s s' : BinarySearchTree} {f : Nat} {d : Directions}
    (h : simple_rotation s f d = some s') :
    ∃ fn scRef sn, s.nodes.get? f = some fn ∧ fn.child d = some scRef ∧
      s.nodes.get? scRef = some sn ∧
      ∃ f5, (sr_restructure s f scRef d sn).nodes.get? f = some f5 ∧
        ((f5.parent = none ∧ s' = sr_root (sr_restructure s f scRef d sn) f scRef) ∨
         (∃ g, f5.parent = some g ∧
           s' = sr_reparent (sr_restructure s f scRef d sn) f scRef g)) := by
  unfold simple_rotation at h
  cases hfn : s.nodes.get? f with
  | none => rw [hfn] at h; simp at h
  | some fn =>
    rw [hfn] at h
    simp only [Option.bind_eq_bind, Option.some_bind] at h
    cases hsc : fn.child d with
    | none => rw [hsc] at h; simp at h
    | some scRef =>
      rw [hsc] at h
      simp only [Option.bind_eq_bind, Option.some_bind] at h
      cases hsn : s.nodes.get? scRef with
      | none => rw [hsn] at h; simp at h
      | some sn =>
        rw [hsn] at h
        simp only [Option.bind_eq_bind, Option.some_bind] at h
        cases hf5 : (sr_restructure s f scRef d sn).nodes.get? f with
        | none => rw [hf5] at h; simp at h
        | some f5 =>
          rw [hf5] at h
          simp only [Option.bind_eq_bind, Option.some_bind] at h
          refine ⟨fn, scRef, sn, rfl, hsc, hsn, f5, hf5, ?_⟩
          cases hp : f5.parent with
          | none =>
            rw [hp] at h
            simp only [Option.pure_def, Option.some.injEq] at h
            exact Or.inl ⟨rfl, h.symm⟩
          | some g =>
            rw [hp] at h
            simp only [Option.pure_def, Option.some.injEq] at h
            exact Or.inr ⟨g, rfl, h.symm⟩

theorem double_rotation_elim {s s' : BinarySearchTree} {f : Nat} {d : Directions}
    (h : double_rotation s f d = some s') :
    ∃ fn scRef sn thRef, s.nodes.get? f = some fn ∧ fn.child d = some scRef ∧
      s.nodes.get? scRef = some sn ∧ sn.child d.get_opposite = some thRef ∧
      ∃ thn, (dr_depths s f scRef thRef d).nodes.get? thRef = some thn ∧
        s' = dr_restructure (dr_depths s f scRef thRef d) f scRef thRef d thn := by
  unfold double_rotation at h
  cases hfn : s.nodes.get? f with
  | none => rw [hfn] at h; simp at h
  | some fn =>
    rw [hfn] at h
    simp only [Option.bind_eq_bind, Option.some_bind] at h
    cases hsc : fn.child d with
    | none => rw [hsc] at h; simp at h
    | some scRef =>
      rw [hsc] at h
      simp only [Option.bind_eq_bind, Option.some_bind] at h
      cases hsn : s.nodes.get? scRef with
      | none => rw [hsn] at h; simp at h
      | some sn =>
        rw [hsn] at h
        simp only [Option.bind_eq_bind, Option.some_bind] at h
        cases hth : sn.child d.get_opposite with
        | none => rw [hth] at h; simp at h
        | some thRef =>
          rw [hth] at h
          simp only [Option.bind_eq_bind, Option.some_bind] at h
          cases hthn : (dr_depths s f scRef thRef d).nodes.get? thRef with
          | none => rw [hthn] at h; simp at h
          | some thn =>
            rw [hthn] at h
            simp only [Option.bind_eq_bind, Option.some_bind, Option.pure_def,
              Option.some.injEq] at h
            exact ⟨fn, scRef, sn, thRef, rfl, hsc, hsn, hth, thn, hthn, h.symm⟩

theorem simple_rotation_obs {s s' : BinarySearchTree} {f : Nat} {d : Directions}
    (h : simple_rotation s f d = some s') :
    s'.tree = s.tree ∧ s'.nodes.length = s.nodes.length ∧
    (∀ x, (s'.nodes.get? x).map BinarySearchTreeNode.id =
      (s.nodes.get? x).map BinarySearchTreeNode.id) ∧
    (∀ x, (s'.nodes.get? x).map BinarySearchTreeNode.value =
      (s.nodes.get? x).map BinarySearchTreeNode.value) := by
  obtain ⟨fn, scRef, sn, hfn, hsc, hsn, f5, hf5, hcase⟩ := simple_rotation_elim h
  obtain ⟨hT5, hL5, hI5, hV5⟩ := sr_restructure_obs s f scRef d sn
  rcases hcase with ⟨hp, rfl⟩ | ⟨g, hp, rfl⟩
  · obtain ⟨hT, hL, hI, hV⟩ := sr_root_obs (sr_restructure s f scRef d sn) f scRef
    exact ⟨hT.trans hT5, hL.trans hL5, fun x => (hI x).trans (hI5 x),
      fun x => (hV x).trans (hV5 x)⟩
  · obtain ⟨hT, hL, hI, hV⟩ := sr_reparent_obs (sr_restructure s f scRef d sn) f scRef g
    exact ⟨hT.trans hT5, hL.trans hL5, fun x => (hI x).trans (hI5 x),
      fun x => (hV x).trans (hV5 x)⟩

theorem double_rotation_obs {s s' : BinarySearchTree} {f : Nat} {d : Directions}
    (h : double_rotation s f d = some s') :
    s'.tree = s.tree ∧ s'.nodes.length = s.nodes.length ∧
    (∀ x, (s'.nodes.get? x).map BinarySearchTreeNode.id =
      (s.nodes.get? x).map BinarySearchTreeNode.id) ∧
    (∀ x, (s'.nodes.get? x).map BinarySearchTreeNode.value =
      (s.nodes.get? x).map BinarySearchTreeNode.value) := by
  obtain ⟨fn, scRef, sn, thRef, hfn, hsc, hsn, hth, thn, hthn, rfl⟩ := double_rotation_elim h
  obtain ⟨hT3, hL3, hI3, hV3⟩ := dr_depths_obs s f scRef thRef d
  obtain ⟨hT, hL, hI, hV⟩ :=
    dr_restructure_obs (dr_depths s f scRef thRef d) f scRef thRef d thn
  exact ⟨hT.trans hT3, hL.trans hL3, fun x => (hI x).trans (hI3 x),
    fun x => (hV x).trans (hV3 x)⟩

theorem update_depth_step (s : BinarySearchTree) (pc fuel : Nat) :
    update_depth s pc (fuel+1) =
      (s.nodes.get? pc).bind fun pc0 =>
        match pc0.parent with
        | none => some s
        | some pRef =>
          (s.nodes.get? pRef).bind fun p =>
            let d := get_directions s pRef pc
            let nd := p.one_side_depth + d.get_depth
            let s1 := updNode s pRef fun n => { n with one_side_depth := nd }
            (s1.nodes.get? pc).bind fun pc1 =>
              if (nd ≥ 2 ∧ pc1.one_side_depth > 0) ∨
                  (nd ≤ -2 ∧ pc1.one_side_depth < 0) then
                simple_rotation s1 pRef d
              else if (nd ≥ 2 ∧ pc1.one_side_depth < 0) ∨
                  (nd ≤ -2 ∧ pc1.one_side_depth > 0) then
                (double_rotation s1 pRef d).bind fun s2 => simple_rotation s2 pRef d
              else update_depth s1 pRef fuel := by
  cases hpc0 : s.nodes.get? pc with
  | none => rw [List.get?_eq_getElem?] at hpc0; simp [update_depth, hpc0]
  | some pc0 =>
    rw [List.get?_eq_getElem?] at hpc0
    cases hp : pc0.parent with
    | none => simp [update_depth, hpc0, hp]
    | some pRef =>
      cases hpn : s.nodes.get? pRef with
      | none =>
        rw [List.get?_eq_getElem?] at hpn
        simp [update_depth, hpc0, hp, hpn]
      | some p =>
        rw [List.get?_eq_getElem?] at hpn
        cases hd : get_directions s pRef pc <;>
          simp [update_depth, hpc0, hp, hpn, hd, Directions.get_depth]

theorem updNode_congr {s : BinarySearchTree} {r : Nat}
    {f g : BinarySearchTreeNode → BinarySearchTreeNode}
    (h : ∀ n, s.nodes.get? r = some n → f n = g n) :
    updNode s r f = updNode s r g := by
  unfold updNode
  cases hn : s.nodes.get? r with
  | none => rfl
  | some n =>
    show ({ s with nodes := s.nodes.set r (f n) } : BinarySearchTree) =
      { s with nodes := s.nodes.set r (g n) }
    rw [h n hn]

theorem update_depth_go {s : BinarySearchTree} {pc pRef : Nat} (fuel : Nat)
    {pc0 p : BinarySearchTreeNode}
    (hpc0 : s.nodes.get? pc = some pc0) (hp : pc0.parent = some pRef)
    (hpn : s.nodes.get? pRef = some p) :
    update_depth s pc (fuel+1) =
      ((bumpDepth s pRef pc).nodes.get? pc).bind fun pc1 =>
        if (p.one_side_depth + (get_directions s pRef pc).get_depth ≥ 2 ∧
              pc1.one_side_depth > 0) ∨
            (p.one_side_depth + (get_directions s pRef pc).get_depth ≤ -2 ∧
              pc1.one_side_depth < 0) then
          simple_rotation (bumpDepth s pRef pc) pRef (get_directions s pRef pc)
        else if (p.one_side_depth + (get_directions s pRef pc).get_depth ≥ 2 ∧
              pc1.one_side_depth < 0) ∨
            (p.one_side_depth + (get_directions s pRef pc).get_depth ≤ -2 ∧
              pc1.one_side_depth > 0) then
          (double_rotation (bumpDepth s pRef pc) pRef
            (get_directions s pRef pc)).bind fun s2 =>
              simple_rotation s2 pRef (get_directions s pRef pc)
        else update_depth (bumpDepth s pRef pc) pRef fuel := by
  have hbd : updNode s pRef (fun n =>
      { n with one_side_depth :=
          p.one_side_depth + (get_directions s pRef pc).get_depth }) =
      bumpDepth s pRef pc := by
    unfold bumpDepth
    apply updNode_congr
    intro n hn
    rw [hpn] at hn
    injection hn with hn
    rw [hn]
  rw [update_depth_step, hpc0]
  simp only [Option.some_bind, hp]
  rw [hpn]
  simp only [Option.some_bind]
  rw [hbd]

theorem update_depth_done {s s' : BinarySearchTree} {pc fuel : Nat}
    {pc0 : BinarySearchTreeNode}
    (hpc0 : s.nodes.get? pc = some pc0) (hp : pc0.parent = none)
    (h : update_depth s pc (fuel+1) = some s') : s' = s := by
  rw [update_depth_step, hpc0] at h
  simp only [Option.some_bind, hp] at h
  exact (Option.some.inj h).symm

theorem bumpDepth_obs (s : BinarySearchTree) (pRef pc : Nat) :
    (bumpDepth s pRef pc).tree = s.tree ∧
    (bumpDepth s pRef pc).nodes.length = s.nodes.length ∧
    (∀ x, ((bumpDepth s pRef pc).nodes.get? x).map BinarySearchTreeNode.id =
      (s.nodes.get? x).map BinarySearchTreeNode.id) ∧
    (∀ x, ((bumpDepth s pRef pc).nodes.get? x).map BinarySearchTreeNode.value =
      (s.nodes.get? x).map BinarySearchTreeNode.value) := by
  unfold bumpDepth
  exact ⟨updNode_tree _ _ _, updNode_length _ _ _,
    fun x => updNode_map_id (by intro m; rfl) x,
    fun x => updNode_map_value (by intro m; rfl) x⟩

theorem update_depth_obs : ∀ {fuel : Nat} {s s' : BinarySearchTree} {pc : Nat},
    update_depth s pc fuel = some s' →
    s'.tree = s.tree ∧ s'.nodes.length = s.nodes.length ∧
    (∀ x, (s'.nodes.get? x).map BinarySearchTreeNode.id =
      (s.nodes.get? x).map BinarySearchTreeNode.id) ∧
    (∀ x, (s'.nodes.get? x).map BinarySearchTreeNode.value =
      (s.nodes.get? x).map BinarySearchTreeNode.value) := by
  intro fuel
  induction fuel with
  | zero => intro s s' pc h; simp [update_depth] at h
  | succ f ih =>
    intro s s' pc h
    cases hpc0 : s.nodes.get? pc with
    | none => rw [update_depth_step, hpc0] at h; simp at h
    | some pc0 =>
      cases hp : pc0.parent with
      | none =>
        obtain rfl := update_depth_done hpc0 hp h
        exact ⟨rfl, rfl, fun x => rfl, fun x => rfl⟩
      | some pRef =>
        cases hpn : s.nodes.get? pRef with
        | none =>
          rw [update_depth_step, hpc0] at h
          simp only [Option.some_bind, hp] at h
          rw [hpn] at h
          simp at h
        | some p =>
          rw [update_depth_go f hpc0 hp hpn] at h
          obtain ⟨hTb, hLb, hIb, hVb⟩ := bumpDepth_obs s pRef pc
          cases hpc1 : (bumpDepth s pRef pc).nodes.get? pc with
          | none => rw [hpc1] at h; simp at h
          | some pc1 =>
            rw [hpc1] at h
            simp only [Option.some_bind] at h
            by_cases hc1 : (p.one_side_depth +
                (get_directions s pRef pc).get_depth ≥ 2 ∧ pc1.one_side_depth > 0) ∨
                (p.one_side_depth +
                (get_directions s pRef pc).get_depth ≤ -2 ∧ pc1.one_side_depth < 0)
            · rw [if_pos hc1] at h
              obtain ⟨hT, hL, hI, hV⟩ := simple_rotation_obs h
              exact ⟨hT.trans hTb, hL.trans hLb, fun x => (hI x).trans (hIb x),
                fun x => (hV x).trans (hVb x)⟩
            · rw [if_neg hc1] at h
              by_cases hc2 : (p.one_side_depth +
                  (get_directions s pRef pc).get_depth ≥ 2 ∧ pc1.one_side_depth < 0) ∨
                  (p.one_side_depth +
                  (get_directions s pRef pc).get_depth ≤ -2 ∧ pc1.one_side_depth > 0)
              · rw [if_pos hc2] at h
                cases hdr : double_rotation (bumpDepth s pRef pc) pRef
                    (get_directions s pRef pc) with
                | none => rw [hdr] at h; simp at h
                | some s2 =>
                  rw [hdr] at h
                  simp only [Option.some_bind] at h
                  obtain ⟨hT2, hL2, hI2, hV2⟩ := double_rotation_obs hdr
                  obtain ⟨hT, hL, hI, hV⟩ := simple_rotation_obs h
                  exact ⟨(hT.trans hT2).trans hTb, (hL.trans hL2).trans hLb,
                    fun x => ((hI x).trans (hI2 x)).trans (hIb x),
                    fun x => ((hV x).trans (hV2 x)).trans (hVb x)⟩
              · rw [if_neg hc2] at h
                obtain ⟨hT, hL, hI, hV⟩ := ih h
                exact ⟨hT.trans hTb, hL.trans hLb, fun x => (hI x).trans (hIb x),
                  fun x => (hV x).trans (hVb x)⟩

/-- C3 (amended): during the balance-maintenance climb, consider a step whose
ancestor `pRef` (parent of the current climb node `pc`) gets the updated
balance `nd = ±2`.  If the child `pc`'s balance has the same sign as `nd`, a
single rotation is executed at the ancestor and the climb ends there; if it
has the opposite sign, a double rotation followed by the completing single
rotation is executed and the climb ends there; but if the child's balance is
zero — contrary to the claim, which assigns this case a single rotation — no
rotation is executed at all and the climb continues from the ancestor. -/
theorem c3_rotation_dispatch {s : BinarySearchTree} {pc pRef fuel : Nat}
    {pc0 p pc1 : BinarySearchTreeNode}
    (hpc0 : s.nodes.get? pc = some pc0) (hp : pc0.parent = some pRef)
    (hpn : s.nodes.get? pRef = some p)
    (hpc1 : (bumpDepth s pRef pc).nodes.get? pc = some pc1)
    (hnd : p.one_side_depth + (get_directions s pRef pc).get_depth = 2 ∨
           p.one_side_depth + (get_directions s pRef pc).get_depth = -2) :
    ((p.one_side_depth + (get_directions s pRef pc).get_depth = 2 ∧
        pc1.one_side_depth > 0) ∨
     (p.one_side_depth + (get_directions s pRef pc).get_depth = -2 ∧
        pc1.one_side_depth < 0) →
      update_depth s pc (fuel+1) =
        simple_rotation (bumpDepth s pRef pc) pRef (get_directions s pRef pc)) ∧
    ((p.one_side_depth + (get_directions s pRef pc).get_depth = 2 ∧
        pc1.one_side_depth < 0) ∨
     (p.one_side_depth + (get_directions s pRef pc).get_depth = -2 ∧
        pc1.one_side_depth > 0) →
      update_depth s pc (fuel+1) =
        (double_rotation (bumpDepth s pRef pc) pRef
          (get_directions s pRef pc)).bind fun s2 =>
            simple_rotation s2 pRef (get_directions s pRef pc)) ∧
    (pc1.one_side_depth = 0 →
      update_depth s pc (fuel+1) = update_depth (bumpDepth s pRef pc) pRef fuel) := by
  rw [update_depth_go fuel hpc0 hp hpn, hpc1]
  simp only [Option.some_bind]
  refine ⟨?_, ?_, ?_⟩
  · intro hcase
    rw [if_pos]
    rcases hcase with ⟨h1, h2⟩ | ⟨h1, h2⟩
    · exact Or.inl ⟨by omega, h2⟩
    · exact Or.inr ⟨by omega, h2⟩
  · intro hcase
    rw [if_neg, if_pos]
    · rcases hcase with ⟨h1, h2⟩ | ⟨h1, h2⟩
      · exact Or.inl ⟨by omega, h2⟩
      · exact Or.inr ⟨by omega, h2⟩
    · rcases hcase with ⟨h1, h2⟩ | ⟨h1, h2⟩ <;> (intro hcon; rcases hcon with ⟨_, _⟩ | ⟨_, _⟩ <;> omega)
  · intro hz
    rw [if_neg, if_neg]
    · intro hcon; rcases hcon with ⟨_, _⟩ | ⟨_, _⟩ <;> omega
    · intro hcon; rcases hcon with ⟨_, _⟩ | ⟨_, _⟩ <;> omega

/-- Witness for the C3 dispatch theorem: a concrete three-node left chain in
which the lowest node was just processed, the middle node `1` carries counter
-1, and the head carries -1; the climb step at `pc = 1` updates the head's
counter to -2 with the same-sign child counter -1, so the single-rotation
clause fires. -/
theorem c3_rotation_dispatch_witness :
    (BinarySearchTree.mk
      [⟨0, 10, -1, none, some 1, none⟩, ⟨1, 5, -1, some 0, some 2, none⟩,
       ⟨2, 3, 0, some 1, none, none⟩] 0 [(0,0),(1,1),(2,2)]).nodes.get? 1 =
        some ⟨1, 5, -1, some 0, some 2, none⟩ ∧
    (BinarySearchTree.mk
      [⟨0, 10, -1, none, some 1, none⟩, ⟨1, 5, -1, some 0, some 2, none⟩,
       ⟨2, 3, 0, some 1, none, none⟩] 0 [(0,0),(1,1),(2,2)]).nodes.get? 0 =
        some ⟨0, 10, -1, none, some 1, none⟩ ∧
    ((-1 : Int) + (get_directions (BinarySearchTree.mk
      [⟨0, 10, -1, none, some 1, none⟩, ⟨1, 5, -1, some 0, some 2, none⟩,
       ⟨2, 3, 0, some 1, none, none⟩] 0 [(0,0),(1,1),(2,2)]) 0 1).get_depth = 2 ∨
     (-1 : Int) + (get_directions (BinarySearchTree.mk
      [⟨0, 10, -1, none, some 1, none⟩, ⟨1, 5, -1, some 0, some 2, none⟩,
       ⟨2, 3, 0, some 1, none, none⟩] 0 [(0,0),(1,1),(2,2)]) 0 1).get_depth = -2) ∧
    (update_depth (BinarySearchTree.mk
        [⟨0, 10, -1, none, some 1, none⟩, ⟨1, 5, -1, some 0, some 2, none⟩,
         ⟨2, 3, 0, some 1, none, none⟩] 0 [(0,0),(1,1),(2,2)]) 1 (5+1) =
        simple_rotation (bumpDepth (BinarySearchTree.mk
          [⟨0, 10, -1, none, some 1, none⟩, ⟨1, 5, -1, some 0, some 2, none⟩,
           ⟨2, 3, 0, some 1, none, none⟩] 0 [(0,0),(1,1),(2,2)]) 0 1) 0
          (get_directions (BinarySearchTree.mk
            [⟨0, 10, -1, none, some 1, none⟩, ⟨1, 5, -1, some 0, some 2, none⟩,
             ⟨2, 3, 0, some 1, none, none⟩] 0 [(0,0),(1,1),(2,2)]) 0 1)) := by
  refine ⟨by decide, by decide, by decide, ?_⟩
  refine (@c3_rotation_dispatch (BinarySearchTree.mk
      [⟨0, 10, -1, none, some 1, none⟩, ⟨1, 5, -1, some 0, some 2, none⟩,
       ⟨2, 3, 0, some 1, none, none⟩] 0 [(0,0),(1,1),(2,2)]) 1 0 5
      ⟨1, 5, -1, some 0, some 2, none⟩ ⟨0, 10, -1, none, some 1, none⟩
      ⟨1, 5, -1, some 0, some 2, none⟩
      (by decide) (by decide) (by decide) (by decide) (by decide)).1 ?_
  exact Or.inr ⟨by decide, by decide⟩

/-- C7: after a single rotation at pivot `firstRef` with heavy direction `d`
that promotes `secondRef`, the pivot's and the promoted child's balance
counters are both 0; if the pivot had no parent the promoted child is the new
head with its parent link cleared, and otherwise the grandparent slot that
held the pivot now holds the promoted child, whose parent link is the
grandparent.  (The grandparent branch carries the consistency facts — slot
really holding the pivot, distinctness — that hold in every tree the
implementation builds.) -/
theorem c7_simple_rotation_effects {s s' : BinarySearchTree} {firstRef secondRef : Nat}
    {d : Directions} {fn sn : BinarySearchTreeNode}
    (hfn : s.nodes.get? firstRef = some fn)
    (hsc : fn.child d = some secondRef)
    (hsn : s.nodes.get? secondRef = some sn)
    (h12 : firstRef ≠ secondRef)
    (hocne : ∀ z, sn.child d.get_opposite = some z → z ≠ firstRef ∧ z ≠ secondRef)
    (h : simple_rotation s firstRef d = some s') :
    (fn.parent = none →
      depthOf s' firstRef = 0 ∧ depthOf s' secondRef = 0 ∧
      s'.head = secondRef ∧
      ∃ sn', s'.nodes.get? secondRef = some sn' ∧ sn'.parent = none) ∧
    (∀ g gn d2, fn.parent = some g → s.nodes.get? g = some gn →
      g ≠ firstRef → g ≠ secondRef →
      (∀ z, sn.child d.get_opposite = some z → g ≠ z) →
      (∀ z, sn.child d.get_opposite = some z → ∃ zn, s.nodes.get? z = some zn) →
      get_directions s g firstRef = d2 → gn.child d2 = some firstRef →
      depthOf s' firstRef = 0 ∧ depthOf s' secondRef = 0 ∧
      ∃ gn' sn', s'.nodes.get? g = some gn' ∧ gn'.child d2 = some secondRef ∧
        s'.nodes.get? secondRef = some sn' ∧ sn'.parent = some g) := by
  constructor
  · intro hpar
    obtain ⟨s'', heval, hH, hT, hL, hF, hS, hOC, hE⟩ :=
      simple_rotation_spec_root hfn hsc hsn h12 hocne hpar
    rw [h] at heval
    obtain rfl := Option.some.inj heval
    refine ⟨?_, ?_, hH, ⟨_, hS, rfl⟩⟩
    · rw [depthOf, hF]; rfl
    · rw [depthOf, hS]; rfl
  · intro g gn d2 hpar hgn hg1 hg2 hgoc hocex hd2 hslot
    obtain ⟨s'', heval, hH, hT, hL, hF, hS, hG, hOC, hE⟩ :=
      simple_rotation_spec_gp hfn hsc hsn h12 hocne hocex hpar hgn hg1 hg2 hgoc hd2
    rw [h] at heval
    obtain rfl := Option.some.inj heval
    refine ⟨?_, ?_, ?_⟩
    · rw [depthOf, hF]; rfl
    · rw [depthOf, hS]; rfl
    · exact ⟨_, _, hG, child_setChild_same _ _ _, hS, rfl⟩

/-- Witness for C7: the concrete three-node left chain 3 → 2 → 1 (refs 0, 1, 2)
rotates at the root; the promoted child (ref 1) becomes the head with parent
cleared and both counters 0. -/
theorem c7_simple_rotation_effects_witness :
    (BinarySearchTree.mk
      [⟨0, 3, -2, none, some 1, none⟩, ⟨1, 2, -1, some 0, some 2, none⟩,
       ⟨2, 1, 0, some 1, none, none⟩] 0 [(0,0),(1,1),(2,2)]).nodes.get? 0 =
        some ⟨0, 3, -2, none, some 1, none⟩ ∧
    (BinarySearchTreeNode.child ⟨0, 3, -2, none, some 1, none⟩ Directions.Left =
        some 1) ∧
    (BinarySearchTree.mk
      [⟨0, 3, -2, none, some 1, none⟩, ⟨1, 2, -1, some 0, some 2, none⟩,
       ⟨2, 1, 0, some 1, none, none⟩] 0 [(0,0),(1,1),(2,2)]).nodes.get? 1 =
        some ⟨1, 2, -1, some 0, some 2, none⟩ ∧
    (0 : Nat) ≠ 1 ∧
    simple_rotation (BinarySearchTree.mk
      [⟨0, 3, -2, none, some 1, none⟩, ⟨1, 2, -1, some 0, some 2, none⟩,
       ⟨2, 1, 0, some 1, none, none⟩] 0 [(0,0),(1,1),(2,2)]) 0 Directions.Left =
      some (BinarySearchTree.mk
        [⟨0, 3, 0, some 1, none, none⟩, ⟨1, 2, 0, none, some 2, some 0⟩,
         ⟨2, 1, 0, some 1, none, none⟩] 1 [(0,0),(1,1),(2,2)]) ∧
    (depthOf (BinarySearchTree.mk
        [⟨0, 3, 0, some 1, none, none⟩, ⟨1, 2, 0, none, some 2, some 0⟩,
         ⟨2, 1, 0, some 1, none, none⟩] 1 [(0,0),(1,1),(2,2)]) 0 = 0 ∧
      depthOf (BinarySearchTree.mk
        [⟨0, 3, 0, some 1, none, none⟩, ⟨1, 2, 0, none, some 2, some 0⟩,
         ⟨2, 1, 0, some 1, none, none⟩] 1 [(0,0),(1,1),(2,2)]) 1 = 0 ∧
      (BinarySearchTree.mk
        [⟨0, 3, 0, some 1, none, none⟩, ⟨1, 2, 0, none, some 2, some 0⟩,
         ⟨2, 1, 0, some 1, none, none⟩] 1 [(0,0),(1,1),(2,2)]).head = 1 ∧
      ∃ sn', (BinarySearchTree.mk
        [⟨0, 3, 0, some 1, none, none⟩, ⟨1, 2, 0, none, some 2, some 0⟩,
         ⟨2, 1, 0, some 1, none, none⟩] 1 [(0,0),(1,1),(2,2)]).nodes.get? 1 =
          some sn' ∧ sn'.parent = none) := by
  refine ⟨by decide, by decide, by decide, by decide, by decide, ?_⟩
  exact (@c7_simple_rotation_effects
    (BinarySearchTree.mk
      [⟨0, 3, -2, none, some 1, none⟩, ⟨1, 2, -1, some 0, some 2, none⟩,
       ⟨2, 1, 0, some 1, none, none⟩] 0 [(0,0),(1,1),(2,2)])
    (BinarySearchTree.mk
      [⟨0, 3, 0, some 1, none, none⟩, ⟨1, 2, 0, none, some 2, some 0⟩,
       ⟨2, 1, 0, some 1, none, none⟩] 1 [(0,0),(1,1),(2,2)])
    0 1 Directions.Left ⟨0, 3, -2, none, some 1, none⟩ ⟨1, 2, -1, some 0, some 2, none⟩
    (by decide) (by decide) (by decide) (by decide)
    (by simp [BinarySearchTreeNode.child, Directions.get_opposite]) (by decide)).1 rfl

/-! ## The placement walk -/

theorem WF_lookup_idOf {s : BinarySearchTree} {t : RTree} (hwf : WF s t) :
    ∀ x ∈ t.inorder, lookupId s.tree (idOf s x) = some x := by
  intro x hx
  exact lookupId_eq_of_mem hwf.indexKeys
    (hwf.indexMem x (readsTo_lt_length hwf.readOk x hx))

theorem child_mem_of_mem {s : BinarySearchTree} {t : RTree} {ρ : Nat}
    (hread : readsTo s (some ρ) t) (hnd : t.inorder.Nodup) :
    ∀ x ∈ t.inorder, ∀ n c, s.nodes.get? x = some n →
      (n.left = some c ∨ n.right = some c) → c ∈ t.inorder := by
  intro x hx n c hn hc
  obtain ⟨u, hu⟩ := subtreeAt_of_mem hx
  have hru := readsTo_subtreeAt hread hu
  obtain ⟨n', lt, rt, hn', hequ, hl, hr⟩ := readsTo_some_elim hru
  rw [hn] at hn'
  obtain rfl := Option.some.inj hn'
  apply subtreeAt_mem_sub hnd hu
  rw [hequ]
  rcases hc with hc | hc
  · rw [hc] at hl
    obtain ⟨cn, clt, crt, _, heqc, _, _⟩ := readsTo_some_elim hl
    subst heqc
    simp [RTree.inorder]
  · rw [hc] at hr
    obtain ⟨cn, clt, crt, _, heqc, _, _⟩ := readsTo_some_elim hr
    subst heqc
    simp [RTree.inorder]

theorem insert_walk_eq_spec {s : BinarySearchTree} {t : RTree} (hwf : WF s t)
    (v : Int) : ∀ (fuel : Nat) (x : Nat), x ∈ t.inorder →
      insert_walk s v fuel (idOf s x) = spec_walk s v fuel x := by
  intro fuel
  induction fuel with
  | zero => intro x _; rfl
  | succ f ih =>
    intro x hx
    have hlook := WF_lookup_idOf hwf x hx
    obtain ⟨n, hn⟩ := readsTo_valid hwf.readOk x hx
    unfold insert_walk spec_walk
    rw [hlook]
    simp only [Option.bind_eq_bind, Option.some_bind]
    rw [hn]
    simp only [Option.bind_eq_bind, Option.some_bind]
    by_cases hvc : v ≤ n.value
    · rw [if_neg (by omega), if_pos hvc]
      cases hl : n.left with
      | none =>
        rw [show n.child Directions.Left = n.left from rfl, hl]
        rfl
      | some c =>
        have hcm : c ∈ t.inorder :=
          child_mem_of_mem hwf.readOk hwf.nodup x hx n c hn (Or.inl hl)
        obtain ⟨cn, hcn⟩ := readsTo_valid hwf.readOk c hcm
        rw [show n.child Directions.Left = n.left from rfl, hl]
        show (s.nodes.get? c).bind (fun cc => insert_walk s v f cc.id) =
          spec_walk s v f c
        rw [hcn]
        simp only [Option.some_bind]
        have hid : cn.id = idOf s c := by rw [idOf, hcn]; rfl
        rw [hid]
        exact ih c hcm
    · rw [if_pos (by omega), if_neg hvc]
      cases hr : n.right with
      | none =>
        rw [show n.child Directions.Right = n.right from rfl, hr]
        rfl
      | some c =>
        have hcm : c ∈ t.inorder :=
          child_mem_of_mem hwf.readOk hwf.nodup x hx n c hn (Or.inr hr)
        obtain ⟨cn, hcn⟩ := readsTo_valid hwf.readOk c hcm
        rw [show n.child Directions.Right = n.right from rfl, hr]
        show (s.nodes.get? c).bind (fun cc => insert_walk s v f cc.id) =
          spec_walk s v f c
        rw [hcn]
        simp only [Option.some_bind]
        have hid : cn.id = idOf s c := by rw [idOf, hcn]; rfl
        rw [hid]
        exact ih c hcm

theorem graftAt_inorder {s : BinarySearchTree} {pn : BinarySearchTreeNode}
    {p : Nat} {d : Directions} (nw : Nat)
    (hpn : s.nodes.get? p = some pn) (hslot : pn.child d = none) :
    ∀ {u : RTree} {ρ : Nat}, readsTo s (some ρ) u → u.inorder.Nodup →
      p ∈ u.inorder →
      ∃ pre post, u.inorder = pre ++ post ∧
        (graftAt u p d nw).inorder = pre ++ nw :: post := by
  intro u
  induction u with
  | leaf => intro ρ _ _ hp; simp [RTree.inorder] at hp
  | nd r l rr ihl ihr =>
    intro ρ hread hnd hp
    obtain ⟨n, lt, rt, hn, heq, hl, hr⟩ := readsTo_some_elim hread
    injection heq with h1 h2 h3
    subst h1
    subst h2
    subst h3
    have hndl : l.inorder.Nodup := by
      simp only [RTree.inorder, List.nodup_append, List.nodup_cons] at hnd
      exact hnd.1
    have hndr : rr.inorder.Nodup := by
      simp only [RTree.inorder, List.nodup_append, List.nodup_cons] at hnd
      exact hnd.2.1.2
    have hdisj : l.inorder.Disjoint (r :: rr.inorder) := by
      simp only [RTree.inorder, List.nodup_append] at hnd
      exact hnd.2.2
    by_cases hrp : r = p
    · subst hrp
      rw [hn] at hpn
      obtain rfl := Option.some.inj hpn
      rw [graftAt_nd, if_pos rfl]
      cases d with
      | Left =>
        have hleaf : l = RTree.leaf := by
          rw [show n.child Directions.Left = n.left from rfl] at hslot
          rw [hslot] at hl
          obtain ⟨f, hf⟩ := hl
          cases f <;> simpa [readT] using hf.symm
        subst hleaf
        exact ⟨[], r :: rr.inorder, by simp [RTree.inorder], by simp [RTree.inorder]⟩
      | Right =>
        have hleaf : rr = RTree.leaf := by
          rw [show n.child Directions.Right = n.right from rfl] at hslot
          rw [hslot] at hr
          obtain ⟨f, hf⟩ := hr
          cases f <;> simpa [readT] using hf.symm
        subst hleaf
        exact ⟨l.inorder ++ [r], [], by simp [RTree.inorder], by simp [RTree.inorder]⟩
    · rw [graftAt_nd, if_neg hrp]
      have hpm : p ∈ l.inorder ∨ p ∈ rr.inorder := by
        simp only [RTree.inorder, List.mem_append, List.mem_cons] at hp
        rcases hp with hp | hp | hp
        · exact Or.inl hp
        · exact absurd hp.symm hrp
        · exact Or.inr hp
      rcases hpm with hpl | hpr
      · have hprr : p ∉ rr.inorder := fun hc => hdisj hpl (List.mem_cons_of_mem r hc)
        rw [graftAt_not_mem d nw hprr]
        have hlsome : ∃ a, n.left = some a := by
          cases l with
          | leaf => simp [RTree.inorder] at hpl
          | nd a b c => exact ⟨a, readsTo_root hl⟩
        obtain ⟨a, ha⟩ := hlsome
        rw [ha] at hl
        obtain ⟨pre, post, hdec, hgra⟩ := ihl hl hndl hpl
        refine ⟨pre, post ++ r :: rr.inorder, ?_, ?_⟩
        · simp only [RTree.inorder, hdec, List.append_assoc]
        · simp only [RTree.inorder, hgra, List.append_assoc, List.cons_append]
      · have hpll : p ∉ l.inorder := fun hc => hdisj hc (List.mem_cons_of_mem r hpr)
        rw [graftAt_not_mem d nw hpll]
        have hrsome : ∃ a, n.right = some a := by
          cases rr with
          | leaf => simp [RTree.inorder] at hpr
          | nd a b c => exact ⟨a, readsTo_root hr⟩
        obtain ⟨a, ha⟩ := hrsome
        rw [ha] at hr
        obtain ⟨pre, post, hdec, hgra⟩ := ihr hr hndr hpr
        refine ⟨l.inorder ++ r :: pre, post, ?_, ?_⟩
        · simp only [RTree.inorder, hdec, List.append_assoc, List.cons_append]
        · simp only [RTree.inorder, hgra, List.append_assoc, List.cons_append]

theorem spec_walk_graft {s s' : BinarySearchTree} {v : Int} {nw : Nat}
    (hnwv : valOf s' nw = v) :
    ∀ (fuel : Nat) {u : RTree} {x p : Nat} {dir : Directions},
      readsTo s (some x) u → u.inorder.Nodup → SortedT s u →
      spec_walk s v fuel x = some (p, dir) →
      (∀ y ∈ u.inorder, valOf s' y = valOf s y) →
      p ∈ u.inorder ∧
      (∃ pn, s.nodes.get? p = some pn ∧ pn.child dir = none) ∧
      SortedT s' (graftAt u p dir nw) := by
  intro fuel
  induction fuel with
  | zero => intro u x p dir _ _ _ hw _; simp [spec_walk] at hw
  | succ f ih =>
    intro u x p dir hread hnd hs hw hvals
    obtain ⟨n, lt, rt, hn, hequ, hl, hr⟩ := readsTo_some_elim hread
    subst hequ
    obtain ⟨hbl, hbr, hsl, hsr⟩ := hs
    have hndl : lt.inorder.Nodup := by
      simp only [RTree.inorder, List.nodup_append, List.nodup_cons] at hnd
      exact hnd.1
    have hndr : rt.inorder.Nodup := by
      simp only [RTree.inorder, List.nodup_append, List.nodup_cons] at hnd
      exact hnd.2.1.2
    have hdisj : lt.inorder.Disjoint (x :: rt.inorder) := by
      simp only [RTree.inorder, List.nodup_append] at hnd
      exact hnd.2.2
    have hxml : x ∉ lt.inorder := by
      intro hc
      exact hdisj hc (List.mem_cons_self _ _)
    have hvx : valOf s' x = valOf s x := hvals x (by simp [RTree.inorder])
    unfold spec_walk at hw
    simp only [hn] at hw
    by_cases hvc : v ≤ n.value
    · rw [if_pos hvc] at hw
      have hvnx : n.value = valOf s x := by rw [valOf, hn]; rfl
      cases hlc : n.left with
      | none =>
        simp only [hlc, Option.some.injEq, Prod.mk.injEq] at hw
        obtain ⟨h1, h2⟩ := hw
        subst h1
        subst h2
        have hleaf : lt = RTree.leaf := by
          rw [hlc] at hl
          obtain ⟨fl, hf⟩ := hl
          cases fl <;> simpa [readT] using hf.symm
        subst hleaf
        refine ⟨by simp [RTree.inorder], ⟨n, hn, hlc⟩, ?_⟩
        rw [graftAt_nd, if_pos rfl]
        refine ⟨?_, ?_, ⟨by simp [RTree.inorder], by simp [RTree.inorder],
          trivial, trivial⟩, SortedT_congr (fun y hy => hvals y
            (by simp [RTree.inorder]; tauto)) hsr⟩
        · intro y hy
          simp only [RTree.inorder, List.mem_append, List.mem_cons] at hy
          rcases hy with hy | hy | hy
          · simp [RTree.inorder] at hy
          · subst hy
            rw [hnwv, hvx]
            omega
          · simp [RTree.inorder] at hy
        · intro y hy
          rw [hvals y (by simp [RTree.inorder]; tauto), hvx]
          exact hbr y hy
      | some c =>
        simp only [hlc] at hw
        rw [hlc] at hl
        obtain ⟨hpm, hslot, hsg⟩ := ih hl hndl hsl hw
          (fun y hy => hvals y (by simp [RTree.inorder]; tauto))
        obtain ⟨pn, hpn, hslot'⟩ := hslot
        have hxp : x ≠ p := fun hc => hxml (hc ▸ hpm)
        have hprt : p ∉ rt.inorder := fun hc =>
          hdisj hpm (List.mem_cons_of_mem x hc)
        refine ⟨by simp [RTree.inorder]; tauto, ⟨pn, hpn, hslot'⟩, ?_⟩
        rw [graftAt_nd, if_neg hxp, graftAt_not_mem dir nw hprt]
        obtain ⟨pre, post, hdec, hgra⟩ :=
          graftAt_inorder nw hpn hslot' hl hndl hpm
        refine ⟨?_, ?_, hsg, SortedT_congr (fun y hy => hvals y
          (by simp [RTree.inorder]; tauto)) hsr⟩
        · intro y hy
          rw [hgra] at hy
          simp only [List.mem_append, List.mem_cons] at hy
          rcases hy with hy | hy | hy
          · rw [hvals y (by simp [RTree.inorder, hdec]; tauto), hvx]
            exact hbl y (by rw [hdec]; simp [hy])
          · subst hy
            rw [hnwv, hvx]
            omega
          · rw [hvals y (by simp [RTree.inorder, hdec]; tauto), hvx]
            exact hbl y (by rw [hdec]; simp [hy])
        · intro y hy
          rw [hvals y (by simp [RTree.inorder]; tauto), hvx]
          exact hbr y hy
    · rw [if_neg hvc] at hw
      have hvnx : n.value = valOf s x := by rw [valOf, hn]; rfl
      cases hrc : n.right with
      | none =>
        simp only [hrc, Option.some.injEq, Prod.mk.injEq] at hw
        obtain ⟨h1, h2⟩ := hw
        subst h1
        subst h2
        have hleaf : rt = RTree.leaf := by
          rw [hrc] at hr
          obtain ⟨fl, hf⟩ := hr
          cases fl <;> simpa [readT] using hf.symm
        subst hleaf
        refine ⟨by simp [RTree.inorder], ⟨n, hn, hrc⟩, ?_⟩
        rw [graftAt_nd, if_pos rfl]
        refine ⟨?_, ?_, SortedT_congr (fun y hy => hvals y
          (by simp [RTree.inorder]; tauto)) hsl,
          ⟨by simp [RTree.inorder], by simp [RTree.inorder], trivial, trivial⟩⟩
        · intro y hy
          rw [hvals y (by simp [RTree.inorder]; tauto), hvx]
          exact hbl y hy
        · intro y hy
          simp only [RTree.inorder, List.mem_append, List.mem_cons] at hy
          rcases hy with hy | hy | hy
          · simp [RTree.inorder] at hy
          · subst hy
            rw [hnwv, hvx]
            omega
          · simp [RTree.inorder] at hy
      | some c =>
        simp only [hrc] at hw
        rw [hrc] at hr
        obtain ⟨hpm, hslot, hsg⟩ := ih hr hndr hsr hw
          (fun y hy => hvals y (by simp [RTree.inorder]; tauto))
        obtain ⟨pn, hpn, hslot'⟩ := hslot
        have hxp : x ≠ p := by
          intro hc
          subst hc
          have hxmr : x ∉ rt.inorder := by
            simp only [RTree.inorder, List.nodup_append, List.nodup_cons] at hnd
            exact hnd.2.1.1
          exact hxmr hpm
        have hplt : p ∉ lt.inorder := fun hc =>
          hdisj hc (List.mem_cons_of_mem x hpm)
        refine ⟨by simp [RTree.inorder]; tauto, ⟨pn, hpn, hslot'⟩, ?_⟩
        rw [graftAt_nd, if_neg hxp, graftAt_not_mem dir nw hplt]
        obtain ⟨pre, post, hdec, hgra⟩ :=
          graftAt_inorder nw hpn hslot' hr hndr hpm
        refine ⟨?_, ?_, SortedT_congr (fun y hy => hvals y
          (by simp [RTree.inorder]; tauto)) hsl, hsg⟩
        · intro y hy
          rw [hvals y (by simp [RTree.inorder]; tauto), hvx]
          exact hbl y hy
        · intro y hy
          rw [hgra] at hy
          simp only [List.mem_append, List.mem_cons] at hy
          rcases hy with hy | hy | hy
          · rw [hvals y (by simp [RTree.inorder, hdec]; tauto), hvx]
            exact hbr y (by rw [hdec]; simp [hy])
          · subst hy
            rw [hnwv, hvx]
            omega
          · rw [hvals y (by simp [RTree.inorder, hdec]; tauto), hvx]
            exact hbr y (by rw [hdec]; simp [hy])

/-! ## The link step: allocating and attaching the new node -/

theorem linkState_tree (s : BinarySearchTree) (pref : Nat) (dir : Directions)
    (id : Nat) (value : Int) :
    (linkState s pref dir id value).tree = indexInsert s.tree id s.nodes.length := by
  simp [linkState, updNode_tree]

theorem linkState_head (s : BinarySearchTree) (pref : Nat) (dir : Directions)
    (id : Nat) (value : Int) :
    (linkState s pref dir id value).head = s.head := by
  simp [linkState, updNode_head]

theorem linkState_length (s : BinarySearchTree) (pref : Nat) (dir : Directions)
    (id : Nat) (value : Int) :
    (linkState s pref dir id value).nodes.length = s.nodes.length + 1 := by
  simp [linkState, updNode_length]

theorem linkState_get? {s : BinarySearchTree} {pref : Nat} (dir : Directions)
    (id : Nat) (value : Int) (hpref : pref < s.nodes.length) (x : Nat) :
    (linkState s pref dir id value).nodes.get? x =
      if x = pref then
        (s.nodes.get? pref).map (fun n => n.setChild dir (some s.nodes.length))
      else if x = s.nodes.length then
        some ⟨id, value, 0, some pref, none, none⟩
      else s.nodes.get? x := by
  have happ : ∀ y, (s.nodes ++
      [(⟨id, value, 0, some pref, none, none⟩ : BinarySearchTreeNode)]).get? y =
      if y = s.nodes.length then some ⟨id, value, 0, some pref, none, none⟩
      else s.nodes.get? y := by
    intro y
    by_cases hy : y = s.nodes.length
    · subst hy
      rw [if_pos rfl]
      exact List.get?_concat_length _ _
    · rw [if_neg hy]
      rcases Nat.lt_or_ge y s.nodes.length with hlt | hge
      · exact List.get?_append hlt
      · have hgt : s.nodes.length < y := lt_of_le_of_ne hge (fun hc => hy hc.symm)
        rw [List.get?_eq_none.mpr (by simp; omega), List.get?_eq_none.mpr (by omega)]
  show (updNode { s with nodes := s.nodes ++ [⟨id, value, 0, some pref, none, none⟩] }
      pref (fun n => n.setChild dir (some s.nodes.length))).nodes.get? x = _
  rw [updNode_get?]
  by_cases hx : x = pref
  · subst hx
    rw [if_pos rfl, if_pos rfl]
    show ((s.nodes ++
      [(⟨id, value, 0, some x, none, none⟩ : BinarySearchTreeNode)]).get? x).map _ = _
    rw [happ x, if_neg (by omega)]
  · rw [if_neg hx, if_neg hx]
    show (s.nodes ++
      [(⟨id, value, 0, some pref, none, none⟩ : BinarySearchTreeNode)]).get? x = _
    rw [happ x]

theorem nodup_of_subtree {t : RTree} {p : Nat} {u : RTree}
    (hnd : t.inorder.Nodup) (hu : subtreeAt t p = some u) : u.inorder.Nodup := by
  obtain ⟨pre, post, hdec, _⟩ := subtreeAt_inorder hnd hu
  rw [hdec] at hnd
  exact (List.Nodup.of_append_left hnd).of_append_right

theorem no_self_child {s : BinarySearchTree} {t : RTree} {ρ : Nat}
    (hread : readsTo s (some ρ) t) (hnd : t.inorder.Nodup) :
    ∀ x ∈ t.inorder, ∀ n, s.nodes.get? x = some n →
      n.left ≠ some x ∧ n.right ≠ some x := by
  intro x hx n hn
  obtain ⟨u, hu⟩ := subtreeAt_of_mem hx
  have hndu := nodup_of_subtree hnd hu
  have hru := readsTo_subtreeAt hread hu
  obtain ⟨n', lt, rt, hn', hequ, hl, hr⟩ := readsTo_some_elim hru
  rw [hn] at hn'
  obtain rfl := Option.some.inj hn'
  subst hequ
  rw [show (RTree.nd x lt rt).inorder = lt.inorder ++ x :: rt.inorder from rfl] at hndu
  rw [List.nodup_append] at hndu
  constructor
  · intro hc
    rw [hc] at hl
    obtain ⟨_, _, _, _, heq, _, _⟩ := readsTo_some_elim hl
    have : x ∈ lt.inorder := by rw [heq]; simp [RTree.inorder]
    exact hndu.2.2 this (List.mem_cons_self _ _)
  · intro hc
    rw [hc] at hr
    obtain ⟨_, _, _, _, heq, _, _⟩ := readsTo_some_elim hr
    have : x ∈ rt.inorder := by rw [heq]; simp [RTree.inorder]
    exact (List.nodup_cons.mp hndu.2.1).1 this

theorem linkState_StructWF {s : BinarySearchTree} {t : RTree}
    (hst : StructWF s t) {v : Int} {idn p : Nat} {dir : Directions}
    {pn : BinarySearchTreeNode}
    (hdepth : ∀ r, r < s.nodes.length → DepthInv s r)
    (hpm : p ∈ t.inorder) (hpn : s.nodes.get? p = some pn)
    (hslot : pn.child dir = none)
    (hg : SortedT (linkState s p dir idn v) (graftAt t p dir s.nodes.length)) :
    StructWF (linkState s p dir idn v) (graftAt t p dir s.nodes.length) ∧
    (∀ r, r < s.nodes.length + 1 → DepthInv (linkState s p dir idn v) r) ∧
    (∀ pn3, (linkState s p dir idn v).nodes.get? p = some pn3 →
      (pn3.one_side_depth = 2 ∧ pn3.right = some s.nodes.length → False) ∧
      (pn3.one_side_depth = -2 ∧ pn3.left = some s.nodes.length → False)) := by
  have hplen : p < s.nodes.length := readsTo_lt_length hst.readOk p hpm
  have hgl := linkState_get? dir idn v hplen
  have hp3 : (linkState s p dir idn v).nodes.get? p =
      some (pn.setChild dir (some s.nodes.length)) := by
    rw [hgl p, if_pos rfl, hpn]
    rfl
  have hnw3 : (linkState s p dir idn v).nodes.get? s.nodes.length =
      some ⟨idn, v, 0, some p, none, none⟩ := by
    rw [hgl s.nodes.length, if_neg (by omega), if_pos rfl]
  have hold : ∀ x, x ≠ p → x ≠ s.nodes.length →
      (linkState s p dir idn v).nodes.get? x = s.nodes.get? x := by
    intro x hx1 hx2
    rw [hgl x, if_neg hx1, if_neg hx2]
  have hnotm : s.nodes.length ∉ t.inorder := fun hc =>
    absurd (readsTo_lt_length hst.readOk _ hc) (lt_irrefl _)
  have hvalid : ∀ x ∈ t.inorder, x < s.nodes.length := fun x hx =>
    readsTo_lt_length hst.readOk x hx
  have hlt_of_get : ∀ {c : Nat} {cn : BinarySearchTreeNode},
      s.nodes.get? c = some cn → c < s.nodes.length := by
    intro c cn hcn
    exact (List.get?_eq_some.mp hcn).1
  have hnsc := no_self_child hst.readOk hst.nodup
  obtain ⟨pre, post, hdec, hgra⟩ :=
    graftAt_inorder s.nodes.length hpn hslot hst.readOk hst.nodup hpm
  have hmem3 : ∀ x, x ∈ (graftAt t p dir s.nodes.length).inorder ↔
      (x ∈ t.inorder ∨ x = s.nodes.length) := by
    intro x
    rw [hgra, hdec]
    simp only [List.mem_append, List.mem_cons]
    tauto
  have hreadOk : readsTo (linkState s p dir idn v)
      (some (linkState s p dir idn v).head) (graftAt t p dir s.nodes.length) := by
    rw [linkState_head]
    refine readsTo_graftAt hnw3 rfl rfl hst.readOk hst.nodup hpm hnotm ?_ ?_
    · intro x hx hxp
      rw [childrenOf, childrenOf, hold x hxp (by have := hvalid x hx; omega)]
    · intro pn' hpn'
      rw [hpn] at hpn'
      obtain rfl := Option.some.inj hpn'
      exact hp3
  refine ⟨⟨hreadOk, ?_, ?_, hg, ?_, ?_, ?_⟩, ?_, ?_⟩
  · -- nodup
    rw [hgra]
    rw [List.nodup_middle]
    refine List.nodup_cons.mpr ⟨?_, hdec ▸ hst.nodup⟩
    intro hc
    exact hnotm (hdec ▸ hc)
  · -- complete
    intro r hr
    rw [linkState_length] at hr
    rw [hmem3]
    rcases Nat.lt_or_ge r s.nodes.length with hlt | hge
    · exact Or.inl (hst.complete r hlt)
    · exact Or.inr (by omega)
  · -- parentDU
    intro r n hrn c hc
    by_cases hr2 : r = s.nodes.length
    · subst hr2
      rw [hnw3] at hrn
      obtain rfl := Option.some.inj hrn
      simp at hc
    by_cases hrp : r = p
    · subst hrp
      rw [hp3] at hrn
      obtain rfl := Option.some.inj hrn
      cases dir with
      | Left =>
        rcases hc with hc | hc
        · rw [show (pn.setChild Directions.Left (some s.nodes.length)).left =
            some s.nodes.length from rfl] at hc
          obtain rfl := Option.some.inj hc
          exact ⟨_, hnw3, rfl⟩
        · rw [show (pn.setChild Directions.Left (some s.nodes.length)).right =
            pn.right from rfl] at hc
          obtain ⟨cn, hcn, hcp⟩ := hst.parentDU r pn hpn c (Or.inr hc)
          have hclen := hlt_of_get hcn
          by_cases hcp2 : c = r
          · subst hcp2
            exact absurd hc ((hnsc c (hst.complete c hclen) pn hpn).2)
          · exact ⟨cn, by rw [hold c hcp2 (by omega)]; exact hcn, hcp⟩
      | Right =>
        rcases hc with hc | hc
        · rw [show (pn.setChild Directions.Right (some s.nodes.length)).left =
            pn.left from rfl] at hc
          obtain ⟨cn, hcn, hcp⟩ := hst.parentDU r pn hpn c (Or.inl hc)
          have hclen := hlt_of_get hcn
          by_cases hcp2 : c = r
          · subst hcp2
            exact absurd hc ((hnsc c (hst.complete c hclen) pn hpn).1)
          · exact ⟨cn, by rw [hold c hcp2 (by omega)]; exact hcn, hcp⟩
        · rw [show (pn.setChild Directions.Right (some s.nodes.length)).right =
            some s.nodes.length from rfl] at hc
          obtain rfl := Option.some.inj hc
          exact ⟨_, hnw3, rfl⟩
    · rw [hold r hrp hr2] at hrn
      obtain ⟨cn, hcn, hcp⟩ := hst.parentDU r n hrn c hc
      have hclen := hlt_of_get hcn
      by_cases hcp2 : c = p
      · subst hcp2
        rw [hpn] at hcn
        obtain rfl := Option.some.inj hcn
        refine ⟨pn.setChild dir (some s.nodes.length), hp3, ?_⟩
        rw [setChild_parent]
        exact hcp
      · exact ⟨cn, by rw [hold c hcp2 (by omega)]; exact hcn, hcp⟩
  · -- parentUD
    intro r n hrn q hq
    by_cases hr2 : r = s.nodes.length
    · subst hr2
      rw [hnw3] at hrn
      obtain rfl := Option.some.inj hrn
      rw [show (⟨idn, v, 0, some p, none, none⟩ :
        BinarySearchTreeNode).parent = some p from rfl] at hq
      obtain rfl := Option.some.inj hq
      refine ⟨pn.setChild dir (some s.nodes.length), hp3, ?_⟩
      cases dir with
      | Left => exact Or.inl rfl
      | Right => exact Or.inr rfl
    by_cases hrp : r = p
    · subst hrp
      rw [hp3] at hrn
      obtain rfl := Option.some.inj hrn
      rw [setChild_parent] at hq
      obtain ⟨qn, hqn, hor⟩ := hst.parentUD r pn hpn q hq
      have hqlen := hlt_of_get hqn
      by_cases hqp : q = r
      · subst hqp
        rw [hpn] at hqn
        obtain rfl := Option.some.inj hqn
        rcases hor with hor | hor
        · exact absurd hor ((hnsc q (hst.complete q hqlen) pn hpn).1)
        · exact absurd hor ((hnsc q (hst.complete q hqlen) pn hpn).2)
      · exact ⟨qn, by rw [hold q hqp (by omega)]; exact hqn, hor⟩
    · rw [hold r hrp hr2] at hrn
      obtain ⟨qn, hqn, hor⟩ := hst.parentUD r n hrn q hq
      have hqlen := hlt_of_get hqn
      by_cases hqp : q = p
      · subst hqp
        rw [hpn] at hqn
        obtain rfl := Option.some.inj hqn
        refine ⟨pn.setChild dir (some s.nodes.length), hp3, ?_⟩
        cases dir with
        | Left =>
          rcases hor with hor | hor
          · rw [show pn.child Directions.Left = pn.left from rfl] at hslot
            rw [hslot] at hor
            simp at hor
          · exact Or.inr hor
        | Right =>
          rcases hor with hor | hor
          · exact Or.inl hor
          · rw [show pn.child Directions.Right = pn.right from rfl] at hslot
            rw [hslot] at hor
            simp at hor
      · exact ⟨qn, by rw [hold q hqp (by omega)]; exact hqn, hor⟩
  · -- headPar
    intro n hn
    rw [linkState_head] at hn
    obtain ⟨hd, _, _, hhd, _, _, _⟩ := readsTo_some_elim hst.readOk
    have hhlen := hlt_of_get hhd
    by_cases hhp : s.head = p
    · rw [hhp, hp3] at hn
      obtain rfl := Option.some.inj hn
      rw [setChild_parent]
      exact hst.headPar pn (hhp ▸ hpn)
    · rw [hold s.head hhp (by omega)] at hn
      exact hst.headPar n hn
  · -- DepthInv for every allocated ref
    have hdeq : ∀ x, depthOf (linkState s p dir idn v) x = depthOf s x := by
      intro x
      by_cases hx1 : x = p
      · subst hx1
        rw [depthOf, hp3, depthOf, hpn]
        simp
      · by_cases hx2 : x = s.nodes.length
        · subst hx2
          rw [depthOf, hnw3, depthOf, List.get?_eq_none.mpr (by omega)]
          rfl
        · rw [depthOf, hold x hx1 hx2, depthOf]
    intro r hr
    by_cases hr2 : r = s.nodes.length
    · subst hr2
      refine ⟨?_, ?_, ?_⟩
      · rw [depthOf, hnw3]
        norm_num
      · intro hc
        rw [depthOf, hnw3] at hc
        simp at hc
      · intro hc
        rw [depthOf, hnw3] at hc
        simp at hc
    have hrlen : r < s.nodes.length := by omega
    obtain ⟨hrange, h2, hm2⟩ := hdepth r hrlen
    by_cases hrp : r = p
    · subst hrp
      refine ⟨by rw [hdeq]; exact hrange, ?_, ?_⟩
      · intro hc
        rw [hdeq] at hc
        obtain ⟨c, hcc, hcd⟩ := h2 hc
        cases dir with
        | Left =>
          refine ⟨c, ?_, by rw [hdeq]; exact hcd⟩
          rw [refChild, hp3]
          rw [refChild, hpn] at hcc
          simpa using hcc
        | Right =>
          exfalso
          rw [refChild, hpn] at hcc
          rw [show pn.child Directions.Right = pn.right from rfl] at hslot
          simp only [Option.bind_eq_bind, Option.some_bind] at hcc
          rw [show (BinarySearchTreeNode.child pn Directions.Right) = pn.right
            from rfl, hslot] at hcc
          simp at hcc
      · intro hc
        rw [hdeq] at hc
        obtain ⟨c, hcc, hcd⟩ := hm2 hc
        cases dir with
        | Right =>
          refine ⟨c, ?_, by rw [hdeq]; exact hcd⟩
          rw [refChild, hp3]
          rw [refChild, hpn] at hcc
          simpa using hcc
        | Left =>
          exfalso
          rw [refChild, hpn] at hcc
          rw [show pn.child Directions.Left = pn.left from rfl] at hslot
          simp only [Option.bind_eq_bind, Option.some_bind] at hcc
          rw [show (BinarySearchTreeNode.child pn Directions.Left) = pn.left
            from rfl, hslot] at hcc
          simp at hcc
    · have hrch : ∀ d', refChild (linkState s p dir idn v) r d' = refChild s r d' := by
        intro d'
        rw [refChild, refChild, hold r hrp hr2]
      refine ⟨by rw [hdeq]; exact hrange, ?_, ?_⟩
      · intro hc
        rw [hdeq] at hc
        obtain ⟨c, hcc, hcd⟩ := h2 hc
        exact ⟨c, by rw [hrch]; exact hcc, by rw [hdeq]; exact hcd⟩
      · intro hc
        rw [hdeq] at hc
        obtain ⟨c, hcc, hcd⟩ := hm2 hc
        exact ⟨c, by rw [hrch]; exact hcc, by rw [hdeq]; exact hcd⟩
  · -- the freshly filled slot is never the heavy side of a ±2 parent
    intro pn3 hpn3
    rw [hp3] at hpn3
    obtain rfl := Option.some.inj hpn3
    obtain ⟨hrange, h2, hm2⟩ := hdepth p hplen
    constructor
    · rintro ⟨hd2, hslot2⟩
      rw [setChild_depth] at hd2
      have hdp : depthOf s p = 2 := by rw [depthOf, hpn]; simpa using hd2
      obtain ⟨c, hcc, _⟩ := h2 hdp
      rw [refChild, hpn] at hcc
      simp only [Option.bind_eq_bind, Option.some_bind] at hcc
      cases dir with
      | Right =>
        rw [show (BinarySearchTreeNode.child pn Directions.Right) = pn.right
          from rfl] at hcc
        rw [show pn.child Directions.Right = pn.right from rfl] at hslot
        rw [hslot] at hcc
        simp at hcc
      | Left =>
        rw [show (pn.setChild Directions.Left (some s.nodes.length)).right =
          pn.right from rfl] at hslot2
        rw [show (BinarySearchTreeNode.child pn Directions.Right) = pn.right
          from rfl, hslot2] at hcc
        obtain rfl := Option.some.inj hcc
        obtain ⟨cn, hcn, _⟩ := hst.parentDU p pn hpn s.nodes.length (Or.inr hslot2)
        have := hlt_of_get hcn
        omega
    · rintro ⟨hd2, hslot2⟩
      rw [setChild_depth] at hd2
      have hdp : depthOf s p = -2 := by rw [depthOf, hpn]; simpa using hd2
      obtain ⟨c, hcc, _⟩ := hm2 hdp
      rw [refChild, hpn] at hcc
      simp only [Option.bind_eq_bind, Option.some_bind] at hcc
      cases dir with
      | Left =>
        rw [show (BinarySearchTreeNode.child pn Directions.Left) = pn.left
          from rfl] at hcc
        rw [show pn.child Directions.Left = pn.left from rfl] at hslot
        rw [hslot] at hcc
        simp at hcc
      | Right =>
        rw [show (pn.setChild Directions.Right (some s.nodes.length)).left =
          pn.left from rfl] at hslot2
        rw [show (BinarySearchTreeNode.child pn Directions.Left) = pn.left
          from rfl, hslot2] at hcc
        obtain rfl := Option.some.inj hcc
        obtain ⟨cn, hcn, _⟩ := hst.parentDU p pn hpn s.nodes.length (Or.inl hslot2)
        have := hlt_of_get hcn
        omega

theorem insert_decomp (s : BinarySearchTree) (idn : Nat) (v : Int) :
    BinarySearchTree.insert s idn v =
      (s.nodes.get? s.head).bind fun hd =>
        (insert_walk s v (s.nodes.length + 1) hd.id).bind fun pd =>
          update_depth (linkState s pd.1 pd.2 idn v) s.nodes.length
            ((linkState s pd.1 pd.2 idn v).nodes.length + 1) := rfl

theorem spec_walk_endpoint {s : BinarySearchTree} {t : RTree} {ρ : Nat}
    (hread : readsTo s (some ρ) t) (hnd : t.inorder.Nodup) (v : Int) :
    ∀ (fuel : Nat) {x p : Nat} {dir : Directions}, x ∈ t.inorder →
      spec_walk s v fuel x = some (p, dir) →
      p ∈ t.inorder ∧ ∃ pn, s.nodes.get? p = some pn ∧ pn.child dir = none := by
  intro fuel
  induction fuel with
  | zero => intro x p dir _ hw; simp [spec_walk] at hw
  | succ f ih =>
    intro x p dir hx hw
    unfold spec_walk at hw
    cases hn : s.nodes.get? x with
    | none =>
      simp only [hn] at hw
      exact Option.noConfusion hw
    | some n =>
      simp only [hn] at hw
      by_cases hvc : v ≤ n.value
      · rw [if_pos hvc] at hw
        cases hlc : n.left with
        | none =>
          simp only [hlc, Option.some.injEq, Prod.mk.injEq] at hw
          obtain ⟨h1, h2⟩ := hw
          subst h1
          subst h2
          exact ⟨hx, n, hn, hlc⟩
        | some c =>
          simp only [hlc] at hw
          exact ih (child_mem_of_mem hread hnd x hx n c hn (Or.inl hlc)) hw
      · rw [if_neg hvc] at hw
        cases hrc : n.right with
        | none =>
          simp only [hrc, Option.some.injEq, Prod.mk.injEq] at hw
          obtain ⟨h1, h2⟩ := hw
          subst h1
          subst h2
          exact ⟨hx, n, hn, hrc⟩
        | some c =>
          simp only [hrc] at hw
          exact ih (child_mem_of_mem hread hnd x hx n c hn (Or.inr hrc)) hw

/-- C6: on a consistent tree, a successful `insert(id, value)` first runs the
placement walk, which starts at the head and is exactly the comparison walk
(`spec_walk`: descend left when `value ≤` the node's value, right when it is
greater, following child links), stopping at a reachable node `p` whose
chosen child slot `dir` is empty; the new node is then allocated, stored in
exactly that slot, its parent link set to `p`, and registered in the index
under `id` — all before the balance climb runs on the linked state. -/
theorem c6_placement_walk {s : BinarySearchTree} {t : RTree} (hwf : WF s t)
    {idn : Nat} {v : Int} {s' : BinarySearchTree}
    (h : BinarySearchTree.insert s idn v = some s') :
    ∃ p dir,
      insert_walk s v (s.nodes.length + 1) (idOf s s.head) = some (p, dir) ∧
      spec_walk s v (s.nodes.length + 1) s.head = some (p, dir) ∧
      p ∈ t.inorder ∧
      (∃ pn, s.nodes.get? p = some pn ∧ pn.child dir = none) ∧
      (∀ pn, s.nodes.get? p = some pn →
        (linkState s p dir idn v).nodes.get? p =
          some (pn.setChild dir (some s.nodes.length))) ∧
      (linkState s p dir idn v).nodes.get? s.nodes.length =
        some ⟨idn, v, 0, some p, none, none⟩ ∧
      lookupId (linkState s p dir idn v).tree idn = some s.nodes.length ∧
      BinarySearchTree.insert s idn v =
        update_depth (linkState s p dir idn v) s.nodes.length
          ((linkState s p dir idn v).nodes.length + 1) := by
  obtain ⟨hd, lt, rt, hhd, heqt, _, _⟩ := readsTo_some_elim hwf.readOk
  have hhm : s.head ∈ t.inorder := by rw [heqt]; simp [RTree.inorder]
  have hdec := insert_decomp s idn v
  rw [hdec, hhd] at h
  simp only [Option.bind_eq_bind, Option.some_bind] at h
  have hid : hd.id = idOf s s.head := by rw [idOf, hhd]; rfl
  cases hwalk : insert_walk s v (s.nodes.length + 1) hd.id with
  | none => rw [hwalk] at h; simp at h
  | some pd =>
    obtain ⟨p, dir⟩ := pd
    have hwalk' : insert_walk s v (s.nodes.length + 1) (idOf s s.head) =
        some (p, dir) := by rw [← hid]; exact hwalk
    have hspec : spec_walk s v (s.nodes.length + 1) s.head = some (p, dir) := by
      rw [← insert_walk_eq_spec hwf v (s.nodes.length + 1) s.head hhm]
      exact hwalk'
    obtain ⟨hpm, pn, hpn, hslot⟩ :=
      spec_walk_endpoint hwf.readOk hwf.nodup v (s.nodes.length + 1) hhm hspec
    have hplen : p < s.nodes.length := readsTo_lt_length hwf.readOk p hpm
    have hgl := linkState_get? dir idn v hplen
    refine ⟨p, dir, hwalk', hspec, hpm, ⟨pn, hpn, hslot⟩, ?_, ?_, ?_, ?_⟩
    · intro pn' hpn'
      rw [hgl p, if_pos rfl, hpn']
      rfl
    · rw [hgl s.nodes.length, if_neg (by omega), if_pos rfl]
    · rw [linkState_tree]
      exact lookupId_indexInsert_self _ _ _
    · refine hdec.trans ?_
      rw [hhd]
      simp only [Option.bind_eq_bind, Option.some_bind]
      rw [hwalk]
      simp only [Option.some_bind]

/-- Witness for C6: the one-node tree `from_head 0 10` with `insert 1 5`. -/
theorem c6_placement_walk_witness :
    WF (BinarySearchTree.from_head 0 10) (RTree.nd 0 RTree.leaf RTree.leaf) ∧
    BinarySearchTree.insert (BinarySearchTree.from_head 0 10) 1 5 =
      some (BinarySearchTree.mk
        [⟨0, 10, -1, none, some 1, none⟩, ⟨1, 5, 0, some 0, none, none⟩]
        0 [(0,0),(1,1)]) ∧
    (∃ p dir,
      insert_walk (BinarySearchTree.from_head 0 10) 5
        ((BinarySearchTree.from_head 0 10).nodes.length + 1)
        (idOf (BinarySearchTree.from_head 0 10)
          (BinarySearchTree.from_head 0 10).head) = some (p, dir) ∧
      spec_walk (BinarySearchTree.from_head 0 10) 5
        ((BinarySearchTree.from_head 0 10).nodes.length + 1)
        (BinarySearchTree.from_head 0 10).head = some (p, dir) ∧
      p ∈ (RTree.nd 0 RTree.leaf RTree.leaf).inorder ∧
      (∃ pn, (BinarySearchTree.from_head 0 10).nodes.get? p = some pn ∧
        pn.child dir = none) ∧
      (∀ pn, (BinarySearchTree.from_head 0 10).nodes.get? p = some pn →
        (linkState (BinarySearchTree.from_head 0 10) p dir 1 5).nodes.get? p =
          some (pn.setChild dir
            (some (BinarySearchTree.from_head 0 10).nodes.length))) ∧
      (linkState (BinarySearchTree.from_head 0 10) p dir 1 5).nodes.get?
          (BinarySearchTree.from_head 0 10).nodes.length =
        some ⟨1, 5, 0, some p, none, none⟩ ∧
      lookupId (linkState (BinarySearchTree.from_head 0 10) p dir 1 5).tree 1 =
        some (BinarySearchTree.from_head 0 10).nodes.length ∧
      BinarySearchTree.insert (BinarySearchTree.from_head 0 10) 1 5 =
        update_depth (linkState (BinarySearchTree.from_head 0 10) p dir 1 5)
          (BinarySearchTree.from_head 0 10).nodes.length
          ((linkState (BinarySearchTree.from_head 0 10) p dir 1 5).nodes.length
            + 1)) := by
  have hwf : WF (BinarySearchTree.from_head 0 10)
      (RTree.nd 0 RTree.leaf RTree.leaf) := by
    refine ⟨⟨⟨1, rfl⟩, by decide, by decide,
      ⟨by simp [RTree.inorder], by simp [RTree.inorder], trivial, trivial⟩,
      ?_, ?_, ?_⟩, by decide, by decide, by decide, by decide, ?_⟩
    · intro r n hrn c hc
      have hr : r = 0 := by
        rcases List.get?_eq_some.mp hrn with ⟨hl, _⟩
        have hlen : (BinarySearchTree.from_head 0 10).nodes.length = 1 := rfl
        omega
      subst hr
      obtain rfl := Option.some.inj hrn
      rcases hc with hc | hc <;> exact Option.noConfusion hc
    · intro r n hrn q hq
      have hr : r = 0 := by
        rcases List.get?_eq_some.mp hrn with ⟨hl, _⟩
        have hlen : (BinarySearchTree.from_head 0 10).nodes.length = 1 := rfl
        omega
      subst hr
      obtain rfl := Option.some.inj hrn
      exact Option.noConfusion hq
    · intro n hn
      obtain rfl := Option.some.inj hn
      rfl
    · intro r hr
      have hr0 : r = 0 := by
        have hlen : (BinarySearchTree.from_head 0 10).nodes.length = 1 := rfl
        omega
      subst hr0
      exact ⟨by decide, fun hg => absurd hg (by decide),
        fun hg => absurd hg (by decide)⟩
  have h : BinarySearchTree.insert (BinarySearchTree.from_head 0 10) 1 5 =
      some (BinarySearchTree.mk
        [⟨0, 10, -1, none, some 1, none⟩, ⟨1, 5, 0, some 0, none, none⟩]
        0 [(0,0),(1,1)]) := by decide
  exact ⟨hwf, h, c6_placement_walk hwf h⟩

/-! ## Subtree coherence and tree parents -/

theorem subtreeAt_some_mem {t : RTree} {p : Nat} {u : RTree}
    (h : subtreeAt t p = some u) : p ∈ u.inorder := by
  obtain ⟨l, r, rfl⟩ := subtreeAt_root h
  simp [RTree.inorder]

theorem subtreeAt_trans : ∀ {t : RTree} {p1 p2 : Nat} {w u : RTree},
    t.inorder.Nodup → subtreeAt t p1 = some w → subtreeAt w p2 = some u →
    subtreeAt t p2 = some u := by
  intro t
  induction t with
  | leaf => intro p1 p2 w u _ h1 _; simp [subtreeAt] at h1
  | nd r l rr ihl ihr =>
    intro p1 p2 w u hnd h1 h2
    have hndl : l.inorder.Nodup := by
      simp only [RTree.inorder, List.nodup_append, List.nodup_cons] at hnd
      exact hnd.1
    have hndr : rr.inorder.Nodup := by
      simp only [RTree.inorder, List.nodup_append, List.nodup_cons] at hnd
      exact hnd.2.1.2
    have hdisj : l.inorder.Disjoint (r :: rr.inorder) := by
      simp only [RTree.inorder, List.nodup_append] at hnd
      exact hnd.2.2
    have hrml : r ∉ l.inorder := fun hc => hdisj hc (List.mem_cons_self _ _)
    have hrmr : r ∉ rr.inorder := by
      simp only [RTree.inorder, List.nodup_append, List.nodup_cons] at hnd
      exact hnd.2.1.1
    by_cases hr1 : r = p1
    · subst hr1
      simp only [subtreeAt, if_pos rfl] at h1
      obtain rfl := Option.some.inj h1
      exact h2
    · have hndw : w.inorder.Nodup := nodup_of_subtree hnd h1
      have hp2w : p2 ∈ w.inorder :=
        subtreeAt_mem_sub hndw h2 p2 (subtreeAt_some_mem h2)
      simp only [subtreeAt, if_neg hr1] at h1
      cases hl1 : subtreeAt l p1 with
      | some w1 =>
        rw [hl1] at h1
        have hww : w1 = w := Option.some.inj h1
        subst hww
        have hwl : ∀ x ∈ w1.inorder, x ∈ l.inorder := subtreeAt_mem_sub hndl hl1
        have hr2 : r ≠ p2 := fun hc => hrml (hc ▸ hwl p2 hp2w)
        have hres := ihl hndl hl1 h2
        simp only [subtreeAt, if_neg hr2, hres]
      | none =>
        rw [hl1] at h1
        have hres := ihr hndr h1 h2
        have hwr : ∀ x ∈ w.inorder, x ∈ rr.inorder := subtreeAt_mem_sub hndr h1
        have hr2 : r ≠ p2 := fun hc => hrmr (hc ▸ hwr p2 hp2w)
        have hl2 : subtreeAt l p2 = none := by
          cases hl2' : subtreeAt l p2 with
          | none => rfl
          | some u2 =>
            exfalso
            have : p2 ∈ l.inorder :=
              subtreeAt_mem_sub hndl hl2' p2 (subtreeAt_some_mem hl2')
            exact hdisj this (List.mem_cons_of_mem r (hwr p2 hp2w))
        simp only [subtreeAt, if_neg hr2, hl2, hres]

theorem tree_parent {s : BinarySearchTree} : ∀ {t : RTree} {ρ : Nat},
    readsTo s (some ρ) t → ∀ f ∈ t.inorder, f = ρ ∨
      ∃ q ∈ t.inorder, ∃ qn, s.nodes.get? q = some qn ∧
        (qn.left = some f ∨ qn.right = some f) := by
  intro t
  induction t with
  | leaf => intro ρ _ f hf; simp [RTree.inorder] at hf
  | nd r l rr ihl ihr =>
    intro ρ hread f hf
    obtain ⟨n, lt, rt, hn, heq, hl, hr⟩ := readsTo_some_elim hread
    injection heq with h1 h2 h3
    subst h1
    subst h2
    subst h3
    simp only [RTree.inorder, List.mem_append, List.mem_cons] at hf
    rcases hf with hf | hf | hf
    · cases l with
      | leaf => simp [RTree.inorder] at hf
      | nd a b c =>
        have ha : n.left = some a := readsTo_root hl
        rw [ha] at hl
        rcases ihl hl f hf with rfl | ⟨q, hq, qn, hqn, hor⟩
        · exact Or.inr ⟨r, by simp [RTree.inorder], n, hn, Or.inl ha⟩
        · refine Or.inr ⟨q, ?_, qn, hqn, hor⟩
          simp only [RTree.inorder, List.mem_append, List.mem_cons] at hq ⊢
          tauto
    · exact Or.inl hf
    · cases rr with
      | leaf => simp [RTree.inorder] at hf
      | nd a b c =>
        have ha : n.right = some a := readsTo_root hr
        rw [ha] at hr
        rcases ihr hr f hf with rfl | ⟨q, hq, qn, hqn, hor⟩
        · exact Or.inr ⟨r, by simp [RTree.inorder], n, hn, Or.inr ha⟩
        · refine Or.inr ⟨q, ?_, qn, hqn, hor⟩
          simp only [RTree.inorder, List.mem_append, List.mem_cons] at hq ⊢
          tauto

/-! ## Reading a tree back after a subtree was replaced and one child slot
redirected (the frame of a rotation) -/

theorem readsTo_frame_remap {s s' : BinarySearchTree} {p ρ' : Nat} :
    ∀ {B : RTree} {o : Option Nat}, readsTo s o B → p ∉ B.inorder →
      (∀ x ∈ B.inorder, ∃ n n', s.nodes.get? x = some n ∧
        s'.nodes.get? x = some n' ∧
        n'.left = (if n.left = some p then some ρ' else n.left) ∧
        n'.right = (if n.right = some p then some ρ' else n.right)) →
      readsTo s' o B := by
  intro B
  induction B with
  | leaf =>
    intro o h _ _
    cases o with
    | none => exact readsTo_leaf _ _ rfl
    | some r =>
      obtain ⟨n, lt, rt, _, heq, _, _⟩ := readsTo_some_elim h
      exact RTree.noConfusion heq
  | nd b l rr ihl ihr =>
    intro o h hnp hag
    have hob : o = some b := readsTo_root h
    subst hob
    obtain ⟨n, lt, rt, hn, heq, hl, hr⟩ := readsTo_some_elim h
    injection heq with h1 h2 h3
    subst h2
    subst h3
    obtain ⟨nb, nb', hnb, hnb', hL, hR⟩ := hag b (by simp [RTree.inorder])
    rw [hn] at hnb
    obtain rfl := Option.some.inj hnb
    refine readsTo_intro hnb' ?_ ?_
    · cases l with
      | leaf =>
        have hnone : n.left = none := by
          cases hc : n.left with
          | none => rfl
          | some c =>
            rw [hc] at hl
            obtain ⟨_, _, _, _, heq2, _, _⟩ := readsTo_some_elim hl
            exact RTree.noConfusion heq2
        rw [hL, hnone]
        simp only [if_neg (by simp : ¬(none = some p))]
        exact readsTo_leaf _ _ rfl
      | nd a x y =>
        have ha : n.left = some a := readsTo_root hl
        have hap : a ≠ p := by
          intro hc
          exact hnp (by simp [RTree.inorder, hc.symm])
        rw [hL, ha, if_neg (by simpa using hap)]
        rw [ha] at hl
        refine ihl hl ?_ ?_
        · intro hc
          refine hnp ?_
          simp only [RTree.inorder, List.mem_append, List.mem_cons] at hc ⊢
          tauto
        · intro z hz
          refine hag z ?_
          simp only [RTree.inorder, List.mem_append, List.mem_cons] at hz ⊢
          tauto
    · cases rr with
      | leaf =>
        have hnone : n.right = none := by
          cases hc : n.right with
          | none => rfl
          | some c =>
            rw [hc] at hr
            obtain ⟨_, _, _, _, heq2, _, _⟩ := readsTo_some_elim hr
            exact RTree.noConfusion heq2
        rw [hR, hnone]
        simp only [if_neg (by simp : ¬(none = some p))]
        exact readsTo_leaf _ _ rfl
      | nd a x y =>
        have ha : n.right = some a := readsTo_root hr
        have hap : a ≠ p := by
          intro hc
          exact hnp (by simp [RTree.inorder, hc.symm])
        rw [hR, ha, if_neg (by simpa using hap)]
        rw [ha] at hr
        refine ihr hr ?_ ?_
        · intro hc
          refine hnp ?_
          simp only [RTree.inorder, List.mem_append, List.mem_cons] at hc ⊢
          tauto
        · intro z hz
          refine hag z ?_
          simp only [RTree.inorder, List.mem_append, List.mem_cons] at hz ⊢
          tauto

theorem replaceAt_not_mem : ∀ {w : RTree} {p : Nat} (u' : RTree),
    p ∉ w.inorder → replaceAt w p u' = w := by
  intro w
  induction w with
  | leaf => intro p u' _; rfl
  | nd r l rr ihl ihr =>
    intro p u' h
    simp only [RTree.inorder, List.mem_append, List.mem_cons, not_or] at h
    rw [show replaceAt (RTree.nd r l rr) p u' =
      if r = p then u' else RTree.nd r (replaceAt l p u') (replaceAt rr p u')
      from rfl, if_neg (fun hc => h.2.1 hc.symm)]
    rw [ihl u' h.1, ihr u' h.2.2]

theorem readsTo_replace_remap {s s' : BinarySearchTree} {p ρ' : Nat} {u' : RTree}
    (hu' : readsTo s' (some ρ') u') :
    ∀ {t : RTree} {ρ : Nat} {u : RTree},
      readsTo s (some ρ) t → t.inorder.Nodup → subtreeAt t p = some u → p ≠ ρ →
      (∀ x ∈ t.inorder, x ∉ u.inorder → ∃ n n', s.nodes.get? x = some n ∧
        s'.nodes.get? x = some n' ∧
        n'.left = (if n.left = some p then some ρ' else n.left) ∧
        n'.right = (if n.right = some p then some ρ' else n.right)) →
      readsTo s' (some ρ) (replaceAt t p u') := by
  intro t
  induction t with
  | leaf => intro ρ u _ _ hsub _ _; simp [subtreeAt] at hsub
  | nd r l rr ihl ihr =>
    intro ρ u hread hnd hsub hne hag
    have hor : ρ = r := by
      have := readsTo_root hread
      exact Option.some.inj this
    subst hor
    obtain ⟨n, lt, rt, hn, heq, hl, hr⟩ := readsTo_some_elim hread
    injection heq with h1 h2 h3
    subst h2
    subst h3
    have hndl : l.inorder.Nodup := by
      simp only [RTree.inorder, List.nodup_append, List.nodup_cons] at hnd
      exact hnd.1
    have hndr : rr.inorder.Nodup := by
      simp only [RTree.inorder, List.nodup_append, List.nodup_cons] at hnd
      exact hnd.2.1.2
    have hdisj : l.inorder.Disjoint (ρ :: rr.inorder) := by
      simp only [RTree.inorder, List.nodup_append] at hnd
      exact hnd.2.2
    have hrp : ρ ≠ p := fun hc => hne hc.symm
    rw [show replaceAt (RTree.nd ρ l rr) p u' =
      if ρ = p then u' else RTree.nd ρ (replaceAt l p u') (replaceAt rr p u')
      from rfl, if_neg hrp]
    simp only [subtreeAt, if_neg hrp] at hsub
    obtain ⟨nb, nb', hnb, hnb', hL, hR⟩ := hag ρ (by simp [RTree.inorder]) (by
      intro hc
      have : ρ ∈ l.inorder ∨ ρ ∈ rr.inorder := by
        cases hls : subtreeAt l p with
        | some u1 =>
          rw [hls] at hsub
          have hww : u1 = u := Option.some.inj hsub
          subst hww
          exact Or.inl (subtreeAt_mem_sub hndl hls ρ hc)
        | none =>
          rw [hls] at hsub
          exact Or.inr (subtreeAt_mem_sub hndr hsub ρ hc)
      rcases this with hin | hin
      · exact hdisj hin (List.mem_cons_self _ _)
      · simp only [RTree.inorder, List.nodup_append, List.nodup_cons] at hnd
        exact hnd.2.1.1 hin)
    rw [hn] at hnb
    obtain rfl := Option.some.inj hnb
    cases hls : subtreeAt l p with
    | some u1 =>
      rw [hls] at hsub
      have hww : u1 = u := Option.some.inj hsub
      subst hww
      -- p is in the left branch
      have hpml : p ∈ l.inorder := subtreeAt_mem_sub hndl hls p (subtreeAt_some_mem hls)
      have hpmr : p ∉ rr.inorder := fun hc =>
        hdisj hpml (List.mem_cons_of_mem ρ hc)
      have hrrep : replaceAt rr p u' = rr := replaceAt_not_mem u' hpmr
      rw [hrrep]
      refine readsTo_intro hnb' ?_ ?_
      · cases l with
        | leaf => simp [subtreeAt] at hls
        | nd a x y =>
          have ha : n.left = some a := readsTo_root hl
          by_cases hap : a = p
          · subst hap
            rw [hL, ha, if_pos rfl]
            rw [show replaceAt (RTree.nd a x y) a u' = u' from by
              rw [show replaceAt (RTree.nd a x y) a u' =
                if a = a then u' else RTree.nd a (replaceAt x a u')
                  (replaceAt y a u') from rfl, if_pos rfl]]
            exact hu'
          · rw [hL, ha, if_neg (by simpa using fun hc => hap hc)]
            rw [ha] at hl
            refine ihl hl hndl hls (fun hc => hap hc.symm) ?_
            intro z hz hzu
            refine hag z ?_ hzu
            simp only [RTree.inorder, List.mem_append, List.mem_cons] at hz ⊢
            tauto
      · cases rr with
        | leaf =>
          have hnone : n.right = none := by
            cases hc : n.right with
            | none => rfl
            | some c =>
              rw [hc] at hr
              obtain ⟨_, _, _, _, heq2, _, _⟩ := readsTo_some_elim hr
              exact RTree.noConfusion heq2
          rw [hR, hnone]
          simp only [if_neg (by simp : ¬(none = some p))]
          exact readsTo_leaf _ _ rfl
        | nd a x y =>
          have ha : n.right = some a := readsTo_root hr
          have hap : a ≠ p := by
            intro hc
            exact hpmr (by simp [RTree.inorder, hc.symm])
          rw [hR, ha, if_neg (by simpa using hap)]
          rw [ha] at hr
          refine @readsTo_frame_remap s s' p ρ' _ _ hr hpmr ?_
          intro z hz
          refine hag z (by
            simp only [RTree.inorder, List.mem_append, List.mem_cons] at hz ⊢
            tauto) ?_
          intro hc
          exact hdisj (subtreeAt_mem_sub hndl hls z hc) (List.mem_cons_of_mem ρ hz)
    | none =>
      rw [hls] at hsub
      have hpmr : p ∈ rr.inorder :=
        subtreeAt_mem_sub hndr hsub p (subtreeAt_some_mem hsub)
      have hpml : p ∉ l.inorder := fun hc =>
        hdisj hc (List.mem_cons_of_mem ρ hpmr)
      have hlrep : replaceAt l p u' = l := replaceAt_not_mem u' hpml
      rw [hlrep]
      refine readsTo_intro hnb' ?_ ?_
      · cases l with
        | leaf =>
          have hnone : n.left = none := by
            cases hc : n.left with
            | none => rfl
            | some c =>
              rw [hc] at hl
              obtain ⟨_, _, _, _, heq2, _, _⟩ := readsTo_some_elim hl
              exact RTree.noConfusion heq2
          rw [hL, hnone]
          simp only [if_neg (by simp : ¬(none = some p))]
          exact readsTo_leaf _ _ rfl
        | nd a x y =>
          have ha : n.left = some a := readsTo_root hl
          have hap : a ≠ p := by
            intro hc
            exact hpml (by simp [RTree.inorder, hc.symm])
          rw [hL, ha, if_neg (by simpa using hap)]
          rw [ha] at hl
          refine @readsTo_frame_remap s s' p ρ' _ _ hl hpml ?_
          intro z hz
          refine hag z (by
            simp only [RTree.inorder, List.mem_append, List.mem_cons] at hz ⊢
            tauto) ?_
          intro hc
          exact hdisj hz (List.mem_cons_of_mem ρ (subtreeAt_mem_sub hndr hsub z hc))
      · cases rr with
        | leaf => simp [subtreeAt] at hsub
        | nd a x y =>
          have ha : n.right = some a := readsTo_root hr
          by_cases hap : a = p
          · subst hap
            rw [hR, ha, if_pos rfl]
            rw [show replaceAt (RTree.nd a x y) a u' = u' from by
              rw [show replaceAt (RTree.nd a x y) a u' =
                if a = a then u' else RTree.nd a (replaceAt x a u')
                  (replaceAt y a u') from rfl, if_pos rfl]]
            exact hu'
          · rw [hR, ha, if_neg (by simpa using fun hc => hap hc)]
            rw [ha] at hr
            refine ihr hr hndr hsub (fun hc => hap hc.symm) ?_
            intro z hz hzu
            refine hag z ?_ hzu
            simp only [RTree.inorder, List.mem_append, List.mem_cons] at hz ⊢
            tauto

theorem distinct_slots {s : BinarySearchTree} {t : RTree} {ρ : Nat}
    (hread : readsTo s (some ρ) t) (hnd : t.inorder.Nodup) :
    ∀ x ∈ t.inorder, ∀ n, s.nodes.get? x = some n →
      ∀ c, n.left = some c → n.right = some c → False := by
  intro x hx n hn c hcl hcr
  obtain ⟨u, hu⟩ := subtreeAt_of_mem hx
  have hndu := nodup_of_subtree hnd hu
  have hru := readsTo_subtreeAt hread hu
  obtain ⟨n', lt, rt, hn', hequ, hl, hr⟩ := readsTo_some_elim hru
  rw [hn] at hn'
  obtain rfl := Option.some.inj hn'
  subst hequ
  rw [hcl] at hl
  rw [hcr] at hr
  obtain ⟨_, _, _, _, heql, _, _⟩ := readsTo_some_elim hl
  obtain ⟨_, _, _, _, heqr, _, _⟩ := readsTo_some_elim hr
  have hcml : c ∈ lt.inorder := by rw [heql]; simp [RTree.inorder]
  have hcmr : c ∈ rt.inorder := by rw [heqr]; simp [RTree.inorder]
  rw [show (RTree.nd x lt rt).inorder = lt.inorder ++ x :: rt.inorder from rfl,
    List.nodup_append] at hndu
  exact hndu.2.2 hcml (List.mem_cons_of_mem x hcmr)

theorem dir_correct {s : BinarySearchTree} {t : RTree} (hst : StructWF s t)
    (hid : ∀ x ∈ t.inorder, ∀ y ∈ t.inorder, idOf s x = idOf s y → x = y)
    {par pc : Nat} {pcn : BinarySearchTreeNode}
    (hpcm : pc ∈ t.inorder) (hpcn : s.nodes.get? pc = some pcn)
    (hpar : pcn.parent = some par) :
    ∃ pn, s.nodes.get? par = some pn ∧
      pn.child (get_directions s par pc) = some pc := by
  obtain ⟨pn, hpn, hor⟩ := hst.parentUD pc pcn hpcn par hpar
  have hparm : par ∈ t.inorder :=
    hst.complete par (List.get?_eq_some.mp hpn).1
  rcases hor with hsl | hsl
  · rw [get_directions_left hpn hpcn hsl]
    exact ⟨pn, hpn, hsl⟩
  · refine ⟨pn, hpn, ?_⟩
    have hdr : get_directions s par pc = Directions.Right := by
      unfold get_directions
      simp only [hpn]
      cases hll : pn.left with
      | none => rfl
      | some l =>
        obtain ⟨ln, hln, _⟩ := hst.parentDU par pn hpn l (Or.inl hll)
        have hlm : l ∈ t.inorder := hst.complete l (List.get?_eq_some.mp hln).1
        simp only [hln, hpcn]
        have hne : ln.id ≠ pcn.id := by
          intro hc
          have hideq : idOf s l = idOf s pc := by
            rw [idOf, idOf, hln, hpcn]
            simpa using hc
          have hlpc : l = pc := hid l hlm pc hpcm hideq
          subst hlpc
          exact distinct_slots hst.readOk hst.nodup par hparm pn hpn l hll hsl
        rw [if_neg hne]
    rw [hdr]
    exact hsl

theorem bumpDepth_get? (s : BinarySearchTree) (pRef pc x : Nat) :
    (bumpDepth s pRef pc).nodes.get? x =
      if x = pRef then (s.nodes.get? pRef).map (fun n =>
        { n with one_side_depth :=
            n.one_side_depth + (get_directions s pRef pc).get_depth })
      else s.nodes.get? x :=
  updNode_get? s pRef _ x

theorem bumpDepth_head (s : BinarySearchTree) (pRef pc : Nat) :
    (bumpDepth s pRef pc).head = s.head :=
  updNode_head s pRef _

theorem bumpDepth_node {s : BinarySearchTree} {pRef pc x : Nat}
    {n : BinarySearchTreeNode} (hn : s.nodes.get? x = some n) :
    ∃ n', (bumpDepth s pRef pc).nodes.get? x = some n' ∧ n'.left = n.left ∧
      n'.right = n.right ∧ n'.parent = n.parent ∧ n'.id = n.id ∧
      n'.value = n.value ∧ (x ≠ pRef → n' = n) ∧
      (x = pRef → n'.one_side_depth =
        n.one_side_depth + (get_directions s pRef pc).get_depth) := by
  rw [bumpDepth_get?]
  by_cases hx : x = pRef
  · subst hx
    rw [if_pos rfl, hn]
    exact ⟨_, rfl, rfl, rfl, rfl, rfl, rfl, fun hc => absurd rfl hc, fun _ => rfl⟩
  · rw [if_neg hx, hn]
    exact ⟨n, rfl, rfl, rfl, rfl, rfl, rfl, fun _ => rfl, fun hc => absurd hc hx⟩

theorem bumpDepth_node_inv {s : BinarySearchTree} {pRef pc x : Nat}
    {n' : BinarySearchTreeNode}
    (hn' : (bumpDepth s pRef pc).nodes.get? x = some n') :
    ∃ n, s.nodes.get? x = some n ∧ n'.left = n.left ∧ n'.right = n.right ∧
      n'.parent = n.parent ∧ n'.id = n.id ∧ n'.value = n.value := by
  rw [bumpDepth_get?] at hn'
  by_cases hx : x = pRef
  · rw [if_pos hx] at hn'
    cases hg : s.nodes.get? pRef with
    | none => rw [hg] at hn'; exact Option.noConfusion hn'
    | some m =>
      rw [hg] at hn'
      simp only [Option.map_some', Option.some.injEq] at hn'
      subst hn'
      exact ⟨m, hx ▸ hg, rfl, rfl, rfl, rfl, rfl⟩
  · rw [if_neg hx] at hn'
    exact ⟨n', hn', rfl, rfl, rfl, rfl, rfl⟩

theorem StructWF_bumpDepth {s : BinarySearchTree} {t : RTree}
    (hst : StructWF s t) (pRef pc : Nat) : StructWF (bumpDepth s pRef pc) t := by
  have hch : ∀ x, childrenOf (bumpDepth s pRef pc) x = childrenOf s x := by
    intro x
    rw [childrenOf, childrenOf, bumpDepth_get?]
    by_cases hx : x = pRef
    · subst hx
      rw [if_pos rfl]
      cases s.nodes.get? x <;> simp
    · rw [if_neg hx]
  have hvals : ∀ x, valOf (bumpDepth s pRef pc) x = valOf s x := by
    intro x
    rw [valOf, valOf, bumpDepth_get?]
    by_cases hx : x = pRef
    · subst hx
      rw [if_pos rfl]
      cases s.nodes.get? x <;> simp
    · rw [if_neg hx]
  refine ⟨?_, hst.nodup, ?_, ?_, ?_, ?_, ?_⟩
  · rw [bumpDepth_head]
    exact readsTo_frame hst.readOk (fun x _ => hch x)
  · intro r hr
    rw [show (bumpDepth s pRef pc).nodes.length = s.nodes.length from
      updNode_length s pRef _] at hr
    exact hst.complete r hr
  · exact SortedT_congr (fun x _ => hvals x) hst.sorted
  · intro r n hrn c hc
    obtain ⟨m, hm, hL, hR, _, _, _⟩ := bumpDepth_node_inv hrn
    obtain ⟨cn, hcn, hcp⟩ := hst.parentDU r m hm c (by
      rcases hc with hc | hc
      · exact Or.inl (hL ▸ hc)
      · exact Or.inr (hR ▸ hc))
    obtain ⟨cn', hcn', _, _, hP, _, _, _, _⟩ := bumpDepth_node hcn
    exact ⟨cn', hcn', hP.trans hcp⟩
  · intro r n hrn q hq
    obtain ⟨m, hm, _, _, hP, _, _⟩ := bumpDepth_node_inv hrn
    obtain ⟨qn, hqn, hor⟩ := hst.parentUD r m hm q (hP ▸ hq)
    obtain ⟨qn', hqn', hL', hR', _, _, _, _, _⟩ := bumpDepth_node hqn
    refine ⟨qn', hqn', ?_⟩
    rcases hor with hor | hor
    · exact Or.inl (hL'.trans hor)
    · exact Or.inr (hR'.trans hor)
  · intro n hn
    rw [bumpDepth_head] at hn
    obtain ⟨m, hm, _, _, hP, _, _⟩ := bumpDepth_node_inv hn
    exact hP.trans (hst.headPar m hm)

theorem subtree_shape {s : BinarySearchTree} {t : RTree} (hst : StructWF s t)
    {f : Nat} (hfm : f ∈ t.inorder) :
    ∃ fn A B, s.nodes.get? f = some fn ∧ subtreeAt t f = some (RTree.nd f A B) ∧
      readsTo s fn.left A ∧ readsTo s fn.right B := by
  obtain ⟨u, hu⟩ := subtreeAt_of_mem hfm
  have hru := readsTo_subtreeAt hst.readOk hu
  obtain ⟨fn, A, B, hfn, hequ, hl, hr⟩ := readsTo_some_elim hru
  exact ⟨fn, A, B, hfn, hequ ▸ hu, hl, hr⟩

theorem subtreeAt_none_of_not_mem {t : RTree} {p : Nat} (hnd : t.inorder.Nodup)
    (h : p ∉ t.inorder) : subtreeAt t p = none := by
  cases hc : subtreeAt t p with
  | none => rfl
  | some u =>
    exact absurd (subtreeAt_mem_sub hnd hc p (subtreeAt_some_mem hc)) h

theorem parent_not_in_subtree {s : BinarySearchTree} {t : RTree}
    (hst : StructWF s t) {f g : Nat} {fn : BinarySearchTreeNode} {u : RTree}
    (hfm : f ∈ t.inorder) (hfn : s.nodes.get? f = some fn)
    (hpar : fn.parent = some g) (hu : subtreeAt t f = some u) :
    g ∉ u.inorder := by
  obtain ⟨gn, hgn, hor⟩ := hst.parentUD f fn hfn g hpar
  have hgm : g ∈ t.inorder := hst.complete g (List.get?_eq_some.mp hgn).1
  have hgf : g ≠ f := by
    intro hc
    subst hc
    rw [hgn] at hfn
    obtain rfl := Option.some.inj hfn
    rcases hor with hor | hor
    · exact (no_self_child hst.readOk hst.nodup g hgm gn hgn).1 hor
    · exact (no_self_child hst.readOk hst.nodup g hgm gn hgn).2 hor
  obtain ⟨gn', X, Y, hgn', hw, hlX, hrY⟩ := subtree_shape hst hgm
  rw [hgn] at hgn'
  obtain rfl := Option.some.inj hgn'
  have hndw : (RTree.nd g X Y).inorder.Nodup := nodup_of_subtree hst.nodup hw
  have hndX : X.inorder.Nodup := by
    rw [show (RTree.nd g X Y).inorder = X.inorder ++ g :: Y.inorder from rfl,
      List.nodup_append] at hndw
    exact hndw.1
  rw [show (RTree.nd g X Y).inorder = X.inorder ++ g :: Y.inorder from rfl,
    List.nodup_append] at hndw
  rcases hor with hor | hor
  · -- f is the root of X
    rw [hor] at hlX
    obtain ⟨_, _, _, _, heqX, _, _⟩ := readsTo_some_elim hlX
    have hfu : subtreeAt (RTree.nd g X Y) f = some X := by
      rw [show subtreeAt (RTree.nd g X Y) f =
        if g = f then some (RTree.nd g X Y) else
          match subtreeAt X f with
          | some u => some u
          | none => subtreeAt Y f from rfl, if_neg hgf]
      rw [heqX]
      rw [show subtreeAt (RTree.nd f _ _) f = some (RTree.nd f _ _) from by
        rw [show subtreeAt (RTree.nd f _ _) f =
          if f = f then some (RTree.nd f _ _) else
            match subtreeAt _ f with
            | some u => some u
            | none => subtreeAt _ f from rfl, if_pos rfl]]
    have := subtreeAt_trans hst.nodup hw hfu
    rw [hu] at this
    have huX : u = X := Option.some.inj this
    subst huX
    intro hc
    exact hndw.2.2 hc (List.mem_cons_self _ _)
  · -- f is the root of Y
    rw [hor] at hrY
    obtain ⟨_, _, _, _, heqY, _, _⟩ := readsTo_some_elim hrY
    have hfmY : f ∈ Y.inorder := by rw [heqY]; simp [RTree.inorder]
    have hfnX : f ∉ X.inorder := fun hc =>
      hndw.2.2 hc (List.mem_cons_of_mem g hfmY)
    have hfu : subtreeAt (RTree.nd g X Y) f = some Y := by
      rw [show subtreeAt (RTree.nd g X Y) f =
        if g = f then some (RTree.nd g X Y) else
          match subtreeAt X f with
          | some u => some u
          | none => subtreeAt Y f from rfl, if_neg hgf,
        subtreeAt_none_of_not_mem hndX hfnX]
      rw [heqY]
      rw [show subtreeAt (RTree.nd f _ _) f = some (RTree.nd f _ _) from by
        rw [show subtreeAt (RTree.nd f _ _) f =
          if f = f then some (RTree.nd f _ _) else
            match subtreeAt _ f with
            | some u => some u
            | none => subtreeAt _ f from rfl, if_pos rfl]]
    have := subtreeAt_trans hst.nodup hw hfu
    rw [hu] at this
    have huY : u = Y := Option.some.inj this
    subst huY
    intro hc
    exact (List.nodup_cons.mp hndw.2.1).1 hc

theorem child_or (n : BinarySearchTreeNode) (c : Nat) :
    (n.left = some c ∨ n.right = some c) ↔ ∃ dd, n.child dd = some c := by
  constructor
  · rintro (h | h)
    · exact ⟨Directions.Left, h⟩
    · exact ⟨Directions.Right, h⟩
  · rintro ⟨dd, h⟩
    cases dd
    · exact Or.inl h
    · exact Or.inr h

theorem Directions.eq_or_opp (dd d : Directions) : dd = d ∨ dd = d.get_opposite := by
  cases dd <;> cases d <;> simp [Directions.get_opposite]

theorem child_mods (n : BinarySearchTreeNode) (dd : Directions) (x : Int)
    (po : Option Nat) :
    ({ n with one_side_depth := x, parent := po } : BinarySearchTreeNode).child dd =
      n.child dd := by cases dd <;> rfl

theorem child_parentset (n : BinarySearchTreeNode) (dd : Directions) (po : Option Nat) :
    ({ n with parent := po } : BinarySearchTreeNode).child dd = n.child dd := by
  cases dd <;> rfl

theorem two_slots {n : BinarySearchTreeNode} {c : Nat} {d : Directions}
    (h1 : n.child d = some c) (h2 : n.child d.get_opposite = some c) :
    n.left = some c ∧ n.right = some c := by
  cases d
  · exact ⟨h1, h2⟩
  · exact ⟨h2, h1⟩

/-- After a simple rotation, parent/child links are again mutually consistent.
The hypotheses are exactly the pointwise state description produced by
`simple_rotation_spec_root` / `simple_rotation_spec_gp`, with `u` the subtree
of the pivot `f` in the pre-rotation abstraction `t`. -/
theorem simple_rotation_links {s s' : BinarySearchTree} {t u : RTree} {f sc : Nat}
    {d : Directions} {fn sn : BinarySearchTreeNode}
    (hst : StructWF s t) (hfm : f ∈ t.inorder)
    (hfn : s.nodes.get? f = some fn) (hsc : fn.child d = some sc)
    (hsn : s.nodes.get? sc = some sn)
    (hu : subtreeAt t f = some u)
    (hF' : s'.nodes.get? f = some
      { fn.setChild d (sn.child d.get_opposite) with
        one_side_depth := 0, parent := some sc })
    (hS' : s'.nodes.get? sc = some
      { sn.setChild d.get_opposite (some f) with
        one_side_depth := 0, parent := fn.parent })
    (hOC' : ∀ z zn, sn.child d.get_opposite = some z → s.nodes.get? z = some zn →
      s'.nodes.get? z = some { zn with parent := some f })
    (hG' : ∀ g, fn.parent = some g → ∃ gn, s.nodes.get? g = some gn ∧
      gn.child (get_directions s g f) = some f ∧
      s'.nodes.get? g = some (gn.setChild (get_directions s g f) (some sc)))
    (hE' : ∀ x, x ≠ f → x ≠ sc →
      (∀ z, sn.child d.get_opposite = some z → x ≠ z) →
      (∀ g, fn.parent = some g → x ≠ g) →
      s'.nodes.get? x = s.nodes.get? x)
    (hhr : fn.parent = none → s'.head = sc)
    (hhg : ∀ g, fn.parent = some g → s'.head = s.head) :
    (∀ r n, s'.nodes.get? r = some n → ∀ c, (n.left = some c ∨ n.right = some c) →
      ∃ cn, s'.nodes.get? c = some cn ∧ cn.parent = some r) ∧
    (∀ r n, s'.nodes.get? r = some n → ∀ q, n.parent = some q →
      ∃ qn, s'.nodes.get? q = some qn ∧ (qn.left = some r ∨ qn.right = some r)) ∧
    (∀ n, s'.nodes.get? s'.head = some n → n.parent = none) := by
  have hru : readsTo s (some f) u := readsTo_subtreeAt hst.readOk hu
  have hndu : u.inorder.Nodup := nodup_of_subtree hst.nodup hu
  have hfmu : f ∈ u.inorder := subtreeAt_some_mem hu
  have hmemu : ∀ x ∈ u.inorder, x ∈ t.inorder := subtreeAt_mem_sub hst.nodup hu
  have hchildu : ∀ x ∈ u.inorder, ∀ n c, s.nodes.get? x = some n →
      (n.left = some c ∨ n.right = some c) → c ∈ u.inorder :=
    child_mem_of_mem hru hndu
  have hnsc := no_self_child hst.readOk hst.nodup
  have hscm : sc ∈ u.inorder :=
    hchildu f hfmu fn sc hfn ((child_or fn sc).mpr ⟨d, hsc⟩)
  have hfsc : f ≠ sc := by
    intro hc
    rcases (child_or fn sc).mpr ⟨d, hsc⟩ with hx | hx
    · exact (hnsc f hfm fn hfn).1 (hc ▸ hx)
    · exact (hnsc f hfm fn hfn).2 (hc ▸ hx)
  have hscp : sn.parent = some f := by
    obtain ⟨cn, hcn, hcp⟩ := hst.parentDU f fn hfn sc ((child_or fn sc).mpr ⟨d, hsc⟩)
    rw [hsn] at hcn
    obtain rfl := Option.some.inj hcn
    exact hcp
  have hgnotu : ∀ g, fn.parent = some g → g ∉ u.inorder := by
    intro g hg
    exact parent_not_in_subtree hst hfm hfn hg hu
  have hzmem : ∀ z, sn.child d.get_opposite = some z → z ∈ u.inorder := by
    intro z hz
    exact hchildu sc hscm sn z hsn ((child_or sn z).mpr ⟨_, hz⟩)
  have hzn_ex : ∀ z, sn.child d.get_opposite = some z →
      ∃ zn, s.nodes.get? z = some zn ∧ zn.parent = some sc := by
    intro z hz
    exact hst.parentDU sc sn hsn z ((child_or sn z).mpr ⟨_, hz⟩)
  have hzsc : ∀ z, sn.child d.get_opposite = some z → z ≠ sc := by
    intro z hz hc
    rcases (child_or sn z).mpr ⟨_, hz⟩ with hx | hx
    · exact (hnsc sc (hmemu sc hscm) sn hsn).1 (hc ▸ hx)
    · exact (hnsc sc (hmemu sc hscm) sn hsn).2 (hc ▸ hx)
  have hzf : ∀ z, sn.child d.get_opposite = some z → z ≠ f := by
    intro z hz hc
    obtain ⟨zn, hznn, hzp⟩ := hzn_ex z hz
    subst hc
    rw [hfn] at hznn
    obtain rfl := Option.some.inj hznn
    exact hgnotu sc hzp hscm
  -- the unique holder of a given child
  have hholder : ∀ x xn c, s.nodes.get? x = some xn →
      (xn.left = some c ∨ xn.right = some c) → ∀ cn, s.nodes.get? c = some cn →
      cn.parent = some x := by
    intro x xn c hxn hor cn hcn
    obtain ⟨cn', hcn', hcp⟩ := hst.parentDU x xn hxn c hor
    rw [hcn] at hcn'
    obtain rfl := Option.some.inj hcn'
    exact hcp
  have hgm : ∀ g, fn.parent = some g → g ∈ t.inorder := by
    intro g hg
    obtain ⟨gn, hgn, _, _⟩ := hG' g hg
    exact hst.complete g (List.get?_eq_some.mp hgn).1
  refine ⟨?_, ?_, ?_⟩
  · -- parentDU
    intro r n hrn c hc
    by_cases hrf : r = f
    · subst hrf
      rw [hF'] at hrn
      obtain rfl := Option.some.inj hrn
      obtain ⟨dd, hdd⟩ := (child_or _ c).mp hc
      rw [child_mods] at hdd
      rcases Directions.eq_or_opp dd d with hdd1 | rfl
      · rw [hdd1, child_setChild_same] at hdd
        obtain ⟨zn, hznn, hzp⟩ := hzn_ex c hdd
        exact ⟨{ zn with parent := some r }, hOC' c zn hdd hznn, rfl⟩
      · rw [child_opp_setChild] at hdd
        obtain ⟨cn, hcn, hcp⟩ :=
          hst.parentDU r fn hfn c ((child_or fn c).mpr ⟨_, hdd⟩)
        have hcf : c ≠ r := by
          intro hcc
          subst hcc
          rcases (child_or fn c).mpr ⟨_, hdd⟩ with hx | hx
          · exact (hnsc c hfm fn hfn).1 hx
          · exact (hnsc c hfm fn hfn).2 hx
        have hcsc : c ≠ sc := by
          intro hcc
          subst hcc
          obtain ⟨hL, hR⟩ := two_slots hsc hdd
          exact distinct_slots hst.readOk hst.nodup r hfm fn hfn c hL hR
        have hcz : ∀ z, sn.child d.get_opposite = some z → c ≠ z := by
          intro z hz hcc
          subst hcc
          obtain ⟨zn, hznn, hzp⟩ := hzn_ex c hz
          rw [hcn] at hznn
          obtain rfl := Option.some.inj hznn
          rw [hcp] at hzp
          exact hfsc (Option.some.inj hzp)
        have hcg : ∀ g, fn.parent = some g → c ≠ g := by
          intro g hg hcc
          subst hcc
          exact hgnotu c hg
            (hchildu r hfmu fn c hfn ((child_or fn c).mpr ⟨_, hdd⟩))
        rw [← hE' c hcf hcsc hcz hcg] at hcn
        exact ⟨cn, hcn, hcp⟩
    by_cases hrsc : r = sc
    · subst hrsc
      rw [hS'] at hrn
      obtain rfl := Option.some.inj hrn
      obtain ⟨dd, hdd⟩ := (child_or _ c).mp hc
      rw [child_mods] at hdd
      rcases Directions.eq_or_opp dd d.get_opposite with rfl | hdd2
      · rw [child_setChild_same] at hdd
        obtain rfl := Option.some.inj hdd
        exact ⟨_, hF', rfl⟩
      · rw [get_opposite_get_opposite] at hdd2
        rw [hdd2] at hdd
        rw [child_setChild_opp] at hdd
        obtain ⟨cn, hcn, hcp⟩ :=
          hst.parentDU r sn hsn c ((child_or sn c).mpr ⟨_, hdd⟩)
        have hcsc : c ≠ r := by
          intro hcc
          subst hcc
          rcases (child_or sn c).mpr ⟨_, hdd⟩ with hx | hx
          · exact (hnsc c (hmemu c hscm) sn hsn).1 hx
          · exact (hnsc c (hmemu c hscm) sn hsn).2 hx
        have hcf : c ≠ f := by
          intro hcc
          subst hcc
          have := hholder r sn c hsn ((child_or sn c).mpr ⟨_, hdd⟩) fn hfn
          exact hgnotu r this hscm
        have hcz : ∀ z, sn.child d.get_opposite = some z → c ≠ z := by
          intro z hz hcc
          subst hcc
          obtain ⟨hL, hR⟩ := two_slots hdd hz
          exact distinct_slots hst.readOk hst.nodup r (hmemu r hscm) sn hsn c hL hR
        have hcg : ∀ g, fn.parent = some g → c ≠ g := by
          intro g hg hcc
          subst hcc
          exact hgnotu c hg
            (hchildu r hscm sn c hsn ((child_or sn c).mpr ⟨_, hdd⟩))
        rw [← hE' c hcf hcsc hcz hcg] at hcn
        exact ⟨cn, hcn, hcp⟩
    by_cases hrz : ∃ z, sn.child d.get_opposite = some z ∧ r = z
    · obtain ⟨z, hz, rfl⟩ := hrz
      obtain ⟨zn, hznn, hzp⟩ := hzn_ex r hz
      rw [hOC' r zn hz hznn] at hrn
      obtain rfl := Option.some.inj hrn
      have hc' : zn.left = some c ∨ zn.right = some c := hc
      obtain ⟨cn, hcn, hcp⟩ := hst.parentDU r zn hznn c hc'
      have hzmm : r ∈ u.inorder := hzmem r hz
      have hcz2 : c ≠ r := by
        intro hcc
        subst hcc
        rcases hc' with hx | hx
        · exact (hnsc c (hmemu c hzmm) zn hznn).1 hx
        · exact (hnsc c (hmemu c hzmm) zn hznn).2 hx
      have hcf : c ≠ f := by
        intro hcc
        subst hcc
        have := hholder r zn c hznn hc' fn hfn
        exact hgnotu r this hzmm
      have hcsc : c ≠ sc := by
        intro hcc
        subst hcc
        have := hholder r zn c hznn hc' sn hsn
        rw [hscp] at this
        exact (hzf r hz) (Option.some.inj this).symm
      have hczz : ∀ z', sn.child d.get_opposite = some z' → c ≠ z' := by
        intro z' hz' hcc
        rw [hz] at hz'
        obtain rfl := Option.some.inj hz'
        exact hcz2 hcc
      have hcg : ∀ g, fn.parent = some g → c ≠ g := by
        intro g hg hcc
        subst hcc
        exact hgnotu c hg (hchildu r hzmm zn c hznn hc')
      rw [← hE' c hcf hcsc hczz hcg] at hcn
      exact ⟨cn, hcn, hcp⟩
    by_cases hrg : ∃ g, fn.parent = some g ∧ r = g
    · obtain ⟨g, hg, rfl⟩ := hrg
      obtain ⟨gn, hgn, hslotg, hGnew⟩ := hG' r hg
      rw [hGnew] at hrn
      obtain rfl := Option.some.inj hrn
      obtain ⟨dd, hdd⟩ := (child_or _ c).mp hc
      rcases Directions.eq_or_opp dd (get_directions s r f) with hdd1 | rfl
      · rw [hdd1, child_setChild_same] at hdd
        obtain rfl := Option.some.inj hdd
        refine ⟨_, hS', ?_⟩
        show fn.parent = some r
        exact hg
      · rw [child_opp_setChild] at hdd
        obtain ⟨cn, hcn, hcp⟩ :=
          hst.parentDU r gn hgn c ((child_or gn c).mpr ⟨_, hdd⟩)
        have hcg2 : c ≠ r := by
          intro hcc
          subst hcc
          rcases (child_or gn c).mpr ⟨_, hdd⟩ with hx | hx
          · exact (hnsc c (hgm c hg) gn hgn).1 hx
          · exact (hnsc c (hgm c hg) gn hgn).2 hx
        have hcf : c ≠ f := by
          intro hcc
          subst hcc
          obtain ⟨hL, hR⟩ := two_slots hslotg hdd
          exact distinct_slots hst.readOk hst.nodup r (hgm r hg) gn hgn c hL hR
        have hcsc : c ≠ sc := by
          intro hcc
          subst hcc
          have := hholder r gn c hgn ((child_or gn c).mpr ⟨_, hdd⟩) sn hsn
          rw [hscp] at this
          have hgf : r = f := (Option.some.inj this).symm
          exact hgnotu r hg (hgf ▸ hfmu)
        have hcz : ∀ z, sn.child d.get_opposite = some z → c ≠ z := by
          intro z hz hcc
          subst hcc
          obtain ⟨zn, hznn, hzp⟩ := hzn_ex c hz
          rw [hcn] at hznn
          obtain rfl := Option.some.inj hznn
          rw [hcp] at hzp
          have hgsc : r = sc := Option.some.inj hzp
          exact hgnotu r hg (hgsc ▸ hscm)
        have hcgg : ∀ g', fn.parent = some g' → c ≠ g' := by
          intro g' hg' hcc
          rw [hg] at hg'
          obtain rfl := Option.some.inj hg'
          exact hcg2 hcc
        rw [← hE' c hcf hcsc hcz hcgg] at hcn
        exact ⟨cn, hcn, hcp⟩
    · have hrzf : ∀ z, sn.child d.get_opposite = some z → r ≠ z :=
        fun z hz hcc => hrz ⟨z, hz, hcc⟩
      have hrgf : ∀ g, fn.parent = some g → r ≠ g :=
        fun g hg hcc => hrg ⟨g, hg, hcc⟩
      rw [hE' r hrf hrsc hrzf hrgf] at hrn
      obtain ⟨cn, hcn, hcp⟩ := hst.parentDU r n hrn c hc
      by_cases hcf : c = f
      · subst hcf
        rw [hfn] at hcn
        obtain rfl := Option.some.inj hcn
        exact absurd rfl (hrgf r (by rw [hcp]) )
      by_cases hcsc : c = sc
      · subst hcsc
        rw [hsn] at hcn
        obtain rfl := Option.some.inj hcn
        rw [hscp] at hcp
        exact absurd (Option.some.inj hcp) (fun hcc => hrf hcc.symm)
      by_cases hcz : ∃ z, sn.child d.get_opposite = some z ∧ c = z
      · obtain ⟨z, hz, rfl⟩ := hcz
        obtain ⟨zn, hznn, hzp⟩ := hzn_ex c hz
        rw [hznn] at hcn
        obtain rfl := Option.some.inj hcn
        rw [hzp] at hcp
        exact absurd (Option.some.inj hcp) (fun hcc => hrsc hcc.symm)
      by_cases hcg : ∃ g, fn.parent = some g ∧ c = g
      · obtain ⟨g, hg, rfl⟩ := hcg
        obtain ⟨gn, hgn, hslotg, hGnew⟩ := hG' c hg
        rw [hgn] at hcn
        obtain rfl := Option.some.inj hcn
        refine ⟨_, hGnew, ?_⟩
        rw [setChild_parent]
        exact hcp
      · have hcz' : ∀ z, sn.child d.get_opposite = some z → c ≠ z :=
          fun z hz hcc => hcz ⟨z, hz, hcc⟩
        have hcg' : ∀ g, fn.parent = some g → c ≠ g :=
          fun g hg hcc => hcg ⟨g, hg, hcc⟩
        rw [← hE' c hcf hcsc hcz' hcg'] at hcn
        exact ⟨cn, hcn, hcp⟩
  · -- parentUD
    intro r n hrn q hq
    by_cases hrf : r = f
    · subst hrf
      rw [hF'] at hrn
      obtain rfl := Option.some.inj hrn
      have hqsc : q = sc := by
        have : some sc = some q := hq
        exact (Option.some.inj this).symm
      subst hqsc
      refine ⟨_, hS', ?_⟩
      apply (child_or _ r).mpr
      refine ⟨d.get_opposite, ?_⟩
      rw [child_mods, child_setChild_same]
    by_cases hrsc : r = sc
    · subst hrsc
      rw [hS'] at hrn
      obtain rfl := Option.some.inj hrn
      have hq' : fn.parent = some q := hq
      obtain ⟨gn, hgn, hslotg, hGnew⟩ := hG' q hq'
      refine ⟨_, hGnew, ?_⟩
      apply (child_or _ r).mpr
      exact ⟨get_directions s q f, by rw [child_setChild_same]⟩
    by_cases hrz : ∃ z, sn.child d.get_opposite = some z ∧ r = z
    · obtain ⟨z, hz, rfl⟩ := hrz
      obtain ⟨zn, hznn, hzp⟩ := hzn_ex r hz
      rw [hOC' r zn hz hznn] at hrn
      obtain rfl := Option.some.inj hrn
      have hqf : q = f := by
        have : some f = some q := hq
        exact (Option.some.inj this).symm
      subst hqf
      refine ⟨_, hF', ?_⟩
      apply (child_or _ r).mpr
      refine ⟨d, ?_⟩
      rw [child_mods, child_setChild_same]
      exact hz
    by_cases hrg : ∃ g, fn.parent = some g ∧ r = g
    · obtain ⟨g, hg, rfl⟩ := hrg
      obtain ⟨gn, hgn, hslotg, hGnew⟩ := hG' r hg
      rw [hGnew] at hrn
      obtain rfl := Option.some.inj hrn
      rw [setChild_parent] at hq
      obtain ⟨qn, hqn, hor⟩ := hst.parentUD r gn hgn q hq
      have hqf : q ≠ f := by
        intro hcc
        subst hcc
        rw [hfn] at hqn
        obtain rfl := Option.some.inj hqn
        exact hgnotu r hg (hchildu q hfmu fn r hfn hor)
      have hqsc : q ≠ sc := by
        intro hcc
        subst hcc
        rw [hsn] at hqn
        obtain rfl := Option.some.inj hqn
        exact hgnotu r hg (hchildu q hscm sn r hsn hor)
      have hqz : ∀ z, sn.child d.get_opposite = some z → q ≠ z := by
        intro z hz hcc
        subst hcc
        obtain ⟨zn, hznn, hzp⟩ := hzn_ex q hz
        rw [hznn] at hqn
        obtain rfl := Option.some.inj hqn
        exact hgnotu r hg (hchildu q (hzmem q hz) zn r hznn hor)
      have hqg : ∀ g', fn.parent = some g' → q ≠ g' := by
        intro g' hg' hcc
        rw [hg] at hg'
        obtain rfl := Option.some.inj hg'
        subst hcc
        rcases hor with hx | hx
        · exact (hnsc q (hgm q hg) qn hqn).1 hx
        · exact (hnsc q (hgm q hg) qn hqn).2 hx
      refine ⟨qn, ?_, hor⟩
      rw [hE' q hqf hqsc hqz hqg]
      exact hqn
    · have hrzf : ∀ z, sn.child d.get_opposite = some z → r ≠ z :=
        fun z hz hcc => hrz ⟨z, hz, hcc⟩
      have hrgf : ∀ g, fn.parent = some g → r ≠ g :=
        fun g hg hcc => hrg ⟨g, hg, hcc⟩
      rw [hE' r hrf hrsc hrzf hrgf] at hrn
      obtain ⟨qn, hqn, hor⟩ := hst.parentUD r n hrn q hq
      obtain ⟨dd, hdd⟩ := (child_or qn r).mp hor
      by_cases hqf : q = f
      · subst hqf
        rw [hfn] at hqn
        obtain rfl := Option.some.inj hqn
        rcases Directions.eq_or_opp dd d with hdd1 | rfl
        · rw [hdd1, hsc] at hdd
          exact absurd (Option.some.inj hdd) (fun hcc => hrsc hcc.symm)
        · refine ⟨_, hF', ?_⟩
          apply (child_or _ r).mpr
          refine ⟨d.get_opposite, ?_⟩
          rw [child_mods, child_opp_setChild]
          exact hdd
      by_cases hqsc : q = sc
      · subst hqsc
        rw [hsn] at hqn
        obtain rfl := Option.some.inj hqn
        rcases Directions.eq_or_opp dd d with hdd1 | rfl
        · rw [hdd1] at hdd
          refine ⟨_, hS', ?_⟩
          apply (child_or _ r).mpr
          refine ⟨d, ?_⟩
          rw [child_mods, child_setChild_opp]
          exact hdd
        · exact absurd rfl (hrzf r hdd)
      by_cases hqz : ∃ z, sn.child d.get_opposite = some z ∧ q = z
      · obtain ⟨z, hz, rfl⟩ := hqz
        obtain ⟨zn, hznn, hzp⟩ := hzn_ex q hz
        rw [hznn] at hqn
        obtain rfl := Option.some.inj hqn
        refine ⟨{ zn with parent := some f }, hOC' q zn hz hznn, ?_⟩
        refine (child_or _ r).mpr ⟨dd, ?_⟩
        rw [child_parentset]
        exact hdd
      by_cases hqg : ∃ g, fn.parent = some g ∧ q = g
      · obtain ⟨g, hg, rfl⟩ := hqg
        obtain ⟨gn, hgn, hslotg, hGnew⟩ := hG' q hg
        rw [hgn] at hqn
        obtain rfl := Option.some.inj hqn
        rcases Directions.eq_or_opp dd (get_directions s q f) with hdd1 | rfl
        · rw [hdd1, hslotg] at hdd
          exact absurd (Option.some.inj hdd) (fun hcc => hrf hcc.symm)
        · refine ⟨_, hGnew, ?_⟩
          apply (child_or _ r).mpr
          refine ⟨(get_directions s q f).get_opposite, ?_⟩
          rw [child_opp_setChild]
          exact hdd
      · have hqz' : ∀ z, sn.child d.get_opposite = some z → q ≠ z :=
          fun z hz hcc => hqz ⟨z, hz, hcc⟩
        have hqg' : ∀ g, fn.parent = some g → q ≠ g :=
          fun g hg hcc => hqg ⟨g, hg, hcc⟩
        refine ⟨qn, ?_, hor⟩
        rw [hE' q hqf hqsc hqz' hqg']
        exact hqn
  · -- headPar
    intro n hn
    cases hpar : fn.parent with
    | none =>
      rw [hhr hpar] at hn
      rw [hpar] at hS'
      rw [hS'] at hn
      obtain rfl := Option.some.inj hn
      rfl
    | some g =>
      rw [hhg g hpar] at hn
      obtain ⟨gn, hgn, hslotg, hGnew⟩ := hG' g hpar
      by_cases hhf : s.head = f
      · exfalso
        have hfp := hst.headPar fn (by rw [hhf]; exact hfn)
        rw [hfp] at hpar
        exact Option.noConfusion hpar
      by_cases hhsc : s.head = sc
      · exfalso
        have hsp := hst.headPar sn (by rw [hhsc]; exact hsn)
        rw [hsp] at hscp
        exact Option.noConfusion hscp
      by_cases hhz : ∃ z, sn.child d.get_opposite = some z ∧ s.head = z
      · exfalso
        obtain ⟨z, hz, hhzz⟩ := hhz
        obtain ⟨zn, hznn, hzp⟩ := hzn_ex z hz
        have hzpn := hst.headPar zn (by rw [hhzz]; exact hznn)
        rw [hzpn] at hzp
        exact Option.noConfusion hzp
      by_cases hhg2 : s.head = g
      · rw [hhg2, hGnew] at hn
        obtain rfl := Option.some.inj hn
        rw [setChild_parent]
        exact hst.headPar gn (hhg2 ▸ hgn)
      · have hhz' : ∀ z, sn.child d.get_opposite = some z → s.head ≠ z :=
          fun z hz hcc => hhz ⟨z, hz, hcc⟩
        have hhg' : ∀ g', fn.parent = some g' → s.head ≠ g' := by
          intro g' hg' hcc
          rw [hpar] at hg'
          obtain rfl := Option.some.inj hg'
          exact hhg2 hcc
        rw [hE' s.head hhf hhsc hhz' hhg'] at hn
        exact hst.headPar n hn

/-- Rebuild the rotated subtree shape after a right-direction simple
rotation: the promoted child `sc` now roots `nd sc (nd f A BA) BB`. -/
theorem rot_build_right {s s' : BinarySearchTree} {f sc : Nat}
    {fn sn : BinarySearchTreeNode} {A BA BB : RTree}
    (hndu : (RTree.nd f A (RTree.nd sc BA BB)).inorder.Nodup)
    (hlA : readsTo s fn.left A) (hlBA : readsTo s sn.left BA)
    (hrBB : readsTo s sn.right BB)
    (hF' : s'.nodes.get? f = some
      { fn.setChild Directions.Right (sn.child Directions.Right.get_opposite) with
        one_side_depth := 0, parent := some sc })
    (hS' : s'.nodes.get? sc = some
      { sn.setChild Directions.Right.get_opposite (some f) with
        one_side_depth := 0, parent := fn.parent })
    (hch : ∀ x ∈ (RTree.nd f A (RTree.nd sc BA BB)).inorder, x ≠ f → x ≠ sc →
      childrenOf s' x = childrenOf s x) :
    readsTo s' (some sc) (RTree.nd sc (RTree.nd f A BA) BB) := by
  have hin : (RTree.nd f A (RTree.nd sc BA BB)).inorder =
      A.inorder ++ f :: (BA.inorder ++ sc :: BB.inorder) := rfl
  rw [hin] at hndu hch
  rw [List.nodup_append] at hndu
  obtain ⟨hndA, hnd2, hdisj⟩ := hndu
  obtain ⟨hfnot, hnd3⟩ := List.nodup_cons.mp hnd2
  rw [List.nodup_append] at hnd3
  obtain ⟨hndBA, hndscBB, hdisj2⟩ := hnd3
  have hmA : ∀ x ∈ A.inorder, x ≠ f ∧ x ≠ sc := by
    intro x hx
    refine ⟨fun hc => hdisj hx (by simp [hc]), fun hc => hdisj hx (by simp [hc])⟩
  have hmBA : ∀ x ∈ BA.inorder, x ≠ f ∧ x ≠ sc := by
    intro x hx
    refine ⟨fun hc => hfnot (by subst hc; exact List.mem_append_left _ hx),
      fun hc => hdisj2 hx (by simp [hc])⟩
  have hmBB : ∀ x ∈ BB.inorder, x ≠ f ∧ x ≠ sc := by
    intro x hx
    refine ⟨fun hc => hfnot (by simp [hc ▸ hx]), fun hc => ?_⟩
    exact (List.nodup_cons.mp hndscBB).1 (hc ▸ hx)
  have hA' : readsTo s' fn.left A :=
    readsTo_frame hlA (fun x hx =>
      hch x (List.mem_append_left _ hx) (hmA x hx).1 (hmA x hx).2)
  have hBA' : readsTo s' sn.left BA :=
    readsTo_frame hlBA (fun x hx =>
      hch x (List.mem_append_right _ (List.mem_cons_of_mem _
        (List.mem_append_left _ hx))) (hmBA x hx).1 (hmBA x hx).2)
  have hBB' : readsTo s' sn.right BB :=
    readsTo_frame hrBB (fun x hx =>
      hch x (List.mem_append_right _ (List.mem_cons_of_mem _
        (List.mem_append_right _ (List.mem_cons_of_mem _ hx))))
        (hmBB x hx).1 (hmBB x hx).2)
  have hmid : readsTo s' (some f) (RTree.nd f A BA) := readsTo_intro hF' hA' hBA'
  exact readsTo_intro hS' hmid hBB'

/-- Rebuild the rotated subtree shape after a left-direction simple
rotation: the promoted child `sc` now roots `nd sc AA (nd f AB B)`. -/
theorem rot_build_left {s s' : BinarySearchTree} {f sc : Nat}
    {fn sn : BinarySearchTreeNode} {AA AB B : RTree}
    (hndu : (RTree.nd f (RTree.nd sc AA AB) B).inorder.Nodup)
    (hlAA : readsTo s sn.left AA) (hrAB : readsTo s sn.right AB)
    (hrB : readsTo s fn.right B)
    (hF' : s'.nodes.get? f = some
      { fn.setChild Directions.Left (sn.child Directions.Left.get_opposite) with
        one_side_depth := 0, parent := some sc })
    (hS' : s'.nodes.get? sc = some
      { sn.setChild Directions.Left.get_opposite (some f) with
        one_side_depth := 0, parent := fn.parent })
    (hch : ∀ x ∈ (RTree.nd f (RTree.nd sc AA AB) B).inorder, x ≠ f → x ≠ sc →
      childrenOf s' x = childrenOf s x) :
    readsTo s' (some sc) (RTree.nd sc AA (RTree.nd f AB B)) := by
  have hin : (RTree.nd f (RTree.nd sc AA AB) B).inorder =
      (AA.inorder ++ sc :: AB.inorder) ++ f :: B.inorder := rfl
  rw [hin] at hndu hch
  rw [List.nodup_append] at hndu
  obtain ⟨hnd1, hnd2, hdisj⟩ := hndu
  rw [List.nodup_append] at hnd1
  obtain ⟨hndAA, hndscAB, hdisj1⟩ := hnd1
  have hmAA : ∀ x ∈ AA.inorder, x ≠ f ∧ x ≠ sc := by
    intro x hx
    refine ⟨fun hc => hdisj (List.mem_append_left _ hx) (by simp [hc]),
      fun hc => hdisj1 hx (by simp [hc])⟩
  have hmAB : ∀ x ∈ AB.inorder, x ≠ f ∧ x ≠ sc := by
    intro x hx
    have h1 : x ∈ AA.inorder ++ sc :: AB.inorder := by simp [hx]
    refine ⟨fun hc => hdisj h1 (by simp [hc]),
      fun hc => (List.nodup_cons.mp hndscAB).1 (hc ▸ hx)⟩
  have hmB : ∀ x ∈ B.inorder, x ≠ f ∧ x ≠ sc := by
    intro x hx
    refine ⟨fun hc => (List.nodup_cons.mp hnd2).1 (hc ▸ hx),
      fun hc => hdisj (List.mem_append_right _ (List.mem_cons_self _ _))
        (by simp [hc ▸ hx])⟩
  have hAA' : readsTo s' sn.left AA :=
    readsTo_frame hlAA (fun x hx =>
      hch x (List.mem_append_left _ (List.mem_append_left _ hx))
        (hmAA x hx).1 (hmAA x hx).2)
  have hAB' : readsTo s' sn.right AB :=
    readsTo_frame hrAB (fun x hx =>
      hch x (List.mem_append_left _ (List.mem_append_right _
        (List.mem_cons_of_mem _ hx))) (hmAB x hx).1 (hmAB x hx).2)
  have hB' : readsTo s' fn.right B :=
    readsTo_frame hrB (fun x hx =>
      hch x (List.mem_append_right _ (List.mem_cons_of_mem _ hx))
        (hmB x hx).1 (hmB x hx).2)
  have hmid : readsTo s' (some f) (RTree.nd f AB B) := readsTo_intro hF' hAB' hB'
  exact readsTo_intro hS' hAA' hmid

/-- Full structural description of a successful simple rotation on a
well-formed state: a rotated shape tree with the same in-order refs exists,
structural well-formedness is preserved, and the touched nodes are exactly
the pivot, the promoted child, the transferred grandchild and the
grandparent slot. -/
theorem simple_rotation_struct {s s' : BinarySearchTree} {t : RTree} {f sc : Nat}
    {d : Directions} {fn sn : BinarySearchTreeNode}
    (hst : StructWF s t)
    (hgdir : ∀ g, fn.parent = some g → ∃ gn, s.nodes.get? g = some gn ∧
      gn.child (get_directions s g f) = some f)
    (hfm : f ∈ t.inorder)
    (hfn : s.nodes.get? f = some fn)
    (hsc : fn.child d = some sc)
    (hsn : s.nodes.get? sc = some sn)
    (hrot : simple_rotation s f d = some s') :
    ∃ t', StructWF s' t' ∧ t'.inorder = t.inorder ∧
      s'.tree = s.tree ∧ s'.nodes.length = s.nodes.length ∧
      (fn.parent = none → s'.head = sc) ∧
      (∀ g, fn.parent = some g → s'.head = s.head) ∧
      s'.nodes.get? f = some
        { fn.setChild d (sn.child d.get_opposite) with
          one_side_depth := 0, parent := some sc } ∧
      s'.nodes.get? sc = some
        { sn.setChild d.get_opposite (some f) with
          one_side_depth := 0, parent := fn.parent } ∧
      (∀ z zn, sn.child d.get_opposite = some z → s.nodes.get? z = some zn →
        s'.nodes.get? z = some { zn with parent := some f }) ∧
      (∀ g, fn.parent = some g → ∃ gn, s.nodes.get? g = some gn ∧
        gn.child (get_directions s g f) = some f ∧
        s'.nodes.get? g = some (gn.setChild (get_directions s g f) (some sc))) ∧
      (∀ x, x ≠ f → x ≠ sc →
        (∀ z, sn.child d.get_opposite = some z → x ≠ z) →
        (∀ g, fn.parent = some g → x ≠ g) →
        s'.nodes.get? x = s.nodes.get? x) := by
  obtain ⟨hTobs, hLobs, hIobs, hVobs⟩ := simple_rotation_obs hrot
  obtain ⟨fn0, A, B, hfn0, hsubf, hlA, hrB⟩ := subtree_shape hst hfm
  rw [hfn] at hfn0
  obtain rfl := Option.some.inj hfn0
  have hru : readsTo s (some f) (RTree.nd f A B) := readsTo_subtreeAt hst.readOk hsubf
  have hndu : (RTree.nd f A B).inorder.Nodup := nodup_of_subtree hst.nodup hsubf
  have hfmu : f ∈ (RTree.nd f A B).inorder := subtreeAt_some_mem hsubf
  have hmemu : ∀ x ∈ (RTree.nd f A B).inorder, x ∈ t.inorder :=
    subtreeAt_mem_sub hst.nodup hsubf
  have hchildu : ∀ x ∈ (RTree.nd f A B).inorder, ∀ n c, s.nodes.get? x = some n →
      (n.left = some c ∨ n.right = some c) → c ∈ (RTree.nd f A B).inorder :=
    child_mem_of_mem hru hndu
  have hnsc := no_self_child hst.readOk hst.nodup
  have hscm : sc ∈ (RTree.nd f A B).inorder :=
    hchildu f hfmu fn sc hfn ((child_or fn sc).mpr ⟨d, hsc⟩)
  have h12 : f ≠ sc := by
    intro hc
    rcases (child_or fn sc).mpr ⟨d, hsc⟩ with hx | hx
    · exact (hnsc f hfm fn hfn).1 (hc ▸ hx)
    · exact (hnsc f hfm fn hfn).2 (hc ▸ hx)
  have hgnotu : ∀ g, fn.parent = some g → g ∉ (RTree.nd f A B).inorder :=
    fun g hg => parent_not_in_subtree hst hfm hfn hg hsubf
  have hzmem : ∀ z, sn.child d.get_opposite = some z →
      z ∈ (RTree.nd f A B).inorder := by
    intro z hz
    exact hchildu sc hscm sn z hsn ((child_or sn z).mpr ⟨_, hz⟩)
  have hzn_ex : ∀ z, sn.child d.get_opposite = some z →
      ∃ zn, s.nodes.get? z = some zn ∧ zn.parent = some sc :=
    fun z hz => hst.parentDU sc sn hsn z ((child_or sn z).mpr ⟨_, hz⟩)
  have hzsc : ∀ z, sn.child d.get_opposite = some z → z ≠ sc := by
    intro z hz hc
    rcases (child_or sn z).mpr ⟨_, hz⟩ with hx | hx
    · exact (hnsc sc (hmemu sc hscm) sn hsn).1 (hc ▸ hx)
    · exact (hnsc sc (hmemu sc hscm) sn hsn).2 (hc ▸ hx)
  have hzf : ∀ z, sn.child d.get_opposite = some z → z ≠ f := by
    intro z hz hc
    obtain ⟨zn, hznn, hzp⟩ := hzn_ex z hz
    subst hc
    rw [hfn] at hznn
    obtain rfl := Option.some.inj hznn
    exact hgnotu sc hzp hscm
  have hocne : ∀ z, sn.child d.get_opposite = some z → z ≠ f ∧ z ≠ sc :=
    fun z hz => ⟨hzf z hz, hzsc z hz⟩
  have hocex : ∀ z, sn.child d.get_opposite = some z →
      ∃ zn, s.nodes.get? z = some zn :=
    fun z hz => ⟨(hzn_ex z hz).choose, (hzn_ex z hz).choose_spec.1⟩
  have hpkg : (fn.parent = none → s'.head = sc) ∧
      (∀ g, fn.parent = some g → s'.head = s.head) ∧
      s'.nodes.get? f = some
        { fn.setChild d (sn.child d.get_opposite) with
          one_side_depth := 0, parent := some sc } ∧
      s'.nodes.get? sc = some
        { sn.setChild d.get_opposite (some f) with
          one_side_depth := 0, parent := fn.parent } ∧
      (∀ z zn, sn.child d.get_opposite = some z → s.nodes.get? z = some zn →
        s'.nodes.get? z = some { zn with parent := some f }) ∧
      (∀ g, fn.parent = some g → ∃ gn, s.nodes.get? g = some gn ∧
        gn.child (get_directions s g f) = some f ∧
        s'.nodes.get? g = some (gn.setChild (get_directions s g f) (some sc))) ∧
      (∀ x, x ≠ f → x ≠ sc →
        (∀ z, sn.child d.get_opposite = some z → x ≠ z) →
        (∀ g, fn.parent = some g → x ≠ g) →
        s'.nodes.get? x = s.nodes.get? x) := by
    cases hpar : fn.parent with
    | none =>
      obtain ⟨s2, heval, hH2, hT2, hL2, hF2, hS2, hOC2, hE2⟩ :=
        simple_rotation_spec_root hfn hsc hsn h12 hocne hpar
      rw [heval] at hrot
      obtain rfl := Option.some.inj hrot
      refine ⟨fun _ => hH2, fun g hg => Option.noConfusion hg, hF2, ?_,
        hOC2, fun g hg => Option.noConfusion hg,
        fun x h1 h2 h3 _ => hE2 x h1 h2 h3⟩
      rw [hS2]
    | some g =>
      have hgni := hgnotu g hpar
      have hg1 : g ≠ f := fun hc => hgni (hc ▸ hfmu)
      have hg2 : g ≠ sc := fun hc => hgni (hc ▸ hscm)
      have hgoc : ∀ z, sn.child d.get_opposite = some z → g ≠ z :=
        fun z hz hc => hgni (hc ▸ hzmem z hz)
      obtain ⟨gn0, hgn0, horg⟩ := hst.parentUD f fn hfn g hpar
      have hslotg : gn0.child (get_directions s g f) = some f := by
        obtain ⟨pn, hpn, hslot⟩ := hgdir g hpar
        rw [hgn0] at hpn
        obtain rfl := Option.some.inj hpn
        exact hslot
      obtain ⟨s2, heval, hH2, hT2, hL2, hF2, hS2, hG2, hOC2, hE2⟩ :=
        simple_rotation_spec_gp hfn hsc hsn h12 hocne hocex hpar hgn0 hg1 hg2 hgoc rfl
      rw [heval] at hrot
      obtain rfl := Option.some.inj hrot
      refine ⟨fun hc => Option.noConfusion hc, fun g' hg' => hH2, hF2, ?_,
        hOC2, ?_, ?_⟩
      · rw [hS2]
      · intro g' hg'
        obtain rfl := Option.some.inj hg'
        exact ⟨gn0, hgn0, hslotg, hG2⟩
      · intro x h1 h2 h3 h4
        exact hE2 x h1 h2 (h4 g rfl) h3
  obtain ⟨hHnone, hHsome, hF', hS', hOC', hG', hE'⟩ := hpkg
  obtain ⟨hDU, hUD, hHP⟩ := simple_rotation_links hst hfm hfn hsc hsn hsubf hF' hS'
    hOC' hG' hE' hHnone hHsome
  have hchOf : ∀ x ∈ (RTree.nd f A B).inorder, x ≠ f → x ≠ sc →
      childrenOf s' x = childrenOf s x := by
    intro x hx hx1 hx2
    by_cases hxz : ∃ z, sn.child d.get_opposite = some z ∧ x = z
    · obtain ⟨z, hz, hxeq⟩ := hxz
      subst hxeq
      obtain ⟨zn, hznn, _⟩ := hzn_ex x hz
      rw [childrenOf, childrenOf, hOC' x zn hz hznn, hznn]
      rfl
    · have hxz' : ∀ z, sn.child d.get_opposite = some z → x ≠ z :=
        fun z hz hc => hxz ⟨z, hz, hc⟩
      have hxg : ∀ g, fn.parent = some g → x ≠ g :=
        fun g hg hc => hgnotu g hg (hc ▸ hx)
      rw [childrenOf, childrenOf, hE' x hx1 hx2 hxz' hxg]
  have hvalc : ∀ x, valOf s' x = valOf s x := by
    intro x
    unfold valOf
    rw [hVobs x]
  have hmain : ∀ rot : RTree, readsTo s' (some sc) rot →
      rot.inorder = (RTree.nd f A B).inorder → SortedT s rot →
      ∃ t', StructWF s' t' ∧ t'.inorder = t.inorder := by
    intro rot hrread hrin hrsort
    have hrsort' : SortedT s' rot := SortedT_congr (fun x _ => hvalc x) hrsort
    cases hpar : fn.parent with
    | none =>
      have hfhead : f = s.head := by
        rcases tree_parent hst.readOk f hfm with hc | ⟨q, hq, qn, hqn, hor⟩
        · exact hc
        · obtain ⟨fn2, hfn2, hfp⟩ := hst.parentDU q qn hqn f hor
          rw [hfn] at hfn2
          obtain rfl := Option.some.inj hfn2
          rw [hpar] at hfp
          exact Option.noConfusion hfp
      have htu : t = RTree.nd f A B := by
        have hroot : subtreeAt t f = some t := by
          obtain ⟨n0, lt, rt, hn0, heqt, _, _⟩ := readsTo_some_elim hst.readOk
          rw [heqt, ← hfhead]
          simp [subtreeAt]
        rw [hroot] at hsubf
        exact Option.some.inj hsubf
      refine ⟨rot, ⟨?_, ?_, ?_, hrsort', hDU, hUD, hHP⟩, ?_⟩
      · rw [hHnone hpar]
        exact hrread
      · rw [hrin, ← htu]
        exact hst.nodup
      · intro r hr
        rw [hLobs] at hr
        rw [hrin, ← htu]
        exact hst.complete r hr
      · rw [hrin, ← htu]
    | some g =>
      have hfne : f ≠ s.head := by
        intro hc
        have hx := hst.headPar fn (by rw [← hc]; exact hfn)
        rw [hpar] at hx
        exact Option.noConfusion hx
      obtain ⟨gn, hgn, hslotg, hGnew⟩ := hG' g hpar
      have hag : ∀ x ∈ t.inorder, x ∉ (RTree.nd f A B).inorder →
          ∃ n n', s.nodes.get? x = some n ∧ s'.nodes.get? x = some n' ∧
            n'.left = (if n.left = some f then some sc else n.left) ∧
            n'.right = (if n.right = some f then some sc else n.right) := by
        intro x hx hxu
        by_cases hxg : x = g
        · subst hxg
          cases hdir : get_directions s x f with
          | Left =>
            rw [hdir] at hslotg hGnew
            have hl : gn.left = some f := hslotg
            have hrne : gn.right ≠ some f :=
              fun hc => distinct_slots hst.readOk hst.nodup x hx gn hgn f hl hc
            refine ⟨gn, _, hgn, hGnew, ?_, ?_⟩
            · simp [BinarySearchTreeNode.setChild, hl]
            · rw [if_neg hrne]
              simp [BinarySearchTreeNode.setChild]
          | Right =>
            rw [hdir] at hslotg hGnew
            have hr : gn.right = some f := hslotg
            have hlne : gn.left ≠ some f :=
              fun hc => distinct_slots hst.readOk hst.nodup x hx gn hgn f hc hr
            refine ⟨gn, _, hgn, hGnew, ?_, ?_⟩
            · rw [if_neg hlne]
              simp [BinarySearchTreeNode.setChild]
            · simp [BinarySearchTreeNode.setChild, hr]
        · obtain ⟨n, hn⟩ := readsTo_valid hst.readOk x hx
          have hx1 : x ≠ f := fun hc => hxu (hc ▸ hfmu)
          have hx2 : x ≠ sc := fun hc => hxu (hc ▸ hscm)
          have hx3 : ∀ z, sn.child d.get_opposite = some z → x ≠ z :=
            fun z hz hc => hxu (hc ▸ hzmem z hz)
          have hx4 : ∀ g', fn.parent = some g' → x ≠ g' := by
            intro g' hg' hc
            rw [hpar] at hg'
            obtain rfl := Option.some.inj hg'
            exact hxg hc
          have hlne : n.left ≠ some f := by
            intro hc
            obtain ⟨fn2, hfn2, hfp⟩ := hst.parentDU x n hn f (Or.inl hc)
            rw [hfn] at hfn2
            obtain rfl := Option.some.inj hfn2
            rw [hpar] at hfp
            exact hxg (Option.some.inj hfp).symm
          have hrne : n.right ≠ some f := by
            intro hc
            obtain ⟨fn2, hfn2, hfp⟩ := hst.parentDU x n hn f (Or.inr hc)
            rw [hfn] at hfn2
            obtain rfl := Option.some.inj hfn2
            rw [hpar] at hfp
            exact hxg (Option.some.inj hfp).symm
          refine ⟨n, n, hn, ?_, ?_, ?_⟩
          · rw [hE' x hx1 hx2 hx3 hx4]
            exact hn
          · rw [if_neg hlne]
          · rw [if_neg hrne]
      refine ⟨replaceAt t f rot, ⟨?_, ?_, ?_, ?_, hDU, hUD, hHP⟩, ?_⟩
      · rw [hHsome g hpar]
        exact readsTo_replace_remap hrread hst.readOk hst.nodup hsubf hfne hag
      · rw [replaceAt_inorder_eq hst.nodup hsubf hrin]
        exact hst.nodup
      · intro r hr
        rw [hLobs] at hr
        rw [replaceAt_inorder_eq hst.nodup hsubf hrin]
        exact hst.complete r hr
      · exact SortedT_congr (fun x _ => hvalc x)
          (SortedT_replaceAt hst.nodup hst.sorted hsubf hrsort hrin)
      · exact replaceAt_inorder_eq hst.nodup hsubf hrin
  cases d with
  | Right =>
    have hscr : fn.right = some sc := hsc
    rw [hscr] at hrB
    obtain ⟨sn0, BA, BB, hsn0, heqB, hlBA, hrBB⟩ := readsTo_some_elim hrB
    rw [hsn] at hsn0
    obtain rfl := Option.some.inj hsn0
    subst heqB
    obtain ⟨t', hswf, hin⟩ := hmain (RTree.nd sc (RTree.nd f A BA) BB)
      (rot_build_right hndu hlA hlBA hrBB hF' hS' hchOf)
      (inorder_rot_right f sc A BA BB)
      (SortedT_rot_right (SortedT_subtreeAt hst.sorted hsubf))
    exact ⟨t', hswf, hin, hTobs, hLobs, hHnone, hHsome, hF', hS', hOC', hG', hE'⟩
  | Left =>
    have hscl : fn.left = some sc := hsc
    rw [hscl] at hlA
    obtain ⟨sn0, AA, AB, hsn0, heqA, hlAA, hrAB⟩ := readsTo_some_elim hlA
    rw [hsn] at hsn0
    obtain rfl := Option.some.inj hsn0
    subst heqA
    obtain ⟨t', hswf, hin⟩ := hmain (RTree.nd sc AA (RTree.nd f AB B))
      (rot_build_left hndu hlAA hrAB hrB hF' hS' hchOf)
      (inorder_rot_left f sc B AA AB)
      (SortedT_rot_left (SortedT_subtreeAt hst.sorted hsubf))
    exact ⟨t', hswf, hin, hTobs, hLobs, hHnone, hHsome, hF', hS', hOC', hG', hE'⟩

/-- After a double rotation, parent/child links are again mutually
consistent.  The hypotheses are the pointwise state description produced by
`double_rotation_spec`, with `u` the subtree of the pivot `f` in the
pre-rotation abstraction `t`. -/
theorem double_rotation_links {s s' : BinarySearchTree} {t u : RTree} {f sc th : Nat}
    {d : Directions} {fn sn thn : BinarySearchTreeNode}
    (hst : StructWF s t) (hfm : f ∈ t.inorder)
    (hfn : s.nodes.get? f = some fn) (hsc : fn.child d = some sc)
    (hsn : s.nodes.get? sc = some sn) (hth : sn.child d.get_opposite = some th)
    (hthn : s.nodes.get? th = some thn)
    (hu : subtreeAt t f = some u)
    (hF' : s'.nodes.get? f = some
      { fn.setChild d (some th) with one_side_depth := Directions.get_depth d * 2 })
    (hS' : s'.nodes.get? sc = some
      { sn.setChild d.get_opposite (thn.child d) with
        one_side_depth := Directions.get_depth d, parent := some th })
    (hTh' : s'.nodes.get? th = some
      { thn.setChild d (some sc) with one_side_depth := 0, parent := some f })
    (hW' : ∀ w wn, thn.child d = some w → s.nodes.get? w = some wn →
      s'.nodes.get? w = some { wn with parent := some sc })
    (hE' : ∀ x, x ≠ f → x ≠ sc → x ≠ th →
      (∀ w, thn.child d = some w → x ≠ w) →
      s'.nodes.get? x = s.nodes.get? x)
    (hh : s'.head = s.head) :
    (∀ r n, s'.nodes.get? r = some n → ∀ c, (n.left = some c ∨ n.right = some c) →
      ∃ cn, s'.nodes.get? c = some cn ∧ cn.parent = some r) ∧
    (∀ r n, s'.nodes.get? r = some n → ∀ q, n.parent = some q →
      ∃ qn, s'.nodes.get? q = some qn ∧ (qn.left = some r ∨ qn.right = some r)) ∧
    (∀ n, s'.nodes.get? s'.head = some n → n.parent = none) := by
  have hru : readsTo s (some f) u := readsTo_subtreeAt hst.readOk hu
  have hndu : u.inorder.Nodup := nodup_of_subtree hst.nodup hu
  have hfmu : f ∈ u.inorder := subtreeAt_some_mem hu
  have hmemu : ∀ x ∈ u.inorder, x ∈ t.inorder := subtreeAt_mem_sub hst.nodup hu
  have hchildu : ∀ x ∈ u.inorder, ∀ n c, s.nodes.get? x = some n →
      (n.left = some c ∨ n.right = some c) → c ∈ u.inorder :=
    child_mem_of_mem hru hndu
  have hnsc := no_self_child hst.readOk hst.nodup
  have hholder : ∀ x xn c, s.nodes.get? x = some xn →
      (xn.left = some c ∨ xn.right = some c) → ∀ cn, s.nodes.get? c = some cn →
      cn.parent = some x := by
    intro x xn c hxn hor cn hcn
    obtain ⟨cn2, hcn2, hcp⟩ := hst.parentDU x xn hxn c hor
    rw [hcn] at hcn2
    obtain rfl := Option.some.inj hcn2
    exact hcp
  have hscm : sc ∈ u.inorder :=
    hchildu f hfmu fn sc hfn ((child_or fn sc).mpr ⟨d, hsc⟩)
  have hthm : th ∈ u.inorder :=
    hchildu sc hscm sn th hsn ((child_or sn th).mpr ⟨_, hth⟩)
  have hwm : ∀ w, thn.child d = some w → w ∈ u.inorder :=
    fun w hw => hchildu th hthm thn w hthn ((child_or thn w).mpr ⟨_, hw⟩)
  have hscp : sn.parent = some f :=
    hholder f fn sc hfn ((child_or fn sc).mpr ⟨d, hsc⟩) sn hsn
  have hthp : thn.parent = some sc :=
    hholder sc sn th hsn ((child_or sn th).mpr ⟨_, hth⟩) thn hthn
  have hwn_ex : ∀ w, thn.child d = some w →
      ∃ wn, s.nodes.get? w = some wn ∧ wn.parent = some th :=
    fun w hw => hst.parentDU th thn hthn w ((child_or thn w).mpr ⟨_, hw⟩)
  have hgnotu : ∀ g, fn.parent = some g → g ∉ u.inorder :=
    fun g hg => parent_not_in_subtree hst hfm hfn hg hu
  have h12 : f ≠ sc := by
    intro hc
    rcases (child_or fn sc).mpr ⟨d, hsc⟩ with hx | hx
    · exact (hnsc f hfm fn hfn).1 (hc ▸ hx)
    · exact (hnsc f hfm fn hfn).2 (hc ▸ hx)
  have h23 : sc ≠ th := by
    intro hc
    rcases (child_or sn th).mpr ⟨_, hth⟩ with hx | hx
    · exact (hnsc sc (hmemu sc hscm) sn hsn).1 (hc ▸ hx)
    · exact (hnsc sc (hmemu sc hscm) sn hsn).2 (hc ▸ hx)
  have h13 : f ≠ th := by
    intro hc
    subst hc
    rw [hfn] at hthn
    obtain rfl := Option.some.inj hthn
    exact hgnotu sc hthp hscm
  have hwf : ∀ w, thn.child d = some w → w ≠ f := by
    intro w hw hc
    obtain ⟨wn, hwn, hwp⟩ := hwn_ex w hw
    subst hc
    rw [hfn] at hwn
    obtain rfl := Option.some.inj hwn
    exact hgnotu th hwp hthm
  have hwsc : ∀ w, thn.child d = some w → w ≠ sc := by
    intro w hw hc
    obtain ⟨wn, hwn, hwp⟩ := hwn_ex w hw
    subst hc
    rw [hsn] at hwn
    obtain rfl := Option.some.inj hwn
    rw [hscp] at hwp
    exact h13 (Option.some.inj hwp)
  have hwth : ∀ w, thn.child d = some w → w ≠ th := by
    intro w hw hc
    rcases (child_or thn w).mpr ⟨_, hw⟩ with hx | hx
    · exact (hnsc th (hmemu th hthm) thn hthn).1 (hc ▸ hx)
    · exact (hnsc th (hmemu th hthm) thn hthn).2 (hc ▸ hx)
  have hno_child_f : ∀ x, x ∈ u.inorder → ∀ xn, s.nodes.get? x = some xn →
      (xn.left = some f ∨ xn.right = some f) → False :=
    fun x hx xn hxn hor => hgnotu x (hholder x xn f hxn hor fn hfn) hx
  have hchild_sc : ∀ x xn, s.nodes.get? x = some xn →
      (xn.left = some sc ∨ xn.right = some sc) → x = f := by
    intro x xn hxn hor
    have hp := hholder x xn sc hxn hor sn hsn
    rw [hscp] at hp
    exact (Option.some.inj hp).symm
  have hchild_th : ∀ x xn, s.nodes.get? x = some xn →
      (xn.left = some th ∨ xn.right = some th) → x = sc := by
    intro x xn hxn hor
    have hp := hholder x xn th hxn hor thn hthn
    rw [hthp] at hp
    exact (Option.some.inj hp).symm
  have hchild_w : ∀ w, thn.child d = some w → ∀ x xn, s.nodes.get? x = some xn →
      (xn.left = some w ∨ xn.right = some w) → x = th := by
    intro w hw x xn hxn hor
    obtain ⟨wn, hwn, hwp⟩ := hwn_ex w hw
    have hp := hholder x xn w hxn hor wn hwn
    rw [hwp] at hp
    exact (Option.some.inj hp).symm
  refine ⟨?_, ?_, ?_⟩
  · -- parentDU
    intro r n hrn c hc
    by_cases hrf : r = f
    · subst hrf
      rw [hF'] at hrn
      obtain rfl := Option.some.inj hrn
      obtain ⟨dd, hdd⟩ := (child_or _ c).mp hc
      rw [child_depthset] at hdd
      rcases Directions.eq_or_opp dd d with hdd1 | rfl
      · rw [hdd1, child_setChild_same] at hdd
        obtain rfl := Option.some.inj hdd
        exact ⟨_, hTh', rfl⟩
      · rw [child_opp_setChild] at hdd
        have horc : fn.left = some c ∨ fn.right = some c :=
          (child_or fn c).mpr ⟨_, hdd⟩
        have hcsc : c ≠ sc := by
          intro hcc
          obtain ⟨hsl, hsr⟩ := two_slots hsc (hcc ▸ hdd)
          exact distinct_slots hst.readOk hst.nodup r (hmemu r hfmu) fn hfn sc hsl hsr
        have hcth : c ≠ th := fun hcc => h12 (hchild_th r fn hfn (hcc ▸ horc))
        have hcw : ∀ w, thn.child d = some w → c ≠ w :=
          fun w hw hcc => h13 (hchild_w w hw r fn hfn (hcc ▸ horc))
        obtain ⟨cn, hcn, hcp⟩ := hst.parentDU r fn hfn c horc
        refine ⟨cn, ?_, hcp⟩
        rw [hE' c (fun hcc => hno_child_f r hfmu fn hfn (hcc ▸ horc)) hcsc hcth hcw]
        exact hcn
    by_cases hrsc : r = sc
    · subst hrsc
      rw [hS'] at hrn
      obtain rfl := Option.some.inj hrn
      obtain ⟨dd, hdd⟩ := (child_or _ c).mp hc
      rw [child_mods] at hdd
      rcases Directions.eq_or_opp dd d with hdd1 | rfl
      · rw [hdd1, child_setChild_opp] at hdd
        have horc : sn.left = some c ∨ sn.right = some c :=
          (child_or sn c).mpr ⟨_, hdd⟩
        have hcf : c ≠ f := fun hcc => hno_child_f r hscm sn hsn (hcc ▸ horc)
        have hcsc : c ≠ r := fun hcc => h12 (hchild_sc r sn hsn (hcc ▸ horc)).symm
        have hcth : c ≠ th := by
          intro hcc
          obtain ⟨hsl, hsr⟩ := two_slots (hcc ▸ hdd) hth
          exact distinct_slots hst.readOk hst.nodup r (hmemu r hscm) sn hsn th hsl hsr
        have hcw : ∀ w, thn.child d = some w → c ≠ w :=
          fun w hw hcc => h23 (hchild_w w hw r sn hsn (hcc ▸ horc))
        obtain ⟨cn, hcn, hcp⟩ := hst.parentDU r sn hsn c horc
        refine ⟨cn, ?_, hcp⟩
        rw [hE' c hcf hcsc hcth hcw]
        exact hcn
      · rw [child_setChild_same] at hdd
        obtain ⟨wn, hwn, hwp⟩ := hwn_ex c hdd
        exact ⟨_, hW' c wn hdd hwn, rfl⟩
    by_cases hrth : r = th
    · subst hrth
      rw [hTh'] at hrn
      obtain rfl := Option.some.inj hrn
      obtain ⟨dd, hdd⟩ := (child_or _ c).mp hc
      rw [child_mods] at hdd
      rcases Directions.eq_or_opp dd d with hdd1 | rfl
      · rw [hdd1, child_setChild_same] at hdd
        obtain rfl := Option.some.inj hdd
        exact ⟨_, hS', rfl⟩
      · rw [child_opp_setChild] at hdd
        have horc : thn.left = some c ∨ thn.right = some c :=
          (child_or thn c).mpr ⟨_, hdd⟩
        have hcf : c ≠ f := fun hcc => hno_child_f r hthm thn hthn (hcc ▸ horc)
        have hcsc : c ≠ sc := fun hcc => h13 ((hchild_sc r thn hthn (hcc ▸ horc)).symm)
        have hcth : c ≠ r := by
          intro hcc
          rcases (hcc ▸ horc) with hx | hx
          · exact (hnsc r (hmemu r hthm) thn hthn).1 hx
          · exact (hnsc r (hmemu r hthm) thn hthn).2 hx
        have hcw : ∀ w, thn.child d = some w → c ≠ w := by
          intro w hw hcc
          obtain ⟨hsl, hsr⟩ := two_slots hw (hcc ▸ hdd)
          exact distinct_slots hst.readOk hst.nodup r (hmemu r hthm) thn hthn w hsl hsr
        obtain ⟨cn, hcn, hcp⟩ := hst.parentDU r thn hthn c horc
        refine ⟨cn, ?_, hcp⟩
        rw [hE' c hcf hcsc hcth hcw]
        exact hcn
    by_cases hrw : ∃ w, thn.child d = some w ∧ r = w
    · obtain ⟨w, hw, rfl⟩ := hrw
      obtain ⟨wn, hwn, hwp⟩ := hwn_ex r hw
      rw [hW' r wn hw hwn] at hrn
      obtain rfl := Option.some.inj hrn
      obtain ⟨dd, hdd⟩ := (child_or _ c).mp hc
      rw [child_parentset] at hdd
      have horc : wn.left = some c ∨ wn.right = some c :=
        (child_or wn c).mpr ⟨_, hdd⟩
      have hrm : r ∈ u.inorder := hwm r hw
      have hcf : c ≠ f := fun hcc => hno_child_f r hrm wn hwn (hcc ▸ horc)
      have hcsc : c ≠ sc :=
        fun hcc => hwf r hw (hchild_sc r wn hwn (hcc ▸ horc))
      have hcth : c ≠ th :=
        fun hcc => hwsc r hw (hchild_th r wn hwn (hcc ▸ horc))
      have hcw : ∀ w', thn.child d = some w' → c ≠ w' :=
        fun w' hw' hcc => hwth r hw (hchild_w w' hw' r wn hwn (hcc ▸ horc))
      obtain ⟨cn, hcn, hcp⟩ := hst.parentDU r wn hwn c horc
      refine ⟨cn, ?_, hcp⟩
      rw [hE' c hcf hcsc hcth hcw]
      exact hcn
    · have hrwn : ∀ w, thn.child d = some w → r ≠ w :=
        fun w hw hcc => hrw ⟨w, hw, hcc⟩
      rw [hE' r hrf hrsc hrth hrwn] at hrn
      obtain ⟨cn, hcn, hcp⟩ := hst.parentDU r n hrn c hc
      by_cases hcf : c = f
      · subst hcf
        rw [hfn] at hcn
        obtain rfl := Option.some.inj hcn
        refine ⟨_, hF', ?_⟩
        show (fn.setChild d (some th)).parent = some r
        rw [setChild_parent]
        exact hcp
      by_cases hcsc : c = sc
      · subst hcsc
        rw [hsn] at hcn
        obtain rfl := Option.some.inj hcn
        rw [hscp] at hcp
        exact absurd (Option.some.inj hcp).symm hrf
      by_cases hcth : c = th
      · subst hcth
        rw [hthn] at hcn
        obtain rfl := Option.some.inj hcn
        rw [hthp] at hcp
        exact absurd (Option.some.inj hcp).symm hrsc
      by_cases hcw : ∃ w, thn.child d = some w ∧ c = w
      · obtain ⟨w, hw, rfl⟩ := hcw
        obtain ⟨wn, hwn, hwp⟩ := hwn_ex c hw
        rw [hwn] at hcn
        obtain rfl := Option.some.inj hcn
        rw [hwp] at hcp
        exact absurd (Option.some.inj hcp).symm hrth
      · have hcw' : ∀ w, thn.child d = some w → c ≠ w :=
          fun w hw hcc => hcw ⟨w, hw, hcc⟩
        refine ⟨cn, ?_, hcp⟩
        rw [hE' c hcf hcsc hcth hcw']
        exact hcn
  · -- parentUD
    intro r n hrn q hq
    by_cases hrf : r = f
    · subst hrf
      rw [hF'] at hrn
      obtain rfl := Option.some.inj hrn
      have hq2 : fn.parent = some q := by
        rw [← setChild_parent fn d (some th)]
        exact hq
      obtain ⟨qn, hqn, hor⟩ := hst.parentUD r fn hfn q hq2
      have hqnu := hgnotu q hq2
      have hq1 : q ≠ r := fun hcc => hqnu (hcc ▸ hfmu)
      have hqsc : q ≠ sc := fun hcc => hqnu (hcc ▸ hscm)
      have hqth : q ≠ th := fun hcc => hqnu (hcc ▸ hthm)
      have hqw : ∀ w, thn.child d = some w → q ≠ w :=
        fun w hw hcc => hqnu (hcc ▸ hwm w hw)
      refine ⟨qn, ?_, hor⟩
      rw [hE' q hq1 hqsc hqth hqw]
      exact hqn
    by_cases hrsc : r = sc
    · subst hrsc
      rw [hS'] at hrn
      obtain rfl := Option.some.inj hrn
      have hq2 : some th = some q := hq
      obtain rfl := Option.some.inj hq2
      refine ⟨_, hTh', ?_⟩
      apply (child_or _ r).mpr
      refine ⟨d, ?_⟩
      rw [child_mods, child_setChild_same]
    by_cases hrth : r = th
    · subst hrth
      rw [hTh'] at hrn
      obtain rfl := Option.some.inj hrn
      have hq2 : some f = some q := hq
      obtain rfl := Option.some.inj hq2
      refine ⟨_, hF', ?_⟩
      apply (child_or _ r).mpr
      refine ⟨d, ?_⟩
      rw [child_depthset, child_setChild_same]
    by_cases hrw : ∃ w, thn.child d = some w ∧ r = w
    · obtain ⟨w, hw, rfl⟩ := hrw
      obtain ⟨wn, hwn, hwp⟩ := hwn_ex r hw
      rw [hW' r wn hw hwn] at hrn
      obtain rfl := Option.some.inj hrn
      have hq2 : some sc = some q := hq
      obtain rfl := Option.some.inj hq2
      refine ⟨_, hS', ?_⟩
      apply (child_or _ r).mpr
      refine ⟨d.get_opposite, ?_⟩
      rw [child_mods, child_setChild_same]
      exact hw
    · have hrwn : ∀ w, thn.child d = some w → r ≠ w :=
        fun w hw hcc => hrw ⟨w, hw, hcc⟩
      rw [hE' r hrf hrsc hrth hrwn] at hrn
      obtain ⟨qn, hqn, hor⟩ := hst.parentUD r n hrn q hq
      obtain ⟨dd, hdd⟩ := (child_or qn r).mp hor
      by_cases hqf : q = f
      · subst hqf
        rw [hfn] at hqn
        obtain rfl := Option.some.inj hqn
        rcases Directions.eq_or_opp dd d with hdd1 | rfl
        · rw [hdd1, hsc] at hdd
          exact absurd (Option.some.inj hdd) (fun hcc => hrsc hcc.symm)
        · refine ⟨_, hF', ?_⟩
          apply (child_or _ r).mpr
          refine ⟨d.get_opposite, ?_⟩
          rw [child_depthset, child_opp_setChild]
          exact hdd
      by_cases hqsc : q = sc
      · subst hqsc
        rw [hsn] at hqn
        obtain rfl := Option.some.inj hqn
        rcases Directions.eq_or_opp dd d with hdd1 | rfl
        · rw [hdd1] at hdd
          refine ⟨_, hS', ?_⟩
          apply (child_or _ r).mpr
          refine ⟨d, ?_⟩
          rw [child_mods, child_setChild_opp]
          exact hdd
        · rw [hth] at hdd
          exact absurd (Option.some.inj hdd) (fun hcc => hrth hcc.symm)
      by_cases hqth : q = th
      · subst hqth
        rw [hthn] at hqn
        obtain rfl := Option.some.inj hqn
        rcases Directions.eq_or_opp dd d with hdd1 | rfl
        · rw [hdd1] at hdd
          exact absurd rfl (hrwn r hdd)
        · refine ⟨_, hTh', ?_⟩
          apply (child_or _ r).mpr
          refine ⟨d.get_opposite, ?_⟩
          rw [child_mods, child_opp_setChild]
          exact hdd
      by_cases hqw : ∃ w, thn.child d = some w ∧ q = w
      · obtain ⟨w, hw, rfl⟩ := hqw
        obtain ⟨wn, hwn, hwp⟩ := hwn_ex q hw
        rw [hwn] at hqn
        obtain rfl := Option.some.inj hqn
        refine ⟨{ wn with parent := some sc }, hW' q wn hw hwn, ?_⟩
        apply (child_or _ r).mpr
        refine ⟨dd, ?_⟩
        rw [child_parentset]
        exact hdd
      · have hqw' : ∀ w, thn.child d = some w → q ≠ w :=
          fun w hw hcc => hqw ⟨w, hw, hcc⟩
        refine ⟨qn, ?_, hor⟩
        rw [hE' q hqf hqsc hqth hqw']
        exact hqn
  · -- headPar
    intro n hn
    rw [hh] at hn
    by_cases hhf : s.head = f
    · rw [hhf, hF'] at hn
      obtain rfl := Option.some.inj hn
      have hfp : fn.parent = none := hst.headPar fn (by rw [hhf]; exact hfn)
      rw [← setChild_parent fn d (some th)] at hfp
      exact hfp
    by_cases hhsc : s.head = sc
    · exfalso
      have hx := hst.headPar sn (by rw [hhsc]; exact hsn)
      rw [hscp] at hx
      exact Option.noConfusion hx
    by_cases hhth : s.head = th
    · exfalso
      have hx := hst.headPar thn (by rw [hhth]; exact hthn)
      rw [hthp] at hx
      exact Option.noConfusion hx
    by_cases hhw : ∃ w, thn.child d = some w ∧ s.head = w
    · exfalso
      obtain ⟨w, hw, hhww⟩ := hhw
      obtain ⟨wn, hwn, hwp⟩ := hwn_ex w hw
      have hx := hst.headPar wn (by rw [hhww]; exact hwn)
      rw [hx] at hwp
      exact Option.noConfusion hwp
    · have hhw' : ∀ w, thn.child d = some w → s.head ≠ w :=
        fun w hw hcc => hhw ⟨w, hw, hcc⟩
      rw [hE' s.head hhf hhsc hhth hhw'] at hn
      exact hst.headPar n hn

/-- Rebuild the reshaped subtree after a right-direction double rotation. -/
theorem drot_build_right {s s' : BinarySearchTree} {f sc th : Nat}
    {fn sn thn : BinarySearchTreeNode} {A U V BB : RTree}
    (hndu : (RTree.nd f A (RTree.nd sc (RTree.nd th U V) BB)).inorder.Nodup)
    (hlA : readsTo s fn.left A) (hlU : readsTo s thn.left U)
    (hrV : readsTo s thn.right V) (hrBB : readsTo s sn.right BB)
    (hF' : s'.nodes.get? f = some
      { fn.setChild Directions.Right (some th) with
        one_side_depth := Directions.get_depth Directions.Right * 2 })
    (hS' : s'.nodes.get? sc = some
      { sn.setChild Directions.Right.get_opposite (thn.child Directions.Right) with
        one_side_depth := Directions.get_depth Directions.Right, parent := some th })
    (hTh' : s'.nodes.get? th = some
      { thn.setChild Directions.Right (some sc) with
        one_side_depth := 0, parent := some f })
    (hch : ∀ x ∈ (RTree.nd f A (RTree.nd sc (RTree.nd th U V) BB)).inorder,
      x ≠ f → x ≠ sc → x ≠ th → childrenOf s' x = childrenOf s x) :
    readsTo s' (some f) (RTree.nd f A (RTree.nd th U (RTree.nd sc V BB))) := by
  have hin : (RTree.nd f A (RTree.nd sc (RTree.nd th U V) BB)).inorder =
      A.inorder ++ f :: ((U.inorder ++ th :: V.inorder) ++ sc :: BB.inorder) := rfl
  rw [hin] at hndu hch
  rw [List.nodup_append] at hndu
  obtain ⟨hndA, hndR, hdisjA⟩ := hndu
  obtain ⟨hfnot, hndR2⟩ := List.nodup_cons.mp hndR
  rw [List.nodup_append] at hndR2
  obtain ⟨hndUV, hndscBB, hdisjUV⟩ := hndR2
  rw [List.nodup_append] at hndUV
  obtain ⟨hndU, hndthV, hdisjU⟩ := hndUV
  have hmA : ∀ x ∈ A.inorder, x ≠ f ∧ x ≠ sc ∧ x ≠ th := by
    intro x hx
    refine ⟨fun hc => hdisjA hx (by simp [hc]), fun hc => hdisjA hx (by simp [hc]),
      fun hc => hdisjA hx (by simp [hc])⟩
  have hmU : ∀ x ∈ U.inorder, x ≠ f ∧ x ≠ sc ∧ x ≠ th := by
    intro x hx
    have hxl : x ∈ U.inorder ++ th :: V.inorder := by simp [hx]
    refine ⟨fun hc => hfnot (by simp [hc ▸ hx]),
      fun hc => hdisjUV hxl (by simp [hc]), fun hc => hdisjU hx (by simp [hc])⟩
  have hmV : ∀ x ∈ V.inorder, x ≠ f ∧ x ≠ sc ∧ x ≠ th := by
    intro x hx
    have hxl : x ∈ U.inorder ++ th :: V.inorder := by simp [hx]
    refine ⟨fun hc => hfnot (by simp [hc ▸ hx]),
      fun hc => hdisjUV hxl (by simp [hc]),
      fun hc => (List.nodup_cons.mp hndthV).1 (hc ▸ hx)⟩
  have hmBB : ∀ x ∈ BB.inorder, x ≠ f ∧ x ≠ sc ∧ x ≠ th := by
    intro x hx
    have hthl : th ∈ U.inorder ++ th :: V.inorder := by simp
    refine ⟨fun hc => hfnot (by simp [hc ▸ hx]),
      fun hc => (List.nodup_cons.mp hndscBB).1 (hc ▸ hx),
      fun hc => hdisjUV hthl (by simp [hc ▸ hx])⟩
  have hA' : readsTo s' fn.left A :=
    readsTo_frame hlA (fun x hx => hch x (by simp [hx])
      (hmA x hx).1 (hmA x hx).2.1 (hmA x hx).2.2)
  have hU' : readsTo s' thn.left U :=
    readsTo_frame hlU (fun x hx => hch x (by simp [hx])
      (hmU x hx).1 (hmU x hx).2.1 (hmU x hx).2.2)
  have hV' : readsTo s' thn.right V :=
    readsTo_frame hrV (fun x hx => hch x (by simp [hx])
      (hmV x hx).1 (hmV x hx).2.1 (hmV x hx).2.2)
  have hBB' : readsTo s' sn.right BB :=
    readsTo_frame hrBB (fun x hx => hch x (by simp [hx])
      (hmBB x hx).1 (hmBB x hx).2.1 (hmBB x hx).2.2)
  have hsc' : readsTo s' (some sc) (RTree.nd sc V BB) := readsTo_intro hS' hV' hBB'
  have hth' : readsTo s' (some th) (RTree.nd th U (RTree.nd sc V BB)) :=
    readsTo_intro hTh' hU' hsc'
  exact readsTo_intro hF' hA' hth'

/-- Rebuild the reshaped subtree after a left-direction double rotation. -/
theorem drot_build_left {s s' : BinarySearchTree} {f sc th : Nat}
    {fn sn thn : BinarySearchTreeNode} {AA U V B : RTree}
    (hndu : (RTree.nd f (RTree.nd sc AA (RTree.nd th U V)) B).inorder.Nodup)
    (hlAA : readsTo s sn.left AA) (hlU : readsTo s thn.left U)
    (hrV : readsTo s thn.right V) (hrB : readsTo s fn.right B)
    (hF' : s'.nodes.get? f = some
      { fn.setChild Directions.Left (some th) with
        one_side_depth := Directions.get_depth Directions.Left * 2 })
    (hS' : s'.nodes.get? sc = some
      { sn.setChild Directions.Left.get_opposite (thn.child Directions.Left) with
        one_side_depth := Directions.get_depth Directions.Left, parent := some th })
    (hTh' : s'.nodes.get? th = some
      { thn.setChild Directions.Left (some sc) with
        one_side_depth := 0, parent := some f })
    (hch : ∀ x ∈ (RTree.nd f (RTree.nd sc AA (RTree.nd th U V)) B).inorder,
      x ≠ f → x ≠ sc → x ≠ th → childrenOf s' x = childrenOf s x) :
    readsTo s' (some f) (RTree.nd f (RTree.nd th (RTree.nd sc AA U) V) B) := by
  have hin : (RTree.nd f (RTree.nd sc AA (RTree.nd th U V)) B).inorder =
      (AA.inorder ++ sc :: (U.inorder ++ th :: V.inorder)) ++ f :: B.inorder := rfl
  rw [hin] at hndu hch
  rw [List.nodup_append] at hndu
  obtain ⟨hndL, hndfB, hdisjL⟩ := hndu
  rw [List.nodup_append] at hndL
  obtain ⟨hndAA, hndscUV, hdisjAA⟩ := hndL
  obtain ⟨hscnot, hndUV⟩ := List.nodup_cons.mp hndscUV
  rw [List.nodup_append] at hndUV
  obtain ⟨hndU, hndthV, hdisjU⟩ := hndUV
  have hmAA : ∀ x ∈ AA.inorder, x ≠ f ∧ x ≠ sc ∧ x ≠ th := by
    intro x hx
    have hxl : x ∈ AA.inorder ++ sc :: (U.inorder ++ th :: V.inorder) := by simp [hx]
    refine ⟨fun hc => hdisjL hxl (by simp [hc]),
      fun hc => hdisjAA hx (by simp [hc]), fun hc => hdisjAA hx (by simp [hc])⟩
  have hmU : ∀ x ∈ U.inorder, x ≠ f ∧ x ≠ sc ∧ x ≠ th := by
    intro x hx
    have hxl : x ∈ AA.inorder ++ sc :: (U.inorder ++ th :: V.inorder) := by simp [hx]
    refine ⟨fun hc => hdisjL hxl (by simp [hc]),
      fun hc => hscnot (by simp [hc ▸ hx]), fun hc => hdisjU hx (by simp [hc])⟩
  have hmV : ∀ x ∈ V.inorder, x ≠ f ∧ x ≠ sc ∧ x ≠ th := by
    intro x hx
    have hxl : x ∈ AA.inorder ++ sc :: (U.inorder ++ th :: V.inorder) := by simp [hx]
    refine ⟨fun hc => hdisjL hxl (by simp [hc]),
      fun hc => hscnot (by simp [hc ▸ hx]),
      fun hc => (List.nodup_cons.mp hndthV).1 (hc ▸ hx)⟩
  have hmB : ∀ x ∈ B.inorder, x ≠ f ∧ x ≠ sc ∧ x ≠ th := by
    intro x hx
    have hscl : sc ∈ AA.inorder ++ sc :: (U.inorder ++ th :: V.inorder) := by simp
    have hthl : th ∈ AA.inorder ++ sc :: (U.inorder ++ th :: V.inorder) := by simp
    refine ⟨fun hc => (List.nodup_cons.mp hndfB).1 (hc ▸ hx),
      fun hc => hdisjL hscl (by simp [hc ▸ hx]),
      fun hc => hdisjL hthl (by simp [hc ▸ hx])⟩
  have hAA' : readsTo s' sn.left AA :=
    readsTo_frame hlAA (fun x hx => hch x (by simp [hx])
      (hmAA x hx).1 (hmAA x hx).2.1 (hmAA x hx).2.2)
  have hU' : readsTo s' thn.left U :=
    readsTo_frame hlU (fun x hx => hch x (by simp [hx])
      (hmU x hx).1 (hmU x hx).2.1 (hmU x hx).2.2)
  have hV' : readsTo s' thn.right V :=
    readsTo_frame hrV (fun x hx => hch x (by simp [hx])
      (hmV x hx).1 (hmV x hx).2.1 (hmV x hx).2.2)
  have hB' : readsTo s' fn.right B :=
    readsTo_frame hrB (fun x hx => hch x (by simp [hx])
      (hmB x hx).1 (hmB x hx).2.1 (hmB x hx).2.2)
  have hsc' : readsTo s' (some sc) (RTree.nd sc AA U) := readsTo_intro hS' hAA' hU'
  have hth' : readsTo s' (some th) (RTree.nd th (RTree.nd sc AA U) V) :=
    readsTo_intro hTh' hsc' hV'
  exact readsTo_intro hF' hth' hB'

/-- Full structural description of a successful double rotation on a
well-formed state: the pivot keeps its slot, the reshaped subtree has the
same in-order refs, and structural well-formedness is preserved. -/
theorem double_rotation_struct {s s' : BinarySearchTree} {t : RTree} {f sc th : Nat}
    {d : Directions} {fn sn thn : BinarySearchTreeNode}
    (hst : StructWF s t)
    (hfm : f ∈ t.inorder)
    (hfn : s.nodes.get? f = some fn)
    (hsc : fn.child d = some sc)
    (hsn : s.nodes.get? sc = some sn)
    (hth : sn.child d.get_opposite = some th)
    (hthn : s.nodes.get? th = some thn)
    (hrot : double_rotation s f d = some s') :
    ∃ t', StructWF s' t' ∧ t'.inorder = t.inorder ∧
      s'.tree = s.tree ∧ s'.nodes.length = s.nodes.length ∧
      s'.head = s.head ∧
      s'.nodes.get? f = some
        { fn.setChild d (some th) with one_side_depth := Directions.get_depth d * 2 } ∧
      s'.nodes.get? sc = some
        { sn.setChild d.get_opposite (thn.child d) with
          one_side_depth := Directions.get_depth d, parent := some th } ∧
      s'.nodes.get? th = some
        { thn.setChild d (some sc) with one_side_depth := 0, parent := some f } ∧
      (∀ w wn, thn.child d = some w → s.nodes.get? w = some wn →
        s'.nodes.get? w = some { wn with parent := some sc }) ∧
      (∀ x, x ≠ f → x ≠ sc → x ≠ th →
        (∀ w, thn.child d = some w → x ≠ w) →
        s'.nodes.get? x = s.nodes.get? x) := by
  obtain ⟨hTobs, hLobs, hIobs, hVobs⟩ := double_rotation_obs hrot
  obtain ⟨fn0, A, B, hfn0, hsubf, hlA, hrB⟩ := subtree_shape hst hfm
  rw [hfn] at hfn0
  obtain rfl := Option.some.inj hfn0
  have hru : readsTo s (some f) (RTree.nd f A B) := readsTo_subtreeAt hst.readOk hsubf
  have hndu : (RTree.nd f A B).inorder.Nodup := nodup_of_subtree hst.nodup hsubf
  have hfmu : f ∈ (RTree.nd f A B).inorder := subtreeAt_some_mem hsubf
  have hmemu : ∀ x ∈ (RTree.nd f A B).inorder, x ∈ t.inorder :=
    subtreeAt_mem_sub hst.nodup hsubf
  have hchildu : ∀ x ∈ (RTree.nd f A B).inorder, ∀ n c, s.nodes.get? x = some n →
      (n.left = some c ∨ n.right = some c) → c ∈ (RTree.nd f A B).inorder :=
    child_mem_of_mem hru hndu
  have hnsc := no_self_child hst.readOk hst.nodup
  have hscm : sc ∈ (RTree.nd f A B).inorder :=
    hchildu f hfmu fn sc hfn ((child_or fn sc).mpr ⟨d, hsc⟩)
  have hthm : th ∈ (RTree.nd f A B).inorder :=
    hchildu sc hscm sn th hsn ((child_or sn th).mpr ⟨_, hth⟩)
  have hwm : ∀ w, thn.child d = some w → w ∈ (RTree.nd f A B).inorder :=
    fun w hw => hchildu th hthm thn w hthn ((child_or thn w).mpr ⟨_, hw⟩)
  have hwn_ex : ∀ w, thn.child d = some w →
      ∃ wn, s.nodes.get? w = some wn ∧ wn.parent = some th :=
    fun w hw => hst.parentDU th thn hthn w ((child_or thn w).mpr ⟨_, hw⟩)
  have hgnotu : ∀ g, fn.parent = some g → g ∉ (RTree.nd f A B).inorder :=
    fun g hg => parent_not_in_subtree hst hfm hfn hg hsubf
  have hscp : sn.parent = some f := by
    obtain ⟨cn, hcn, hcp⟩ :=
      hst.parentDU f fn hfn sc ((child_or fn sc).mpr ⟨d, hsc⟩)
    rw [hsn] at hcn
    obtain rfl := Option.some.inj hcn
    exact hcp
  have hthp : thn.parent = some sc := by
    obtain ⟨cn, hcn, hcp⟩ :=
      hst.parentDU sc sn hsn th ((child_or sn th).mpr ⟨_, hth⟩)
    rw [hthn] at hcn
    obtain rfl := Option.some.inj hcn
    exact hcp
  have h12 : f ≠ sc := by
    intro hc
    rcases (child_or fn sc).mpr ⟨d, hsc⟩ with hx | hx
    · exact (hnsc f hfm fn hfn).1 (hc ▸ hx)
    · exact (hnsc f hfm fn hfn).2 (hc ▸ hx)
  have h23 : sc ≠ th := by
    intro hc
    rcases (child_or sn th).mpr ⟨_, hth⟩ with hx | hx
    · exact (hnsc sc (hmemu sc hscm) sn hsn).1 (hc ▸ hx)
    · exact (hnsc sc (hmemu sc hscm) sn hsn).2 (hc ▸ hx)
  have h13 : f ≠ th := by
    intro hc
    subst hc
    rw [hfn] at hthn
    obtain rfl := Option.some.inj hthn
    exact hgnotu sc hthp hscm
  have hwf : ∀ w, thn.child d = some w → w ≠ f := by
    intro w hw hc
    obtain ⟨wn, hwn, hwp⟩ := hwn_ex w hw
    subst hc
    rw [hfn] at hwn
    obtain rfl := Option.some.inj hwn
    exact hgnotu th hwp hthm
  have hwsc : ∀ w, thn.child d = some w → w ≠ sc := by
    intro w hw hc
    obtain ⟨wn, hwn, hwp⟩ := hwn_ex w hw
    subst hc
    rw [hsn] at hwn
    obtain rfl := Option.some.inj hwn
    rw [hscp] at hwp
    exact h13 (Option.some.inj hwp)
  have hwth : ∀ w, thn.child d = some w → w ≠ th := by
    intro w hw hc
    rcases (child_or thn w).mpr ⟨_, hw⟩ with hx | hx
    · exact (hnsc th (hmemu th hthm) thn hthn).1 (hc ▸ hx)
    · exact (hnsc th (hmemu th hthm) thn hthn).2 (hc ▸ hx)
  have hscne : ∀ z, thn.child d = some z → z ≠ f ∧ z ≠ sc ∧ z ≠ th :=
    fun z hz => ⟨hwf z hz, hwsc z hz, hwth z hz⟩
  obtain ⟨s2, heval, hH2, hT2, hL2, hF2, hS2, hTh2, hW2, hE2⟩ :=
    double_rotation_spec hfn hsc hsn hth hthn h12 h13 h23 hscne
  rw [heval] at hrot
  obtain rfl := Option.some.inj hrot
  obtain ⟨hDU, hUD, hHP⟩ := double_rotation_links hst hfm hfn hsc hsn hth hthn hsubf
    hF2 hS2 hTh2 hW2 hE2 hH2
  have hchOf : ∀ x ∈ (RTree.nd f A B).inorder, x ≠ f → x ≠ sc → x ≠ th →
      childrenOf s2 x = childrenOf s x := by
    intro x hx hx1 hx2 hx3
    by_cases hxw : ∃ w, thn.child d = some w ∧ x = w
    · obtain ⟨w, hw, hxeq⟩ := hxw
      subst hxeq
      obtain ⟨wn, hwn, _⟩ := hwn_ex x hw
      rw [childrenOf, childrenOf, hW2 x wn hw hwn, hwn]
      rfl
    · have hxw' : ∀ w, thn.child d = some w → x ≠ w :=
        fun w hw hc => hxw ⟨w, hw, hc⟩
      rw [childrenOf, childrenOf, hE2 x hx1 hx2 hx3 hxw']
  have hvalc : ∀ x, valOf s2 x = valOf s x := by
    intro x
    unfold valOf
    rw [hVobs x]
  have hchout : ∀ x ∈ t.inorder, x ∉ (RTree.nd f A B).inorder →
      childrenOf s2 x = childrenOf s x := by
    intro x hx hxu
    have hx1 : x ≠ f := fun hc => hxu (hc ▸ hfmu)
    have hx2 : x ≠ sc := fun hc => hxu (hc ▸ hscm)
    have hx3 : x ≠ th := fun hc => hxu (hc ▸ hthm)
    have hx4 : ∀ w, thn.child d = some w → x ≠ w :=
      fun w hw hc => hxu (hc ▸ hwm w hw)
    rw [childrenOf, childrenOf, hE2 x hx1 hx2 hx3 hx4]
  have hmain : ∀ rot : RTree, readsTo s2 (some f) rot →
      rot.inorder = (RTree.nd f A B).inorder → SortedT s rot →
      ∃ t', StructWF s2 t' ∧ t'.inorder = t.inorder := by
    intro rot hrread hrin hrsort
    have hin' : (replaceAt t f rot).inorder = t.inorder :=
      replaceAt_inorder_eq hst.nodup hsubf hrin
    refine ⟨replaceAt t f rot, ⟨?_, ?_, ?_, ?_, hDU, hUD, hHP⟩, hin'⟩
    · rw [hH2]
      exact readsTo_replaceAt hst.readOk hst.nodup hsubf hrread hchout
    · rw [hin']
      exact hst.nodup
    · intro r hr
      rw [hLobs] at hr
      rw [hin']
      exact hst.complete r hr
    · exact SortedT_congr (fun x _ => hvalc x)
        (SortedT_replaceAt hst.nodup hst.sorted hsubf hrsort hrin)
  cases d with
  | Right =>
    have hscr : fn.right = some sc := hsc
    rw [hscr] at hrB
    obtain ⟨sn0, BL, BB, hsn0, heqB, hlBL, hrBB⟩ := readsTo_some_elim hrB
    rw [hsn] at hsn0
    obtain rfl := Option.some.inj hsn0
    subst heqB
    have hthl : sn.left = some th := hth
    rw [hthl] at hlBL
    obtain ⟨thn0, U, V, hthn0, heqBL, hlU, hrV⟩ := readsTo_some_elim hlBL
    rw [hthn] at hthn0
    obtain rfl := Option.some.inj hthn0
    subst heqBL
    obtain ⟨t', hswf, hin⟩ := hmain (RTree.nd f A (RTree.nd th U (RTree.nd sc V BB)))
      (drot_build_right hndu hlA hlU hrV hrBB hF2 hS2 hTh2 hchOf)
      (inorder_drot_right f sc th A U V BB)
      (SortedT_drot_right (SortedT_subtreeAt hst.sorted hsubf))
    exact ⟨t', hswf, hin, hTobs, hLobs, hH2, hF2, hS2, hTh2, hW2, hE2⟩
  | Left =>
    have hscl : fn.left = some sc := hsc
    rw [hscl] at hlA
    obtain ⟨sn0, AA, AR, hsn0, heqA, hlAA, hrAR⟩ := readsTo_some_elim hlA
    rw [hsn] at hsn0
    obtain rfl := Option.some.inj hsn0
    subst heqA
    have hthr : sn.right = some th := hth
    rw [hthr] at hrAR
    obtain ⟨thn0, U, V, hthn0, heqAR, hlU, hrV⟩ := readsTo_some_elim hrAR
    rw [hthn] at hthn0
    obtain rfl := Option.some.inj hthn0
    subst heqAR
    obtain ⟨t', hswf, hin⟩ := hmain
      (RTree.nd f (RTree.nd th (RTree.nd sc AA U) V) B)
      (drot_build_left hndu hlAA hlU hrV hrB hF2 hS2 hTh2 hchOf)
      (inorder_drot_left f sc th B U V AA)
      (SortedT_drot_left (SortedT_subtreeAt hst.sorted hsubf))
    exact ⟨t', hswf, hin, hTobs, hLobs, hH2, hF2, hS2, hTh2, hW2, hE2⟩

/-- A ref with no node satisfies the balance-counter invariant trivially. -/
theorem DepthInv_out {s : BinarySearchTree} {r : Nat}
    (h : s.nodes.get? r = none) : DepthInv s r := by
  have hd : depthOf s r = 0 := by rw [depthOf, h]; rfl
  refine ⟨⟨by omega, by omega⟩, ?_, ?_⟩
  · intro hc; omega
  · intro hc; omega

/-- A ref whose counter is within `[-1, 1]` satisfies the invariant. -/
theorem DepthInv_small {s : BinarySearchTree} {r : Nat}
    (h1 : -1 ≤ depthOf s r) (h2 : depthOf s r ≤ 1) : DepthInv s r := by
  refine ⟨⟨by omega, by omega⟩, ?_, ?_⟩
  · intro hc; omega
  · intro hc; omega

theorem depthOf_eq {s : BinarySearchTree} {r : Nat} {n : BinarySearchTreeNode}
    (h : s.nodes.get? r = some n) : depthOf s r = n.one_side_depth := by
  rw [depthOf, h]; rfl

theorem refChild_eq {s : BinarySearchTree} {r : Nat} {n : BinarySearchTreeNode}
    (h : s.nodes.get? r = some n) (dd : Directions) :
    refChild s r dd = n.child dd := by
  rw [refChild, h]; rfl

/-- Transfer of the balance-counter invariant along a state change that
keeps the ref's counter and, when the counter is at `±2`, keeps the heavy
slot and its child's counter. -/
theorem DepthInv_frame {s s' : BinarySearchTree} {r : Nat} (h : DepthInv s r)
    (hd : depthOf s' r = depthOf s r)
    (hR : depthOf s r = 2 → ∀ c, refChild s r Directions.Right = some c →
      refChild s' r Directions.Right = some c ∧ depthOf s' c = depthOf s c)
    (hL : depthOf s r = -2 → ∀ c, refChild s r Directions.Left = some c →
      refChild s' r Directions.Left = some c ∧ depthOf s' c = depthOf s c) :
    DepthInv s' r := by
  obtain ⟨⟨hr1, hr2⟩, h2, hm2⟩ := h
  refine ⟨⟨by omega, by omega⟩, ?_, ?_⟩
  · intro he
    rw [hd] at he
    obtain ⟨c, hc, hc0⟩ := h2 he
    obtain ⟨hc', hcd⟩ := hR he c hc
    exact ⟨c, hc', hcd.trans hc0⟩
  · intro he
    rw [hd] at he
    obtain ⟨c, hc, hc0⟩ := hm2 he
    obtain ⟨hc', hcd⟩ := hL he c hc
    exact ⟨c, hc', hcd.trans hc0⟩

/-- After a simple rotation fired by the climb, every ref satisfies the
balance-counter invariant.  `b` is the state the rotation ran on (the
counters already bumped), `par` the pivot and `pc` its heavy child; the
hypotheses are the climb invariant at `b` plus the pointwise description of
the rotated state `s'`. -/
theorem simple_rotation_DepthInv {b s' : BinarySearchTree} {t : RTree} {par pc : Nat}
    {d : Directions} {p1 pcn : BinarySearchTreeNode}
    (hst : StructWF b t) (hfm : par ∈ t.inorder)
    (hfn : b.nodes.get? par = some p1)
    (hsc : p1.child d = some pc)
    (hsn : b.nodes.get? pc = some pcn)
    (hAex : ∀ r, r ≠ par → (∀ g, p1.parent = some g → r ≠ g) → DepthInv b r)
    (hg : ∀ g gn, p1.parent = some g → b.nodes.get? g = some gn →
      (-2 ≤ gn.one_side_depth ∧ gn.one_side_depth ≤ 2) ∧
      (gn.one_side_depth = 2 → ∃ c, gn.right = some c ∧ c ≠ par ∧ depthOf b c = 0) ∧
      (gn.one_side_depth = -2 → ∃ c, gn.left = some c ∧ c ≠ par ∧ depthOf b c = 0))
    (hF' : s'.nodes.get? par = some
      { p1.setChild d (pcn.child d.get_opposite) with
        one_side_depth := 0, parent := some pc })
    (hS' : s'.nodes.get? pc = some
      { pcn.setChild d.get_opposite (some par) with
        one_side_depth := 0, parent := p1.parent })
    (hOC' : ∀ z zn, pcn.child d.get_opposite = some z → b.nodes.get? z = some zn →
      s'.nodes.get? z = some { zn with parent := some par })
    (hG' : ∀ g, p1.parent = some g → ∃ gn, b.nodes.get? g = some gn ∧
      gn.child (get_directions b g par) = some par ∧
      s'.nodes.get? g = some (gn.setChild (get_directions b g par) (some pc)))
    (hE' : ∀ x, x ≠ par → x ≠ pc →
      (∀ z, pcn.child d.get_opposite = some z → x ≠ z) →
      (∀ g, p1.parent = some g → x ≠ g) →
      s'.nodes.get? x = b.nodes.get? x)
    (hlen : s'.nodes.length = b.nodes.length) :
    ∀ r, DepthInv s' r := by
  obtain ⟨p1b, A, B, hfnb, hsub, hlA0, hrB0⟩ := subtree_shape hst hfm
  rw [hfn] at hfnb
  obtain rfl := Option.some.inj hfnb
  have hru : readsTo b (some par) (RTree.nd par A B) :=
    readsTo_subtreeAt hst.readOk hsub
  have hndu : (RTree.nd par A B).inorder.Nodup := nodup_of_subtree hst.nodup hsub
  have hfmu : par ∈ (RTree.nd par A B).inorder := subtreeAt_some_mem hsub
  have hmemu : ∀ x ∈ (RTree.nd par A B).inorder, x ∈ t.inorder :=
    subtreeAt_mem_sub hst.nodup hsub
  have hchildu : ∀ x ∈ (RTree.nd par A B).inorder, ∀ n c, b.nodes.get? x = some n →
      (n.left = some c ∨ n.right = some c) → c ∈ (RTree.nd par A B).inorder :=
    child_mem_of_mem hru hndu
  have hnsc := no_self_child hst.readOk hst.nodup
  have hholder : ∀ x xn c, b.nodes.get? x = some xn →
      (xn.left = some c ∨ xn.right = some c) → ∀ cn, b.nodes.get? c = some cn →
      cn.parent = some x := by
    intro x xn c hxn hor cn hcn
    obtain ⟨cn2, hcn2, hcp⟩ := hst.parentDU x xn hxn c hor
    rw [hcn] at hcn2
    obtain rfl := Option.some.inj hcn2
    exact hcp
  have hgnotu : ∀ g, p1.parent = some g → g ∉ (RTree.nd par A B).inorder :=
    fun g hgg => parent_not_in_subtree hst hfm hfn hgg hsub
  have hpcmu : pc ∈ (RTree.nd par A B).inorder :=
    hchildu par hfmu p1 pc hfn ((child_or p1 pc).mpr ⟨d, hsc⟩)
  have hpcp : pcn.parent = some par :=
    hholder par p1 pc hfn ((child_or p1 pc).mpr ⟨d, hsc⟩) pcn hsn
  have hparpc : par ≠ pc := by
    intro hc
    rcases (child_or p1 pc).mpr ⟨d, hsc⟩ with hx | hx
    · exact (hnsc par hfm p1 hfn).1 (hc ▸ hx)
    · exact (hnsc par hfm p1 hfn).2 (hc ▸ hx)
  have hparg : ∀ g, p1.parent = some g → g ≠ par :=
    fun g hgg hc => hgnotu g hgg (hc ▸ hfmu)
  have hzmemu : ∀ z, pcn.child d.get_opposite = some z →
      z ∈ (RTree.nd par A B).inorder :=
    fun z hz => hchildu pc hpcmu pcn z hsn ((child_or pcn z).mpr ⟨_, hz⟩)
  have hzn_ex : ∀ z, pcn.child d.get_opposite = some z →
      ∃ zn, b.nodes.get? z = some zn ∧ zn.parent = some pc :=
    fun z hz => hst.parentDU pc pcn hsn z ((child_or pcn z).mpr ⟨_, hz⟩)
  have hzpar : ∀ z, pcn.child d.get_opposite = some z → z ≠ par := by
    intro z hz hc
    obtain ⟨zn, hznn, hzp⟩ := hzn_ex z hz
    subst hc
    rw [hfn] at hznn
    obtain rfl := Option.some.inj hznn
    exact hgnotu pc hzp hpcmu
  have hzpc : ∀ z, pcn.child d.get_opposite = some z → z ≠ pc := by
    intro z hz hc
    rcases (child_or pcn z).mpr ⟨_, hz⟩ with hx | hx
    · exact (hnsc pc (hmemu pc hpcmu) pcn hsn).1 (hc ▸ hx)
    · exact (hnsc pc (hmemu pc hpcmu) pcn hsn).2 (hc ▸ hx)
  have hdep : ∀ x, x ≠ par → x ≠ pc → depthOf s' x = depthOf b x := by
    intro x hx1 hx2
    by_cases hxz : ∃ z, pcn.child d.get_opposite = some z ∧ x = z
    · obtain ⟨z, hz, hxeq⟩ := hxz
      subst hxeq
      obtain ⟨zn, hznn, _⟩ := hzn_ex x hz
      rw [depthOf_eq (hOC' x zn hz hznn), depthOf_eq hznn]
    · by_cases hxg : ∃ g, p1.parent = some g ∧ x = g
      · obtain ⟨g, hgg, hxeq⟩ := hxg
        subst hxeq
        obtain ⟨gn, hgn, _, hGnew⟩ := hG' x hgg
        rw [depthOf_eq hGnew, depthOf_eq hgn]
        exact setChild_depth gn _ _
      · have hx3 : ∀ z, pcn.child d.get_opposite = some z → x ≠ z :=
          fun z hz hcc => hxz ⟨z, hz, hcc⟩
        have hx4 : ∀ g, p1.parent = some g → x ≠ g :=
          fun g hgg hcc => hxg ⟨g, hgg, hcc⟩
        rw [depthOf, depthOf, hE' x hx1 hx2 hx3 hx4]
  intro r
  cases hrn : s'.nodes.get? r with
  | none => exact DepthInv_out hrn
  | some rn =>
    have hrlen : r < s'.nodes.length := (List.get?_eq_some.mp hrn).1
    rw [hlen] at hrlen
    have hrm : r ∈ t.inorder := hst.complete r hrlen
    by_cases hrpar : r = par
    · have hdd : depthOf s' r = 0 := by rw [hrpar, depthOf_eq hF']
      exact DepthInv_small (by rw [hdd]; omega) (by rw [hdd]; omega)
    by_cases hrpc : r = pc
    · have hdd : depthOf s' r = 0 := by rw [hrpc, depthOf_eq hS']
      exact DepthInv_small (by rw [hdd]; omega) (by rw [hdd]; omega)
    by_cases hrz : ∃ z, pcn.child d.get_opposite = some z ∧ r = z
    · obtain ⟨z, hz, rfl⟩ := hrz
      obtain ⟨zn, hznn, hzp⟩ := hzn_ex r hz
      refine DepthInv_frame (hAex r hrpar ?_) (hdep r hrpar hrpc) ?_ ?_
      · intro g hgg hcc
        exact hgnotu g hgg (hcc ▸ hzmemu r hz)
      · intro he c hc
        rw [refChild_eq hznn] at hc
        refine ⟨?_, ?_⟩
        · rw [refChild_eq (hOC' r zn hz hznn), child_parentset]
          exact hc
        · refine hdep c ?_ ?_
          · intro hcc
            rw [← hcc] at hfn
            have hcp := hholder r zn c hznn ((child_or zn c).mpr ⟨_, hc⟩) p1 hfn
            exact hgnotu r hcp (hzmemu r hz)
          · intro hcc
            rw [← hcc] at hsn
            have hcp := hholder r zn c hznn ((child_or zn c).mpr ⟨_, hc⟩) pcn hsn
            rw [hpcp] at hcp
            exact hrpar (Option.some.inj hcp).symm
      · intro he c hc
        rw [refChild_eq hznn] at hc
        refine ⟨?_, ?_⟩
        · rw [refChild_eq (hOC' r zn hz hznn), child_parentset]
          exact hc
        · refine hdep c ?_ ?_
          · intro hcc
            rw [← hcc] at hfn
            have hcp := hholder r zn c hznn ((child_or zn c).mpr ⟨_, hc⟩) p1 hfn
            exact hgnotu r hcp (hzmemu r hz)
          · intro hcc
            rw [← hcc] at hsn
            have hcp := hholder r zn c hznn ((child_or zn c).mpr ⟨_, hc⟩) pcn hsn
            rw [hpcp] at hcp
            exact hrpar (Option.some.inj hcp).symm
    by_cases hrg : ∃ g, p1.parent = some g ∧ r = g
    · obtain ⟨g, hgg, rfl⟩ := hrg
      obtain ⟨gn, hgn, hslotg, hGnew⟩ := hG' r hgg
      obtain ⟨hgr, hg2, hgm2⟩ := hg r gn hgg hgn
      have hdg : depthOf s' r = gn.one_side_depth := by
        rw [depthOf_eq hGnew]
        exact setChild_depth gn _ _
      refine ⟨⟨by rw [hdg]; exact hgr.1, by rw [hdg]; exact hgr.2⟩, ?_, ?_⟩
      · intro he
        rw [hdg] at he
        obtain ⟨c, hcr, hcpar, hc0⟩ := hg2 he
        cases hdir : get_directions b r par with
        | Right =>
          rw [hdir] at hslotg
          have hgr2 : gn.right = some par := hslotg
          rw [hgr2] at hcr
          exact absurd (Option.some.inj hcr).symm hcpar
        | Left =>
          rw [hdir] at hGnew
          refine ⟨c, ?_, ?_⟩
          · rw [refChild_eq hGnew]
            exact hcr
          · have hcpc : c ≠ pc := by
              intro hcc
              rw [← hcc] at hsn
              have hcp := hholder r gn c hgn (Or.inr hcr) pcn hsn
              rw [hpcp] at hcp
              exact hparg r hgg (Option.some.inj hcp).symm
            rw [hdep c hcpar hcpc]
            exact hc0
      · intro he
        rw [hdg] at he
        obtain ⟨c, hcr, hcpar, hc0⟩ := hgm2 he
        cases hdir : get_directions b r par with
        | Left =>
          rw [hdir] at hslotg
          have hgl2 : gn.left = some par := hslotg
          rw [hgl2] at hcr
          exact absurd (Option.some.inj hcr).symm hcpar
        | Right =>
          rw [hdir] at hGnew
          refine ⟨c, ?_, ?_⟩
          · rw [refChild_eq hGnew]
            exact hcr
          · have hcpc : c ≠ pc := by
              intro hcc
              rw [← hcc] at hsn
              have hcp := hholder r gn c hgn (Or.inl hcr) pcn hsn
              rw [hpcp] at hcp
              exact hparg r hgg (Option.some.inj hcp).symm
            rw [hdep c hcpar hcpc]
            exact hc0
    · have hx3 : ∀ z, pcn.child d.get_opposite = some z → r ≠ z :=
        fun z hz hcc => hrz ⟨z, hz, hcc⟩
      have hx4 : ∀ g, p1.parent = some g → r ≠ g :=
        fun g hgg hcc => hrg ⟨g, hgg, hcc⟩
      have hnode : s'.nodes.get? r = b.nodes.get? r := hE' r hrpar hrpc hx3 hx4
      have hrnb : b.nodes.get? r = some rn := hnode ▸ hrn
      have hrc : ∀ dd, refChild s' r dd = refChild b r dd := by
        intro dd
        rw [refChild, refChild, hnode]
      refine DepthInv_frame (hAex r hrpar hx4) (hdep r hrpar hrpc) ?_ ?_
      · intro he c hc
        refine ⟨by rw [hrc]; exact hc, ?_⟩
        rw [refChild_eq hrnb] at hc
        refine hdep c ?_ ?_
        · intro hcc
          rw [← hcc] at hfn
          have hcp := hholder r rn c hrnb ((child_or rn c).mpr ⟨_, hc⟩) p1 hfn
          exact hx4 r hcp rfl
        · intro hcc
          rw [← hcc] at hsn
          have hcp := hholder r rn c hrnb ((child_or rn c).mpr ⟨_, hc⟩) pcn hsn
          rw [hpcp] at hcp
          exact hrpar (Option.some.inj hcp).symm
      · intro he c hc
        refine ⟨by rw [hrc]; exact hc, ?_⟩
        rw [refChild_eq hrnb] at hc
        refine hdep c ?_ ?_
        · intro hcc
          rw [← hcc] at hfn
          have hcp := hholder r rn c hrnb ((child_or rn c).mpr ⟨_, hc⟩) p1 hfn
          exact hx4 r hcp rfl
        · intro hcc
          rw [← hcc] at hsn
          have hcp := hholder r rn c hrnb ((child_or rn c).mpr ⟨_, hc⟩) pcn hsn
          rw [hpcp] at hcp
          exact hrpar (Option.some.inj hcp).symm

/-- Injectivity of the stored ids transfers along a state change that
preserves the id of every slot and the set of reachable refs. -/
theorem idInj_transfer {s s' : BinarySearchTree} {t t' : RTree}
    (hin : t'.inorder = t.inorder)
    (hI : ∀ x, (s'.nodes.get? x).map BinarySearchTreeNode.id =
      (s.nodes.get? x).map BinarySearchTreeNode.id)
    (hid : ∀ x ∈ t.inorder, ∀ y ∈ t.inorder, idOf s x = idOf s y → x = y) :
    ∀ x ∈ t'.inorder, ∀ y ∈ t'.inorder, idOf s' x = idOf s' y → x = y := by
  intro x hx y hy he
  rw [hin] at hx hy
  refine hid x hx y hy ?_
  rw [idOf, idOf, ← hI x, ← hI y]
  exact he

theorem get_depth_cases (d : Directions) : d.get_depth = 1 ∨ d.get_depth = -1 := by
  cases d
  · exact Or.inr rfl
  · exact Or.inl rfl

theorem dir_of_depth_one {d : Directions} (h : d.get_depth = 1) :
    d = Directions.Right := by
  cases d
  · exact absurd h (by decide)
  · rfl

theorem dir_of_depth_negone {d : Directions} (h : d.get_depth = -1) :
    d = Directions.Left := by
  cases d
  · rfl
  · exact absurd h (by decide)

/-- The balance-maintenance climb of `update_depth`, on a well-formed state:
if every ref except the current parent satisfies the counter invariant, the
parent's counter is in range with heavy-side children present, and a `±2`
parent whose updated-side child is the climb node forces that child's
counter to be nonzero, then a successful climb preserves the abstract shape
up to rotation (same in-order refs, ids and values), the index and the arena
length, and re-establishes the counter invariant everywhere. -/
theorem update_depth_strong : ∀ (fuel : Nat) {s s' : BinarySearchTree} {t : RTree}
    {pc : Nat} {pcn : BinarySearchTreeNode},
    StructWF s t →
    (∀ x ∈ t.inorder, ∀ y ∈ t.inorder, idOf s x = idOf s y → x = y) →
    s.nodes.get? pc = some pcn →
    pc ∈ t.inorder →
    (∀ r, (∀ par, pcn.parent = some par → r ≠ par) → DepthInv s r) →
    (∀ par pn, pcn.parent = some par → s.nodes.get? par = some pn →
      (-2 ≤ pn.one_side_depth ∧ pn.one_side_depth ≤ 2) ∧
      (pn.one_side_depth = 2 → ∃ c, pn.right = some c) ∧
      (pn.one_side_depth = -2 → ∃ c, pn.left = some c) ∧
      (pn.one_side_depth = 2 → pn.right = some pc → pcn.one_side_depth ≠ 0) ∧
      (pn.one_side_depth = -2 → pn.left = some pc → pcn.one_side_depth ≠ 0)) →
    update_depth s pc fuel = some s' →
    ∃ t', StructWF s' t' ∧ t'.inorder = t.inorder ∧
      s'.tree = s.tree ∧ s'.nodes.length = s.nodes.length ∧
      (∀ x, (s'.nodes.get? x).map BinarySearchTreeNode.id =
        (s.nodes.get? x).map BinarySearchTreeNode.id) ∧
      (∀ x, (s'.nodes.get? x).map BinarySearchTreeNode.value =
        (s.nodes.get? x).map BinarySearchTreeNode.value) ∧
      (∀ r, DepthInv s' r) := by
  intro fuel
  induction fuel with
  | zero =>
    intro s s' t pc pcn hst hid hpcn hpcm hAex hR hupd
    simp [update_depth] at hupd
  | succ fuel ih =>
    intro s s' t pc pcn hst hid hpcn hpcm hAex hR hupd
    have hnsc := no_self_child hst.readOk hst.nodup
    cases hpar : pcn.parent with
    | none =>
      obtain rfl := update_depth_done hpcn hpar hupd
      refine ⟨t, hst, rfl, rfl, rfl, fun x => rfl, fun x => rfl, ?_⟩
      intro r
      refine hAex r ?_
      intro par hp
      rw [hpar] at hp
      exact Option.noConfusion hp
    | some par =>
      obtain ⟨pn, hpn, hporn⟩ := hst.parentUD pc pcn hpcn par hpar
      have hparm : par ∈ t.inorder := hst.complete par (List.get?_eq_some.mp hpn).1
      have hslotpc : pn.child (get_directions s par pc) = some pc := by
        obtain ⟨pn2, hpn2, hs⟩ := dir_correct hst hid hpcm hpcn hpar
        rw [hpn] at hpn2
        obtain rfl := Option.some.inj hpn2
        exact hs
      have hpcpar : pc ≠ par := by
        intro hc
        rw [← hc] at hpn
        rw [hpcn] at hpn
        obtain rfl := Option.some.inj hpn
        rcases hporn with hx | hx
        · exact (hnsc pc hpcm pcn hpcn).1 hx
        · exact (hnsc pc hpcm pcn hpcn).2 hx
      have hgneqpar : ∀ g, pn.parent = some g → g ≠ par := by
        intro g hgg hcc
        rw [hcc] at hgg
        obtain ⟨qn, hqn, hor⟩ := hst.parentUD par pn hpn par hgg
        rw [hpn] at hqn
        obtain rfl := Option.some.inj hqn
        rcases hor with hx | hx
        · exact (hnsc par hparm pn hpn).1 hx
        · exact (hnsc par hparm pn hpn).2 hx
      have hgo := update_depth_go fuel hpcn hpar hpn
      rw [hgo] at hupd
      have hpc1 : (bumpDepth s par pc).nodes.get? pc = some pcn := by
        rw [bumpDepth_get?, if_neg hpcpar]
        exact hpcn
      rw [hpc1] at hupd
      simp only [Option.some_bind] at hupd
      obtain ⟨hbT, hbL, hbI, hbV⟩ := bumpDepth_obs s par pc
      have hst1 : StructWF (bumpDepth s par pc) t := StructWF_bumpDepth hst par pc
      have hid1 : ∀ x ∈ t.inorder, ∀ y ∈ t.inorder,
          idOf (bumpDepth s par pc) x = idOf (bumpDepth s par pc) y → x = y := by
        intro x hx y hy he
        refine hid x hx y hy ?_
        rw [idOf, idOf, ← hbI x, ← hbI y]
        exact he
      have hfn1 : (bumpDepth s par pc).nodes.get? par = some
          { pn with one_side_depth :=
              pn.one_side_depth + (get_directions s par pc).get_depth } := by
        rw [bumpDepth_get?, if_pos rfl, hpn]
        rfl
      have hsc1 : ({ pn with one_side_depth :=
          pn.one_side_depth + (get_directions s par pc).get_depth } :
          BinarySearchTreeNode).child (get_directions s par pc) = some pc := by
        rw [child_depthset]
        exact hslotpc
      have hdep1 : ∀ x, x ≠ par → depthOf (bumpDepth s par pc) x = depthOf s x := by
        intro x hx
        rw [depthOf, depthOf, bumpDepth_get?, if_neg hx]
      have hdpar1 : depthOf (bumpDepth s par pc) par =
          pn.one_side_depth + (get_directions s par pc).get_depth := by
        rw [depthOf_eq hfn1]
      have hrc1 : ∀ x dd, refChild (bumpDepth s par pc) x dd = refChild s x dd := by
        intro x dd
        rw [refChild, refChild, bumpDepth_get?]
        by_cases hx : x = par
        · subst hx
          rw [if_pos rfl, hpn]
          simp only [Option.map_some', Option.some_bind]
          exact child_depthset pn dd _
        · rw [if_neg hx]
      have hAs : ∀ r, r ≠ par → DepthInv s r := by
        intro r hr
        refine hAex r ?_
        intro par' hp'
        rw [hpar] at hp'
        obtain rfl := Option.some.inj hp'
        exact hr
      have hA1 : ∀ r, r ≠ par → (∀ g, pn.parent = some g → r ≠ g) →
          DepthInv (bumpDepth s par pc) r := by
        intro r hr hrg
        refine DepthInv_frame (hAs r hr) (hdep1 r hr) ?_ ?_
        · intro he c hc
          refine ⟨by rw [hrc1]; exact hc, ?_⟩
          cases hrn2 : s.nodes.get? r with
          | none =>
            rw [refChild, hrn2] at hc
            exact Option.noConfusion hc
          | some rn =>
            rw [refChild_eq hrn2] at hc
            refine hdep1 c ?_
            intro hcc
            obtain ⟨cn, hcn, hcp⟩ := hst.parentDU r rn hrn2 c
              ((child_or rn c).mpr ⟨_, hc⟩)
            rw [hcc, hpn] at hcn
            obtain rfl := Option.some.inj hcn
            exact hrg r hcp rfl
        · intro he c hc
          refine ⟨by rw [hrc1]; exact hc, ?_⟩
          cases hrn2 : s.nodes.get? r with
          | none =>
            rw [refChild, hrn2] at hc
            exact Option.noConfusion hc
          | some rn =>
            rw [refChild_eq hrn2] at hc
            refine hdep1 c ?_
            intro hcc
            obtain ⟨cn, hcn, hcp⟩ := hst.parentDU r rn hrn2 c
              ((child_or rn c).mpr ⟨_, hc⟩)
            rw [hcc, hpn] at hcn
            obtain rfl := Option.some.inj hcn
            exact hrg r hcp rfl
      by_cases hcnd1 : (pn.one_side_depth + (get_directions s par pc).get_depth ≥ 2 ∧
          pcn.one_side_depth > 0) ∨
          (pn.one_side_depth + (get_directions s par pc).get_depth ≤ -2 ∧
          pcn.one_side_depth < 0)
      · -- simple rotation ends the climb
        rw [if_pos hcnd1] at hupd
        obtain ⟨hoT, hoL, hoI, hoV⟩ := simple_rotation_obs hupd
        obtain ⟨t', hswf, hin, hT', hL', hHnone', hHsome', hF', hS', hOC', hG', hE'⟩ :=
          simple_rotation_struct hst1 (fun g hg => dir_correct hst1 hid1 hparm hfn1 hg) hparm hfn1 hsc1 hpc1 hupd
        have hfired : pn.one_side_depth ≠ 0 := by
          rcases get_depth_cases (get_directions s par pc) with hgd | hgd <;>
            rcases hcnd1 with ⟨h1, _⟩ | ⟨h1, _⟩ <;> omega
        have hgfact : ∀ g gn, ({ pn with one_side_depth :=
            pn.one_side_depth + (get_directions s par pc).get_depth } :
            BinarySearchTreeNode).parent = some g →
            (bumpDepth s par pc).nodes.get? g = some gn →
            (-2 ≤ gn.one_side_depth ∧ gn.one_side_depth ≤ 2) ∧
            (gn.one_side_depth = 2 → ∃ c, gn.right = some c ∧ c ≠ par ∧
              depthOf (bumpDepth s par pc) c = 0) ∧
            (gn.one_side_depth = -2 → ∃ c, gn.left = some c ∧ c ≠ par ∧
              depthOf (bumpDepth s par pc) c = 0) := by
          intro g gn hgg hgn1
          have hgg' : pn.parent = some g := hgg
          have hg1 : g ≠ par := hgneqpar g hgg'
          have hgns : s.nodes.get? g = some gn := by
            rw [bumpDepth_get?, if_neg hg1] at hgn1
            exact hgn1
          obtain ⟨hgr, hgc2, hgcm2⟩ := hAs g hg1
          rw [depthOf_eq hgns] at hgr hgc2 hgcm2
          refine ⟨hgr, ?_, ?_⟩
          · intro he
            obtain ⟨c, hcr, hc0⟩ := hgc2 he
            rw [refChild_eq hgns] at hcr
            have hcpar : c ≠ par := by
              intro hcc
              rw [hcc, depthOf_eq hpn] at hc0
              exact hfired hc0
            refine ⟨c, hcr, hcpar, ?_⟩
            rw [hdep1 c hcpar]
            exact hc0
          · intro he
            obtain ⟨c, hcr, hc0⟩ := hgcm2 he
            rw [refChild_eq hgns] at hcr
            have hcpar : c ≠ par := by
              intro hcc
              rw [hcc, depthOf_eq hpn] at hc0
              exact hfired hc0
            refine ⟨c, hcr, hcpar, ?_⟩
            rw [hdep1 c hcpar]
            exact hc0
        have hdinv := simple_rotation_DepthInv hst1 hparm hfn1 hsc1 hpc1
          hA1 hgfact hF' hS' hOC' hG' hE' hL'
        exact ⟨t', hswf, hin, hT'.trans hbT, hL'.trans hbL,
          fun x => (hoI x).trans (hbI x), fun x => (hoV x).trans (hbV x), hdinv⟩
      rw [if_neg hcnd1] at hupd
      by_cases hcnd2 : (pn.one_side_depth + (get_directions s par pc).get_depth ≥ 2 ∧
          pcn.one_side_depth < 0) ∨
          (pn.one_side_depth + (get_directions s par pc).get_depth ≤ -2 ∧
          pcn.one_side_depth > 0)
      · -- double rotation (followed by the simple pass) ends the climb
        rw [if_pos hcnd2] at hupd
        cases hdr : double_rotation (bumpDepth s par pc) par
            (get_directions s par pc) with
        | none =>
          rw [hdr] at hupd
          simp at hupd
        | some s2 =>
          rw [hdr] at hupd
          simp only [Option.some_bind] at hupd
          obtain ⟨fnE, scE, snE, thE, hfnE, hscE, hsnE, hthE, thnE, hthnE, hs2E⟩ :=
            double_rotation_elim hdr
          rw [hfn1] at hfnE
          obtain rfl := Option.some.inj hfnE
          rw [child_depthset, hslotpc] at hscE
          obtain rfl := Option.some.inj hscE
          rw [hpc1] at hsnE
          obtain rfl := Option.some.inj hsnE
          obtain ⟨thn1, hthn1, hthp1⟩ := hst1.parentDU pc pcn hpc1 thE
            ((child_or pcn thE).mpr ⟨_, hthE⟩)
          obtain ⟨t2, hswf2, hin2, hT2', hL2', hH2', hF2', hS2', hTh2', hW2', hE2'⟩ :=
            double_rotation_struct hst1 hparm hfn1 hsc1 hpc1 hthE hthn1 hdr
          obtain ⟨hoT2, hoL2, hoI2, hoV2⟩ := double_rotation_obs hdr
          obtain ⟨hoT3, hoL3, hoI3, hoV3⟩ := simple_rotation_obs hupd
          have hparm2 : par ∈ t2.inorder := by rw [hin2]; exact hparm
          have hid2 := idInj_transfer hin2 hoI2 hid1
          have hsc2 : ({ ({ pn with one_side_depth :=
              pn.one_side_depth + (get_directions s par pc).get_depth } :
              BinarySearchTreeNode).setChild (get_directions s par pc) (some thE) with
              one_side_depth := Directions.get_depth (get_directions s par pc) * 2 } :
              BinarySearchTreeNode).child (get_directions s par pc) = some thE := by
            rw [child_depthset, child_setChild_same]
          obtain ⟨t', hswf, hin3, hT3', hL3', hHnone3, hHsome3, hF3', hS3', hOC3',
              hG3', hE3'⟩ :=
            simple_rotation_struct hswf2 (fun g hg => dir_correct hswf2 hid2 hparm2 hF2' hg) hparm2 hF2' hsc2 hTh2' hupd
          -- side facts in the pre-bump state
          obtain ⟨pcn0, UA, UB, hpcn0, hsubpc, hlU0, hrU0⟩ := subtree_shape hst hpcm
          rw [hpcn] at hpcn0
          obtain rfl := Option.some.inj hpcn0
          have hrupc : readsTo s (some pc) (RTree.nd pc UA UB) :=
            readsTo_subtreeAt hst.readOk hsubpc
          have hndupc : (RTree.nd pc UA UB).inorder.Nodup :=
            nodup_of_subtree hst.nodup hsubpc
          have hchildupc := child_mem_of_mem hrupc hndupc
          have hpcmem : pc ∈ (RTree.nd pc UA UB).inorder := subtreeAt_some_mem hsubpc
          have hparnot : par ∉ (RTree.nd pc UA UB).inorder :=
            parent_not_in_subtree hst hpcm hpcn hpar hsubpc
          have hthmem : thE ∈ (RTree.nd pc UA UB).inorder :=
            hchildupc pc hpcmem pcn thE hpcn ((child_or pcn thE).mpr ⟨_, hthE⟩)
          have hthEpar : thE ≠ par := fun hcc => hparnot (hcc ▸ hthmem)
          have hthn1s : s.nodes.get? thE = some thn1 := by
            rw [bumpDepth_get?, if_neg hthEpar] at hthn1
            exact hthn1
          have hwmem : ∀ w, thn1.child (get_directions s par pc) = some w →
              w ∈ (RTree.nd pc UA UB).inorder :=
            fun w hw => hchildupc thE hthmem thn1 w hthn1s
              ((child_or thn1 w).mpr ⟨_, hw⟩)
          have hgnpc : ∀ g, pn.parent = some g → g ≠ pc := by
            intro g hgg hcc
            rw [hcc] at hgg
            obtain ⟨qn, hqn, hor⟩ := hst.parentUD par pn hpn pc hgg
            rw [hpcn] at hqn
            obtain rfl := Option.some.inj hqn
            exact hparnot (hchildupc pc hpcmem pcn par hpcn hor)
          have hgnth : ∀ g, pn.parent = some g → g ≠ thE := by
            intro g hgg hcc
            rw [hcc] at hgg
            obtain ⟨qn, hqn, hor⟩ := hst.parentUD par pn hpn thE hgg
            rw [hthn1s] at hqn
            obtain rfl := Option.some.inj hqn
            exact hparnot (hchildupc thE hthmem thn1 par hthn1s hor)
          have hgnw : ∀ g w, pn.parent = some g →
              thn1.child (get_directions s par pc) = some w → g ≠ w := by
            intro g w hgg hw hcc
            rw [hcc] at hgg
            obtain ⟨wn, hwn1, hwp1⟩ := hst1.parentDU thE thn1 hthn1 w
              ((child_or thn1 w).mpr ⟨_, hw⟩)
            have hwpar : w ≠ par := fun hc2 => hparnot (hc2 ▸ hwmem w hw)
            have hwns : s.nodes.get? w = some wn := by
              rw [bumpDepth_get?, if_neg hwpar] at hwn1
              exact hwn1
            obtain ⟨qn, hqn, hor⟩ := hst.parentUD par pn hpn w hgg
            rw [hwns] at hqn
            obtain rfl := Option.some.inj hqn
            exact hparnot (hchildupc w (hwmem w hw) wn par hwns hor)
          have hdep12 : ∀ x, x ≠ par → x ≠ pc → x ≠ thE →
              depthOf s2 x = depthOf (bumpDepth s par pc) x := by
            intro x hx1 hx2 hx3
            by_cases hxw : ∃ w, thn1.child (get_directions s par pc) = some w ∧ x = w
            · obtain ⟨w, hw, hxeq⟩ := hxw
              subst hxeq
              obtain ⟨wn, hwn1, _⟩ := hst1.parentDU thE thn1 hthn1 x
                ((child_or thn1 x).mpr ⟨_, hw⟩)
              rw [depthOf_eq (hW2' x wn hw hwn1), depthOf_eq hwn1]
            · have hxw' : ∀ w, thn1.child (get_directions s par pc) = some w →
                  x ≠ w := fun w hw hcc => hxw ⟨w, hw, hcc⟩
              rw [depthOf, depthOf, hE2' x hx1 hx2 hx3 hxw']
          have hcex : ∀ rr, rr ≠ par → (∀ g, pn.parent = some g → rr ≠ g) →
              rr ≠ pc → rr ≠ thE → ∀ rn2,
              (bumpDepth s par pc).nodes.get? rr = some rn2 →
              ∀ c, (rn2.left = some c ∨ rn2.right = some c) →
              c ≠ par ∧ c ≠ pc ∧ c ≠ thE := by
            intro rr h1 h2 h3 h4 rn2 hrn2 c hor
            obtain ⟨cn, hcn, hcp⟩ := hst1.parentDU rr rn2 hrn2 c hor
            refine ⟨?_, ?_, ?_⟩
            · intro hcc
              rw [hcc, hfn1] at hcn
              obtain rfl := Option.some.inj hcn
              exact h2 rr hcp rfl
            · intro hcc
              rw [hcc, hpc1] at hcn
              obtain rfl := Option.some.inj hcn
              rw [hpar] at hcp
              exact h1 (Option.some.inj hcp).symm
            · intro hcc
              rw [hcc, hthn1] at hcn
              obtain rfl := Option.some.inj hcn
              rw [hthp1] at hcp
              exact h3 (Option.some.inj hcp).symm
          have hAex2 : ∀ r, r ≠ par →
              (∀ g, (({ ({ pn with one_side_depth :=
                pn.one_side_depth + (get_directions s par pc).get_depth } :
                BinarySearchTreeNode).setChild (get_directions s par pc) (some thE) with
                one_side_depth := Directions.get_depth (get_directions s par pc) * 2 } :
                BinarySearchTreeNode)).parent = some g → r ≠ g) →
              DepthInv s2 r := by
            intro r hr hrg
            have hrg' : ∀ g, pn.parent = some g → r ≠ g := by
              intro g hgg
              exact hrg g ((setChild_parent _ _ _).trans hgg)
            by_cases hrpc : r = pc
            · have hdd : depthOf s2 r = (get_directions s par pc).get_depth := by
                rw [hrpc, depthOf_eq hS2']
              rcases get_depth_cases (get_directions s par pc) with hgd | hgd <;>
                exact DepthInv_small (by rw [hdd]; omega) (by rw [hdd]; omega)
            by_cases hrth : r = thE
            · have hdd : depthOf s2 r = 0 := by rw [hrth, depthOf_eq hTh2']
              exact DepthInv_small (by rw [hdd]; omega) (by rw [hdd]; omega)
            by_cases hrw : ∃ w, thn1.child (get_directions s par pc) = some w ∧ r = w
            · obtain ⟨w, hw, rfl⟩ := hrw
              obtain ⟨wn, hwn1, hwp1⟩ := hst1.parentDU thE thn1 hthn1 r
                ((child_or thn1 r).mpr ⟨_, hw⟩)
              refine DepthInv_frame (hA1 r hr hrg') (hdep12 r hr hrpc hrth) ?_ ?_
              · intro he c hc
                rw [refChild_eq hwn1] at hc
                refine ⟨?_, ?_⟩
                · rw [refChild_eq (hW2' r wn hw hwn1), child_parentset]
                  exact hc
                · obtain ⟨hc1', hc2', hc3'⟩ := hcex r hr hrg' hrpc hrth wn hwn1 c
                    ((child_or wn c).mpr ⟨_, hc⟩)
                  exact hdep12 c hc1' hc2' hc3'
              · intro he c hc
                rw [refChild_eq hwn1] at hc
                refine ⟨?_, ?_⟩
                · rw [refChild_eq (hW2' r wn hw hwn1), child_parentset]
                  exact hc
                · obtain ⟨hc1', hc2', hc3'⟩ := hcex r hr hrg' hrpc hrth wn hwn1 c
                    ((child_or wn c).mpr ⟨_, hc⟩)
                  exact hdep12 c hc1' hc2' hc3'
            · have hrw' : ∀ w, thn1.child (get_directions s par pc) = some w →
                  r ≠ w := fun w hw hcc => hrw ⟨w, hw, hcc⟩
              have hnode2 : s2.nodes.get? r = (bumpDepth s par pc).nodes.get? r :=
                hE2' r hr hrpc hrth hrw'
              cases hrn1 : (bumpDepth s par pc).nodes.get? r with
              | none => exact DepthInv_out (hnode2.trans hrn1)
              | some rn2 =>
                have hrc : ∀ dd, refChild s2 r dd =
                    refChild (bumpDepth s par pc) r dd := by
                  intro dd
                  rw [refChild, refChild, hnode2]
                refine DepthInv_frame (hA1 r hr hrg') (hdep12 r hr hrpc hrth) ?_ ?_
                · intro he c hc
                  refine ⟨by rw [hrc]; exact hc, ?_⟩
                  rw [refChild_eq hrn1] at hc
                  obtain ⟨hc1', hc2', hc3'⟩ := hcex r hr hrg' hrpc hrth rn2 hrn1 c
                    ((child_or rn2 c).mpr ⟨_, hc⟩)
                  exact hdep12 c hc1' hc2' hc3'
                · intro he c hc
                  refine ⟨by rw [hrc]; exact hc, ?_⟩
                  rw [refChild_eq hrn1] at hc
                  obtain ⟨hc1', hc2', hc3'⟩ := hcex r hr hrg' hrpc hrth rn2 hrn1 c
                    ((child_or rn2 c).mpr ⟨_, hc⟩)
                  exact hdep12 c hc1' hc2' hc3'
          have hfired : pn.one_side_depth ≠ 0 := by
            rcases get_depth_cases (get_directions s par pc) with hgd | hgd <;>
              rcases hcnd2 with ⟨h1, _⟩ | ⟨h1, _⟩ <;> omega
          have hg2fact : ∀ g gn, (({ ({ pn with one_side_depth :=
              pn.one_side_depth + (get_directions s par pc).get_depth } :
              BinarySearchTreeNode).setChild (get_directions s par pc) (some thE) with
              one_side_depth := Directions.get_depth (get_directions s par pc) * 2 } :
              BinarySearchTreeNode)).parent = some g →
              s2.nodes.get? g = some gn →
              (-2 ≤ gn.one_side_depth ∧ gn.one_side_depth ≤ 2) ∧
              (gn.one_side_depth = 2 → ∃ c, gn.right = some c ∧ c ≠ par ∧
                depthOf s2 c = 0) ∧
              (gn.one_side_depth = -2 → ∃ c, gn.left = some c ∧ c ≠ par ∧
                depthOf s2 c = 0) := by
            intro g gn hgg hgn2
            have hgg' : pn.parent = some g := by
              have h2 : (({ pn with one_side_depth :=
                  pn.one_side_depth + (get_directions s par pc).get_depth } :
                  BinarySearchTreeNode).setChild (get_directions s par pc)
                  (some thE)).parent = some g := hgg
              rw [setChild_parent] at h2
              exact h2
            have hg1 : g ≠ par := hgneqpar g hgg'
            have hg2' : g ≠ pc := hgnpc g hgg'
            have hg3 : g ≠ thE := hgnth g hgg'
            have hg4 : ∀ w, thn1.child (get_directions s par pc) = some w → g ≠ w :=
              fun w hw => hgnw g w hgg' hw
            have hgn1 : (bumpDepth s par pc).nodes.get? g = some gn := by
              rw [hE2' g hg1 hg2' hg3 hg4] at hgn2
              exact hgn2
            have hgns : s.nodes.get? g = some gn := by
              rw [bumpDepth_get?, if_neg hg1] at hgn1
              exact hgn1
            obtain ⟨hgr, hgc2, hgcm2⟩ := hAs g hg1
            rw [depthOf_eq hgns] at hgr hgc2 hgcm2
            refine ⟨hgr, ?_, ?_⟩
            · intro he
              obtain ⟨c, hcr, hc0⟩ := hgc2 he
              rw [refChild_eq hgns] at hcr
              have hcpar : c ≠ par := by
                intro hcc
                rw [hcc, depthOf_eq hpn] at hc0
                exact hfired hc0
              have hcpc : c ≠ pc := by
                intro hcc
                obtain ⟨cn, hcn, hcp⟩ := hst.parentDU g gn hgns c
                  ((child_or gn c).mpr ⟨Directions.Right, hcr⟩)
                rw [hcc, hpcn] at hcn
                obtain rfl := Option.some.inj hcn
                rw [hpar] at hcp
                exact hg1 (Option.some.inj hcp).symm
              have hcth : c ≠ thE := by
                intro hcc
                obtain ⟨cn, hcn, hcp⟩ := hst.parentDU g gn hgns c
                  ((child_or gn c).mpr ⟨Directions.Right, hcr⟩)
                rw [hcc, hthn1s] at hcn
                obtain rfl := Option.some.inj hcn
                rw [hthp1] at hcp
                exact hg2' (Option.some.inj hcp).symm
              refine ⟨c, hcr, hcpar, ?_⟩
              rw [hdep12 c hcpar hcpc hcth, hdep1 c hcpar]
              exact hc0
            · intro he
              obtain ⟨c, hcr, hc0⟩ := hgcm2 he
              rw [refChild_eq hgns] at hcr
              have hcpar : c ≠ par := by
                intro hcc
                rw [hcc, depthOf_eq hpn] at hc0
                exact hfired hc0
              have hcpc : c ≠ pc := by
                intro hcc
                obtain ⟨cn, hcn, hcp⟩ := hst.parentDU g gn hgns c
                  ((child_or gn c).mpr ⟨Directions.Left, hcr⟩)
                rw [hcc, hpcn] at hcn
                obtain rfl := Option.some.inj hcn
                rw [hpar] at hcp
                exact hg1 (Option.some.inj hcp).symm
              have hcth : c ≠ thE := by
                intro hcc
                obtain ⟨cn, hcn, hcp⟩ := hst.parentDU g gn hgns c
                  ((child_or gn c).mpr ⟨Directions.Left, hcr⟩)
                rw [hcc, hthn1s] at hcn
                obtain rfl := Option.some.inj hcn
                rw [hthp1] at hcp
                exact hg2' (Option.some.inj hcp).symm
              refine ⟨c, hcr, hcpar, ?_⟩
              rw [hdep12 c hcpar hcpc hcth, hdep1 c hcpar]
              exact hc0
          have hdinv := simple_rotation_DepthInv hswf2 hparm2 hF2' hsc2 hTh2'
            hAex2 hg2fact hF3' hS3' hOC3' hG3' hE3' hL3'
          exact ⟨t', hswf, hin3.trans hin2, hT3'.trans (hT2'.trans hbT),
            hL3'.trans (hL2'.trans hbL),
            fun x => (hoI3 x).trans ((hoI2 x).trans (hbI x)),
            fun x => (hoV3 x).trans ((hoV2 x).trans (hbV x)), hdinv⟩
      · -- no rotation: the climb continues from the parent
        rw [if_neg hcnd2] at hupd
        have hDpar1 : DepthInv (bumpDepth s par pc) par := by
          obtain ⟨⟨hr1, hr2⟩, hex2, hexm2, hB3p, hB3m⟩ := hR par pn hpar hpn
          have hnd_hi : pn.one_side_depth + (get_directions s par pc).get_depth ≤ 2 := by
            rcases get_depth_cases (get_directions s par pc) with hgd | hgd
            · by_contra hcon
              push_neg at hcon
              have hp02 : pn.one_side_depth = 2 := by omega
              have hdir : get_directions s par pc = Directions.Right :=
                dir_of_depth_one hgd
              rw [hdir] at hslotpc
              have hpcd := hB3p hp02 hslotpc
              rcases lt_or_gt_of_ne hpcd with hlt | hgt
              · exact hcnd2 (Or.inl ⟨by omega, hlt⟩)
              · exact hcnd1 (Or.inl ⟨by omega, hgt⟩)
            · omega
          have hnd_lo : -2 ≤ pn.one_side_depth + (get_directions s par pc).get_depth := by
            rcases get_depth_cases (get_directions s par pc) with hgd | hgd
            · omega
            · by_contra hcon
              push_neg at hcon
              have hp02 : pn.one_side_depth = -2 := by omega
              have hdir : get_directions s par pc = Directions.Left :=
                dir_of_depth_negone hgd
              rw [hdir] at hslotpc
              have hpcd := hB3m hp02 hslotpc
              rcases lt_or_gt_of_ne hpcd with hlt | hgt
              · exact hcnd1 (Or.inr ⟨by omega, hlt⟩)
              · exact hcnd2 (Or.inr ⟨by omega, hgt⟩)
          refine ⟨⟨by rw [hdpar1]; omega, by rw [hdpar1]; omega⟩, ?_, ?_⟩
          · intro he
            rw [hdpar1] at he
            have hpcd0 : pcn.one_side_depth = 0 := by
              by_contra hne
              rcases lt_or_gt_of_ne hne with hlt | hgt
              · exact hcnd2 (Or.inl ⟨by omega, hlt⟩)
              · exact hcnd1 (Or.inl ⟨by omega, hgt⟩)
            have hgd1 : (get_directions s par pc).get_depth = 1 := by
              rcases get_depth_cases (get_directions s par pc) with hgd | hgd
              · exact hgd
              · omega
            have hdir : get_directions s par pc = Directions.Right :=
              dir_of_depth_one hgd1
            rw [hdir] at hslotpc
            refine ⟨pc, ?_, ?_⟩
            · rw [refChild_eq hfn1]
              rw [child_depthset]
              exact hslotpc
            · rw [depthOf_eq hpc1]
              exact hpcd0
          · intro he
            rw [hdpar1] at he
            have hpcd0 : pcn.one_side_depth = 0 := by
              by_contra hne
              rcases lt_or_gt_of_ne hne with hlt | hgt
              · exact hcnd1 (Or.inr ⟨by omega, hlt⟩)
              · exact hcnd2 (Or.inr ⟨by omega, hgt⟩)
            have hgd1 : (get_directions s par pc).get_depth = -1 := by
              rcases get_depth_cases (get_directions s par pc) with hgd | hgd
              · omega
              · exact hgd
            have hdir : get_directions s par pc = Directions.Left :=
              dir_of_depth_negone hgd1
            rw [hdir] at hslotpc
            refine ⟨pc, ?_, ?_⟩
            · rw [refChild_eq hfn1]
              rw [child_depthset]
              exact hslotpc
            · rw [depthOf_eq hpc1]
              exact hpcd0
        have hAex' : ∀ r, (∀ gp, ({ pn with one_side_depth :=
            pn.one_side_depth + (get_directions s par pc).get_depth } :
            BinarySearchTreeNode).parent = some gp → r ≠ gp) →
            DepthInv (bumpDepth s par pc) r := by
          intro r hrg
          by_cases hr : r = par
          · exact hr.symm ▸ hDpar1
          · exact hA1 r hr hrg
        have hRnew : ∀ gp gpn, ({ pn with one_side_depth :=
            pn.one_side_depth + (get_directions s par pc).get_depth } :
            BinarySearchTreeNode).parent = some gp →
            (bumpDepth s par pc).nodes.get? gp = some gpn →
            (-2 ≤ gpn.one_side_depth ∧ gpn.one_side_depth ≤ 2) ∧
            (gpn.one_side_depth = 2 → ∃ c, gpn.right = some c) ∧
            (gpn.one_side_depth = -2 → ∃ c, gpn.left = some c) ∧
            (gpn.one_side_depth = 2 → gpn.right = some par →
              ({ pn with one_side_depth :=
                pn.one_side_depth + (get_directions s par pc).get_depth } :
                BinarySearchTreeNode).one_side_depth ≠ 0) ∧
            (gpn.one_side_depth = -2 → gpn.left = some par →
              ({ pn with one_side_depth :=
                pn.one_side_depth + (get_directions s par pc).get_depth } :
                BinarySearchTreeNode).one_side_depth ≠ 0) := by
          intro gp gpn hgp hgpn1
          have hgp' : pn.parent = some gp := hgp
          have hgppar : gp ≠ par := hgneqpar gp hgp'
          have hgpns : s.nodes.get? gp = some gpn := by
            rw [bumpDepth_get?, if_neg hgppar] at hgpn1
            exact hgpn1
          obtain ⟨hgr, hgc2, hgcm2⟩ := hAs gp hgppar
          rw [depthOf_eq hgpns] at hgr hgc2 hgcm2
          refine ⟨hgr, ?_, ?_, ?_, ?_⟩
          · intro he
            obtain ⟨c, hcr, _⟩ := hgc2 he
            rw [refChild_eq hgpns] at hcr
            exact ⟨c, hcr⟩
          · intro he
            obtain ⟨c, hcr, _⟩ := hgcm2 he
            rw [refChild_eq hgpns] at hcr
            exact ⟨c, hcr⟩
          · intro he hcr
            obtain ⟨c, hcr2, hc0⟩ := hgc2 he
            rw [refChild_eq hgpns] at hcr2
            have hcr2' : gpn.right = some c := hcr2
            rw [hcr] at hcr2'
            obtain rfl := Option.some.inj hcr2'
            rw [depthOf_eq hpn] at hc0
            show pn.one_side_depth + (get_directions s par pc).get_depth ≠ 0
            rcases get_depth_cases (get_directions s par pc) with hgd | hgd <;> omega
          · intro he hcr
            obtain ⟨c, hcr2, hc0⟩ := hgcm2 he
            rw [refChild_eq hgpns] at hcr2
            have hcr2' : gpn.left = some c := hcr2
            rw [hcr] at hcr2'
            obtain rfl := Option.some.inj hcr2'
            rw [depthOf_eq hpn] at hc0
            show pn.one_side_depth + (get_directions s par pc).get_depth ≠ 0
            rcases get_depth_cases (get_directions s par pc) with hgd | hgd <;> omega
        obtain ⟨t', hswf, hin, hT', hL', hI', hV', hdinv⟩ :=
          ih hst1 hid1 hfn1 hparm hAex' hRnew hupd
        exact ⟨t', hswf, hin, hT'.trans hbT, hL'.trans hbL,
          fun x => (hI' x).trans (hbI x), fun x => (hV' x).trans (hbV x), hdinv⟩

/-- Grafting the new node at the slot found by the comparison walk keeps the
search order: the walk went left exactly on `value ≤ node value`. -/
theorem spec_walk_sorted {s s' : BinarySearchTree} {v : Int} {nw : Nat}
    (hvals : ∀ x, x ≠ nw → valOf s' x = valOf s x)
    (hvnw : valOf s' nw = v) :
    ∀ (fuel : Nat) {u : RTree} {x p : Nat} {dir : Directions},
      readsTo s (some x) u → u.inorder.Nodup → nw ∉ u.inorder → SortedT s u →
      spec_walk s v fuel x = some (p, dir) →
      SortedT s' (graftAt u p dir nw) := by
  intro fuel
  induction fuel with
  | zero => intro u x p dir _ _ _ _ hw; simp [spec_walk] at hw
  | succ f ih =>
    intro u x p dir hread hnd hnw hs hw
    obtain ⟨n, lt, rt, hn, hequ, hl, hr⟩ := readsTo_some_elim hread
    subst hequ
    obtain ⟨hbl, hbr, hsl, hsr⟩ := hs
    have hin : (RTree.nd x lt rt).inorder = lt.inorder ++ x :: rt.inorder := rfl
    have hndl : lt.inorder.Nodup := by
      rw [hin, List.nodup_append] at hnd
      exact hnd.1
    have hndr : rt.inorder.Nodup := by
      rw [hin, List.nodup_append, List.nodup_cons] at hnd
      exact hnd.2.1.2
    have hdisj : lt.inorder.Disjoint (x :: rt.inorder) := by
      rw [hin, List.nodup_append] at hnd
      exact hnd.2.2
    have hxlt : x ∉ lt.inorder := fun hc => hdisj hc (List.mem_cons_self _ _)
    have hxrt : x ∉ rt.inorder := by
      rw [hin, List.nodup_append, List.nodup_cons] at hnd
      exact hnd.2.1.1
    have hnwx : x ≠ nw := by
      intro hc
      exact hnw (by rw [← hc]; simp [RTree.inorder])
    have hnwl : nw ∉ lt.inorder := fun hc => hnw (by simp [RTree.inorder, hc])
    have hnwr : nw ∉ rt.inorder := fun hc => hnw (by simp [RTree.inorder, hc])
    have hxv : valOf s x = n.value := by rw [valOf, hn]; rfl
    have hxv' : valOf s' x = valOf s x := hvals x hnwx
    unfold spec_walk at hw
    simp only [hn] at hw
    by_cases hvc : v ≤ n.value
    · rw [if_pos hvc] at hw
      cases hlc : n.left with
      | none =>
        simp only [hlc, Option.some.injEq, Prod.mk.injEq] at hw
        obtain ⟨h1, h2⟩ := hw
        subst h1
        subst h2
        rw [hlc] at hl
        obtain rfl := readsTo_none_elim hl
        rw [graftAt_nd, if_pos rfl]
        refine ⟨?_, ?_, ⟨?_, ?_, trivial, trivial⟩, ?_⟩
        · intro y hy
          simp only [RTree.inorder, List.mem_append, List.mem_cons] at hy
          rcases hy with hy | hy | hy
          · simp [RTree.inorder] at hy
          · rw [hy, hvnw, hxv', hxv]
            exact hvc
          · simp [RTree.inorder] at hy
        · intro y hy
          rw [hxv', hvals y (fun hc => hnwr (hc ▸ hy))]
          exact hbr y hy
        · intro y hy
          simp [RTree.inorder] at hy
        · intro y hy
          simp [RTree.inorder] at hy
        · exact SortedT_congr (fun y hy => hvals y (fun hc => hnwr (hc ▸ hy))) hsr
      | some c =>
        simp only [hlc] at hw
        rw [hlc] at hl
        obtain ⟨cn, l2, r2, hcn, heqlt, _, _⟩ := readsTo_some_elim hl
        have hcm : c ∈ lt.inorder := by rw [heqlt]; simp [RTree.inorder]
        obtain ⟨hpl, pn, hpn, hslot⟩ := spec_walk_endpoint hl hndl v f hcm hw
        have hxp : x ≠ p := fun hc => hxlt (hc ▸ hpl)
        have hprt : p ∉ rt.inorder := fun hc => hdisj hpl (List.mem_cons_of_mem _ hc)
        rw [graftAt_nd, if_neg hxp, graftAt_not_mem dir nw hprt]
        obtain ⟨pre, post, hdec, hgra⟩ := graftAt_inorder nw hpn hslot hl hndl hpl
        refine ⟨?_, ?_, ?_, ?_⟩
        · intro y hy
          rw [hgra] at hy
          simp only [List.mem_append, List.mem_cons] at hy
          have hym : y ∈ lt.inorder ∨ y = nw := by
            rw [hdec]
            simp only [List.mem_append]
            tauto
          rcases hym with hym | hym
          · rw [hxv', hvals y (fun hc => hnwl (hc ▸ hym))]
            exact hbl y hym
          · rw [hym, hvnw, hxv', hxv]
            exact hvc
        · intro y hy
          rw [hxv', hvals y (fun hc => hnwr (hc ▸ hy))]
          exact hbr y hy
        · exact ih hl hndl hnwl hsl hw
        · exact SortedT_congr (fun y hy => hvals y (fun hc => hnwr (hc ▸ hy))) hsr
    · rw [if_neg hvc] at hw
      cases hrc : n.right with
      | none =>
        simp only [hrc, Option.some.injEq, Prod.mk.injEq] at hw
        obtain ⟨h1, h2⟩ := hw
        subst h1
        subst h2
        rw [hrc] at hr
        obtain rfl := readsTo_none_elim hr
        rw [graftAt_nd, if_pos rfl]
        refine ⟨?_, ?_, ?_, ⟨?_, ?_, trivial, trivial⟩⟩
        · intro y hy
          rw [hxv', hvals y (fun hc => hnwl (hc ▸ hy))]
          exact hbl y hy
        · intro y hy
          simp only [RTree.inorder, List.mem_append, List.mem_cons] at hy
          rcases hy with hy | hy | hy
          · simp [RTree.inorder] at hy
          · rw [hy, hvnw, hxv', hxv]
            omega
          · simp [RTree.inorder] at hy
        · exact SortedT_congr (fun y hy => hvals y (fun hc => hnwl (hc ▸ hy))) hsl
        · intro y hy
          simp [RTree.inorder] at hy
        · intro y hy
          simp [RTree.inorder] at hy
      | some c =>
        simp only [hrc] at hw
        rw [hrc] at hr
        obtain ⟨cn, l2, r2, hcn, heqrt, _, _⟩ := readsTo_some_elim hr
        have hcm : c ∈ rt.inorder := by rw [heqrt]; simp [RTree.inorder]
        obtain ⟨hpl, pn, hpn, hslot⟩ := spec_walk_endpoint hr hndr v f hcm hw
        have hxp : x ≠ p := fun hc => hxrt (hc ▸ hpl)
        have hplt : p ∉ lt.inorder := fun hc => hdisj hc (List.mem_cons_of_mem _ hpl)
        rw [graftAt_nd, if_neg hxp, graftAt_not_mem dir nw hplt]
        obtain ⟨pre, post, hdec, hgra⟩ := graftAt_inorder nw hpn hslot hr hndr hpl
        refine ⟨?_, ?_, ?_, ?_⟩
        · intro y hy
          rw [hxv', hvals y (fun hc => hnwl (hc ▸ hy))]
          exact hbl y hy
        · intro y hy
          rw [hgra] at hy
          simp only [List.mem_append, List.mem_cons] at hy
          have hym : y ∈ rt.inorder ∨ y = nw := by
            rw [hdec]
            simp only [List.mem_append]
            tauto
          rcases hym with hym | hym
          · rw [hxv', hvals y (fun hc => hnwr (hc ▸ hym))]
            exact hbr y hym
          · rw [hym, hvnw, hxv', hxv]
            omega
        · exact SortedT_congr (fun y hy => hvals y (fun hc => hnwl (hc ▸ hy))) hsl
        · exact ih hr hndr hnwr hsr hw

/-- Inserting a key absent from the association list appends the pair. -/
theorem indexInsert_fresh : ∀ (l : List (Nat × Nat)) (k v : Nat),
    (∀ kv ∈ l, kv.1 ≠ k) → indexInsert l k v = l ++ [(k, v)] := by
  intro l
  induction l with
  | nil => intro k v _; rfl
  | cons kv rest ih =>
    intro k v h
    obtain ⟨a, b⟩ := kv
    have ha : a ≠ k := h (a, b) (List.mem_cons_self _ _)
    show (if a = k then _ else _) = _
    rw [if_neg ha, ih k v (fun kv hkv => h kv (List.mem_cons_of_mem _ hkv))]
    rfl

/-- A successful `insert` with a fresh id preserves full well-formedness:
the resulting state is well-formed over a tree shape, the arena grows by
one, the old slots keep their ids and the new slot holds the inserted id. -/
theorem insert_ok {s s' : BinarySearchTree} {t : RTree} {idn : Nat} {v : Int}
    (hwf : WF s t)
    (hfresh : ∀ r, r < s.nodes.length → idOf s r ≠ idn)
    (hins : BinarySearchTree.insert s idn v = some s') :
    ∃ t', WF s' t' ∧ s'.nodes.length = s.nodes.length + 1 ∧
      (∀ x, x < s.nodes.length → idOf s' x = idOf s x) ∧
      idOf s' s.nodes.length = idn := by
  rw [insert_decomp] at hins
  cases hhd : s.nodes.get? s.head with
  | none => rw [hhd] at hins; exact Option.noConfusion hins
  | some hd =>
    rw [hhd] at hins
    simp only [Option.some_bind] at hins
    have hheadm : s.head ∈ t.inorder := by
      obtain ⟨n0, lt0, rt0, hn0, heqt, _, _⟩ := readsTo_some_elim hwf.readOk
      rw [heqt]
      simp [RTree.inorder]
    have hdid : hd.id = idOf s s.head := by rw [idOf, hhd]; rfl
    rw [hdid, insert_walk_eq_spec hwf v (s.nodes.length + 1) s.head hheadm] at hins
    cases hwalk : spec_walk s v (s.nodes.length + 1) s.head with
    | none => rw [hwalk] at hins; exact Option.noConfusion hins
    | some pd =>
      obtain ⟨p, dir⟩ := pd
      rw [hwalk] at hins
      simp only [Option.some_bind] at hins
      obtain ⟨hpm, pn, hpn, hslot⟩ :=
        spec_walk_endpoint hwf.readOk hwf.nodup v _ hheadm hwalk
      have hplen : p < s.nodes.length := readsTo_lt_length hwf.readOk p hpm
      have hlv : ∀ x, x ≠ s.nodes.length →
          valOf (linkState s p dir idn v) x = valOf s x := by
        intro x hx
        rw [valOf, valOf, linkState_get? dir idn v hplen x]
        by_cases hxp : x = p
        · subst hxp
          rw [if_pos rfl, hpn]
          cases dir <;> rfl
        · rw [if_neg hxp, if_neg hx]
      have hlvnw : valOf (linkState s p dir idn v) s.nodes.length = v := by
        rw [valOf, linkState_get? dir idn v hplen, if_neg (by omega), if_pos rfl]
        rfl
      have hnotm : s.nodes.length ∉ t.inorder := fun hc =>
        absurd (readsTo_lt_length hwf.readOk _ hc) (lt_irrefl _)
      have hsorted3 : SortedT (linkState s p dir idn v)
          (graftAt t p dir s.nodes.length) :=
        spec_walk_sorted hlv hlvnw (s.nodes.length + 1) hwf.readOk hwf.nodup hnotm
          hwf.sorted hwalk
      obtain ⟨hst3, hdep3, hB3link⟩ := linkState_StructWF hwf.toStructWF
        (fun r hr => hwf.depthOk r hr) hpm hpn hslot hsorted3
      have hnw3 : (linkState s p dir idn v).nodes.get? s.nodes.length =
          some ⟨idn, v, 0, some p, none, none⟩ := by
        rw [linkState_get? dir idn v hplen, if_neg (by omega), if_pos rfl]
      have hp3 : (linkState s p dir idn v).nodes.get? p =
          some (pn.setChild dir (some s.nodes.length)) := by
        rw [linkState_get? dir idn v hplen, if_pos rfl, hpn]
        rfl
      obtain ⟨pre, post, hdec, hgra⟩ :=
        graftAt_inorder s.nodes.length hpn hslot hwf.readOk hwf.nodup hpm
      have hmem3 : ∀ x, x ∈ (graftAt t p dir s.nodes.length).inorder ↔
          (x ∈ t.inorder ∨ x = s.nodes.length) := by
        intro x
        rw [hgra, hdec]
        simp only [List.mem_append, List.mem_cons]
        tauto
      have hidls : ∀ x, x ≠ s.nodes.length →
          idOf (linkState s p dir idn v) x = idOf s x := by
        intro x hx
        rw [idOf, idOf, linkState_get? dir idn v hplen x]
        by_cases hxp : x = p
        · subst hxp
          rw [if_pos rfl, hpn]
          cases dir <;> rfl
        · rw [if_neg hxp, if_neg hx]
      have hidnw : idOf (linkState s p dir idn v) s.nodes.length = idn := by
        rw [idOf, hnw3]
        rfl
      have hid3 : ∀ x ∈ (graftAt t p dir s.nodes.length).inorder,
          ∀ y ∈ (graftAt t p dir s.nodes.length).inorder,
          idOf (linkState s p dir idn v) x = idOf (linkState s p dir idn v) y →
          x = y := by
        intro x hx y hy he
        rw [hmem3] at hx hy
        by_cases hxl : x = s.nodes.length
        · by_cases hyl : y = s.nodes.length
          · rw [hxl, hyl]
          · exfalso
            rcases hy with hy | hy
            · rw [hxl, hidnw, hidls y hyl] at he
              exact hfresh y (readsTo_lt_length hwf.readOk y hy) he.symm
            · exact hyl hy
        · by_cases hyl : y = s.nodes.length
          · exfalso
            rcases hx with hx | hx
            · rw [hyl, hidnw, hidls x hxl] at he
              exact hfresh x (readsTo_lt_length hwf.readOk x hx) he
            · exact hxl hx
          · rcases hx with hx | hx
            · rcases hy with hy | hy
              · rw [hidls x hxl, hidls y hyl] at he
                exact hwf.idInj x hx y hy he
              · exact absurd hy hyl
            · exact absurd hx hxl
      have hnwm : s.nodes.length ∈ (graftAt t p dir s.nodes.length).inorder :=
        (hmem3 _).mpr (Or.inr rfl)
      have hlslen : (linkState s p dir idn v).nodes.length = s.nodes.length + 1 :=
        linkState_length s p dir idn v
      have hAex3 : ∀ r, (∀ par,
          (⟨idn, v, 0, some p, none, none⟩ : BinarySearchTreeNode).parent = some par →
          r ≠ par) → DepthInv (linkState s p dir idn v) r := by
        intro r _
        by_cases hr : r < s.nodes.length + 1
        · exact hdep3 r hr
        · refine DepthInv_out ?_
          rw [List.get?_eq_none]
          omega
      have hR3 : ∀ par pn',
          (⟨idn, v, 0, some p, none, none⟩ : BinarySearchTreeNode).parent = some par →
          (linkState s p dir idn v).nodes.get? par = some pn' →
          (-2 ≤ pn'.one_side_depth ∧ pn'.one_side_depth ≤ 2) ∧
          (pn'.one_side_depth = 2 → ∃ c, pn'.right = some c) ∧
          (pn'.one_side_depth = -2 → ∃ c, pn'.left = some c) ∧
          (pn'.one_side_depth = 2 → pn'.right = some s.nodes.length →
            (⟨idn, v, 0, some p, none, none⟩ :
              BinarySearchTreeNode).one_side_depth ≠ 0) ∧
          (pn'.one_side_depth = -2 → pn'.left = some s.nodes.length →
            (⟨idn, v, 0, some p, none, none⟩ :
              BinarySearchTreeNode).one_side_depth ≠ 0) := by
        intro par pn' hparr hpn'
        obtain rfl := Option.some.inj hparr
        rw [hp3] at hpn'
        obtain rfl := Option.some.inj hpn'
        obtain ⟨⟨hr1, hr2⟩, hc2, hcm2⟩ := hdep3 p (by omega)
        have hdeq : depthOf (linkState s p dir idn v) p =
            (pn.setChild dir (some s.nodes.length)).one_side_depth :=
          depthOf_eq hp3
        obtain ⟨hB1, hB2⟩ := hB3link _ hp3
        refine ⟨⟨by rw [← hdeq]; exact hr1, by rw [← hdeq]; exact hr2⟩, ?_, ?_, ?_, ?_⟩
        · intro he
          obtain ⟨c, hcc, _⟩ := hc2 (by rw [hdeq]; exact he)
          rw [refChild_eq hp3] at hcc
          exact ⟨c, hcc⟩
        · intro he
          obtain ⟨c, hcc, _⟩ := hcm2 (by rw [hdeq]; exact he)
          rw [refChild_eq hp3] at hcc
          exact ⟨c, hcc⟩
        · intro hd2 hsl _
          exact hB1 ⟨hd2, hsl⟩
        · intro hd2 hsl _
          exact hB2 ⟨hd2, hsl⟩
      obtain ⟨t', hswf', hin', hT', hL', hI', hV', hdinv'⟩ :=
        update_depth_strong ((linkState s p dir idn v).nodes.length + 1)
          hst3 hid3 hnw3 hnwm hAex3 hR3 hins
      have hidf : ∀ x, idOf s' x = idOf (linkState s p dir idn v) x := by
        intro x
        rw [idOf, idOf, hI' x]
      have htree' : s'.tree = indexInsert s.tree idn s.nodes.length := by
        rw [hT', linkState_tree]
      have hkfresh : ∀ kv ∈ s.tree, kv.1 ≠ idn := by
        intro kv hkv hc
        obtain ⟨hlt, hido⟩ := hwf.indexOk kv hkv
        exact hfresh kv.2 hlt (by rw [hido]; exact hc)
      have htreeapp : s'.tree = s.tree ++ [(idn, s.nodes.length)] := by
        rw [htree', indexInsert_fresh s.tree idn s.nodes.length hkfresh]
      have hlen' : s'.nodes.length = s.nodes.length + 1 := by
        rw [hL', hlslen]
      have hidold : ∀ x, x < s.nodes.length → idOf s' x = idOf s x := by
        intro x hx
        rw [hidf x, hidls x (by omega)]
      have hidnew : idOf s' s.nodes.length = idn := by
        rw [hidf, hidnw]
      refine ⟨t', ⟨hswf', idInj_transfer hin' hI' hid3, ?_, ?_, ?_, ?_⟩,
        hlen', hidold, hidnew⟩
      · -- indexMem
        intro r hr
        rw [htreeapp]
        rw [hlen'] at hr
        by_cases hrl : r = s.nodes.length
        · subst hrl
          rw [hidnew]
          exact List.mem_append_right _ (List.mem_singleton.mpr rfl)
        · rw [hidold r (by omega)]
          exact List.mem_append_left _ (hwf.indexMem r (by omega))
      · -- indexOk
        intro kv hkv
        rw [htreeapp] at hkv
        rcases List.mem_append.mp hkv with hkv | hkv
        · obtain ⟨hlt, hido⟩ := hwf.indexOk kv hkv
          refine ⟨by omega, ?_⟩
          rw [hidold kv.2 hlt]
          exact hido
        · rw [List.mem_singleton.mp hkv]
          refine ⟨by simp [hlen'], ?_⟩
          exact hidnew
      · -- indexKeys
        rw [htreeapp, List.map_append]
        rw [List.nodup_append]
        refine ⟨hwf.indexKeys, by simp, ?_⟩
        intro a ha hb
        simp only [List.map_cons, List.map_nil, List.mem_singleton] at hb
        subst hb
        obtain ⟨kv, hkv, hkva⟩ := List.mem_map.mp ha
        exact hkfresh kv hkv hkva
      · -- depthOk
        intro r _
        exact hdinv' r

/-- The freshly created one-node tree is well-formed. -/
theorem from_head_WF (hid : Nat) (hv : Int) :
    WF (BinarySearchTree.from_head hid hv) (RTree.nd 0 RTree.leaf RTree.leaf) := by
  have hlen : (BinarySearchTree.from_head hid hv).nodes.length = 1 := rfl
  have hget : ∀ {r : Nat} {n : BinarySearchTreeNode},
      (BinarySearchTree.from_head hid hv).nodes.get? r = some n →
      r = 0 ∧ n = ⟨hid, hv, 0, none, none, none⟩ := by
    intro r n hrn
    rcases List.get?_eq_some.mp hrn with ⟨hl, _⟩
    rw [hlen] at hl
    have hr : r = 0 := by omega
    subst hr
    exact ⟨rfl, (Option.some.inj hrn).symm⟩
  refine ⟨⟨⟨1, rfl⟩, by decide, ?_,
    ⟨fun x hx => absurd hx (List.not_mem_nil x),
     fun x hx => absurd hx (List.not_mem_nil x), trivial, trivial⟩,
    ?_, ?_, ?_⟩, ?_, ?_, ?_, by simp [BinarySearchTree.from_head], ?_⟩
  · intro r hr
    rw [hlen] at hr
    have : r = 0 := by omega
    simp [this, RTree.inorder]
  · intro r n hrn c hc
    obtain ⟨rfl, rfl⟩ := hget hrn
    rcases hc with hc | hc <;> exact Option.noConfusion hc
  · intro r n hrn q hq
    obtain ⟨rfl, rfl⟩ := hget hrn
    exact Option.noConfusion hq
  · intro n hn
    obtain ⟨_, rfl⟩ := hget hn
    rfl
  · intro x hx y hy _
    simp [RTree.inorder] at hx hy
    rw [hx, hy]
  · intro r hr
    rw [hlen] at hr
    have : r = 0 := by omega
    subst this
    show (hid, 0) ∈ [(hid, 0)]
    simp
  · intro kv hkv
    simp only [BinarySearchTree.from_head, List.mem_singleton] at hkv
    subst hkv
    exact ⟨by rw [hlen]; omega, rfl⟩
  · intro r hr
    rw [hlen] at hr
    have : r = 0 := by omega
    subst this
    have hd0 : depthOf (BinarySearchTree.from_head hid hv) 0 = 0 := rfl
    exact DepthInv_small (by rw [hd0]; omega) (by rw [hd0]; omega)

theorem foldl_insert_none (ops : List (Nat × Int)) :
    ops.foldl (fun acc p => acc.bind
      (fun s => BinarySearchTree.insert s p.1 p.2)) none = none := by
  induction ops with
  | nil => rfl
  | cons op rest ih => exact ih

/-- Folding distinct-id inserts over a well-formed state keeps full
well-formedness, with the stored ids drawn from the used and inserted ids. -/
theorem build_go : ∀ (ops : List (Nat × Int)) (s0 s' : BinarySearchTree)
    (t0 : RTree) (used : List Nat),
    WF s0 t0 →
    (∀ r, r < s0.nodes.length → idOf s0 r ∈ used) →
    (∀ a ∈ used, ∀ b ∈ ops.map Prod.fst, a ≠ b) →
    (ops.map Prod.fst).Nodup →
    ops.foldl (fun acc p => acc.bind
      (fun s => BinarySearchTree.insert s p.1 p.2)) (some s0) = some s' →
    ∃ t', WF s' t' ∧
      (∀ r, r < s'.nodes.length → idOf s' r ∈ used ++ ops.map Prod.fst) := by
  intro ops
  induction ops with
  | nil =>
    intro s0 s' t0 used hwf hused _ _ hfold
    obtain rfl := Option.some.inj hfold
    exact ⟨t0, hwf, fun r hr => by simpa using hused r hr⟩
  | cons op rest ih =>
    intro s0 s' t0 used hwf hused hdisj hnd hfold
    obtain ⟨a, v⟩ := op
    rw [List.foldl_cons] at hfold
    simp only [Option.some_bind] at hfold
    cases hins : BinarySearchTree.insert s0 a v with
    | none =>
      rw [hins, foldl_insert_none] at hfold
      exact Option.noConfusion hfold
    | some s1 =>
      rw [hins] at hfold
      have hfresh : ∀ r, r < s0.nodes.length → idOf s0 r ≠ a := by
        intro r hr
        exact hdisj (idOf s0 r) (hused r hr) a (by simp)
      obtain ⟨t1, hwf1, hlen1, hidold, hidnew⟩ := insert_ok hwf hfresh hins
      have hused1 : ∀ r, r < s1.nodes.length → idOf s1 r ∈ used ++ [a] := by
        intro r hr
        rw [hlen1] at hr
        by_cases hrl : r = s0.nodes.length
        · subst hrl
          rw [hidnew]
          simp
        · rw [hidold r (by omega)]
          exact List.mem_append_left _ (hused r (by omega))
      have hdisj1 : ∀ x ∈ used ++ [a], ∀ b ∈ rest.map Prod.fst, x ≠ b := by
        intro x hx b hb
        rcases List.mem_append.mp hx with hx | hx
        · exact hdisj x hx b (by simp [hb])
        · rw [List.mem_singleton.mp hx]
          intro hc
          subst hc
          simp only [List.map_cons, List.nodup_cons] at hnd
          exact hnd.1 hb
      have hnd1 : (rest.map Prod.fst).Nodup := by
        simp only [List.map_cons, List.nodup_cons] at hnd
        exact hnd.2
      obtain ⟨t', hwf', hmem'⟩ := ih s1 s' t1 (used ++ [a]) hwf1 hused1 hdisj1
        hnd1 hfold
      refine ⟨t', hwf', ?_⟩
      intro r hr
      have := hmem' r hr
      simp only [List.mem_append, List.mem_singleton, List.map_cons,
        List.mem_cons] at this ⊢
      tauto

/-- A successful build with pairwise distinct ids yields a fully
well-formed state. -/
theorem build_WF {h : Nat × Int} {ops : List (Nat × Int)}
    {s : BinarySearchTree} (hdist : idsDistinct h ops)
    (hb : build h ops = some s) : ∃ t, WF s t := by
  unfold build at hb
  rw [idsDistinct, List.nodup_cons] at hdist
  obtain ⟨t, hwf, _⟩ := build_go ops (BinarySearchTree.from_head h.1 h.2) s
    (RTree.nd 0 RTree.leaf RTree.leaf) [h.1] (from_head_WF h.1 h.2)
    (by
      intro r hr
      have hlen : (BinarySearchTree.from_head h.1 h.2).nodes.length = 1 := rfl
      rw [hlen] at hr
      have : r = 0 := by omega
      subst this
      show h.1 ∈ [h.1]
      simp)
    (by
      intro x hx b hb'
      rw [List.mem_singleton.mp hx]
      intro hc
      subst hc
      exact hdist.1 hb')
    hdist.2 hb
  exact ⟨t, hwf⟩

/-- C1 (amended): for every tree built by `from_head` followed by any
sequence of `insert` calls with distinct ids, after every completed insert
every allocated node's balance counter lies in `[-2, 2]` (the implementation
does let the counter reach `±2`, so `{-1, 0, 1}` is too strong). -/
theorem c1_balance_range {h : Nat × Int} {ops : List (Nat × Int)}
    {s : BinarySearchTree} (hdist : idsDistinct h ops)
    (hb : build h ops = some s) :
    ∀ r, r < s.nodes.length → -2 ≤ depthOf s r ∧ depthOf s r ≤ 2 := by
  obtain ⟨t, hwf⟩ := build_WF hdist hb
  intro r hr
  exact (hwf.depthOk r hr).1

theorem c1_balance_range_witness :
    -2 ≤ depthOf (BinarySearchTree.mk
      [⟨0, 5, -1, none, some 1, none⟩, ⟨1, 3, 0, some 0, none, none⟩]
      0 [(0, 0), (1, 1)]) 0 ∧
    depthOf (BinarySearchTree.mk
      [⟨0, 5, -1, none, some 1, none⟩, ⟨1, 3, 0, some 0, none, none⟩]
      0 [(0, 0), (1, 1)]) 0 ≤ 2 :=
  @c1_balance_range (0, 5) [(1, 3)]
    (BinarySearchTree.mk
      [⟨0, 5, -1, none, some 1, none⟩, ⟨1, 3, 0, some 0, none, none⟩]
      0 [(0, 0), (1, 1)])
    (by unfold idsDistinct; decide) (by rfl) 0 (by decide)

/-- C2 (amended): for every tree built by `from_head` followed by any
sequence of `insert` calls with distinct ids, after every completed insert
the in-order traversal of the tree reachable from the head yields the values
in non-decreasing order.  (Without the distinctness condition the claim is
false, and the strict-greater version of the right-subtree condition is
false because ties go left but equal values can sit in a right subtree.) -/
theorem c2_order_invariant {h : Nat × Int} {ops : List (Nat × Int)}
    {s : BinarySearchTree} (hdist : idsDistinct h ops)
    (hb : build h ops = some s) :
    ∃ vs, inorderVals s = some vs ∧ vs.Sorted (· ≤ ·) := by
  obtain ⟨t, hwf⟩ := build_WF hdist hb
  refine ⟨t.inorder.map (valOf s), ?_, SortedT_sorted_vals hwf.sorted⟩
  rw [inorderVals, reachRefs, readsTo_concrete hwf.readOk hwf.nodup]
  rfl

theorem c2_order_invariant_witness :
    ∃ vs, inorderVals (BinarySearchTree.mk
      [⟨0, 5, -1, none, some 1, none⟩, ⟨1, 3, 0, some 0, none, none⟩]
      0 [(0, 0), (1, 1)]) = some vs ∧ vs.Sorted (· ≤ ·) :=
  @c2_order_invariant (0, 5) [(1, 3)]
    (BinarySearchTree.mk
      [⟨0, 5, -1, none, some 1, none⟩, ⟨1, 3, 0, some 0, none, none⟩]
      0 [(0, 0), (1, 1)])
    (by unfold idsDistinct; decide) (by rfl)

/-- C8: for every tree built by `from_head` followed by any sequence of
`insert` calls with distinct ids, after every completed insert the parent
links are consistent: a child held in a node's child slot has its parent
reference resolving to that node, and the head's parent resolves to
nothing. -/
theorem c8_parent_consistency {h : Nat × Int} {ops : List (Nat × Int)}
    {s : BinarySearchTree} (hdist : idsDistinct h ops)
    (hb : build h ops = some s) :
    (∀ r n, s.nodes.get? r = some n → ∀ c, (n.left = some c ∨ n.right = some c) →
      ∃ cn, s.nodes.get? c = some cn ∧ cn.parent = some r) ∧
    (∀ n, s.nodes.get? s.head = some n → n.parent = none) := by
  obtain ⟨t, hwf⟩ := build_WF hdist hb
  exact ⟨hwf.parentDU, hwf.headPar⟩

theorem c8_parent_consistency_witness :
    (∀ r n, (BinarySearchTree.mk
        [⟨0, 5, -1, none, some 1, none⟩, ⟨1, 3, 0, some 0, none, none⟩]
        0 [(0, 0), (1, 1)]).nodes.get? r = some n →
      ∀ c, (n.left = some c ∨ n.right = some c) →
      ∃ cn, (BinarySearchTree.mk
        [⟨0, 5, -1, none, some 1, none⟩, ⟨1, 3, 0, some 0, none, none⟩]
        0 [(0, 0), (1, 1)]).nodes.get? c = some cn ∧ cn.parent = some r) ∧
    (∀ n, (BinarySearchTree.mk
        [⟨0, 5, -1, none, some 1, none⟩, ⟨1, 3, 0, some 0, none, none⟩]
        0 [(0, 0), (1, 1)]).nodes.get?
        (BinarySearchTree.mk
        [⟨0, 5, -1, none, some 1, none⟩, ⟨1, 3, 0, some 0, none, none⟩]
        0 [(0, 0), (1, 1)]).head = some n → n.parent = none) :=
  @c8_parent_consistency (0, 5) [(1, 3)]
    (BinarySearchTree.mk
      [⟨0, 5, -1, none, some 1, none⟩, ⟨1, 3, 0, some 0, none, none⟩]
      0 [(0, 0), (1, 1)])
    (by unfold idsDistinct; decide) (by rfl)

/-! ## Subtree plumbing and a duplicate-id-tolerant climb

`insert` with an id already present in the index creates a second node with
that id, so the global id-injectivity of `WF` fails.  The following lemmas
recover enough direction-correctness for the climb when at most one ref (the
freshly inserted leaf) may share an id with another ref. -/

theorem left_subtreeAt {s : BinarySearchTree} {t : RTree} (hst : StructWF s t)
    {p c : Nat} {pn : BinarySearchTreeNode}
    (hpm : p ∈ t.inorder) (hpn : s.nodes.get? p = some pn)
    (hl : pn.left = some c) :
    ∃ A B, subtreeAt t p = some (RTree.nd p A B) ∧ subtreeAt t c = some A ∧
      readsTo s (some c) A ∧ readsTo s pn.right B := by
  obtain ⟨pn0, A, B, hpn0, hsubp, hlA, hrB⟩ := subtree_shape hst hpm
  rw [hpn] at hpn0
  obtain rfl := Option.some.inj hpn0
  rw [hl] at hlA
  obtain ⟨cn, la, ra, hcn, hAeq, _, _⟩ := readsTo_some_elim hlA
  subst hAeq
  have hpc : p ≠ c := fun hcc =>
    (no_self_child hst.readOk hst.nodup p hpm pn hpn).1 (by rw [hcc]; exact hl)
  have hsub1 : subtreeAt (RTree.nd p (RTree.nd c la ra) B) c =
      some (RTree.nd c la ra) := by
    simp [subtreeAt, hpc]
  exact ⟨RTree.nd c la ra, B, hsubp,
    subtreeAt_trans hst.nodup hsubp hsub1, hlA, hrB⟩

theorem right_subtreeAt {s : BinarySearchTree} {t : RTree} (hst : StructWF s t)
    {p c : Nat} {pn : BinarySearchTreeNode}
    (hpm : p ∈ t.inorder) (hpn : s.nodes.get? p = some pn)
    (hr : pn.right = some c) :
    ∃ A B, subtreeAt t p = some (RTree.nd p A B) ∧ subtreeAt t c = some B ∧
      readsTo s (some c) B ∧ readsTo s pn.left A := by
  obtain ⟨pn0, A, B, hpn0, hsubp, hlA, hrB⟩ := subtree_shape hst hpm
  rw [hpn] at hpn0
  obtain rfl := Option.some.inj hpn0
  rw [hr] at hrB
  obtain ⟨cn, la, ra, hcn, hBeq, _, _⟩ := readsTo_some_elim hrB
  subst hBeq
  have hpc : p ≠ c := fun hcc =>
    (no_self_child hst.readOk hst.nodup p hpm pn hpn).2 (by rw [hcc]; exact hr)
  have hnd' := nodup_of_subtree hst.nodup hsubp
  rw [show (RTree.nd p A (RTree.nd c la ra)).inorder =
      A.inorder ++ p :: (RTree.nd c la ra).inorder from rfl,
    List.nodup_append] at hnd'
  have hcB : c ∈ (RTree.nd c la ra).inorder := by simp [RTree.inorder]
  have hcnA : c ∉ A.inorder := fun hcA =>
    hnd'.2.2 hcA (List.mem_cons_of_mem p hcB)
  have hAn : subtreeAt A c = none := subtreeAt_none_of_not_mem hnd'.1 hcnA
  have hsub1 : subtreeAt (RTree.nd p A (RTree.nd c la ra)) c =
      some (RTree.nd c la ra) := by
    simp [subtreeAt, hpc, hAn]
  exact ⟨A, RTree.nd c la ra, hsubp,
    subtreeAt_trans hst.nodup hsubp hsub1, hrB, hlA⟩

theorem child_subtree {s : BinarySearchTree} {t : RTree} (hst : StructWF s t)
    {p c : Nat} {pn : BinarySearchTreeNode}
    (hpm : p ∈ t.inorder) (hpn : s.nodes.get? p = some pn)
    (hor : pn.left = some c ∨ pn.right = some c) :
    ∃ u, subtreeAt t c = some u ∧ readsTo s (some c) u ∧ p ∉ u.inorder := by
  rcases hor with hsl | hsl
  · obtain ⟨A, B, hsubp, hsubc, hread, _⟩ := left_subtreeAt hst hpm hpn hsl
    refine ⟨A, hsubc, hread, ?_⟩
    have hnd' := nodup_of_subtree hst.nodup hsubp
    rw [show (RTree.nd p A B).inorder = A.inorder ++ p :: B.inorder from rfl,
      List.nodup_append] at hnd'
    exact fun hpA => hnd'.2.2 hpA (List.mem_cons_self p _)
  · obtain ⟨A, B, hsubp, hsubc, hread, _⟩ := right_subtreeAt hst hpm hpn hsl
    refine ⟨B, hsubc, hread, ?_⟩
    have hnd' := nodup_of_subtree hst.nodup hsubp
    rw [show (RTree.nd p A B).inorder = A.inorder ++ p :: B.inorder from rfl,
      List.nodup_append] at hnd'
    exact (List.nodup_cons.mp hnd'.2.1).1

theorem subtree_up {s : BinarySearchTree} {t : RTree} (hst : StructWF s t)
    {pc par : Nat} {pcn : BinarySearchTreeNode} {u : RTree}
    (hpcm : pc ∈ t.inorder) (hpcn : s.nodes.get? pc = some pcn)
    (hpar : pcn.parent = some par) (hu : subtreeAt t pc = some u) :
    ∃ w, subtreeAt t par = some w ∧ ∀ x ∈ u.inorder, x ∈ w.inorder := by
  obtain ⟨pn, hpn, hor⟩ := hst.parentUD pc pcn hpcn par hpar
  have hparm : par ∈ t.inorder := hst.complete par (List.get?_eq_some.mp hpn).1
  rcases hor with hsl | hsl
  · obtain ⟨A, B, hsubp, hsubc, _, _⟩ := left_subtreeAt hst hparm hpn hsl
    have huA : u = A := Option.some.inj (hu.symm.trans hsubc)
    subst huA
    refine ⟨RTree.nd par u B, hsubp, ?_⟩
    intro x hx
    rw [show (RTree.nd par u B).inorder = u.inorder ++ par :: B.inorder from rfl]
    simp [hx]
  · obtain ⟨A, B, hsubp, hsubc, _, _⟩ := right_subtreeAt hst hparm hpn hsl
    have huB : u = B := Option.some.inj (hu.symm.trans hsubc)
    subst huB
    refine ⟨RTree.nd par A u, hsubp, ?_⟩
    intro x hx
    rw [show (RTree.nd par A u).inorder = A.inorder ++ par :: u.inorder from rfl]
    simp [hx]

/-- Direction-correctness of `get_directions` for a parent lookup when ids
are injective except possibly at one ref `nref` that lies inside the
subtree of the looked-up child. -/
theorem dir_correct_weak {s : BinarySearchTree} {t : RTree} (hst : StructWF s t)
    {nref c p : Nat} {cn : BinarySearchTreeNode} {u : RTree}
    (hcm : c ∈ t.inorder) (hcn : s.nodes.get? c = some cn)
    (hpar : cn.parent = some p)
    (hidw : ∀ x ∈ t.inorder, ∀ y ∈ t.inorder, idOf s x = idOf s y →
      x = y ∨ x = nref ∨ y = nref)
    (hcu : subtreeAt t c = some u) (hnm : nref ∈ u.inorder) (hcne : c ≠ nref) :
    ∃ pn, s.nodes.get? p = some pn ∧ pn.child (get_directions s p c) = some c := by
  obtain ⟨pn, hpn, hor⟩ := hst.parentUD c cn hcn p hpar
  have hpm : p ∈ t.inorder := hst.complete p (List.get?_eq_some.mp hpn).1
  rcases hor with hsl | hsl
  · rw [get_directions_left hpn hcn hsl]
    exact ⟨pn, hpn, hsl⟩
  · refine ⟨pn, hpn, ?_⟩
    have hdr : get_directions s p c = Directions.Right := by
      unfold get_directions
      simp only [hpn]
      cases hll : pn.left with
      | none => rfl
      | some l =>
        obtain ⟨ln, hln, _⟩ := hst.parentDU p pn hpn l (Or.inl hll)
        have hlm : l ∈ t.inorder := hst.complete l (List.get?_eq_some.mp hln).1
        simp only [hln, hcn]
        have hne : ln.id ≠ cn.id := by
          intro hceq
          have hideq : idOf s l = idOf s c := by
            rw [idOf, idOf, hln, hcn]
            simpa using hceq
          rcases hidw l hlm c hcm hideq with hlc | hlnref | hcnref
          · refine distinct_slots hst.readOk hst.nodup p hpm pn hpn c ?_ hsl
            rw [← hlc]
            exact hll
          · obtain ⟨A, B, hsubp, hsubc, _, hreadA⟩ :=
              right_subtreeAt hst hpm hpn hsl
            have huB : u = B := Option.some.inj (hcu.symm.trans hsubc)
            have hnB : nref ∈ B.inorder := huB ▸ hnm
            rw [hll] at hreadA
            obtain ⟨ln0, la, ra, _, hAeq, _, _⟩ := readsTo_some_elim hreadA
            have hlA : l ∈ A.inorder := by rw [hAeq]; simp [RTree.inorder]
            have hnA : nref ∈ A.inorder := hlnref ▸ hlA
            have hnd' := nodup_of_subtree hst.nodup hsubp
            rw [show (RTree.nd p A B).inorder = A.inorder ++ p :: B.inorder
              from rfl, List.nodup_append] at hnd'
            exact hnd'.2.2 hnA (List.mem_cons_of_mem p hnB)
          · exact hcne hcnref
        rw [if_neg hne]
    rw [hdr]
    exact hsl

/-- Structure-only version of the balance-maintenance climb: when the stored
ids are injective except possibly at one childless ref `nref` lying inside
the climb node's subtree, a successful climb still preserves the abstract
shape up to rotations (same in-order refs), the index and the arena length. -/
theorem update_depth_weak : ∀ (fuel : Nat) {s s' : BinarySearchTree} {t : RTree}
    {nref pc : Nat} {pcn : BinarySearchTreeNode} {u : RTree},
    StructWF s t →
    s.nodes.get? pc = some pcn →
    pc ∈ t.inorder →
    (∀ x ∈ t.inorder, ∀ y ∈ t.inorder, idOf s x = idOf s y →
      x = y ∨ x = nref ∨ y = nref) →
    (∀ nn, s.nodes.get? nref = some nn → nn.left = none ∧ nn.right = none) →
    subtreeAt t pc = some u →
    nref ∈ u.inorder →
    update_depth s pc fuel = some s' →
    ∃ t', StructWF s' t' ∧ t'.inorder = t.inorder ∧
      s'.tree = s.tree ∧ s'.nodes.length = s.nodes.length := by
  intro fuel
  induction fuel with
  | zero =>
    intro s s' t nref pc pcn u hst hpcn hpcm hidw hnl hu hnm hupd
    simp [update_depth] at hupd
  | succ fuel ih =>
    intro s s' t nref pc pcn u hst hpcn hpcm hidw hnl hu hnm hupd
    have hnsc := no_self_child hst.readOk hst.nodup
    cases hpar : pcn.parent with
    | none =>
      obtain rfl := update_depth_done hpcn hpar hupd
      exact ⟨t, hst, rfl, rfl, rfl⟩
    | some par =>
      obtain ⟨pn, hpn, hporn⟩ := hst.parentUD pc pcn hpcn par hpar
      have hparm : par ∈ t.inorder := hst.complete par (List.get?_eq_some.mp hpn).1
      have hpcpar : pc ≠ par := by
        intro hc
        rw [← hc] at hpn
        rw [hpcn] at hpn
        obtain rfl := Option.some.inj hpn
        rcases hporn with hx | hx
        · exact (hnsc pc hpcm pcn hpcn).1 hx
        · exact (hnsc pc hpcm pcn hpcn).2 hx
      have hgneqpar : ∀ g, pn.parent = some g → g ≠ par := by
        intro g hgg hcc
        rw [hcc] at hgg
        obtain ⟨qn, hqn, hor⟩ := hst.parentUD par pn hpn par hgg
        rw [hpn] at hqn
        obtain rfl := Option.some.inj hqn
        rcases hor with hx | hx
        · exact (hnsc par hparm pn hpn).1 hx
        · exact (hnsc par hparm pn hpn).2 hx
      have hparne : par ≠ nref := by
        intro hcc
        have hpn' : s.nodes.get? nref = some pn := by rw [← hcc]; exact hpn
        obtain ⟨h1, h2⟩ := hnl pn hpn'
        rcases hporn with hx | hx
        · rw [h1] at hx; exact Option.noConfusion hx
        · rw [h2] at hx; exact Option.noConfusion hx
      have hgo := update_depth_go fuel hpcn hpar hpn
      rw [hgo] at hupd
      have hpc1 : (bumpDepth s par pc).nodes.get? pc = some pcn := by
        rw [bumpDepth_get?, if_neg hpcpar]
        exact hpcn
      rw [hpc1] at hupd
      simp only [Option.some_bind] at hupd
      obtain ⟨hbT, hbL, hbI, hbV⟩ := bumpDepth_obs s par pc
      have hst1 : StructWF (bumpDepth s par pc) t := StructWF_bumpDepth hst par pc
      have hidw1 : ∀ x ∈ t.inorder, ∀ y ∈ t.inorder,
          idOf (bumpDepth s par pc) x = idOf (bumpDepth s par pc) y →
          x = y ∨ x = nref ∨ y = nref := by
        intro x hx y hy he
        refine hidw x hx y hy ?_
        rw [idOf, idOf, ← hbI x, ← hbI y]
        exact he
      have hnl1 : ∀ nn, (bumpDepth s par pc).nodes.get? nref = some nn →
          nn.left = none ∧ nn.right = none := by
        intro nn h
        rw [bumpDepth_get?, if_neg (fun hcc => hparne hcc.symm)] at h
        exact hnl nn h
      have hfn1 : (bumpDepth s par pc).nodes.get? par = some
          { pn with one_side_depth :=
              pn.one_side_depth + (get_directions s par pc).get_depth } := by
        rw [bumpDepth_get?, if_pos rfl, hpn]
        rfl
      obtain ⟨w, hsubparw, hwsub⟩ := subtree_up hst hpcm hpcn hpar hu
      have hnw : nref ∈ w.inorder := hwsub nref hnm
      by_cases hcnd1 : (pn.one_side_depth + (get_directions s par pc).get_depth ≥ 2 ∧
          pcn.one_side_depth > 0) ∨
          (pn.one_side_depth + (get_directions s par pc).get_depth ≤ -2 ∧
          pcn.one_side_depth < 0)
      · rw [if_pos hcnd1] at hupd
        obtain ⟨fnX, scR, snX, hfnX, hscX, hsnX, _, _, _⟩ := simple_rotation_elim hupd
        rw [hfn1] at hfnX
        obtain rfl := Option.some.inj hfnX
        have hgdir1 : ∀ g, ({ pn with one_side_depth :=
            pn.one_side_depth + (get_directions s par pc).get_depth } :
            BinarySearchTreeNode).parent = some g →
            ∃ gn, (bumpDepth s par pc).nodes.get? g = some gn ∧
              gn.child (get_directions (bumpDepth s par pc) g par) = some par :=
          fun g hg => dir_correct_weak hst1 hparm hfn1 hg hidw1 hsubparw hnw hparne
        obtain ⟨t', hswf, hin, hT', hL', _, _, _, _, _, _, _⟩ :=
          simple_rotation_struct hst1 hgdir1 hparm hfn1 hscX hsnX hupd
        exact ⟨t', hswf, hin, hT'.trans hbT, hL'.trans hbL⟩
      rw [if_neg hcnd1] at hupd
      by_cases hcnd2 : (pn.one_side_depth + (get_directions s par pc).get_depth ≥ 2 ∧
          pcn.one_side_depth < 0) ∨
          (pn.one_side_depth + (get_directions s par pc).get_depth ≤ -2 ∧
          pcn.one_side_depth > 0)
      · rw [if_pos hcnd2] at hupd
        cases hdr : double_rotation (bumpDepth s par pc) par
            (get_directions s par pc) with
        | none =>
          rw [hdr] at hupd
          simp at hupd
        | some s2 =>
          rw [hdr] at hupd
          simp only [Option.some_bind] at hupd
          obtain ⟨fnE, scE, snE, thE, hfnE, hscE, hsnE, hthE, thnD, hthnD, hs2E⟩ :=
            double_rotation_elim hdr
          rw [hfn1] at hfnE
          obtain rfl := Option.some.inj hfnE
          have hscs : pn.child (get_directions s par pc) = some scE := by
            rw [child_depthset] at hscE
            exact hscE
          have hscpar : scE ≠ par := by
            intro hcc
            rcases (child_or pn scE).mpr ⟨_, hscs⟩ with hx | hx
            · refine (hnsc par hparm pn hpn).1 ?_
              rw [← hcc]
              exact hx
            · refine (hnsc par hparm pn hpn).2 ?_
              rw [← hcc]
              exact hx
          have hsns : s.nodes.get? scE = some snE := by
            rw [bumpDepth_get?, if_neg hscpar] at hsnE
            exact hsnE
          obtain ⟨thn1, hthn1, hthp1⟩ := hst1.parentDU scE snE hsnE thE
            ((child_or snE thE).mpr ⟨_, hthE⟩)
          obtain ⟨t2, hswf2, hin2, hT2', hL2', hH2', hF2', hS2', hTh2', hW2', hE2'⟩ :=
            double_rotation_struct hst1 hparm hfn1 hscE hsnE hthE hthn1 hdr
          obtain ⟨hoT2, hoL2, hoI2, hoV2⟩ := double_rotation_obs hdr
          have hparm2 : par ∈ t2.inorder := by rw [hin2]; exact hparm
          have hsc2 : ({ ({ pn with one_side_depth :=
              pn.one_side_depth + (get_directions s par pc).get_depth } :
              BinarySearchTreeNode).setChild (get_directions s par pc) (some thE) with
              one_side_depth := Directions.get_depth (get_directions s par pc) * 2 } :
              BinarySearchTreeNode).child (get_directions s par pc) = some thE := by
            rw [child_depthset, child_setChild_same]
          obtain ⟨usc, hsubsc, hrdsc, hparnotsc⟩ :=
            child_subtree hst hparm hpn ((child_or pn scE).mpr ⟨_, hscs⟩)
          have hndsc : usc.inorder.Nodup := nodup_of_subtree hst.nodup hsubsc
          have hchsc := child_mem_of_mem hrdsc hndsc
          have hscmem : scE ∈ usc.inorder := subtreeAt_some_mem hsubsc
          have hthmem : thE ∈ usc.inorder :=
            hchsc scE hscmem snE thE hsns ((child_or snE thE).mpr ⟨_, hthE⟩)
          have hthpar : thE ≠ par := fun hcc => hparnotsc (hcc ▸ hthmem)
          have hths : s.nodes.get? thE = some thn1 := by
            rw [bumpDepth_get?, if_neg hthpar] at hthn1
            exact hthn1
          have hwmem : ∀ ww, thn1.child (get_directions s par pc) = some ww →
              ww ∈ usc.inorder :=
            fun ww hw => hchsc thE hthmem thn1 ww hths
              ((child_or thn1 ww).mpr ⟨_, hw⟩)
          have hscmt : scE ∈ t.inorder :=
            hst.complete scE (List.get?_eq_some.mp hsns).1
          obtain ⟨sn0, hsn0, hsp0⟩ := hst.parentDU par pn hpn scE
            ((child_or pn scE).mpr ⟨_, hscs⟩)
          rw [hsns] at hsn0
          obtain rfl := Option.some.inj hsn0
          obtain ⟨w', hsubpar', hsub'⟩ := subtree_up hst hscmt hsns hsp0 hsubsc
          have hww : w' = w := Option.some.inj (hsubpar'.symm.trans hsubparw)
          have hsubuscw : ∀ x ∈ usc.inorder, x ∈ w.inorder := by
            intro x hx
            rw [← hww]
            exact hsub' x hx
          have hgexcl : ∀ g, pn.parent = some g → g ≠ par ∧ g ≠ scE ∧ g ≠ thE ∧
              (∀ ww, thn1.child (get_directions s par pc) = some ww → g ≠ ww) := by
            intro g hg
            have hgw : g ∉ w.inorder :=
              parent_not_in_subtree hst hparm hpn hg hsubparw
            exact ⟨hgneqpar g hg,
              fun hc => hgw (hsubuscw _ (hc ▸ hscmem)),
              fun hc => hgw (hsubuscw _ (hc ▸ hthmem)),
              fun ww hw hc => hgw (hsubuscw _ (hc ▸ hwmem ww hw))⟩
          have hgdir2 : ∀ g, ({ ({ pn with one_side_depth :=
              pn.one_side_depth + (get_directions s par pc).get_depth } :
              BinarySearchTreeNode).setChild (get_directions s par pc) (some thE) with
              one_side_depth := Directions.get_depth (get_directions s par pc) * 2 } :
              BinarySearchTreeNode).parent = some g →
              ∃ gn, s2.nodes.get? g = some gn ∧
                gn.child (get_directions s2 g par) = some par := by
            intro g hg
            have hg2 : (({ pn with one_side_depth :=
                pn.one_side_depth + (get_directions s par pc).get_depth } :
                BinarySearchTreeNode).setChild (get_directions s par pc)
                (some thE)).parent = some g := hg
            rw [setChild_parent] at hg2
            have hg' : pn.parent = some g := hg2
            obtain ⟨h1, h2, h3, h4⟩ := hgexcl g hg'
            obtain ⟨gn, hgn1, hslot1⟩ :=
              dir_correct_weak hst1 hparm hfn1 hg' hidw1 hsubparw hnw hparne
            have hgeq : s2.nodes.get? g = (bumpDepth s par pc).nodes.get? g :=
              hE2' g h1 h2 h3 h4
            refine ⟨gn, by rw [hgeq]; exact hgn1, ?_⟩
            rw [get_directions_congr hgeq hoI2]
            exact hslot1
          obtain ⟨t', hswf, hin3, hT3', hL3', _, _, _, _, _, _, _⟩ :=
            simple_rotation_struct hswf2 hgdir2 hparm2 hF2' hsc2 hTh2' hupd
          exact ⟨t', hswf, hin3.trans hin2, hT3'.trans (hT2'.trans hbT),
            hL3'.trans (hL2'.trans hbL)⟩
      · rw [if_neg hcnd2] at hupd
        obtain ⟨t', hswf, hin, hT', hL'⟩ :=
          ih hst1 hfn1 hparm hidw1 hnl1 hsubparw hnw hupd
        exact ⟨t', hswf, hin, hT'.trans hbT, hL'.trans hbL⟩

theorem lookupId_mem : ∀ {l : List (Nat × Nat)} {k r : Nat},
    lookupId l k = some r → (k, r) ∈ l := by
  intro l
  induction l with
  | nil => intro k r hl; simp [lookupId] at hl
  | cons kv rest ih =>
    intro k r hl
    obtain ⟨k', v⟩ := kv
    unfold lookupId at hl
    by_cases hk : k' = k
    · rw [if_pos hk] at hl
      obtain rfl := Option.some.inj hl
      subst hk
      exact List.mem_cons_self _ _
    · rw [if_neg hk] at hl
      exact List.mem_cons_of_mem _ (ih hl)

theorem indexInsert_length_mem : ∀ {l : List (Nat × Nat)} {k r : Nat} (v : Nat),
    lookupId l k = some r → (indexInsert l k v).length = l.length := by
  intro l
  induction l with
  | nil => intro k r v hl; simp [lookupId] at hl
  | cons kv rest ih =>
    intro k r v hl
    obtain ⟨k', v'⟩ := kv
    unfold lookupId at hl
    unfold indexInsert
    by_cases hk : k' = k
    · rw [if_pos hk]
      rfl
    · rw [if_neg hk] at hl
      rw [if_neg hk]
      simp [ih v hl]

/-- C10: on a tree built with distinct ids, a successful `insert(id, value)`
with an `id` already present in the index still allocates a new node, links
it at the placement-walk slot, and silently replaces the index entry, so
that afterwards `get(id)` returns the newest node's ref while the
previously indexed node with that id remains reachable from the head, and
`len()` does not increase. -/
theorem c10_duplicate_id_insert {h : Nat × Int} {ops : List (Nat × Int)}
    {s s' : BinarySearchTree} {idn : Nat} {v : Int} {rOld : Nat}
    (hdist : idsDistinct h ops) (hb : build h ops = some s)
    (hold : BinarySearchTree.get s idn = some rOld)
    (hins : BinarySearchTree.insert s idn v = some s') :
    s'.nodes.length = s.nodes.length + 1 ∧
    (∃ p dir pn, spec_walk s v (s.nodes.length + 1) s.head = some (p, dir) ∧
      s.nodes.get? p = some pn ∧ pn.child dir = none ∧
      (linkState s p dir idn v).nodes.get? s.nodes.length =
        some ⟨idn, v, 0, some p, none, none⟩ ∧
      update_depth (linkState s p dir idn v) s.nodes.length
        ((linkState s p dir idn v).nodes.length + 1) = some s') ∧
    BinarySearchTree.get s' idn = some s.nodes.length ∧
    (∃ nn, s'.nodes.get? s.nodes.length = some nn ∧ nn.id = idn ∧ nn.value = v) ∧
    (∃ L, reachRefs s' = some L ∧ rOld ∈ L ∧ s.nodes.length ∈ L) ∧
    BinarySearchTree.len s' = BinarySearchTree.len s := by
  obtain ⟨t, hwf⟩ := build_WF hdist hb
  have hold' : lookupId s.tree idn = some rOld := hold
  rw [insert_decomp] at hins
  cases hhd : s.nodes.get? s.head with
  | none => rw [hhd] at hins; exact Option.noConfusion hins
  | some hd =>
    rw [hhd] at hins
    simp only [Option.some_bind] at hins
    have hheadm : s.head ∈ t.inorder := by
      obtain ⟨n0, lt0, rt0, hn0, heqt, _, _⟩ := readsTo_some_elim hwf.readOk
      rw [heqt]
      simp [RTree.inorder]
    have hdid : hd.id = idOf s s.head := by rw [idOf, hhd]; rfl
    rw [hdid, insert_walk_eq_spec hwf v (s.nodes.length + 1) s.head hheadm] at hins
    cases hwalk : spec_walk s v (s.nodes.length + 1) s.head with
    | none => rw [hwalk] at hins; exact Option.noConfusion hins
    | some pd =>
      obtain ⟨p, dir⟩ := pd
      rw [hwalk] at hins
      simp only [Option.some_bind] at hins
      obtain ⟨hpm, pn, hpn, hslot⟩ :=
        spec_walk_endpoint hwf.readOk hwf.nodup v _ hheadm hwalk
      have hplen : p < s.nodes.length := readsTo_lt_length hwf.readOk p hpm
      have hlv : ∀ x, x ≠ s.nodes.length →
          valOf (linkState s p dir idn v) x = valOf s x := by
        intro x hx
        rw [valOf, valOf, linkState_get? dir idn v hplen x]
        by_cases hxp : x = p
        · subst hxp
          rw [if_pos rfl, hpn]
          cases dir <;> rfl
        · rw [if_neg hxp, if_neg hx]
      have hlvnw : valOf (linkState s p dir idn v) s.nodes.length = v := by
        rw [valOf, linkState_get? dir idn v hplen, if_neg (by omega), if_pos rfl]
        rfl
      have hnotm : s.nodes.length ∉ t.inorder := fun hc =>
        absurd (readsTo_lt_length hwf.readOk _ hc) (lt_irrefl _)
      have hsorted3 : SortedT (linkState s p dir idn v)
          (graftAt t p dir s.nodes.length) :=
        spec_walk_sorted hlv hlvnw (s.nodes.length + 1) hwf.readOk hwf.nodup hnotm
          hwf.sorted hwalk
      obtain ⟨hst3, hdep3, hB3link⟩ := linkState_StructWF hwf.toStructWF
        (fun r hr => hwf.depthOk r hr) hpm hpn hslot hsorted3
      have hnw3 : (linkState s p dir idn v).nodes.get? s.nodes.length =
          some ⟨idn, v, 0, some p, none, none⟩ := by
        rw [linkState_get? dir idn v hplen, if_neg (by omega), if_pos rfl]
      obtain ⟨pre, post, hdec, hgra⟩ :=
        graftAt_inorder s.nodes.length hpn hslot hwf.readOk hwf.nodup hpm
      have hmem3 : ∀ x, x ∈ (graftAt t p dir s.nodes.length).inorder ↔
          (x ∈ t.inorder ∨ x = s.nodes.length) := by
        intro x
        rw [hgra, hdec]
        simp only [List.mem_append, List.mem_cons]
        tauto
      have hidls : ∀ x, x ≠ s.nodes.length →
          idOf (linkState s p dir idn v) x = idOf s x := by
        intro x hx
        rw [idOf, idOf, linkState_get? dir idn v hplen x]
        by_cases hxp : x = p
        · subst hxp
          rw [if_pos rfl, hpn]
          cases dir <;> rfl
        · rw [if_neg hxp, if_neg hx]
      have hidw3 : ∀ x ∈ (graftAt t p dir s.nodes.length).inorder,
          ∀ y ∈ (graftAt t p dir s.nodes.length).inorder,
          idOf (linkState s p dir idn v) x = idOf (linkState s p dir idn v) y →
          x = y ∨ x = s.nodes.length ∨ y = s.nodes.length := by
        intro x hx y hy he
        rw [hmem3] at hx hy
        by_cases hxl : x = s.nodes.length
        · exact Or.inr (Or.inl hxl)
        by_cases hyl : y = s.nodes.length
        · exact Or.inr (Or.inr hyl)
        rcases hx with hx | hx
        · rcases hy with hy | hy
          · rw [hidls x hxl, hidls y hyl] at he
            exact Or.inl (hwf.idInj x hx y hy he)
          · exact absurd hy hyl
        · exact absurd hx hxl
      have hnl3 : ∀ nn, (linkState s p dir idn v).nodes.get? s.nodes.length =
          some nn → nn.left = none ∧ nn.right = none := by
        intro nn hnn
        rw [hnw3] at hnn
        obtain rfl := Option.some.inj hnn.symm
        exact ⟨rfl, rfl⟩
      have hnwm : s.nodes.length ∈ (graftAt t p dir s.nodes.length).inorder :=
        (hmem3 _).mpr (Or.inr rfl)
      obtain ⟨u0, hu0⟩ := subtreeAt_of_mem hnwm
      have hnm0 : s.nodes.length ∈ u0.inorder := subtreeAt_some_mem hu0
      obtain ⟨t', hswf', hin', hT', hL'⟩ :=
        update_depth_weak _ hst3 hnw3 hnwm hidw3 hnl3 hu0 hnm0 hins
      obtain ⟨hoT, hoL, hoI, hoV⟩ := update_depth_obs hins
      have hlslen : (linkState s p dir idn v).nodes.length = s.nodes.length + 1 :=
        linkState_length s p dir idn v
      have htree3 : (linkState s p dir idn v).tree =
          indexInsert s.tree idn s.nodes.length := linkState_tree s p dir idn v
      have hreach : reachRefs s' = some t'.inorder := by
        rw [reachRefs, readsTo_concrete hswf'.readOk hswf'.nodup]
        rfl
      have hrlt : rOld < s.nodes.length :=
        (hwf.indexOk (idn, rOld) (lookupId_mem hold')).1
      have hroldm : rOld ∈ t.inorder := hwf.complete rOld hrlt
      refine ⟨hL'.trans hlslen, ⟨p, dir, pn, rfl, hpn, hslot, hnw3, hins⟩,
        ?_, ?_, ?_, ?_⟩
      · rw [BinarySearchTree.get, hT', htree3, lookupId_indexInsert_self]
      · have hI := hoI s.nodes.length
        have hV := hoV s.nodes.length
        rw [hnw3] at hI hV
        cases hxx : s'.nodes.get? s.nodes.length with
        | none => rw [hxx] at hI; simp at hI
        | some nn =>
          rw [hxx] at hI hV
          simp only [Option.map_some', Option.some.injEq] at hI hV
          exact ⟨nn, rfl, hI, hV⟩
      · refine ⟨t'.inorder, hreach, ?_, ?_⟩
        · rw [hin']
          exact (hmem3 _).mpr (Or.inl hroldm)
        · rw [hin']
          exact hnwm
      · rw [BinarySearchTree.len, BinarySearchTree.len, hT', htree3]
        exact indexInsert_length_mem _ hold'

theorem c10_duplicate_id_insert_witness :
    (BinarySearchTree.mk
      [⟨0, 5, 0, some 2, none, none⟩, ⟨1, 3, -1, some 2, none, none⟩,
        ⟨1, 4, 0, none, some 1, some 0⟩] 2 [(0, 0), (1, 2)]).nodes.length =
      (BinarySearchTree.mk
        [⟨0, 5, -1, none, some 1, none⟩, ⟨1, 3, 0, some 0, none, none⟩]
        0 [(0, 0), (1, 1)]).nodes.length + 1 ∧
    (∃ p dirE pn,
      spec_walk (BinarySearchTree.mk
        [⟨0, 5, -1, none, some 1, none⟩, ⟨1, 3, 0, some 0, none, none⟩]
        0 [(0, 0), (1, 1)]) 4 3 0 = some (p, dirE) ∧
      (BinarySearchTree.mk
        [⟨0, 5, -1, none, some 1, none⟩, ⟨1, 3, 0, some 0, none, none⟩]
        0 [(0, 0), (1, 1)]).nodes.get? p = some pn ∧
      pn.child dirE = none ∧
      (linkState (BinarySearchTree.mk
        [⟨0, 5, -1, none, some 1, none⟩, ⟨1, 3, 0, some 0, none, none⟩]
        0 [(0, 0), (1, 1)]) p dirE 1 4).nodes.get? 2 =
        some ⟨1, 4, 0, some p, none, none⟩ ∧
      update_depth (linkState (BinarySearchTree.mk
        [⟨0, 5, -1, none, some 1, none⟩, ⟨1, 3, 0, some 0, none, none⟩]
        0 [(0, 0), (1, 1)]) p dirE 1 4) 2
        ((linkState (BinarySearchTree.mk
          [⟨0, 5, -1, none, some 1, none⟩, ⟨1, 3, 0, some 0, none, none⟩]
          0 [(0, 0), (1, 1)]) p dirE 1 4).nodes.length + 1) =
        some (BinarySearchTree.mk
          [⟨0, 5, 0, some 2, none, none⟩, ⟨1, 3, -1, some 2, none, none⟩,
            ⟨1, 4, 0, none, some 1, some 0⟩] 2 [(0, 0), (1, 2)])) ∧
    BinarySearchTree.get (BinarySearchTree.mk
      [⟨0, 5, 0, some 2, none, none⟩, ⟨1, 3, -1, some 2, none, none⟩,
        ⟨1, 4, 0, none, some 1, some 0⟩] 2 [(0, 0), (1, 2)]) 1 = some 2 ∧
    (∃ nn, (BinarySearchTree.mk
      [⟨0, 5, 0, some 2, none, none⟩, ⟨1, 3, -1, some 2, none, none⟩,
        ⟨1, 4, 0, none, some 1, some 0⟩] 2 [(0, 0), (1, 2)]).nodes.get? 2 =
      some nn ∧ nn.id = 1 ∧ nn.value = 4) ∧
    (∃ L, reachRefs (BinarySearchTree.mk
      [⟨0, 5, 0, some 2, none, none⟩, ⟨1, 3, -1, some 2, none, none⟩,
        ⟨1, 4, 0, none, some 1, some 0⟩] 2 [(0, 0), (1, 2)]) = some L ∧
      1 ∈ L ∧ 2 ∈ L) ∧
    BinarySearchTree.len (BinarySearchTree.mk
      [⟨0, 5, 0, some 2, none, none⟩, ⟨1, 3, -1, some 2, none, none⟩,
        ⟨1, 4, 0, none, some 1, some 0⟩] 2 [(0, 0), (1, 2)]) =
      BinarySearchTree.len (BinarySearchTree.mk
        [⟨0, 5, -1, none, some 1, none⟩, ⟨1, 3, 0, some 0, none, none⟩]
        0 [(0, 0), (1, 1)]) :=
  @c10_duplicate_id_insert (0, 5) [(1, 3)]
    (BinarySearchTree.mk
      [⟨0, 5, -1, none, some 1, none⟩, ⟨1, 3, 0, some 0, none, none⟩]
      0 [(0, 0), (1, 1)])
    (BinarySearchTree.mk
      [⟨0, 5, 0, some 2, none, none⟩, ⟨1, 3, -1, some 2, none, none⟩,
        ⟨1, 4, 0, none, some 1, some 0⟩] 2 [(0, 0), (1, 2)])
    1 4 1 (by unfold idsDistinct; decide) (by rfl) (by rfl) (by rfl)
